import Mathlib

/-!
# jspp: an incremental, fragment-oriented JSON tokenizer

A shallow embedding of `src/jspp.h` and `src/jspp.c`.

* Machine integers are natural numbers; the places where the C code stores into
  a `uint8_t` or `uint16_t` field after an increment, decrement or subtraction
  carry an explicit `% 256` or `% 65536`.
* A fragment `(const char * text, uint16_t text_len)` is a list of bytes; its
  length is `text_length`, so a fragment the C code can receive has at most
  65535 bytes.
* `stack[JSON_MAX_STACK]` is a map from indices to cells that is only read and
  written below `JSON_MAX_STACK`; an access outside the array is undefined in
  C, the embedding reads `0` there and drops the write.
-/

namespace Jspp

/-! ## Token kinds (`enum _json_tokens`, jspp.h) -/

@[simp] abbrev JSON_MAX_STACK : Nat := 14

@[simp] abbrev JSON_INVALID : Nat := 0
@[simp] abbrev JSON_TOO_DEEP : Nat := 1
@[simp] abbrev JSON_END : Nat := 2
@[simp] abbrev JSON_CONTINUE : Nat := 3
@[simp] abbrev JSON_MEMBER_NAME_PART : Nat := 4
@[simp] abbrev JSON_NUMBER_PART : Nat := 5
@[simp] abbrev JSON_STRING_PART : Nat := 6
@[simp] abbrev JSON_NULL : Nat := 7
@[simp] abbrev JSON_TRUE : Nat := 8
@[simp] abbrev JSON_FALSE : Nat := 9
@[simp] abbrev JSON_INTEGER : Nat := 10
@[simp] abbrev JSON_DECIMAL : Nat := 11
@[simp] abbrev JSON_FLOATING_POINT : Nat := 12
@[simp] abbrev JSON_STRING : Nat := 13
@[simp] abbrev JSON_MEMBER_NAME : Nat := 14
@[simp] abbrev JSON_OBJECT_BEGIN : Nat := 15
@[simp] abbrev JSON_OBJECT_END : Nat := 16
@[simp] abbrev JSON_ARRAY_BEGIN : Nat := 17
@[simp] abbrev JSON_ARRAY_END : Nat := 18

/-! ## Scanner and parser states (`enum _states`, jspp.c) -/

@[simp] abbrev __SCANNER_STATES : Nat := 0x20
@[simp] abbrev NULL_N : Nat := 0x21
@[simp] abbrev NULL_U : Nat := 0x22
@[simp] abbrev NULL_L : Nat := 0x23
@[simp] abbrev TRUE_T : Nat := 0x24
@[simp] abbrev TRUE_R : Nat := 0x25
@[simp] abbrev TRUE_U : Nat := 0x26
@[simp] abbrev FALSE_F : Nat := 0x27
@[simp] abbrev FALSE_A : Nat := 0x28
@[simp] abbrev FALSE_L : Nat := 0x29
@[simp] abbrev FALSE_S : Nat := 0x2a
@[simp] abbrev STRING_BEGIN : Nat := 0x2b
@[simp] abbrev STRING_CHARS : Nat := 0x2c
@[simp] abbrev STRING_ESC : Nat := 0x2d
@[simp] abbrev __STRING_END : Nat := 0x2e
@[simp] abbrev NUMBER_BEGIN : Nat := 0x2f
@[simp] abbrev INT_DIGITS : Nat := 0x30
@[simp] abbrev DEC_DIGITS : Nat := 0x31
@[simp] abbrev EXP : Nat := 0x32
@[simp] abbrev EXP_DIGITS : Nat := 0x33
@[simp] abbrev __NUMBER_END : Nat := 0x34
@[simp] abbrev __PARSER_STATES : Nat := 0x40
@[simp] abbrev EXPECTING_ARRAY_TAIL : Nat := 0x41
@[simp] abbrev EXPECTING_OBJECT_TAIL : Nat := 0x42
@[simp] abbrev EXPECTING_OBJECT_MEMBER_NAME_VALUE_SEPARATOR : Nat := 0x43
@[simp] abbrev __REDUCING_PARSER_STATES : Nat := 0x50
@[simp] abbrev EXPECTING_JSON : Nat := 0x51
@[simp] abbrev EXPECTING_ARRAY_ELEMENT_OR_END : Nat := 0x52
@[simp] abbrev EXPECTING_ARRAY_ELEMENT : Nat := 0x53
@[simp] abbrev EXPECTING_OBJECT_MEMBER_NAME_OR_END : Nat := 0x54
@[simp] abbrev EXPECTING_OBJECT_MEMBER_NAME : Nat := 0x55
@[simp] abbrev EXPECTING_OBJECT_MEMBER_VALUE : Nat := 0x56

/-! ## The scanner automaton -/

/-- Whitespace test of `next_scan_state`: the bytes tab, line feed, carriage
return and space. -/
def is_space (lookahead : Nat) : Bool :=
  lookahead = 9 || lookahead = 10 || lookahead = 13 || lookahead = 32

/-- Digit test `'0' <= lookahead && lookahead <= '9'`. -/
def is_digit (lookahead : Nat) : Bool :=
  48 ≤ lookahead && lookahead ≤ 57

/-- The shared body of the cases `EXPECTING_OBJECT_MEMBER_VALUE`,
`EXPECTING_ARRAY_ELEMENT` and `EXPECTING_JSON` of `next_scan_state` (also
reached by fall-through from `EXPECTING_ARRAY_ELEMENT_OR_END`): dispatch on the
first byte of a value. -/
def scan_value (lookahead : Nat) : Nat :=
  if lookahead = 110 then NULL_N                -- 'n'
  else if lookahead = 116 then TRUE_T           -- 't'
  else if lookahead = 102 then FALSE_F          -- 'f'
  else if lookahead = 34 then STRING_BEGIN      -- '"'
  else if lookahead = 123 then JSON_OBJECT_BEGIN -- '{'
  else if lookahead = 91 then JSON_ARRAY_BEGIN  -- '['
  else if lookahead = 45 then NUMBER_BEGIN      -- '-'
  else if is_digit lookahead then NUMBER_BEGIN
  else JSON_INVALID

/-- The function `next_scan_state` of jspp.c: the next automaton state for the
current state and the next byte. The `switch` is written as a chain of tests,
fall-through made explicit. -/
def next_scan_state (state lookahead : Nat) : Nat :=
  if state > __PARSER_STATES ∧ is_space lookahead then state
  else if state = EXPECTING_OBJECT_MEMBER_NAME_OR_END then
    if lookahead = 125 then JSON_OBJECT_END     -- '}'
    else if lookahead = 34 then STRING_BEGIN    -- falls through to MEMBER_NAME
    else JSON_INVALID
  else if state = EXPECTING_OBJECT_MEMBER_NAME then
    if lookahead = 34 then STRING_BEGIN else JSON_INVALID
  else if state = EXPECTING_OBJECT_MEMBER_NAME_VALUE_SEPARATOR then
    if lookahead = 58 then EXPECTING_OBJECT_MEMBER_VALUE else JSON_INVALID  -- ':'
  else if state = EXPECTING_OBJECT_TAIL then
    if lookahead = 44 then EXPECTING_OBJECT_MEMBER_NAME   -- ','
    else if lookahead = 125 then JSON_OBJECT_END
    else JSON_INVALID
  else if state = EXPECTING_ARRAY_TAIL then
    if lookahead = 44 then EXPECTING_ARRAY_ELEMENT
    else if lookahead = 93 then JSON_ARRAY_END            -- ']'
    else JSON_INVALID
  else if state = EXPECTING_ARRAY_ELEMENT_OR_END then
    if lookahead = 93 then JSON_ARRAY_END else scan_value lookahead
  else if state = EXPECTING_OBJECT_MEMBER_VALUE ∨ state = EXPECTING_ARRAY_ELEMENT
      ∨ state = EXPECTING_JSON then
    scan_value lookahead
  else if state = NULL_N then (if lookahead = 117 then NULL_U else JSON_INVALID)   -- 'u'
  else if state = NULL_U then (if lookahead = 108 then NULL_L else JSON_INVALID)   -- 'l'
  else if state = NULL_L then (if lookahead = 108 then JSON_NULL else JSON_INVALID)
  else if state = TRUE_T then (if lookahead = 114 then TRUE_R else JSON_INVALID)   -- 'r'
  else if state = TRUE_R then (if lookahead = 117 then TRUE_U else JSON_INVALID)
  else if state = TRUE_U then (if lookahead = 101 then JSON_TRUE else JSON_INVALID) -- 'e'
  else if state = FALSE_F then (if lookahead = 97 then FALSE_A else JSON_INVALID)  -- 'a'
  else if state = FALSE_A then (if lookahead = 108 then FALSE_L else JSON_INVALID)
  else if state = FALSE_L then (if lookahead = 115 then FALSE_S else JSON_INVALID) -- 's'
  else if state = FALSE_S then (if lookahead = 101 then JSON_FALSE else JSON_INVALID)
  else if state = NUMBER_BEGIN ∨ state = INT_DIGITS then
    if is_digit lookahead then INT_DIGITS
    else if lookahead = 46 then DEC_DIGITS                 -- '.'
    else if lookahead = 69 ∨ lookahead = 101 then EXP      -- 'E', 'e'
    else JSON_INTEGER
  else if state = DEC_DIGITS then
    if is_digit lookahead then DEC_DIGITS
    else if lookahead = 69 ∨ lookahead = 101 then EXP
    else JSON_DECIMAL
  else if state = EXP then
    if is_digit lookahead then EXP_DIGITS
    else if lookahead = 43 ∨ lookahead = 45 then EXP_DIGITS  -- '+', '-'
    else JSON_INVALID
  else if state = EXP_DIGITS then
    if is_digit lookahead then EXP_DIGITS else JSON_FLOATING_POINT
  else if state = STRING_BEGIN ∨ state = STRING_CHARS then
    if lookahead = 92 then STRING_ESC                      -- '\\'
    else if lookahead = 34 then JSON_STRING
    else STRING_CHARS
  else if state = STRING_ESC then STRING_CHARS
  else JSON_INVALID

/-- The function `next_parsing_state` of jspp.c: the parser state entered after
a token has been returned. -/
def next_parsing_state (state : Nat) : Nat :=
  if state = JSON_OBJECT_BEGIN then EXPECTING_OBJECT_MEMBER_NAME_OR_END
  else if state = EXPECTING_OBJECT_MEMBER_NAME_OR_END ∨ state = EXPECTING_OBJECT_MEMBER_NAME then
    EXPECTING_OBJECT_MEMBER_NAME_VALUE_SEPARATOR
  else if state = EXPECTING_OBJECT_MEMBER_VALUE then EXPECTING_OBJECT_TAIL
  else if state = JSON_ARRAY_BEGIN then EXPECTING_ARRAY_ELEMENT_OR_END
  else if state = EXPECTING_ARRAY_ELEMENT_OR_END ∨ state = EXPECTING_ARRAY_ELEMENT then
    EXPECTING_ARRAY_TAIL
  else if state = EXPECTING_JSON then JSON_END
  else JSON_INVALID

/-! ## The parser state -/

/-- The struct `jspp_t` of jspp.h. The field `text_length` is the length of
`text`. -/
structure jspp_t where
  text : List Nat
  token_start : Nat
  token_length : Nat
  token : Nat
  skip_token : Nat
  skip_level : Nat
  level : Nat
  stack : Nat → Nat

/-- The field `text_length`: the size of the current fragment. -/
def jspp_t.text_length (parser : jspp_t) : Nat := parser.text.length

/-- Reading `stack[i]`. -/
def stack_read (parser : jspp_t) (i : Nat) : Nat :=
  if i < JSON_MAX_STACK then parser.stack i else 0

/-- Writing `stack[i] = state`. -/
def stack_write (parser : jspp_t) (i state : Nat) : jspp_t :=
  if i < JSON_MAX_STACK then
    { parser with stack := fun j => if j = i then state else parser.stack j }
  else parser

def get_state (parser : jspp_t) : Nat := stack_read parser parser.level

def set_state (parser : jspp_t) (state : Nat) : jspp_t :=
  stack_write parser parser.level state

def is_final (state : Nat) : Bool := state < __SCANNER_STATES

/-- The function `set_token_start`; `txt` is the offset `txt - parser->text`. -/
def set_token_start (parser : jspp_t) (state txt : Nat) : jspp_t :=
  { parser with
    token_start := if state = STRING_BEGIN then (txt % 65536 + 1) % 65536 else txt % 65536 }

/-- The function `set_token_end`; `txt` is the offset `txt - parser->text`. -/
def set_token_end (parser : jspp_t) (token txt : Nat) : jspp_t :=
  let txt1 :=
    if token = JSON_NULL ∨ token = JSON_TRUE ∨ token = JSON_FALSE ∨ token = JSON_OBJECT_BEGIN
        ∨ token = JSON_OBJECT_END ∨ token = JSON_ARRAY_BEGIN ∨ token = JSON_ARRAY_END
    then txt + 1 else txt
  { parser with
    token := token
    token_length := (txt1 + 65536 - parser.token_start % 65536) % 65536 }

def is_token_start (state : Nat) : Bool :=
  state = NULL_N || state = TRUE_T || state = FALSE_F || state = NUMBER_BEGIN
    || state = STRING_BEGIN

def is_nested_level_start (state : Nat) : Bool :=
  state = JSON_ARRAY_BEGIN || state = JSON_OBJECT_BEGIN

def is_string_a_member_name (state : Nat) : Bool :=
  state = EXPECTING_OBJECT_MEMBER_NAME || state = EXPECTING_OBJECT_MEMBER_NAME_OR_END

/-- The statement `++parser->level` on the `uint8_t` field. -/
def inc_level (parser : jspp_t) : jspp_t := { parser with level := (parser.level + 1) % 256 }

/-- The statement `--parser->level` on the `uint8_t` field. -/
def dec_level (parser : jspp_t) : jspp_t := { parser with level := (parser.level + 255) % 256 }

/-! ## `jspp_next` -/

/-- Outcome of the `do ... while` loop of `jspp_next`: either the early
`return JSON_TOO_DEEP`, or the loop left with the scanner state and the offset
`txt` it stopped at. -/
inductive scan_result where
  | too_deep (parser : jspp_t)
  | stopped (parser : jspp_t) (state txt : Nat)

/-- The `do ... while` loop of `jspp_next` (jspp.c 345-355). The last argument
holds the bytes from `txt` to the end of the fragment, its head is `*txt`. -/
def scan_loop : jspp_t → Nat → Nat → List Nat → scan_result
  | parser, state, txt, [] => .stopped parser state txt
  | parser, state, txt, lookahead :: rest =>
    let state1 := next_scan_state state lookahead
    if is_token_start state1 || is_nested_level_start state1 then
      let p2 := inc_level (set_token_start parser state1 txt)
      if p2.level = JSON_MAX_STACK then .too_deep p2
      else if is_final state1 then .stopped p2 state1 txt
      else scan_loop p2 state1 (txt + 1) rest
    else
      let p1 := if state1 > __REDUCING_PARSER_STATES then set_state parser state1 else parser
      if is_final state1 then .stopped p1 state1 txt
      else scan_loop p1 state1 (txt + 1) rest

/-- The branch `if (is_final(state))` of `jspp_next` (jspp.c 357-375): a token
is complete. -/
def complete_token (parser : jspp_t) (state txt : Nat) : Nat × jspp_t :=
  let token := state
  let p1 :=
    if token = JSON_ARRAY_END ∨ token = JSON_OBJECT_END then set_token_start parser token txt
    else parser
  let p2 := set_token_end p1 token txt
  if is_nested_level_start state then
    (token, set_state p2 (next_parsing_state state))
  else
    let p3 := dec_level p2
    let state1 := get_state p3
    let token1 :=
      if token = JSON_STRING ∧ is_string_a_member_name state1 then JSON_MEMBER_NAME else token
    (token1, set_state p3 (next_parsing_state state1))

/-- The tail of `jspp_next` (jspp.c 376-392): the fragment ended inside a
token or between tokens. -/
def suspend_token (parser : jspp_t) (state : Nat) : Nat × jspp_t :=
  let p1 := set_state parser state
  let p2 := set_token_end p1 state parser.text_length
  if STRING_BEGIN ≤ state ∧ state < __STRING_END then
    let prev_level_state := if p2.level = 0 then 0 else stack_read p2 (p2.level - 1)
    if is_string_a_member_name prev_level_state then (JSON_MEMBER_NAME_PART, p2)
    else (JSON_STRING_PART, p2)
  else if NUMBER_BEGIN ≤ state ∧ state < __NUMBER_END then (JSON_NUMBER_PART, p2)
  else (JSON_CONTINUE, p2)

/-- The function `jspp_next` of jspp.c. -/
def jspp_next (parser : jspp_t) : Nat × jspp_t :=
  if parser.level ≥ JSON_MAX_STACK then (JSON_TOO_DEEP, parser)
  else
    let state := get_state parser
    if state ≤ JSON_END then (state, parser)
    else
      let txt := parser.token_start + parser.token_length
        + (if parser.token = JSON_STRING then 1 else 0)
      if txt = parser.text_length then (JSON_CONTINUE, parser)
      else
        match scan_loop parser state txt (parser.text.drop txt) with
        | .too_deep p1 => (JSON_TOO_DEEP, p1)
        | .stopped p1 state1 txt1 =>
          if is_final state1 then complete_token p1 state1 txt1
          else suspend_token p1 state1

/-! ## Skipping, text, start and continue -/

/-- The function `skip_composite` of jspp.c. The `while` loop is bounded by
fuel; `none` means the fuel ran out before the loop was left. -/
def skip_composite : Nat → jspp_t → Option (Nat × jspp_t)
  | 0, _ => none
  | fuel + 1, parser =>
    let r := jspp_next parser
    if r.1 ≠ r.2.skip_token ∨ r.2.level > r.2.skip_level then
      if r.1 = JSON_CONTINUE then some (JSON_CONTINUE, r.2)
      else skip_composite fuel r.2
    else
      some (jspp_next { r.2 with skip_token := 0 })

/-- The function `jspp_skip_next` of jspp.c. The recursion after a member name
and the loop of `skip_composite` are bounded by fuel. -/
def jspp_skip_next : Nat → jspp_t → Option (Nat × jspp_t)
  | 0, _ => none
  | fuel + 1, parser =>
    let r := jspp_next parser
    let token := r.1
    let p := r.2
    if token ≤ JSON_END then some (token, { p with skip_token := 0 })
    else if token ≤ JSON_MEMBER_NAME_PART then
      some (JSON_CONTINUE, { p with skip_level := p.level, skip_token := JSON_CONTINUE })
    else if token = JSON_MEMBER_NAME then jspp_skip_next fuel p
    else if token = JSON_ARRAY_BEGIN then
      skip_composite fuel
        { p with skip_level := (p.level + 255) % 256, skip_token := JSON_ARRAY_END }
    else if token = JSON_OBJECT_BEGIN then
      skip_composite fuel
        { p with skip_level := (p.level + 255) % 256, skip_token := JSON_OBJECT_END }
    else if token = JSON_ARRAY_END ∨ token = JSON_OBJECT_END then
      some (token, { p with skip_token := 0 })
    else some (jspp_next { p with skip_token := 0 })

/-- The function `jspp_text` of jspp.c: the bytes `text + token_start` of length
`token_length`. -/
def jspp_text (parser : jspp_t) : List Nat :=
  (parser.text.drop parser.token_start).take parser.token_length

/-- The first five assignments of `jspp_continue` (and of `jspp_start`): the
new fragment is installed and the token fields are cleared. -/
def set_fragment (parser : jspp_t) (text : List Nat) : jspp_t :=
  { parser with text := text, token_start := 0, token_length := 0, token := JSON_INVALID }

/-- The assignments of `jspp_start` before its call of `jspp_next`. -/
def start_state (parser : jspp_t) (text : List Nat) : jspp_t :=
  stack_write
    { set_fragment parser text with skip_token := 0, skip_level := 0, level := 0 }
    0 EXPECTING_JSON

/-- The function `jspp_start` of jspp.c. -/
def jspp_start (parser : jspp_t) (text : List Nat) : Nat × jspp_t :=
  jspp_next (start_state parser text)

/-- The function `jspp_continue` of jspp.c; the fuel is handed to the skip it
resumes, if any. -/
def jspp_continue (fuel : Nat) (parser : jspp_t) (text : List Nat) : Option (Nat × jspp_t) :=
  let p : jspp_t := set_fragment parser text
  if p.skip_token = JSON_CONTINUE then jspp_skip_next fuel p
  else if p.skip_token = JSON_ARRAY_END ∨ p.skip_token = JSON_OBJECT_END then
    skip_composite fuel p
  else some (jspp_next p)

/-! ## Callers -/

/-- The parser states a caller can reach through the public functions, each
with the token the last call returned. Fragments fit `uint16_t`; a call of
`jspp_continue` or `jspp_skip_next` counts when it returns. -/
inductive Reachable : Nat → jspp_t → Prop
  | by_start (parser : jspp_t) (text : List Nat) (h : text.length ≤ 65535) :
      Reachable (jspp_start parser text).1 (jspp_start parser text).2
  | by_next (token : Nat) (parser : jspp_t) (h : Reachable token parser) :
      Reachable (jspp_next parser).1 (jspp_next parser).2
  | by_continue (token : Nat) (parser : jspp_t) (fuel : Nat) (text : List Nat)
      (r : Nat × jspp_t) (h : Reachable token parser) (ht : text.length ≤ 65535)
      (e : jspp_continue fuel parser text = some r) : Reachable r.1 r.2
  | by_skip_next (token : Nat) (parser : jspp_t) (fuel : Nat) (r : Nat × jspp_t)
      (h : Reachable token parser) (e : jspp_skip_next fuel parser = some r) :
      Reachable r.1 r.2

/-- The parser states that later calls of `jspp_next`, `jspp_continue` and
`jspp_skip_next` lead to from a given state. -/
inductive Later (parser : jspp_t) : jspp_t → Prop
  | here : Later parser parser
  | after_next (q : jspp_t) (h : Later parser q) : Later parser (jspp_next q).2
  | after_continue (q : jspp_t) (fuel : Nat) (text : List Nat) (r : Nat × jspp_t)
      (h : Later parser q) (e : jspp_continue fuel q text = some r) : Later parser r.2
  | after_skip_next (q : jspp_t) (fuel : Nat) (r : Nat × jspp_t)
      (h : Later parser q) (e : jspp_skip_next fuel q = some r) : Later parser r.2

/-- A parser struct whose memory is all zero, as a caller may hand to
`jspp_start`. -/
def jspp_zero : jspp_t :=
  { text := [], token_start := 0, token_length := 0, token := 0, skip_token := 0,
    skip_level := 0, level := 0, stack := fun _ => 0 }

/-- One observation of a run: the token kind a call returned and the slice
`jspp_text` reports after it. -/
abbrev Event := Nat × List Nat

/-- The caller's loop of the test suite: `jspp_next` while a complete token is
returned, `jspp_continue` with the next fragment after `JSON_CONTINUE` or a
`*_PART` token, stop at `JSON_INVALID`, `JSON_TOO_DEEP` and `JSON_END` and when
the fragments are used up. `token` is what the last call returned, `parser`
the state it left. -/
def drive : Nat → jspp_t → Nat → List (List Nat) → List Event
  | 0, _, _, _ => []
  | fuel + 1, parser, token, rest =>
    (token, jspp_text parser) ::
      if token ≤ JSON_END then []
      else if token ≤ JSON_STRING_PART then
        match rest with
        | [] => []
        | text :: rest1 =>
          match jspp_continue 0 parser text with
          | some r => drive fuel r.2 r.1 rest1
          | none => []
      else drive fuel (jspp_next parser).2 (jspp_next parser).1 rest

/-- Calls that are enough for `drive` on the given fragments. -/
def drive_fuel (fragments : List (List Nat)) : Nat :=
  2 * fragments.flatten.length + fragments.length + 2

/-- A whole run: `jspp_start` on the first fragment, then `drive`. -/
def parse (parser : jspp_t) (fragments : List (List Nat)) : List Event :=
  match fragments with
  | [] => []
  | text :: rest =>
    drive (drive_fuel fragments) (jspp_start parser text).2 (jspp_start parser text).1 rest

/-- The tokens that carry text: numbers, strings and member names. -/
def is_text_token (token : Nat) : Bool :=
  token = JSON_INTEGER || token = JSON_DECIMAL || token = JSON_FLOATING_POINT
    || token = JSON_STRING || token = JSON_MEMBER_NAME

/-- What a caller that stitches sees: `JSON_CONTINUE` is dropped, the text of
each `*_PART` token is kept and put in front of the text of the token that
follows; the text of tokens other than numbers, strings and member names is
left out. -/
def stitch : List Nat → List Event → List Event
  | _, [] => []
  | acc, (token, text) :: rest =>
    if token = JSON_CONTINUE then stitch acc rest
    else if JSON_MEMBER_NAME_PART ≤ token ∧ token ≤ JSON_STRING_PART then
      stitch (acc ++ text) rest
    else (token, if is_text_token token then acc ++ text else []) :: stitch [] rest

/-- The token kinds of a run without `JSON_CONTINUE` and the `*_PART` tokens. -/
def complete_kinds (events : List Event) : List Nat :=
  (events.map Prod.fst).filter fun token => token ≤ JSON_END || JSON_NULL ≤ token

/-! ## The scanner and the stack, one byte at a time

`byte_run` is the automaton of `jspp_next` with the fragments taken away: it
reads the document byte by byte, keeps the states below the current one in a
list and the text of the token in progress in `acc`. It is the reference the
fragment-driven `parse` is compared with. -/

/-- The scanner states inside a string or a number. -/
def in_token (state : Nat) : Bool :=
  (STRING_BEGIN ≤ state && state < __STRING_END) || (NUMBER_BEGIN ≤ state && state < __NUMBER_END)

/-- Outcome of one byte. -/
inductive byte_result where
  | halt (events : List Event)
  | go (events : List Event) (below : List Nat) (state : Nat) (acc : List Nat)

/-- A complete token that is not an opener: the level is popped and the state
below is reduced, as in `complete_token`. -/
def byte_reduce (below : List Nat) (token : Nat) (acc : List Nat) : byte_result :=
  match below with
  | [] => .halt [(token, [])]
  | state :: below1 =>
    let token1 :=
      if token = JSON_STRING ∧ is_string_a_member_name state then JSON_MEMBER_NAME else token
    let event : Event := (token1, if is_text_token token1 then acc else [])
    if next_parsing_state state ≤ JSON_END then .halt [event, (next_parsing_state state, [])]
    else .go [event] below1 (next_parsing_state state) []

/-- One byte that the scanner consumes. -/
def byte_consume (below : List Nat) (state : Nat) (acc : List Nat) (c : Nat) : byte_result :=
  let state1 := next_scan_state state c
  if is_token_start state1 || is_nested_level_start state1 then
    if below.length + 1 = JSON_MAX_STACK then .halt [(JSON_TOO_DEEP, [])]
    else if is_final state1 then
      .go [(state1, [])] (state :: below) (next_parsing_state state1) []
    else .go [] (state :: below) state1 (if state1 = NUMBER_BEGIN then [c] else [])
  else if is_final state1 then
    if state1 = JSON_INVALID then .halt [(JSON_INVALID, [])]
    else byte_reduce below state1 acc
  else .go [] below state1 (if in_token state1 then acc ++ [c] else [])

/-- One byte: a byte that ends a number completes the number and is then
looked at again in the state after the number. -/
def byte_step (below : List Nat) (state : Nat) (acc : List Nat) (c : Nat) : byte_result :=
  let state1 := next_scan_state state c
  if state1 = JSON_INTEGER ∨ state1 = JSON_DECIMAL ∨ state1 = JSON_FLOATING_POINT then
    match byte_reduce below state1 acc with
    | .halt events => .halt events
    | .go events below1 state2 acc1 =>
      match byte_consume below1 state2 acc1 c with
      | .halt events1 => .halt (events ++ events1)
      | .go events1 below2 state3 acc2 => .go (events ++ events1) below2 state3 acc2
  else byte_consume below state acc c

/-- The tokens of a document read byte by byte, up to and including the first
of `JSON_INVALID`, `JSON_TOO_DEEP` and `JSON_END`. -/
def byte_run : List Nat → Nat → List Nat → List Nat → List Event
  | _, _, _, [] => []
  | below, state, acc, c :: rest =>
    match byte_step below state acc c with
    | .halt events => events
    | .go events below1 state1 acc1 => events ++ byte_run below1 state1 acc1 rest

/-- The states below the current level, the nearest first. -/
def frames (stack : Nat → Nat) : Nat → List Nat
  | 0 => []
  | level + 1 => stack level :: frames stack level

/-! ## JSON documents

The reference the parser is compared with. jspp.c has no grammar of its own
beside the automaton, so JSON texts are given here as trees that carry their
whitespace, after the JSON grammar (RFC 8259), read leniently where that only
adds documents: any digits form an integer part, any byte may follow a
backslash, any byte but `"` and `\` may stand in a string. -/

/-- A number lexeme: an optional minus sign, the digits of the integer part, an
optional fraction (the digits after `.`) and an optional exponent: the mark
(`e` or `E`), the sign bytes (none, `+` or `-`) and the digits. -/
structure number_lexeme where
  minus : Bool
  int_digits : List Nat
  fraction : Option (List Nat)
  exponent : Option (Nat × List Nat × List Nat)

/-- One digit or more, and digits only. -/
def all_digits (ds : List Nat) : Bool := !ds.isEmpty && ds.all is_digit

def number_lexeme.well_formed (n : number_lexeme) : Bool :=
  all_digits n.int_digits
    && (match n.fraction with
        | none => true
        | some f => all_digits f)
    && (match n.exponent with
        | none => true
        | some (m, s, d) =>
          (m == 69 || m == 101) && (s == [] || s == [43] || s == [45]) && all_digits d)

/-- The bytes after the sign and the integer part. -/
def number_lexeme.suffix (n : number_lexeme) : List Nat :=
  (match n.fraction with
    | none => []
    | some f => 46 :: f)
  ++ (match n.exponent with
      | none => []
      | some (m, s, d) => m :: (s ++ d))

def number_lexeme.bytes (n : number_lexeme) : List Nat :=
  (if n.minus then [45] else []) ++ (n.int_digits ++ n.suffix)

/-- The token kind of a number lexeme: `JSON_FLOATING_POINT` with an exponent,
else `JSON_DECIMAL` with a fraction, else `JSON_INTEGER`. -/
def number_lexeme.kind (n : number_lexeme) : Nat :=
  match n.exponent, n.fraction with
  | some _, _ => JSON_FLOATING_POINT
  | none, some _ => JSON_DECIMAL
  | none, none => JSON_INTEGER

/-- A piece of a string body: a byte other than `"` and `\`, or a backslash
with the byte after it. -/
inductive string_item where
  | plain (c : Nat)
  | escaped (c : Nat)

def string_item.bytes : string_item → List Nat
  | .plain c => [c]
  | .escaped c => [92, c]

def string_item.well_formed : string_item → Bool
  | .plain c => c != 34 && c != 92
  | .escaped _ => true

/-- The raw bytes of a string body, quotes excluded. -/
def body_bytes : List string_item → List Nat
  | [] => []
  | item :: rest => item.bytes ++ body_bytes rest

def body_well_formed (body : List string_item) : Bool := body.all string_item.well_formed

/-- Whitespace between lexemes. -/
def all_space (ws : List Nat) : Bool := ws.all is_space

mutual
/-- A JSON value with the whitespace inside it. -/
inductive json_value where
  | lit_null : json_value
  | lit_true : json_value
  | lit_false : json_value
  | number (n : number_lexeme) : json_value
  | string (body : List string_item) : json_value
  | empty_array (ws : List Nat) : json_value
  | array (ws : List Nat) (elements : json_elements) : json_value
  | empty_object (ws : List Nat) : json_value
  | object (ws : List Nat) (members : json_members) : json_value
/-- The elements of a non-empty array: each value with the whitespace after it,
and after each comma. -/
inductive json_elements where
  | last (v : json_value) (ws : List Nat) : json_elements
  | more (v : json_value) (ws1 ws2 : List Nat) (rest : json_elements) : json_elements
/-- The members of a non-empty object: name, whitespace, colon, whitespace,
value, whitespace, and the whitespace after each comma. -/
inductive json_members where
  | last (name : List string_item) (ws1 ws2 : List Nat) (v : json_value) (ws3 : List Nat) :
      json_members
  | more (name : List string_item) (ws1 ws2 : List Nat) (v : json_value) (ws3 ws4 : List Nat)
      (rest : json_members) : json_members
end

mutual
/-- The text of a value. -/
def json_value.render : json_value → List Nat
  | .lit_null => [110, 117, 108, 108]
  | .lit_true => [116, 114, 117, 101]
  | .lit_false => [102, 97, 108, 115, 101]
  | .number n => n.bytes
  | .string body => 34 :: (body_bytes body ++ [34])
  | .empty_array ws => 91 :: (ws ++ [93])
  | .array ws elements => 91 :: (ws ++ (elements.render ++ [93]))
  | .empty_object ws => 123 :: (ws ++ [125])
  | .object ws members => 123 :: (ws ++ (members.render ++ [125]))
def json_elements.render : json_elements → List Nat
  | .last v ws => v.render ++ ws
  | .more v ws1 ws2 rest => v.render ++ (ws1 ++ 44 :: (ws2 ++ rest.render))
def json_members.render : json_members → List Nat
  | .last name ws1 ws2 v ws3 =>
    34 :: (body_bytes name ++ 34 :: (ws1 ++ 58 :: (ws2 ++ (v.render ++ ws3))))
  | .more name ws1 ws2 v ws3 ws4 rest =>
    34 :: (body_bytes name ++ 34 :: (ws1 ++ 58 :: (ws2 ++ (v.render ++ (ws3 ++ 44 ::
      (ws4 ++ rest.render))))))
end

mutual
/-- The tokens of a value in document order, numbers, strings and member
names with their text. -/
def json_value.tokens : json_value → List Event
  | .lit_null => [(JSON_NULL, [])]
  | .lit_true => [(JSON_TRUE, [])]
  | .lit_false => [(JSON_FALSE, [])]
  | .number n => [(n.kind, n.bytes)]
  | .string body => [(JSON_STRING, body_bytes body)]
  | .empty_array _ => [(JSON_ARRAY_BEGIN, []), (JSON_ARRAY_END, [])]
  | .array _ elements => (JSON_ARRAY_BEGIN, []) :: (elements.tokens ++ [(JSON_ARRAY_END, [])])
  | .empty_object _ => [(JSON_OBJECT_BEGIN, []), (JSON_OBJECT_END, [])]
  | .object _ members => (JSON_OBJECT_BEGIN, []) :: (members.tokens ++ [(JSON_OBJECT_END, [])])
def json_elements.tokens : json_elements → List Event
  | .last v _ => v.tokens
  | .more v _ _ rest => v.tokens ++ rest.tokens
def json_members.tokens : json_members → List Event
  | .last name _ _ v _ => (JSON_MEMBER_NAME, body_bytes name) :: v.tokens
  | .more name _ _ v _ _ rest => (JSON_MEMBER_NAME, body_bytes name) :: (v.tokens ++ rest.tokens)
end

mutual
/-- Lexemes and whitespace are what they should be. -/
def json_value.well_formed : json_value → Bool
  | .lit_null => true
  | .lit_true => true
  | .lit_false => true
  | .number n => n.well_formed
  | .string body => body_well_formed body
  | .empty_array ws => all_space ws
  | .array ws elements => all_space ws && elements.well_formed
  | .empty_object ws => all_space ws
  | .object ws members => all_space ws && members.well_formed
def json_elements.well_formed : json_elements → Bool
  | .last v ws => v.well_formed && all_space ws
  | .more v ws1 ws2 rest => v.well_formed && all_space ws1 && all_space ws2 && rest.well_formed
def json_members.well_formed : json_members → Bool
  | .last name ws1 ws2 v ws3 =>
    body_well_formed name && all_space ws1 && all_space ws2 && v.well_formed && all_space ws3
  | .more name ws1 ws2 v ws3 ws4 rest =>
    body_well_formed name && all_space ws1 && all_space ws2 && v.well_formed && all_space ws3
      && all_space ws4 && rest.well_formed
end

mutual
/-- The nesting the parser can handle: no scalar, member name or container
lies inside more than 12 containers; `depth` counts the containers around the
value. -/
def json_value.fits (depth : Nat) : json_value → Bool
  | .lit_null => depth ≤ 12
  | .lit_true => depth ≤ 12
  | .lit_false => depth ≤ 12
  | .number _ => depth ≤ 12
  | .string _ => depth ≤ 12
  | .empty_array _ => depth ≤ 12
  | .array _ elements => depth ≤ 12 && elements.fits (depth + 1)
  | .empty_object _ => depth ≤ 12
  | .object _ members => depth ≤ 12 && members.fits (depth + 1)
def json_elements.fits (depth : Nat) : json_elements → Bool
  | .last v _ => v.fits depth
  | .more v _ _ rest => v.fits depth && rest.fits depth
def json_members.fits (depth : Nat) : json_members → Bool
  | .last _ _ _ v _ => v.fits depth
  | .more _ _ _ v _ _ rest => v.fits depth && rest.fits depth
end

def json_value.is_number : json_value → Bool
  | .number _ => true
  | _ => false

def json_value.is_container : json_value → Bool
  | .empty_array _ => true
  | .array _ _ => true
  | .empty_object _ => true
  | .object _ _ => true
  | _ => false

/-- The bytes that may follow a value inside a document: whitespace, `,`, `]`
and `}`. -/
def is_delimiter (c : Nat) : Bool := is_space c || c = 44 || c = 93 || c = 125

/-- The text after a number begins with a delimiter. -/
def delimited : List Nat → Bool
  | [] => false
  | c :: _ => is_delimiter c

/-! ## Runs of the scanner inside a token -/

/-- The scanner state after the given bytes, no token boundary minded. -/
def scan_states (state : Nat) (bytes : List Nat) : Nat := bytes.foldl next_scan_state state

/-- The states inside a number or a string after its first byte. -/
def quiet (state : Nat) : Bool :=
  in_token state && state != NUMBER_BEGIN && state != STRING_BEGIN

/-- Every byte of the run leaves the scanner inside the token. -/
def quiet_run : Nat → List Nat → Bool
  | _, [] => true
  | state, c :: rest => quiet (next_scan_state state c) && quiet_run (next_scan_state state c) rest

/-- A document: whitespace, the root value, whitespace. -/
def document (ws1 : List Nat) (v : json_value) (ws2 : List Nat) : List Nat :=
  ws1 ++ (v.render ++ ws2)

/-- What a caller reads off a call: the token, and the text of a number, a
string or a member name. -/
def reported (e : Event) : Event := (e.1, if is_text_token e.1 then e.2 else [])

/-- Arrays in arrays: `nested_arrays n` is `n + 1` brackets deep. -/
def nested_arrays : Nat → json_value
  | 0 => .empty_array []
  | n + 1 => .array [] (.last (nested_arrays n) [])

/-! ## Single elements

What a value may begin with, and the deviation of a fragment from the spelling
of a literal. -/

/-- The bytes `n`, `t`, `f`, `"`, `{`, `[`, `-` and the digits. -/
def starts_value (c : Nat) : Bool :=
  c = 110 || c = 116 || c = 102 || c = 34 || c = 123 || c = 91 || c = 45 || is_digit c

/-- Some byte that is present differs from the byte the spelling has in its
place; bytes behind the spelling and a fragment that ends early do not count. -/
def deviates : List Nat → List Nat → Bool
  | [], _ => false
  | _, [] => false
  | l :: spelling, c :: rest => c != l || deviates spelling rest

/-- A byte that goes on with a number of the given kind: a digit, `.` after an
integer, `e` and `E` before the exponent. -/
def continues_number (kind d : Nat) : Bool :=
  is_digit d || (kind = JSON_INTEGER && d = 46)
    || (kind != JSON_FLOATING_POINT && (d = 69 || d = 101))

/-- The literal states with what is left of the spelling. -/
def spellings : List (Nat × List Nat) :=
  [ (NULL_N, [117, 108, 108]), (NULL_U, [108, 108]), (NULL_L, [108]),
    (TRUE_T, [114, 117, 101]), (TRUE_R, [117, 101]), (TRUE_U, [101]),
    (FALSE_F, [97, 108, 115, 101]), (FALSE_A, [108, 115, 101]), (FALSE_L, [115, 101]),
    (FALSE_S, [101]) ]

/-! ## Prefixes of a document -/

/-- The events of `byte_run` on the given bytes together with the
configuration the run is left in, `none` after `JSON_INVALID`, `JSON_TOO_DEEP`
and `JSON_END`. -/
def byte_scan : List Nat → Nat → List Nat → List Nat →
    List Event × Option (List Nat × Nat × List Nat)
  | below, state, acc, [] => ([], some (below, state, acc))
  | below, state, acc, c :: rest =>
    match byte_step below state acc c with
    | .halt events => (events, none)
    | .go events below1 state1 acc1 =>
      (events ++ (byte_scan below1 state1 acc1 rest).1, (byte_scan below1 state1 acc1 rest).2)

/-- The events of one byte. -/
def byte_result.events : byte_result → List Event
  | .halt events => events
  | .go events _ _ _ => events

/-- The states `jspp_next` leaves on the stack below the current level. -/
def reducing (state : Nat) : Prop :=
  __REDUCING_PARSER_STATES < state ∧ state ≤ EXPECTING_OBJECT_MEMBER_VALUE

/-- The events a byte that the scanner rejects may give: nothing, or the
number the byte ends. -/
def number_or_nothing (extra : List Event) : Prop :=
  extra = [] ∨ ∃ text, extra = [(JSON_INTEGER, text)] ∨ extra = [(JSON_DECIMAL, text)]
    ∨ extra = [(JSON_FLOATING_POINT, text)]

/-- The bytes a value may end with: `l`, `e`, a digit, `"`, `]` and `}`. -/
def closing (c : Nat) : Bool :=
  c = 108 || c = 101 || is_digit c || c = 34 || c = 93 || c = 125

/-! ## Sequences of calls -/

/-- The result of `n` further calls of `jspp_next` after a call that gave `r`. -/
def calls : Nat → Nat × jspp_t → Nat × jspp_t
  | 0, r => r
  | n + 1, r => jspp_next (calls n r).2

/-- The parser with the hints of the skip engine set. -/
def with_skip (parser : jspp_t) (skip_token skip_level : Nat) : jspp_t :=
  { parser with skip_token := skip_token, skip_level := skip_level }

/-- The value tokens: `JSON_NULL` to `JSON_STRING`. -/
def is_value_token (token : Nat) : Bool := JSON_NULL ≤ token && token ≤ JSON_STRING

/-- The statement `parser->skip_token = 0`. -/
def clear_skip (parser : jspp_t) : jspp_t := { parser with skip_token := 0 }

/-! ## The end of a fragment -/

/-- The token for a fragment that ends in scanner state `state` with the state
`below` one level down: `JSON_NUMBER_PART` inside a number, inside a string
`JSON_MEMBER_NAME_PART` where a member name is expected and `JSON_STRING_PART`
elsewhere, `JSON_CONTINUE` inside a literal and between tokens. -/
def part_kind (state below : Nat) : Nat :=
  if NUMBER_BEGIN ≤ state ∧ state < __NUMBER_END then JSON_NUMBER_PART
  else if STRING_BEGIN ≤ state ∧ state < __STRING_END then
    if below = EXPECTING_OBJECT_MEMBER_NAME ∨ below = EXPECTING_OBJECT_MEMBER_NAME_OR_END then
      JSON_MEMBER_NAME_PART
    else JSON_STRING_PART
  else JSON_CONTINUE

/-- The states on which the body of `jspp_next` runs when a caller calls
`jspp_next`, `jspp_start`, or `jspp_continue` with no skip to resume. -/
inductive entry_state : jspp_t → Prop
  | of_next (token : Nat) (parser : jspp_t) (h : Reachable token parser) : entry_state parser
  | of_start (parser : jspp_t) (text : List Nat) (h : text.length ≤ 65535) :
      entry_state (start_state parser text)
  | of_continue (token : Nat) (parser : jspp_t) (text : List Nat) (h : Reachable token parser)
      (ht : text.length ≤ 65535) (hs : parser.skip_token ≠ JSON_CONTINUE)
      (hc : ¬ (parser.skip_token = JSON_ARRAY_END ∨ parser.skip_token = JSON_OBJECT_END)) :
      entry_state (set_fragment parser text)

/-! ## Depth of a document -/

mutual
/-- The stack levels `jspp_next` needs for a value: one for a scalar, one for a
container and those of what it holds, a member name needing as many as a
scalar. -/
def json_value.levels : json_value → Nat
  | .array _ elements => 1 + elements.levels
  | .object _ members => 1 + members.levels
  | _ => 1
def json_elements.levels : json_elements → Nat
  | .last v _ => v.levels
  | .more v _ _ rest => max v.levels rest.levels
def json_members.levels : json_members → Nat
  | .last _ _ _ v _ => v.levels
  | .more _ _ _ v _ _ rest => max v.levels rest.levels
end

mutual
/-- The nesting of a value: the containers one in another, scalars and member
names not counted. -/
def json_value.nesting : json_value → Nat
  | .empty_array _ => 1
  | .empty_object _ => 1
  | .array _ elements => 1 + elements.nesting
  | .object _ members => 1 + members.nesting
  | _ => 0
def json_elements.nesting : json_elements → Nat
  | .last v _ => v.nesting
  | .more v _ _ rest => max v.nesting rest.nesting
def json_members.nesting : json_members → Nat
  | .last _ _ _ v _ => v.nesting
  | .more _ _ _ v _ _ rest => max v.nesting rest.nesting
end

/-- The value `v` inside `n` arrays. -/
def nested_around : Nat → json_value → json_value
  | 0, v => v
  | n + 1, v => .array [] (.last (nested_around n v) [])

/-! ## Levels along a run -/

/-- The level after a call of `jspp_next` that returns the complete token
`token` from level `level`: an opener goes one level up, a closer one down. -/
def level_after (level token : Nat) : Nat :=
  if token = JSON_ARRAY_BEGIN ∨ token = JSON_OBJECT_BEGIN then level + 1
  else if token = JSON_ARRAY_END ∨ token = JSON_OBJECT_END then level - 1
  else level

/-- The level after the calls that return the given tokens. -/
def depth_after (level : Nat) (tokens : List Event) : Nat :=
  tokens.foldl (fun l e => level_after l e.1) level

/-- The level stays at `floor` or above after each of the given tokens, from
the level `level` on. -/
def stays_above (floor : Nat) : Nat → List Event → Prop
  | _, [] => True
  | level, e :: rest =>
    floor ≤ level_after level e.1 ∧ stays_above floor (level_after level e.1) rest

/-! ## Between two tokens -/

/-- Every byte of the run keeps the scanner in a parser state: whitespace, and
`,` and `:` where the parser expects them. No token begins or ends in the
run. -/
def between : Nat → List Nat → Bool
  | _, [] => true
  | state, c :: rest =>
    decide (__PARSER_STATES ≤ next_scan_state state c) && between (next_scan_state state c) rest

/-- The fragment of `n` bytes `[` followed by `n` bytes `]`. -/
def brackets (n : Nat) : List Nat := List.replicate n 91 ++ List.replicate n 93

/-! ## Sessions -/

/-- A call a caller makes after `jspp_start`: `jspp_next`, `jspp_continue`
with the next fragment, or `jspp_skip_next`. -/
inductive call where
  | next_token
  | more (text : List Nat)
  | skip

/-- One call of the caller; `none` when the call does not return within the
fuel. -/
def perform (fuel : Nat) (parser : jspp_t) : call → Option (Nat × jspp_t)
  | .next_token => some (jspp_next parser)
  | .more text => jspp_continue fuel parser text
  | .skip => jspp_skip_next fuel parser

/-- What the caller sees of a sequence of calls: the token each call returns
and the slice `jspp_text` gives after it; `none` when one of the calls does not
return. -/
def observe (fuel : Nat) : jspp_t → List call → Option (List Event)
  | _, [] => some []
  | parser, c :: cs =>
    match perform fuel parser c with
    | none => none
    | some r => (observe fuel r.2 cs).map fun events => (r.1, jspp_text r.2) :: events

/-- A session: `jspp_start` on a parser struct with whatever contents and the
first fragment, then the given calls. -/
def session (fuel : Nat) (parser : jspp_t) (text : List Nat) (cs : List call) :
    Option (List Event) :=
  (observe fuel (jspp_start parser text).2 cs).map fun events =>
    ((jspp_start parser text).1, jspp_text (jspp_start parser text).2) :: events

/-- A token begins in the fragment: the first byte that is not whitespace is
one a value may begin with. -/
def begins_token : List Nat → Bool
  | [] => false
  | c :: rest => if is_space c then begins_token rest else starts_value c

/-- The parser (expectation) states of `enum _states`: the states after
`__PARSER_STATES`, the marker `__REDUCING_PARSER_STATES` left out. -/
def expectation_states : List Nat :=
  [ EXPECTING_ARRAY_TAIL, EXPECTING_OBJECT_TAIL, EXPECTING_OBJECT_MEMBER_NAME_VALUE_SEPARATOR,
    EXPECTING_JSON, EXPECTING_ARRAY_ELEMENT_OR_END, EXPECTING_ARRAY_ELEMENT,
    EXPECTING_OBJECT_MEMBER_NAME_OR_END, EXPECTING_OBJECT_MEMBER_NAME,
    EXPECTING_OBJECT_MEMBER_VALUE ]

/-! ## The calls of `jspp_next` -/

/-- The parser states on which the body of `jspp_next` runs, in a call by the
caller or from inside `jspp_start`, `jspp_continue`, `jspp_skip_next` and
`skip_composite`: the state `jspp_start` sets up, the state a call of
`jspp_next` leaves, such a state with the hints of the skip engine changed,
and such a state with the next fragment installed by `jspp_continue`. -/
inductive called : jspp_t → Prop
  | start (parser : jspp_t) (text : List Nat) (h : text.length ≤ 65535) :
      called (start_state parser text)
  | next (q : jspp_t) (h : called q) : called (jspp_next q).2
  | hints (q : jspp_t) (a b : Nat) (h : called q) : called (with_skip q a b)
  | fragment (q : jspp_t) (text : List Nat) (h : called q) (ht : text.length ≤ 65535) :
      called (set_fragment q text)

/-- The offset of the byte `*txt` that the `do ... while` loop of `jspp_next`
reads before it tests `txt < end` for the first time; `none` when the call
returns before the loop. Every later read of the loop is behind the test
`++txt < end`. -/
def first_read (parser : jspp_t) : Option Nat :=
  if parser.level ≥ JSON_MAX_STACK then none
  else if get_state parser ≤ JSON_END then none
  else if parser.token_start + parser.token_length
      + (if parser.token = JSON_STRING then 1 else 0) = parser.text_length then none
  else some (parser.token_start + parser.token_length
      + (if parser.token = JSON_STRING then 1 else 0))

/-- The argument of the call `next_parsing_state(state)` in the branch of
`jspp_next` for complete tokens: the token itself for an opener, otherwise
the state read from the stack after the pop. -/
def reduction_input (parser : jspp_t) (state : Nat) : Nat :=
  if is_nested_level_start state then state else get_state (dec_level parser)

/-- The inputs `next_parsing_state` has a case for. -/
def reduction_inputs : List Nat :=
  [ JSON_OBJECT_BEGIN, EXPECTING_OBJECT_MEMBER_NAME_OR_END, EXPECTING_OBJECT_MEMBER_NAME,
    EXPECTING_OBJECT_MEMBER_VALUE, JSON_ARRAY_BEGIN, EXPECTING_ARRAY_ELEMENT_OR_END,
    EXPECTING_ARRAY_ELEMENT, EXPECTING_JSON ]

/-! ## The grammar of the token stream -/

mutual
/-- The token kinds of one value: `value ::= NULL | TRUE | FALSE | INTEGER |
DECIMAL | FLOATING_POINT | STRING | ARRAY_BEGIN value* ARRAY_END |
OBJECT_BEGIN (MEMBER_NAME value)* OBJECT_END`. -/
inductive token_value : List Nat → Prop
  | scalar (t : Nat) (h : is_value_token t = true) : token_value [t]
  | array (vs : List Nat) (h : token_values vs) :
      token_value (JSON_ARRAY_BEGIN :: (vs ++ [JSON_ARRAY_END]))
  | object (ms : List Nat) (h : token_members ms) :
      token_value (JSON_OBJECT_BEGIN :: (ms ++ [JSON_OBJECT_END]))
/-- The token kinds of `value*`. -/
inductive token_values : List Nat → Prop
  | none : token_values []
  | more (vs v : List Nat) (h1 : token_values vs) (h2 : token_value v) : token_values (vs ++ v)
/-- The token kinds of `(MEMBER_NAME value)*`. -/
inductive token_members : List Nat → Prop
  | none : token_members []
  | more (ms v : List Nat) (h1 : token_members ms) (h2 : token_value v) :
      token_members (ms ++ JSON_MEMBER_NAME :: v)
end

/-- The number of `JSON_OBJECT_BEGIN` and `JSON_ARRAY_BEGIN` among the
tokens. -/
def count_opens (tokens : List Nat) : Nat :=
  (tokens.filter fun t => t = JSON_OBJECT_BEGIN || t = JSON_ARRAY_BEGIN).length

/-- The number of `JSON_OBJECT_END` and `JSON_ARRAY_END` among the tokens. -/
def count_closes (tokens : List Nat) : Nat :=
  (tokens.filter fun t => t = JSON_OBJECT_END || t = JSON_ARRAY_END).length

/-- The complete tokens among the tokens a run has returned: `JSON_NULL` and
above. -/
def complete_tokens (tokens : List Nat) : List Nat := tokens.filter fun t => JSON_NULL ≤ t

/-- A run of `jspp_start`, `jspp_next` and `jspp_continue`: `Run before token
parser` says that the calls so far have returned the tokens `before`, in this
order, then `token`, and left the parser `parser`. -/
inductive Run : List Nat → Nat → jspp_t → Prop
  | by_start (parser : jspp_t) (text : List Nat) (h : text.length ≤ 65535) :
      Run [] (jspp_start parser text).1 (jspp_start parser text).2
  | by_next (before : List Nat) (token : Nat) (parser : jspp_t)
      (h : Run before token parser) :
      Run (before ++ [token]) (jspp_next parser).1 (jspp_next parser).2
  | by_continue (before : List Nat) (token : Nat) (parser : jspp_t) (fuel : Nat)
      (text : List Nat) (r : Nat × jspp_t) (h : Run before token parser)
      (ht : text.length ≤ 65535) (e : jspp_continue fuel parser text = some r) :
      Run (before ++ [token]) r.1 r.2

/-! ## The dialect the scanner reads

The documents the parser takes for JSON, written after the grammar of RFC 8259
with the leniencies of the scanner: a number is a `-` or a digit, then digits,
after a `.` any digits, after `e` or `E` a sign or a digit and then digits (the
integer part may be a bare `-` or have leading zeros, the fraction and the
digits behind a sign may be empty); a string holds any byte but `"` and `\` and
any byte behind a `\`; any text may follow the root value. -/

/-- Digits only, none included. -/
def only_digits (ds : List Nat) : Bool := ds.all is_digit

/-- A number lexeme of the dialect. -/
def number_lexeme.lax (n : number_lexeme) : Bool :=
  only_digits n.int_digits && (n.minus || !n.int_digits.isEmpty)
    && (match n.fraction with
        | none => true
        | some f => only_digits f)
    && (match n.exponent with
        | none => true
        | some (m, s, d) =>
          (m == 69 || m == 101) && (s == [] || s == [43] || s == [45]) && only_digits d
            && !(s ++ d).isEmpty)

mutual
/-- The lexemes and the whitespace of a value are those of the dialect. -/
def json_value.lax : json_value → Bool
  | .lit_null => true
  | .lit_true => true
  | .lit_false => true
  | .number n => n.lax
  | .string body => body_well_formed body
  | .empty_array ws => all_space ws
  | .array ws elements => all_space ws && elements.lax
  | .empty_object ws => all_space ws
  | .object ws members => all_space ws && members.lax
def json_elements.lax : json_elements → Bool
  | .last v ws => v.lax && all_space ws
  | .more v ws1 ws2 rest => v.lax && all_space ws1 && all_space ws2 && rest.lax
def json_members.lax : json_members → Bool
  | .last name ws1 ws2 v ws3 =>
    body_well_formed name && all_space ws1 && all_space ws2 && v.lax && all_space ws3
  | .more name ws1 ws2 v ws3 ws4 rest =>
    body_well_formed name && all_space ws1 && all_space ws2 && v.lax && all_space ws3
      && all_space ws4 && rest.lax
end

/-- The text behind the root value: behind a number it does not begin with a
byte that goes on with the number. -/
def root_ends (v : json_value) (T : List Nat) : Prop :=
  ∀ n c rest, v = .number n → T = c :: rest → continues_number n.kind c = false

/-- A document of the dialect: whitespace, a value, any text. With `fit` the
value nests within the limit of the stack (`json_value.fits`). -/
def dialect_document (fit : Bool) (D : List Nat) : Prop :=
  ∃ ws v T, all_space ws = true ∧ v.lax = true ∧ (fit = true → v.fits 0 = true)
    ∧ root_ends v T ∧ D = ws ++ (v.render ++ T)

/-- The text begins a document of the dialect. -/
def begins_dialect (fit : Bool) (X : List Nat) : Prop :=
  ∃ Z, dialect_document fit (X ++ Z)

/-! ## Invariants and other notions the properties are stated with -/

/-- The transitions of `next_scan_state` as pairs (state, next state), the
lookahead left out; whitespace steps and steps to `JSON_INVALID` are apart. -/
def transitions : List (Nat × Nat) :=
  [ (EXPECTING_OBJECT_MEMBER_NAME_OR_END, JSON_OBJECT_END),
    (EXPECTING_OBJECT_MEMBER_NAME_OR_END, STRING_BEGIN),
    (EXPECTING_OBJECT_MEMBER_NAME, STRING_BEGIN),
    (EXPECTING_OBJECT_MEMBER_NAME_VALUE_SEPARATOR, EXPECTING_OBJECT_MEMBER_VALUE),
    (EXPECTING_OBJECT_TAIL, EXPECTING_OBJECT_MEMBER_NAME),
    (EXPECTING_OBJECT_TAIL, JSON_OBJECT_END),
    (EXPECTING_ARRAY_TAIL, EXPECTING_ARRAY_ELEMENT),
    (EXPECTING_ARRAY_TAIL, JSON_ARRAY_END),
    (EXPECTING_ARRAY_ELEMENT_OR_END, JSON_ARRAY_END),
    (EXPECTING_ARRAY_ELEMENT_OR_END, NULL_N), (EXPECTING_ARRAY_ELEMENT_OR_END, TRUE_T),
    (EXPECTING_ARRAY_ELEMENT_OR_END, FALSE_F), (EXPECTING_ARRAY_ELEMENT_OR_END, STRING_BEGIN),
    (EXPECTING_ARRAY_ELEMENT_OR_END, JSON_OBJECT_BEGIN),
    (EXPECTING_ARRAY_ELEMENT_OR_END, JSON_ARRAY_BEGIN),
    (EXPECTING_ARRAY_ELEMENT_OR_END, NUMBER_BEGIN),
    (EXPECTING_OBJECT_MEMBER_VALUE, NULL_N), (EXPECTING_OBJECT_MEMBER_VALUE, TRUE_T),
    (EXPECTING_OBJECT_MEMBER_VALUE, FALSE_F), (EXPECTING_OBJECT_MEMBER_VALUE, STRING_BEGIN),
    (EXPECTING_OBJECT_MEMBER_VALUE, JSON_OBJECT_BEGIN),
    (EXPECTING_OBJECT_MEMBER_VALUE, JSON_ARRAY_BEGIN),
    (EXPECTING_OBJECT_MEMBER_VALUE, NUMBER_BEGIN),
    (EXPECTING_ARRAY_ELEMENT, NULL_N), (EXPECTING_ARRAY_ELEMENT, TRUE_T),
    (EXPECTING_ARRAY_ELEMENT, FALSE_F), (EXPECTING_ARRAY_ELEMENT, STRING_BEGIN),
    (EXPECTING_ARRAY_ELEMENT, JSON_OBJECT_BEGIN), (EXPECTING_ARRAY_ELEMENT, JSON_ARRAY_BEGIN),
    (EXPECTING_ARRAY_ELEMENT, NUMBER_BEGIN),
    (EXPECTING_JSON, NULL_N), (EXPECTING_JSON, TRUE_T), (EXPECTING_JSON, FALSE_F),
    (EXPECTING_JSON, STRING_BEGIN), (EXPECTING_JSON, JSON_OBJECT_BEGIN),
    (EXPECTING_JSON, JSON_ARRAY_BEGIN), (EXPECTING_JSON, NUMBER_BEGIN),
    (NULL_N, NULL_U), (NULL_U, NULL_L), (NULL_L, JSON_NULL),
    (TRUE_T, TRUE_R), (TRUE_R, TRUE_U), (TRUE_U, JSON_TRUE),
    (FALSE_F, FALSE_A), (FALSE_A, FALSE_L), (FALSE_L, FALSE_S), (FALSE_S, JSON_FALSE),
    (NUMBER_BEGIN, INT_DIGITS), (NUMBER_BEGIN, DEC_DIGITS), (NUMBER_BEGIN, EXP),
    (NUMBER_BEGIN, JSON_INTEGER),
    (INT_DIGITS, INT_DIGITS), (INT_DIGITS, DEC_DIGITS), (INT_DIGITS, EXP),
    (INT_DIGITS, JSON_INTEGER),
    (DEC_DIGITS, DEC_DIGITS), (DEC_DIGITS, EXP), (DEC_DIGITS, JSON_DECIMAL),
    (EXP, EXP_DIGITS), (EXP_DIGITS, EXP_DIGITS), (EXP_DIGITS, JSON_FLOATING_POINT),
    (STRING_BEGIN, STRING_ESC), (STRING_BEGIN, JSON_STRING), (STRING_BEGIN, STRING_CHARS),
    (STRING_CHARS, STRING_ESC), (STRING_CHARS, JSON_STRING), (STRING_CHARS, STRING_CHARS),
    (STRING_ESC, STRING_CHARS) ]

/-- The final states the scanner automaton can reach: `JSON_INVALID` and the
complete tokens other than `JSON_MEMBER_NAME`. -/
def scan_token (state : Nat) : Prop :=
  state = JSON_INVALID ∨ (JSON_NULL ≤ state ∧ state ≤ JSON_STRING)
    ∨ (JSON_OBJECT_BEGIN ≤ state ∧ state ≤ JSON_ARRAY_END)

/-- Every step of the scanner automaton is a whitespace step in a parser
state, a step to `JSON_INVALID`, or listed in `transitions`. -/
def table_step (state r : Nat) : Prop :=
  (r = state ∧ __PARSER_STATES < state) ∨ r = JSON_INVALID ∨ (state, r) ∈ transitions

instance (s : Nat) : Decidable (scan_token s) := by unfold scan_token; infer_instance

/-- The offset `txt` at which `jspp_next` resumes scanning. -/
def scan_pos (parser : jspp_t) : Nat :=
  parser.token_start + parser.token_length + (if parser.token = JSON_STRING then 1 else 0)

/-- What the loop of `jspp_next` keeps and bounds. -/
def loop_post (p : jspp_t) (txt : Nat) : scan_result → Prop
  | .too_deep p1 =>
    p1.text = p.text ∧ p1.skip_token = p.skip_token ∧ p1.skip_level = p.skip_level
      ∧ p1.level = JSON_MAX_STACK
  | .stopped p1 state1 txt1 =>
    p1.text = p.text ∧ p1.skip_token = p.skip_token ∧ p1.skip_level = p.skip_level
      ∧ p1.level < JSON_MAX_STACK ∧ p.level ≤ p1.level
      ∧ p1.token_start ≤ txt1 ∧ txt ≤ txt1 ∧ txt1 ≤ p.text.length
      ∧ (is_final state1 = true → txt1 < p.text.length)
      ∧ (is_final state1 = false → txt1 = p.text.length)
      ∧ (is_final state1 = true → scan_token state1)

/-- The fragment fits `uint16_t` and, unless the parser is stuck above the depth
limit, the cursor lies inside it. -/
def well_bounded (p : jspp_t) : Prop :=
  p.text.length ≤ 65535 ∧ (p.level < JSON_MAX_STACK → scan_pos p ≤ p.text.length)

/-- The cases of one `jspp_next` call. -/
inductive next_case (p : jspp_t) : Prop where
  | dead (h : JSON_MAX_STACK ≤ p.level) (e : jspp_next p = (JSON_TOO_DEEP, p))
  | terminal (h : p.level < JSON_MAX_STACK) (hs : get_state p ≤ JSON_END)
      (e : jspp_next p = (get_state p, p))
  | at_end (h : p.level < JSON_MAX_STACK) (hs : JSON_END < get_state p)
      (hp : scan_pos p = p.text.length) (e : jspp_next p = (JSON_CONTINUE, p))
  | too_deep (p1 : jspp_t) (h : p.level < JSON_MAX_STACK) (hs : JSON_END < get_state p)
      (hp : scan_pos p < p.text.length)
      (hl : scan_loop p (get_state p) (scan_pos p) (p.text.drop (scan_pos p)) = .too_deep p1)
      (hpost : loop_post p (scan_pos p) (.too_deep p1))
      (e : jspp_next p = (JSON_TOO_DEEP, p1))
  | complete (p1 : jspp_t) (state1 txt1 : Nat) (h : p.level < JSON_MAX_STACK)
      (hs : JSON_END < get_state p) (hp : scan_pos p < p.text.length)
      (hl : scan_loop p (get_state p) (scan_pos p) (p.text.drop (scan_pos p))
        = .stopped p1 state1 txt1)
      (hpost : loop_post p (scan_pos p) (.stopped p1 state1 txt1))
      (hf : is_final state1 = true)
      (e : jspp_next p = complete_token p1 state1 txt1)
  | suspended (p1 : jspp_t) (state1 txt1 : Nat) (h : p.level < JSON_MAX_STACK)
      (hs : JSON_END < get_state p) (hp : scan_pos p < p.text.length)
      (hl : scan_loop p (get_state p) (scan_pos p) (p.text.drop (scan_pos p))
        = .stopped p1 state1 txt1)
      (hpost : loop_post p (scan_pos p) (.stopped p1 state1 txt1))
      (hf : is_final state1 = false)
      (e : jspp_next p = suspend_token p1 state1)

/-- The complete tokens whose last byte `set_token_end` counts in. -/
def ends_after (token : Nat) : Bool :=
  token = JSON_NULL || token = JSON_TRUE || token = JSON_FALSE || token = JSON_OBJECT_BEGIN
    || token = JSON_OBJECT_END || token = JSON_ARRAY_BEGIN || token = JSON_ARRAY_END

/-- The fragment is used up and the parser waits for the next one. -/
def at_fragment_end (p : jspp_t) : Prop :=
  p.level < JSON_MAX_STACK ∧ JSON_END < get_state p ∧ scan_pos p = p.text.length

/-- The bottom cell of the stack: it expects the root value until the root
value is complete, then it holds `JSON_END`; a parser whose level left the
stack is stuck. -/
def root_ok (p : jspp_t) : Prop :=
  JSON_MAX_STACK ≤ p.level ∨ p.stack 0 = EXPECTING_JSON
    ∨ (p.level = 0 ∧ p.stack 0 = JSON_END)

/-- What the loop of `jspp_next` does to the bottom cell. -/
def root_post : scan_result → Prop
  | .too_deep _ => True
  | .stopped p1 state1 _ =>
    p1.stack 0 = EXPECTING_JSON
      ∧ (p1.level = 0 → state1 = EXPECTING_JSON ∨ state1 = JSON_INVALID)

/-- What holds inside the public functions. -/
def core_inv (p : jspp_t) : Prop := well_bounded p ∧ root_ok p

/-- What holds between the calls of a caller; `token` is what the last call
returned. -/
def public_inv (token : Nat) (p : jspp_t) : Prop :=
  core_inv p ∧ (JSON_NULL ≤ token → p.level = 0 → p.stack 0 = JSON_END)
    ∧ (p.skip_token = JSON_ARRAY_END ∨ p.skip_token = JSON_OBJECT_END → at_fragment_end p)

/-- The root value is complete and no skip of a composite is pending. -/
def finished (q : jspp_t) : Prop :=
  q.level = 0 ∧ q.stack 0 = JSON_END
    ∧ ¬ (q.skip_token = JSON_ARRAY_END ∨ q.skip_token = JSON_OBJECT_END)

/-- The event of a completed token that is not an opener. -/
def reduce_event (state token : Nat) (acc : List Nat) : Event :=
  (if token = JSON_STRING ∧ is_string_a_member_name state then JSON_MEMBER_NAME else token,
    if is_text_token
      (if token = JSON_STRING ∧ is_string_a_member_name state then JSON_MEMBER_NAME else token)
    then acc else [])

/-- What follows a completed token: the state below is reduced; a terminal
state is reported at once. -/
def after_token (below : List Nat) (state : Nat) (input : List Nat) : List Event :=
  if next_parsing_state state ≤ JSON_END then [(next_parsing_state state, [])]
  else byte_run below (next_parsing_state state) [] input

/-- The loop invariant: the parser inside the loop of `jspp_next`, at offset
`txt` with scanner state `state`, against the byte-level configuration with
token text `acc`; `pend` is the text of the token reported with earlier
fragments. -/
structure loop_rel (p : jspp_t) (state txt : Nat) (rest pend acc : List Nat) : Prop where
  level_lt : p.level < JSON_MAX_STACK
  len : p.text.length ≤ 65535
  ts_le : p.token_start ≤ txt
  txt_le : txt ≤ p.text.length
  rest_eq : p.text.drop txt = rest
  root : p.stack 0 = EXPECTING_JSON
  root_state : p.level = 0 → state = EXPECTING_JSON
  stored : __PARSER_STATES ≤ state → p.stack p.level = state
  acc_in : in_token state = true →
    acc = pend ++ (p.text.drop p.token_start).take (txt - p.token_start)
  acc_out : in_token state = false → acc = [] ∧ pend = []

/-- A completed token against the byte-level run. -/
def token_sim (run : List Event) (pend B : List Nat) (r : Nat × jspp_t) : Prop :=
  (r.1 = JSON_INVALID ∧ run = [(JSON_INVALID, [])]) ∨
  (JSON_NULL ≤ r.1 ∧ r.2.level < JSON_MAX_STACK ∧
    run = (r.1, if is_text_token r.1 then pend ++ jspp_text r.2 else []) ::
      (if r.2.stack r.2.level ≤ JSON_END then [(r.2.stack r.2.level, [])]
       else byte_run (frames r.2.stack r.2.level) (r.2.stack r.2.level) []
          (r.2.text.drop (scan_pos r.2) ++ B)) ∧
    (JSON_END < r.2.stack r.2.level →
      r.2.stack 0 = EXPECTING_JSON ∧ in_token (r.2.stack r.2.level) = false))

/-- A suspended token against the byte-level run. -/
def suspend_sim (run : List Event) (pend B : List Nat) (r : Nat × jspp_t) (state1 : Nat) :
    Prop :=
  run = byte_run (frames r.2.stack r.2.level) state1
      (if in_token state1 then pend ++ jspp_text r.2 else []) B
    ∧ r.2.level < JSON_MAX_STACK ∧ r.2.stack r.2.level = state1
    ∧ r.2.stack 0 = EXPECTING_JSON ∧ (in_token state1 = false → pend = [])
    ∧ JSON_END < state1

/-- The outcome of the loop against the byte-level run. -/
def loop_sim (run : List Event) (pend B : List Nat) : scan_result → Prop
  | .too_deep _ => run = [(JSON_TOO_DEEP, [])]
  | .stopped p1 state1 txt1 =>
    if is_final state1 then token_sim run pend B (complete_token p1 state1 txt1)
    else suspend_sim run pend B (suspend_token p1 state1) state1

/-- The parser before a call of `jspp_next` in the caller's loop; `pend` is the
text that earlier `*_PART` tokens reported for the token in progress. -/
structure call_rel (q : jspp_t) (pend : List Nat) : Prop where
  level_lt : q.level < JSON_MAX_STACK
  bounded : well_bounded q
  state_gt : JSON_END < q.stack q.level
  root : q.stack 0 = EXPECTING_JSON
  pend_nil : in_token (q.stack q.level) = false → pend = []
  mid : in_token (q.stack q.level) = true → scan_pos q = q.token_start
  no_skip : q.skip_token = 0

/-- Calls that the caller's loop still makes at most. -/
def drive_measure (q : jspp_t) (rest : List (List Nat)) : Nat :=
  2 * (q.text.length - scan_pos q + rest.flatten.length) + rest.length
    + (if in_token (q.stack q.level) then 1 else 0) + 2

/-- The numbers, strings and member names of a run. -/
def text_tokens (events : List Event) : List Event :=
  events.filter fun e => is_text_token e.1

/-- The state of a number after one more digit. -/
def digit_target (s : Nat) : Nat :=
  if s = NUMBER_BEGIN ∨ s = INT_DIGITS then INT_DIGITS
  else if s = DEC_DIGITS then DEC_DIGITS else EXP_DIGITS

/-- The states a number of the given kind is left in by its last byte. -/
def number_state (kind s : Nat) : Prop :=
  (kind = JSON_INTEGER ∧ (s = NUMBER_BEGIN ∨ s = INT_DIGITS))
    ∨ (kind = JSON_DECIMAL ∧ s = DEC_DIGITS) ∨ (kind = JSON_FLOATING_POINT ∧ s = EXP_DIGITS)

/-- The states in which a value may begin. -/
def value_state (st : Nat) : Prop :=
  st = EXPECTING_JSON ∨ st = EXPECTING_ARRAY_ELEMENT_OR_END ∨ st = EXPECTING_ARRAY_ELEMENT
    ∨ st = EXPECTING_OBJECT_MEMBER_VALUE

/-- The states in which a string may begin: a value or a member name. -/
def string_state (st : Nat) : Prop :=
  value_state st ∨ st = EXPECTING_OBJECT_MEMBER_NAME_OR_END ∨ st = EXPECTING_OBJECT_MEMBER_NAME

/-- The outcome of the loop with the hints set. -/
def scan_result.with_skip (a b : Nat) : scan_result → scan_result
  | .too_deep p => .too_deep (Jspp.with_skip p a b)
  | .stopped p state txt => .stopped (Jspp.with_skip p a b) state txt

/-- The result `r` of a public function is the result of a call of `jspp_next`,
the hints of the skip engine aside; when the skip engine turns a
`JSON_MEMBER_NAME_PART` into `JSON_CONTINUE` the token differs. -/
def from_next (r : Nat × jspp_t) : Prop :=
  ∃ q a b, core_inv q ∧ r.2 = with_skip (jspp_next q).2 a b
    ∧ (r.1 = (jspp_next q).1
        ∨ (r.1 = JSON_CONTINUE ∧ JSON_CONTINUE ≤ (jspp_next q).1
            ∧ (jspp_next q).1 ≤ JSON_MEMBER_NAME_PART))

/-- A run that ends with `JSON_TOO_DEEP` after complete tokens. -/
def deep_run (run : List Event) : Prop :=
  ∃ evs, run = evs ++ [(JSON_TOO_DEEP, [])] ∧ ∀ e ∈ evs, JSON_END < e.1

/-- What the loop does to the level, by the state it starts in and the token
it completes. -/
def level_post (p : jspp_t) (state : Nat) : scan_result → Prop
  | .too_deep _ => True
  | .stopped p1 s1 _ =>
    is_final s1 = true → s1 ≠ JSON_INVALID →
      if state < __PARSER_STATES then p1.level = p.level ∧ is_value_token s1 = true
      else (p1.level = p.level + 1
              ∧ (is_value_token s1 = true ∨ is_nested_level_start s1 = true))
          ∨ (p1.level = p.level ∧ (s1 = JSON_ARRAY_END ∨ s1 = JSON_OBJECT_END))

/-- The parser between two calls, with the byte-level run `R` of what is left
of the fragment: the tokens the next calls will return. -/
structure at_run (q : jspp_t) (R : List Event) : Prop where
  level_lt : q.level < JSON_MAX_STACK
  bounded : well_bounded q
  root : JSON_END < q.stack q.level → q.stack 0 = EXPECTING_JSON
  parser_state : JSON_END < q.stack q.level → __PARSER_STATES ≤ q.stack q.level
  run : R = if q.stack q.level ≤ JSON_END then [(q.stack q.level, [])]
    else byte_run (frames q.stack q.level) (q.stack q.level) [] (q.text.drop (scan_pos q))

/-- A step of the scanner that begins a token or a nested level is a step on a
byte a value may begin with, and it begins a string on the byte `"` only. -/
def begins (c r : Nat) : Prop :=
  (is_token_start r || is_nested_level_start r) = true →
    starts_value c = true ∧ (r = STRING_BEGIN ↔ c = 34)

/-- The cell on top of the stack never holds `JSON_TOO_DEEP`. -/
def top_ok (q : jspp_t) : Prop := q.level < JSON_MAX_STACK → get_state q ≠ JSON_TOO_DEEP

/-- The scanner states inside a string. -/
def in_string (s : Nat) : Prop := STRING_BEGIN ≤ s ∧ s < __STRING_END

/-- The parser inside `k` arrays that hold nothing but arrays: `top` is the
state on top of the stack, `j` the offset of the next byte, `rest` the bytes
from there on. -/
structure in_arrays (q : jspp_t) (k top j : Nat) (rest : List Nat) : Prop where
  level : q.level = k
  lt : k < JSON_MAX_STACK
  top_eq : q.stack k = top
  root : 0 < k → q.stack 0 = EXPECTING_JSON
  cells : ∀ i, 0 < i → i < k → q.stack i = EXPECTING_ARRAY_ELEMENT_OR_END
  pos : scan_pos q = j
  rest_eq : q.text.drop j = rest

/-- The state on top of the stack where the next array may begin. -/
def open_top (k : Nat) : Nat :=
  if k = 0 then EXPECTING_JSON else EXPECTING_ARRAY_ELEMENT_OR_END

/-- The state on top of the stack after a `]`. -/
def close_top (k : Nat) : Nat := if k = 0 then JSON_END else EXPECTING_ARRAY_TAIL

/-- The parser with another stack. -/
def with_stack (p : jspp_t) (stack : Nat → Nat) : jspp_t := { p with stack := stack }

/-- The two stacks agree below the cell `n`. -/
def agree (n : Nat) (s u : Nat → Nat) : Prop := ∀ i, i < n → s i = u i

/-- Two parsers that differ at most in the cells of the stack above the
level. -/
def alike (p q : jspp_t) : Prop :=
  ∃ u, q = with_stack p u ∧ (p.level < JSON_MAX_STACK → agree (p.level + 1) p.stack u)

/-- Two outcomes of the loop of `jspp_next` that differ at most in the cells
of the stack at the level and above. -/
def same_result : scan_result → scan_result → Prop
  | .too_deep a, .too_deep b => a.level = JSON_MAX_STACK ∧ ∃ u, b = with_stack a u
  | .stopped a s t, .stopped b s1 t1 =>
    s1 = s ∧ t1 = t ∧ a.level < JSON_MAX_STACK ∧ ∃ u, b = with_stack a u ∧ agree a.level a.stack u
  | _, _ => False

/-- Two outcomes of a call that may not return. -/
def same_outcome : Option (Nat × jspp_t) → Option (Nat × jspp_t) → Prop
  | none, none => True
  | some r, some r1 => r1.1 = r.1 ∧ alike r.2 r1.2
  | _, _ => False

/-- The parser on the fragment with `W` in front of it: the text is longer and
`token_start` is `ts`, the other fields are the same. -/
def moved (W : List Nat) (ts : Nat) (p : jspp_t) : jspp_t :=
  { p with text := W ++ p.text, token_start := ts }

/-- Two outcomes of the loop of `jspp_next`, the second one on the fragment
with `W` in front: the offsets are moved by the length of `W`, and so is
`token_start` unless no token has begun in the loop. -/
def moved_result (W : List Nat) (ts : Nat) (p : jspp_t) : scan_result → scan_result → Prop
  | .too_deep a, .too_deep b => b = moved W (a.token_start + W.length) a
  | .stopped a s t, .stopped b s1 t1 =>
    s1 = s ∧ t1 = t + W.length
      ∧ (b = moved W (a.token_start + W.length) a
        ∨ (b = moved W ts a ∧ a.token_start = p.token_start ∧ a.level = p.level))
  | _, _ => False

/-- The two runs between two calls once a token has begun: the parser of the
run on the longer fragment is the other one with the text and `token_start`
moved. -/
def started (W : List Nat) (p q : jspp_t) : Prop :=
  q = moved W (p.token_start + W.length) p ∧ well_bounded p
    ∧ p.text.length + W.length ≤ 65535

/-- The two runs when no token has begun in the first call: every further call
of `jspp_next` returns the same token in both and changes nothing. -/
def stuck (p q : jspp_t) : Prop := ∃ tok, jspp_next p = (tok, p) ∧ jspp_next q = (tok, q)

/-- An open container with the tokens of what is complete in it: an array
with its elements, an object with its members where a name or the end is
expected, an object behind one more member name. -/
inductive frame where
  | arr (vs : List Nat)
  | obj (ms : List Nat)
  | named (ms : List Nat)

/-- The kind of a container or of a state: 1 for the root, 2 for an array, 3
for an object where a name is expected, 4 for an object behind a name, 0 for
none. -/
def frame.kind : frame → Nat
  | .arr _ => 2
  | .obj _ => 3
  | .named _ => 4

/-- The tokens returned inside an open container, its opener first. -/
def frame.tokens : frame → List Nat
  | .arr vs => JSON_ARRAY_BEGIN :: vs
  | .obj ms => JSON_OBJECT_BEGIN :: ms
  | .named ms => JSON_OBJECT_BEGIN :: (ms ++ [JSON_MEMBER_NAME])

/-- What is complete in the container obeys the grammar and is balanced. -/
def frame.well_formed : frame → Prop
  | .arr vs => token_values vs ∧ count_opens vs = count_closes vs
  | .obj ms => token_members ms ∧ count_opens ms = count_closes ms
  | .named ms => token_members ms ∧ count_opens ms = count_closes ms

/-- The tokens returned so far, for the open containers, the innermost
first. -/
def context_tokens : List frame → List Nat
  | [] => []
  | f :: F => context_tokens F ++ f.tokens

/-- The container a parser state belongs to. -/
def top_kind (state : Nat) : Nat :=
  if state = EXPECTING_JSON then 1
  else if state = EXPECTING_ARRAY_ELEMENT_OR_END ∨ state = EXPECTING_ARRAY_ELEMENT
      ∨ state = EXPECTING_ARRAY_TAIL then 2
  else if state = EXPECTING_OBJECT_MEMBER_NAME_OR_END ∨ state = EXPECTING_OBJECT_MEMBER_NAME
      ∨ state = EXPECTING_OBJECT_TAIL then 3
  else if state = EXPECTING_OBJECT_MEMBER_NAME_VALUE_SEPARATOR
      ∨ state = EXPECTING_OBJECT_MEMBER_VALUE then 4
  else 0

/-- The cells below an open container, the nearest first, against the
containers around it: each cell expects a value in its container, the last one
is the cell of the root. -/
def below_ok : List Nat → List frame → Prop
  | [], _ => False
  | c :: B, [] => B = [] ∧ c = EXPECTING_JSON
  | c :: B, f :: F => reducing c ∧ top_kind c = f.kind ∧ f.kind ≠ 3 ∧ below_ok B F

/-- Between two tokens: the state on top of the stack belongs to the innermost
open container. -/
def idle_ok (state : Nat) (B : List Nat) : List frame → Prop
  | [] => B = [] ∧ state = EXPECTING_JSON
  | f :: F => top_kind state = f.kind ∧ below_ok B F

/-- The scanner states and tokens of a string. -/
def stringy (s : Nat) : Prop := (STRING_BEGIN ≤ s ∧ s < __STRING_END) ∨ s = JSON_STRING

/-- Inside a literal, a number or a string: the cell below the top is the
state the token has begun in, and where that state expects a member name the
token is a string. -/
def scalar_ok (s : Nat) : List Nat → List frame → Prop
  | [], _ => False
  | c :: B, [] => B = [] ∧ c = EXPECTING_JSON
  | c :: B, f :: F => reducing c ∧ top_kind c = f.kind ∧ (f.kind = 3 → stringy s) ∧ below_ok B F

/-- The parser in the loop of `jspp_next`, in state `state`, in the open
containers `F`. -/
def in_loop (F : List frame) (p : jspp_t) (state : Nat) : Prop :=
  if is_final state then
    (is_nested_level_start state = true → below_ok (frames p.stack p.level) F)
      ∧ (is_value_token state = true → scalar_ok state (frames p.stack p.level) F)
      ∧ (state = JSON_ARRAY_END → ∃ vs G, F = .arr vs :: G ∧ below_ok (frames p.stack p.level) G)
      ∧ (state = JSON_OBJECT_END →
          ∃ ms G, F = .obj ms :: G ∧ below_ok (frames p.stack p.level) G)
  else if __PARSER_STATES ≤ state then
    p.stack p.level = state ∧ idle_ok state (frames p.stack p.level) F
  else scalar_ok state (frames p.stack p.level) F

/-- What the loop of `jspp_next` leaves of the containers. -/
def loop_ctx (F : List frame) : scan_result → Prop
  | .too_deep _ => True
  | .stopped p1 s1 _ => p1.level < JSON_MAX_STACK ∧ in_loop F p1 s1

/-- The innermost container after one more value in it. -/
def attach : frame → List Nat → frame
  | .arr vs, v => .arr (vs ++ v)
  | .obj ms, _ => .obj ms
  | .named ms, v => .obj (ms ++ JSON_MEMBER_NAME :: v)

/-- Between two calls: the tokens returned so far are one value and the parser
is at the root in `JSON_END`, or they are the tokens of the open containers
the stack describes. -/
def parsing (T : List Nat) (q : jspp_t) : Prop :=
  q.level < JSON_MAX_STACK ∧
    ((token_value T ∧ count_opens T = count_closes T ∧ q.level = 0 ∧ q.stack 0 = JSON_END)
      ∨ ∃ F : List frame, (∀ f ∈ F, f.well_formed) ∧ T = context_tokens F
          ∧ is_final (q.stack q.level) = false ∧ in_loop F q (q.stack q.level))

/-- Every cell below the level holds a state that `next_parsing_state` has a
case for. -/
def cells_reducing (stack : Nat → Nat) (level : Nat) : Prop := ∀ i, i < level → reducing (stack i)

/-- What the loop of `jspp_next` keeps of the cells below the level. -/
def cells_post : scan_result → Prop
  | .too_deep _ => True
  | .stopped p1 _ _ => cells_reducing p1.stack p1.level

/-- How a call of `jspp_next` comes to the bytes of a string: `lead` are the
bytes it scans before them, `below` is the state one level below the string
and `s0` the state of the scanner in front of them. Either the string begins
in this call: `lead` is a run of bytes between two tokens and the opening
quote, `below` is the state the scanner is in at the quote and `s0` is
`STRING_BEGIN`; or the call resumes inside a string: `lead` is empty, `s0` is the
state stored on top of the stack and `below` the cell under it. -/
def string_entry (p : jspp_t) (lead : List Nat) (below s0 : Nat) : Prop :=
  (∃ sep, lead = sep ++ [34] ∧ between (get_state p) sep = true
      ∧ string_state (scan_states (get_state p) sep)
      ∧ below = scan_states (get_state p) sep ∧ s0 = STRING_BEGIN)
    ∨ (lead = [] ∧ (STRING_BEGIN ≤ get_state p ∧ get_state p < __STRING_END)
      ∧ below = get_state (dec_level p) ∧ s0 = get_state p)

/-- Behind a number the text goes on with a byte that does not continue it. -/
def number_ends (v : json_value) (input : List Nat) : Prop :=
  ∀ n, v = .number n → ∃ d rest, input = d :: rest ∧ continues_number n.kind d = false

/-- The rest of a number of kind `kind` when the scanner is in state `s`. -/
def number_tail (s kind : Nat) (R : List Nat) : Prop :=
  ((s = NUMBER_BEGIN ∨ s = INT_DIGITS) ∧ ∃ ds fr ex,
      (number_lexeme.mk true ds fr ex).lax = true
        ∧ R = ds ++ (number_lexeme.mk true ds fr ex).suffix
        ∧ kind = (number_lexeme.mk true ds fr ex).kind)
    ∨ (s = DEC_DIGITS ∧ ∃ f ex,
      (number_lexeme.mk true [] (some f) ex).lax = true
        ∧ R = f ++ (number_lexeme.mk true [] none ex).suffix
        ∧ kind = (number_lexeme.mk true [] (some f) ex).kind)
    ∨ (s = EXP ∧ ∃ sg d,
      (number_lexeme.mk true [] none (some (101, sg, d))).lax = true ∧ R = sg ++ d
        ∧ kind = JSON_FLOATING_POINT)
    ∨ (s = EXP_DIGITS ∧ only_digits R = true ∧ kind = JSON_FLOATING_POINT)

/-- The rest of a string with its closing quote when the scanner is in state
`s`. -/
def string_tail (s : Nat) (R : List Nat) : Prop :=
  ((s = STRING_BEGIN ∨ s = STRING_CHARS) ∧ ∃ body, body_well_formed body = true
      ∧ R = body_bytes body ++ [34])
    ∨ (s = STRING_ESC ∧ ∃ x body, body_well_formed body = true
      ∧ R = x :: (body_bytes body ++ [34]))

/-- The rest of a container from the parser state `s` inside it, whitespace
first left out; `after` is what may follow the container. -/
def level_core (after : List Nat → Prop) (s : Nat) (Y : List Nat) : Prop :=
  ((s = EXPECTING_ARRAY_ELEMENT_OR_END ∨ s = EXPECTING_ARRAY_TAIL)
      ∧ ∃ Z, Y = 93 :: Z ∧ after Z)
    ∨ ((s = EXPECTING_ARRAY_ELEMENT_OR_END ∨ s = EXPECTING_ARRAY_ELEMENT)
      ∧ ∃ es Z, json_elements.lax es = true ∧ Y = es.render ++ 93 :: Z ∧ after Z)
    ∨ (s = EXPECTING_ARRAY_TAIL
      ∧ ∃ ws es Z, all_space ws = true ∧ json_elements.lax es = true
        ∧ Y = 44 :: (ws ++ (es.render ++ 93 :: Z)) ∧ after Z)
    ∨ ((s = EXPECTING_OBJECT_MEMBER_NAME_OR_END ∨ s = EXPECTING_OBJECT_TAIL)
      ∧ ∃ Z, Y = 125 :: Z ∧ after Z)
    ∨ ((s = EXPECTING_OBJECT_MEMBER_NAME_OR_END ∨ s = EXPECTING_OBJECT_MEMBER_NAME)
      ∧ ∃ ms Z, json_members.lax ms = true ∧ Y = ms.render ++ 125 :: Z ∧ after Z)
    ∨ (s = EXPECTING_OBJECT_TAIL
      ∧ ∃ ws ms Z, all_space ws = true ∧ json_members.lax ms = true
        ∧ Y = 44 :: (ws ++ (ms.render ++ 125 :: Z)) ∧ after Z)
    ∨ (s = EXPECTING_OBJECT_MEMBER_VALUE
      ∧ ∃ v ws3 Y1, json_value.lax v = true ∧ all_space ws3 = true
        ∧ Y = v.render ++ (ws3 ++ Y1)
        ∧ ((∃ Z, Y1 = 125 :: Z ∧ after Z)
          ∨ ∃ ws4 ms Z, all_space ws4 = true ∧ json_members.lax ms = true
            ∧ Y1 = 44 :: (ws4 ++ (ms.render ++ 125 :: Z)) ∧ after Z))
    ∨ (s = EXPECTING_OBJECT_MEMBER_NAME_VALUE_SEPARATOR
      ∧ ∃ ws2 v ws3 Y1, all_space ws2 = true ∧ json_value.lax v = true ∧ all_space ws3 = true
        ∧ Y = 58 :: (ws2 ++ (v.render ++ (ws3 ++ Y1)))
        ∧ ((∃ Z, Y1 = 125 :: Z ∧ after Z)
          ∨ ∃ ws4 ms Z, all_space ws4 = true ∧ json_members.lax ms = true
            ∧ Y1 = 44 :: (ws4 ++ (ms.render ++ 125 :: Z)) ∧ after Z))

/-- The texts `Z` that complete the text read so far to a document of the
dialect, for the configuration of `byte_run` with the states `below` and the
state `s` on top: the rest of the token or of the container in progress, then
what may follow in the state below. -/
def tail_ok : List Nat → Nat → List Nat → Prop
  | [], s, Z => s = EXPECTING_JSON ∧ dialect_document false Z
  | p :: b, s, Z =>
    (∃ R Z1, ((s, R) ∈ spellings ∨ string_tail s R) ∧ Z = R ++ Z1
        ∧ ((p = EXPECTING_JSON ∧ b = []) ∨ tail_ok b (next_parsing_state p) Z1))
      ∨ (∃ kind R Z1, number_tail s kind R ∧ Z = R ++ Z1
        ∧ ((p = EXPECTING_JSON ∧ b = []
            ∧ ∀ c rest, Z1 = c :: rest → continues_number kind c = false)
          ∨ tail_ok b (next_parsing_state p) Z1))
      ∨ (∃ ws Y, all_space ws = true ∧ Z = ws ++ Y
        ∧ level_core (fun Z1 => (p = EXPECTING_JSON ∧ b = []) ∨ tail_ok b (next_parsing_state p) Z1)
            s Y)

/-- What may follow a token or a container begun in state `p` above `b`. -/
def rest_ok (p : Nat) (b : List Nat) (Z : List Nat) : Prop :=
  (p = EXPECTING_JSON ∧ b = []) ∨ tail_ok b (next_parsing_state p) Z

/-- The parser states inside a container. -/
def container_state (s : Nat) : Prop :=
  s = EXPECTING_ARRAY_ELEMENT_OR_END ∨ s = EXPECTING_ARRAY_ELEMENT ∨ s = EXPECTING_ARRAY_TAIL
    ∨ s = EXPECTING_OBJECT_MEMBER_NAME_OR_END ∨ s = EXPECTING_OBJECT_MEMBER_NAME
    ∨ s = EXPECTING_OBJECT_MEMBER_NAME_VALUE_SEPARATOR ∨ s = EXPECTING_OBJECT_MEMBER_VALUE
    ∨ s = EXPECTING_OBJECT_TAIL

/-- The states below a parser state `s`: each is the state in which the
container above it began, the lowest `EXPECTING_JSON`. -/
def chain_ok : List Nat → Nat → Prop
  | [], s => s = EXPECTING_JSON
  | p :: b, s => container_state s ∧ value_state p ∧ chain_ok b p

/-- The scanner states inside a token. -/
def token_state (p s : Nat) : Prop :=
  (value_state p ∧ ((∃ R, (s, R) ∈ spellings)
      ∨ s = NUMBER_BEGIN ∨ s = INT_DIGITS ∨ s = DEC_DIGITS ∨ s = EXP ∨ s = EXP_DIGITS))
    ∨ (string_state p ∧ (s = STRING_BEGIN ∨ s = STRING_CHARS ∨ s = STRING_ESC))

/-- The configurations of `byte_run`: between tokens, or inside a token begun
in a state between tokens. -/
def config_ok (b : List Nat) (s : Nat) : Prop :=
  chain_ok b s ∨ ∃ p b1, b = p :: b1 ∧ chain_ok b1 p ∧ token_state p s

/-- What one byte does: the run goes on in a configuration whose completions,
with the byte in front, complete the text before the byte; or it stops, with
`JSON_INVALID`, or with the byte in front of a completion (of any text, unless
the stack is full). -/
def step_ok (b : List Nat) (s c : Nat) : byte_result → Prop
  | .go _ b1 s1 _ => config_ok b1 s1 ∧ ∀ Z, tail_ok b1 s1 Z → tail_ok b s (c :: Z)
  | .halt ev => JSON_INVALID ∈ ev.map Prod.fst
      ∨ ((∃ Z, tail_ok b s (c :: Z))
        ∧ (JSON_TOO_DEEP ∉ ev.map Prod.fst → ∀ Z, tail_ok b s (c :: Z)))

/-- No `JSON_INVALID` among the events. -/
def clean (events : List Event) : Prop := JSON_INVALID ∉ events.map Prod.fst

/-! ## Properties -/

theorem table_ite (state : Nat) (c : Prop) [Decidable c] (a b : Nat)
    (ha : c → table_step state a) (hb : ¬ c → table_step state b) :
    table_step state (if c then a else b) := by
  by_cases h : c
  · rw [if_pos h]; exact ha h
  · rw [if_neg h]; exact hb h

theorem next_scan_state_table (state c : Nat) : table_step state (next_scan_state state c) := by
  unfold next_scan_state scan_value
  repeat' (apply table_ite <;> intro hc)
  all_goals unfold table_step
  all_goals first
    | exact Or.inr (Or.inl rfl)
    | exact Or.inl ⟨rfl, hc.1⟩
    | (subst_vars; decide)
    | (rcases ‹state = _ ∨ _› with rfl | rfl | rfl <;> decide)

theorem next_scan_state_final (state c : Nat) (h : is_final (next_scan_state state c) = true) :
    scan_token (next_scan_state state c) := by
  rcases next_scan_state_table state c with ⟨h1, h2⟩ | h1 | h1
  · rw [h1] at h; simp [is_final] at h h2; omega
  · rw [h1]; decide
  · exact (by decide : ∀ x ∈ transitions, is_final x.2 = true → scan_token x.2) _ h1 h

section basic

@[simp] theorem stack_write_text (p : jspp_t) (i s : Nat) : (stack_write p i s).text = p.text := by
  unfold stack_write; split <;> rfl

@[simp] theorem stack_write_token_start (p : jspp_t) (i s : Nat) :
    (stack_write p i s).token_start = p.token_start := by
  unfold stack_write; split <;> rfl

@[simp] theorem stack_write_token_length (p : jspp_t) (i s : Nat) :
    (stack_write p i s).token_length = p.token_length := by
  unfold stack_write; split <;> rfl

@[simp] theorem stack_write_token (p : jspp_t) (i s : Nat) : (stack_write p i s).token = p.token := by
  unfold stack_write; split <;> rfl

@[simp] theorem stack_write_skip_token (p : jspp_t) (i s : Nat) :
    (stack_write p i s).skip_token = p.skip_token := by
  unfold stack_write; split <;> rfl

@[simp] theorem stack_write_skip_level (p : jspp_t) (i s : Nat) :
    (stack_write p i s).skip_level = p.skip_level := by
  unfold stack_write; split <;> rfl

@[simp] theorem stack_write_level (p : jspp_t) (i s : Nat) : (stack_write p i s).level = p.level := by
  unfold stack_write; split <;> rfl

theorem stack_write_stack (p : jspp_t) (i s j : Nat) (hi : i < JSON_MAX_STACK) :
    (stack_write p i s).stack j = if j = i then s else p.stack j := by
  unfold stack_write; rw [if_pos hi]

theorem stack_read_write (p : jspp_t) (i s j : Nat) (hi : i < JSON_MAX_STACK) :
    stack_read (stack_write p i s) j = if j = i then s else stack_read p j := by
  unfold stack_read
  rw [stack_write_stack p i s j hi]
  by_cases hj : j = i
  · subst hj; simp [hi]
  · simp [hj]

@[simp] theorem set_state_text (p : jspp_t) (s : Nat) : (set_state p s).text = p.text := by
  simp [set_state]

@[simp] theorem set_state_token_start (p : jspp_t) (s : Nat) :
    (set_state p s).token_start = p.token_start := by simp [set_state]

@[simp] theorem set_state_token_length (p : jspp_t) (s : Nat) :
    (set_state p s).token_length = p.token_length := by simp [set_state]

@[simp] theorem set_state_token (p : jspp_t) (s : Nat) : (set_state p s).token = p.token := by
  simp [set_state]

@[simp] theorem set_state_skip_token (p : jspp_t) (s : Nat) :
    (set_state p s).skip_token = p.skip_token := by simp [set_state]

@[simp] theorem set_state_skip_level (p : jspp_t) (s : Nat) :
    (set_state p s).skip_level = p.skip_level := by simp [set_state]

@[simp] theorem set_state_level (p : jspp_t) (s : Nat) : (set_state p s).level = p.level := by
  simp [set_state]

@[simp] theorem inc_level_text (p : jspp_t) : (inc_level p).text = p.text := rfl

@[simp] theorem inc_level_token_start (p : jspp_t) : (inc_level p).token_start = p.token_start := rfl

@[simp] theorem inc_level_token_length (p : jspp_t) :
    (inc_level p).token_length = p.token_length := rfl

@[simp] theorem inc_level_token (p : jspp_t) : (inc_level p).token = p.token := rfl

@[simp] theorem inc_level_skip_token (p : jspp_t) : (inc_level p).skip_token = p.skip_token := rfl

@[simp] theorem inc_level_skip_level (p : jspp_t) : (inc_level p).skip_level = p.skip_level := rfl

@[simp] theorem inc_level_stack (p : jspp_t) : (inc_level p).stack = p.stack := rfl

theorem inc_level_level (p : jspp_t) (h : p.level < JSON_MAX_STACK) :
    (inc_level p).level = p.level + 1 := by
  simp only [inc_level]; apply Nat.mod_eq_of_lt; simp only [JSON_MAX_STACK] at h; omega

@[simp] theorem dec_level_text (p : jspp_t) : (dec_level p).text = p.text := rfl

@[simp] theorem dec_level_token_start (p : jspp_t) : (dec_level p).token_start = p.token_start := rfl

@[simp] theorem dec_level_token_length (p : jspp_t) :
    (dec_level p).token_length = p.token_length := rfl

@[simp] theorem dec_level_token (p : jspp_t) : (dec_level p).token = p.token := rfl

@[simp] theorem dec_level_skip_token (p : jspp_t) : (dec_level p).skip_token = p.skip_token := rfl

@[simp] theorem dec_level_skip_level (p : jspp_t) : (dec_level p).skip_level = p.skip_level := rfl

@[simp] theorem dec_level_stack (p : jspp_t) : (dec_level p).stack = p.stack := rfl

theorem dec_level_level (p : jspp_t) (h0 : 0 < p.level) (h : p.level < 256) :
    (dec_level p).level = p.level - 1 := by
  simp only [dec_level]; omega

@[simp] theorem set_token_start_text (p : jspp_t) (s t : Nat) :
    (set_token_start p s t).text = p.text := rfl

@[simp] theorem set_token_start_token_length (p : jspp_t) (s t : Nat) :
    (set_token_start p s t).token_length = p.token_length := rfl

@[simp] theorem set_token_start_token (p : jspp_t) (s t : Nat) :
    (set_token_start p s t).token = p.token := rfl

@[simp] theorem set_token_start_skip_token (p : jspp_t) (s t : Nat) :
    (set_token_start p s t).skip_token = p.skip_token := rfl

@[simp] theorem set_token_start_skip_level (p : jspp_t) (s t : Nat) :
    (set_token_start p s t).skip_level = p.skip_level := rfl

@[simp] theorem set_token_start_level (p : jspp_t) (s t : Nat) :
    (set_token_start p s t).level = p.level := rfl

@[simp] theorem set_token_start_stack (p : jspp_t) (s t : Nat) :
    (set_token_start p s t).stack = p.stack := rfl

@[simp] theorem set_token_end_text (p : jspp_t) (s t : Nat) :
    (set_token_end p s t).text = p.text := rfl

@[simp] theorem set_token_end_token_start (p : jspp_t) (s t : Nat) :
    (set_token_end p s t).token_start = p.token_start := rfl

@[simp] theorem set_token_end_token (p : jspp_t) (s t : Nat) :
    (set_token_end p s t).token = s := rfl

@[simp] theorem set_token_end_skip_token (p : jspp_t) (s t : Nat) :
    (set_token_end p s t).skip_token = p.skip_token := rfl

@[simp] theorem set_token_end_skip_level (p : jspp_t) (s t : Nat) :
    (set_token_end p s t).skip_level = p.skip_level := rfl

@[simp] theorem set_token_end_level (p : jspp_t) (s t : Nat) :
    (set_token_end p s t).level = p.level := rfl

@[simp] theorem set_token_end_stack (p : jspp_t) (s t : Nat) :
    (set_token_end p s t).stack = p.stack := rfl

end basic

theorem loop_post_mono (p q : jspp_t) (txt : Nat) (r : scan_result)
    (h1 : q.text = p.text) (h2 : q.skip_token = p.skip_token) (h3 : q.skip_level = p.skip_level)
    (h4 : p.level ≤ q.level) (h : loop_post q (txt + 1) r) : loop_post p txt r := by
  cases r with
  | too_deep p1 =>
    dsimp only [loop_post] at h ⊢
    rw [← h1, ← h2, ← h3]; exact h
  | stopped p1 s1 t1 =>
    dsimp only [loop_post] at h ⊢
    rw [← h1, ← h2, ← h3]
    obtain ⟨a1, a2, a3, a4, a5, a6, a7, a8, a9, a10, a11⟩ := h
    exact ⟨a1, a2, a3, a4, by omega, a6, by omega, a8, a9, a10, a11⟩

theorem scan_loop_post (rest : List Nat) : ∀ (p : jspp_t) (state txt : Nat),
    p.token_start ≤ txt → txt + rest.length = p.text.length → p.text.length ≤ 65535 →
    p.level < JSON_MAX_STACK → rest ≠ [] ∨ is_final state = false →
    loop_post p txt (scan_loop p state txt rest) := by
  induction rest with
  | nil =>
    intro p state txt h1 h2 h3 h4 h5
    have hf : is_final state = false := by
      rcases h5 with h5 | h5
      · exact absurd rfl h5
      · exact h5
    dsimp only [scan_loop, loop_post]
    simp at h2
    refine ⟨rfl, rfl, rfl, h4, le_refl _, h1, le_refl _, by omega, ?_, ?_, ?_⟩
    · intro h; rw [hf] at h; exact absurd h (by simp)
    · intro _; omega
    · intro h; rw [hf] at h; exact absurd h (by simp)
  | cons c rest ih =>
    intro p state txt h1 h2 h3 h4 _
    simp only [List.length_cons] at h2
    have htxt : txt % 65536 = txt := Nat.mod_eq_of_lt (by omega)
    have hts : (set_token_start p (next_scan_state state c) txt).token_start ≤ txt + 1 := by
      simp only [set_token_start]
      split
      · rw [htxt]; exact Nat.mod_le _ _
      · omega
    have hl := inc_level_level (set_token_start p (next_scan_state state c) txt) h4
    simp only [set_token_start_level] at hl
    simp only [scan_loop]
    split
    · -- a token or a nested level starts
      split
      · dsimp only [loop_post]
        refine ⟨rfl, rfl, rfl, ?_⟩
        assumption
      · rename_i hlev
        rw [hl] at hlev
        split
        · rename_i hfin
          dsimp only [loop_post]
          rw [hl]
          have hnot : ¬ next_scan_state state c = STRING_BEGIN := by
            intro h; rw [h] at hfin; revert hfin; decide
          simp only [inc_level_token_start, set_token_start, if_neg hnot]
          refine ⟨rfl, rfl, rfl, by simp only [JSON_MAX_STACK] at *; omega, by omega, by omega,
            le_refl _, by omega, fun _ => by omega, fun h => ?_,
            fun h => next_scan_state_final _ _ h⟩
          rw [hfin] at h; exact absurd h (by simp)
        · rename_i hfin
          refine loop_post_mono p (inc_level (set_token_start p (next_scan_state state c) txt)) txt _
            rfl rfl rfl ?_ (ih _ _ _ hts ?_ h3 ?_ (Or.inr ?_))
          · rw [hl]; omega
          · simp only [inc_level_text, set_token_start_text]; omega
          · rw [hl]; simp only [JSON_MAX_STACK] at *; omega
          · simpa using hfin
    · -- no level change
      have hq : ∀ q : jspp_t, q = (if next_scan_state state c > __REDUCING_PARSER_STATES
          then set_state p (next_scan_state state c) else p) →
          q.text = p.text ∧ q.skip_token = p.skip_token ∧ q.skip_level = p.skip_level
            ∧ q.level = p.level ∧ q.token_start = p.token_start := by
        intro q hq; subst hq; split <;> simp
      obtain ⟨b1, b2, b3, b4, b5⟩ := hq _ rfl
      split
      · rename_i hfin
        dsimp only [loop_post]
        refine ⟨b1, b2, b3, by rw [b4]; exact h4, by rw [b4], by rw [b5]; exact h1, le_refl _,
          by omega, fun _ => by omega, fun h => ?_, fun h => next_scan_state_final _ _ h⟩
        rw [hfin] at h; exact absurd h (by simp)
      · rename_i hfin
        refine loop_post_mono p _ txt _ b1 b2 b3 (by rw [b4]) (ih _ _ _ ?_ ?_ ?_ ?_ (Or.inr ?_))
        · rw [b5]; omega
        · rw [b1]; omega
        · rw [b1]; exact h3
        · rw [b4]; exact h4
        · simpa using hfin

theorem token_start_le_scan_pos (p : jspp_t) : p.token_start ≤ scan_pos p := by
  unfold scan_pos; omega

theorem jspp_next_case (p : jspp_t) (hb : well_bounded p) : next_case p := by
  obtain ⟨hb2, hb1⟩ := hb
  by_cases h : JSON_MAX_STACK ≤ p.level
  · exact .dead h (by unfold jspp_next; rw [if_pos h])
  · have h' : p.level < JSON_MAX_STACK := Nat.lt_of_not_le h
    have hb1 := hb1 h'
    by_cases hs : get_state p ≤ JSON_END
    · exact .terminal h' hs (by unfold jspp_next; rw [if_neg h]; simp only [hs, if_true])
    · have hs' : JSON_END < get_state p := Nat.lt_of_not_le hs
      by_cases hp : scan_pos p = p.text.length
      · refine .at_end h' hs' hp ?_
        unfold jspp_next; rw [if_neg h]
        simp only [hs, if_false]
        unfold scan_pos jspp_t.text_length at *
        rw [if_pos hp]
      · have hp' : scan_pos p < p.text.length := lt_of_le_of_ne hb1 hp
        have hne : p.text.drop (scan_pos p) ≠ [] := by
          intro hnil
          have := congrArg List.length hnil
          simp at this; omega
        have hpost := scan_loop_post (p.text.drop (scan_pos p)) p (get_state p) (scan_pos p)
          (token_start_le_scan_pos p) (by simp; omega) hb2 h' (Or.inl hne)
        have e0 : jspp_next p =
            match scan_loop p (get_state p) (scan_pos p) (p.text.drop (scan_pos p)) with
            | .too_deep p1 => (JSON_TOO_DEEP, p1)
            | .stopped p1 state1 txt1 =>
              if is_final state1 then complete_token p1 state1 txt1
              else suspend_token p1 state1 := by
          unfold jspp_next; rw [if_neg h]
          simp only [hs, if_false]
          unfold scan_pos jspp_t.text_length at *
          rw [if_neg hp]
        generalize hl : scan_loop p (get_state p) (scan_pos p) (p.text.drop (scan_pos p)) = r
          at hpost e0
        cases r with
        | too_deep p1 => exact .too_deep p1 h' hs' hp' hl hpost e0
        | stopped p1 s1 t1 =>
          by_cases hf : is_final s1 = true
          · exact .complete p1 s1 t1 h' hs' hp' hl hpost hf (by rw [e0]; simp only [hf, if_true])
          · have hf' : is_final s1 = false := by simpa using hf
            exact .suspended p1 s1 t1 h' hs' hp' hl hpost hf'
              (by rw [e0]; simp only [hf', Bool.false_eq_true, if_false])

theorem complete_token_text (p : jspp_t) (s t : Nat) : (complete_token p s t).2.text = p.text := by
  unfold complete_token; dsimp only; split <;> split <;> simp

theorem complete_token_skip_token (p : jspp_t) (s t : Nat) :
    (complete_token p s t).2.skip_token = p.skip_token := by
  unfold complete_token; dsimp only; split <;> split <;> simp

theorem complete_token_skip_level (p : jspp_t) (s t : Nat) :
    (complete_token p s t).2.skip_level = p.skip_level := by
  unfold complete_token; dsimp only; split <;> split <;> simp

theorem complete_token_token (p : jspp_t) (s t : Nat) : (complete_token p s t).2.token = s := by
  unfold complete_token; dsimp only; split <;> split <;> simp

theorem complete_token_level (p : jspp_t) (s t : Nat) :
    (complete_token p s t).2.level
      = if is_nested_level_start s then p.level else (p.level + 255) % 256 := by
  unfold complete_token; dsimp only; split <;> split <;> simp [dec_level]

theorem complete_token_token_start (p : jspp_t) (s t : Nat) :
    (complete_token p s t).2.token_start
      = if s = JSON_ARRAY_END ∨ s = JSON_OBJECT_END then t % 65536 else p.token_start := by
  unfold complete_token; dsimp only; split <;> split <;> simp [set_token_start] <;>
    (intro h; subst h; simp_all)

theorem complete_token_token_length (p : jspp_t) (s t : Nat) (h1 : p.token_start ≤ t)
    (h2 : t < 65535) :
    (complete_token p s t).2.token_length
      = if s = JSON_ARRAY_END ∨ s = JSON_OBJECT_END then 1
        else (if ends_after s then t + 1 else t) - p.token_start := by
  have e : ∀ q : jspp_t, (set_token_end q s t).token_length
      = ((if ends_after s then t + 1 else t) + 65536 - q.token_start % 65536) % 65536 := by
    intro q
    simp only [set_token_end, ends_after, Bool.or_eq_true, decide_eq_true_eq, or_assoc]
  have key : (complete_token p s t).2.token_length
      = (set_token_end (if s = JSON_ARRAY_END ∨ s = JSON_OBJECT_END then set_token_start p s t
          else p) s t).token_length := by
    unfold complete_token; dsimp only; split <;> simp
  rw [key, e]
  by_cases hc : s = JSON_ARRAY_END ∨ s = JSON_OBJECT_END
  · have h3 : ends_after s = true := by rcases hc with hc | hc <;> subst hc <;> decide
    have h4 : ¬ (s = STRING_BEGIN) := by rcases hc with hc | hc <;> subst hc <;> decide
    simp only [hc, h3, if_true, set_token_start, h4, if_false]
    omega
  · simp only [hc, if_false]
    split <;> omega

theorem complete_token_scan_pos (p : jspp_t) (s t : Nat) (h1 : p.token_start ≤ t)
    (h2 : t < 65535) :
    scan_pos (complete_token p s t).2 = if ends_after s ∨ s = JSON_STRING then t + 1 else t := by
  unfold scan_pos
  rw [complete_token_token, complete_token_token_start, complete_token_token_length p s t h1 h2]
  by_cases hc : s = JSON_ARRAY_END ∨ s = JSON_OBJECT_END
  · have h3 : ends_after s = true := by rcases hc with hc | hc <;> subst hc <;> decide
    have h4 : ¬ s = JSON_STRING := by rcases hc with hc | hc <;> subst hc <;> decide
    rw [if_pos hc, if_pos hc, if_neg h4, if_pos (Or.inl h3)]; omega
  · rw [if_neg hc, if_neg hc]
    by_cases h3 : ends_after s = true
    · have h4 : ¬ s = JSON_STRING := by
        intro h; subst h; revert h3; decide
      rw [if_pos h3, if_neg h4, if_pos (Or.inl h3)]; omega
    · by_cases h4 : s = JSON_STRING
      · rw [if_neg h3, if_pos h4, if_pos (Or.inr h4)]; omega
      · rw [if_neg h3, if_neg h4, if_neg (by tauto)]; omega

theorem suspend_token_snd (p : jspp_t) (s : Nat) :
    (suspend_token p s).2 = set_token_end (set_state p s) s p.text_length := by
  unfold suspend_token; dsimp only; split_ifs <;> rfl

theorem suspend_token_text (p : jspp_t) (s : Nat) : (suspend_token p s).2.text = p.text := by
  rw [suspend_token_snd]; simp

theorem suspend_token_skip_token (p : jspp_t) (s : Nat) :
    (suspend_token p s).2.skip_token = p.skip_token := by
  rw [suspend_token_snd]; simp

theorem suspend_token_skip_level (p : jspp_t) (s : Nat) :
    (suspend_token p s).2.skip_level = p.skip_level := by
  rw [suspend_token_snd]; simp

theorem suspend_token_level (p : jspp_t) (s : Nat) : (suspend_token p s).2.level = p.level := by
  rw [suspend_token_snd]; simp

theorem suspend_token_token (p : jspp_t) (s : Nat) : (suspend_token p s).2.token = s := by
  rw [suspend_token_snd]; simp

theorem suspend_token_token_start (p : jspp_t) (s : Nat) :
    (suspend_token p s).2.token_start = p.token_start := by
  rw [suspend_token_snd]; simp

theorem suspend_token_token_length (p : jspp_t) (s : Nat) (hs : is_final s = false)
    (h1 : p.token_start ≤ p.text.length) (h2 : p.text.length ≤ 65535) :
    (suspend_token p s).2.token_length = p.text.length - p.token_start := by
  rw [suspend_token_snd]
  have hne : ¬ (s = JSON_NULL ∨ s = JSON_TRUE ∨ s = JSON_FALSE ∨ s = JSON_OBJECT_BEGIN
        ∨ s = JSON_OBJECT_END ∨ s = JSON_ARRAY_BEGIN ∨ s = JSON_ARRAY_END) := by
    simp [is_final] at hs
    simp; omega
  simp only [set_token_end, hne, if_false, set_state_token_start, jspp_t.text_length]
  omega

theorem suspend_token_scan_pos (p : jspp_t) (s : Nat) (hs : is_final s = false)
    (h1 : p.token_start ≤ p.text.length) (h2 : p.text.length ≤ 65535) :
    scan_pos (suspend_token p s).2 = p.text.length := by
  unfold scan_pos
  rw [suspend_token_token, suspend_token_token_start, suspend_token_token_length p s hs h1 h2]
  have : ¬ s = JSON_STRING := by
    simp [is_final] at hs
    simp; omega
  rw [if_neg this]; omega

theorem suspend_token_get_state (p : jspp_t) (s : Nat) (h : p.level < JSON_MAX_STACK) :
    get_state (suspend_token p s).2 = s := by
  rw [suspend_token_snd]
  simp only [get_state, set_token_end_level, set_state_level, stack_read, set_token_end_stack,
    set_state, stack_write_level, h, if_true]
  rw [stack_write_stack _ _ _ _ h]; rw [if_pos rfl]

theorem suspend_token_fst (p : jspp_t) (s : Nat) :
    JSON_CONTINUE ≤ (suspend_token p s).1 ∧ (suspend_token p s).1 ≤ JSON_STRING_PART := by
  unfold suspend_token; dsimp only; split_ifs <;> dsimp only <;> exact ⟨by decide, by decide⟩

theorem jspp_next_frame (p : jspp_t) (hb : well_bounded p) :
    (jspp_next p).2.text = p.text ∧ (jspp_next p).2.skip_token = p.skip_token
      ∧ (jspp_next p).2.skip_level = p.skip_level := by
  cases jspp_next_case p hb with
  | dead h e => rw [e]; exact ⟨rfl, rfl, rfl⟩
  | terminal h hs e => rw [e]; exact ⟨rfl, rfl, rfl⟩
  | at_end h hs hp e => rw [e]; exact ⟨rfl, rfl, rfl⟩
  | too_deep p1 h hs hp hl hpost e =>
    rw [e]; exact ⟨hpost.1, hpost.2.1, hpost.2.2.1⟩
  | complete p1 s1 t1 h hs hp hl hpost hf e =>
    rw [e, complete_token_text, complete_token_skip_token, complete_token_skip_level]
    exact ⟨hpost.1, hpost.2.1, hpost.2.2.1⟩
  | suspended p1 s1 t1 h hs hp hl hpost hf e =>
    rw [e, suspend_token_text, suspend_token_skip_token, suspend_token_skip_level]
    exact ⟨hpost.1, hpost.2.1, hpost.2.2.1⟩

theorem jspp_next_bounded (p : jspp_t) (hb : well_bounded p) : well_bounded (jspp_next p).2 := by
  have hfr := jspp_next_frame p hb
  refine ⟨by rw [hfr.1]; exact hb.1, ?_⟩
  rw [hfr.1]
  have hb2 := hb.1
  cases jspp_next_case p hb with
  | dead h e => rw [e]; exact hb.2
  | terminal h hs e => rw [e]; exact hb.2
  | at_end h hs hp e => rw [e]; exact hb.2
  | too_deep p1 h hs hp hl hpost e =>
    rw [e]; intro hlt
    have := hpost.2.2.2
    simp only at hlt; omega
  | complete p1 s1 t1 h hs hp hl hpost hf e =>
    obtain ⟨a1, a2, a3, a4, a5, a6, a7, a8, a9, a10, a11⟩ := hpost
    intro _
    rw [e, complete_token_scan_pos p1 s1 t1 a6 (by have := a9 hf; omega)]
    have := a9 hf
    split <;> omega
  | suspended p1 s1 t1 h hs hp hl hpost hf e =>
    obtain ⟨a1, a2, a3, a4, a5, a6, a7, a8, a9, a10, a11⟩ := hpost
    intro _
    rw [e, suspend_token_scan_pos p1 s1 hf (by rw [a1]; have := a10 hf; omega)
      (by rw [a1]; exact hb2), a1]

theorem jspp_next_at_end (p : jspp_t) (h : at_fragment_end p) :
    jspp_next p = (JSON_CONTINUE, p) := by
  obtain ⟨h1, h2, h3⟩ := h
  unfold jspp_next
  rw [if_neg (by omega)]
  simp only [Nat.not_le.mpr h2, if_false]
  unfold scan_pos jspp_t.text_length at *
  rw [if_pos h3]

theorem jspp_next_pending (p : jspp_t) (hb : well_bounded p)
    (h1 : JSON_CONTINUE ≤ (jspp_next p).1) (h2 : (jspp_next p).1 ≤ JSON_STRING_PART) :
    at_fragment_end (jspp_next p).2 := by
  have hb2 := hb.1
  cases jspp_next_case p hb with
  | dead h e => rw [e] at h1; simp at h1
  | terminal h hs e => rw [e] at h1; simp at h1 hs; omega
  | at_end h hs hp e => rw [e]; exact ⟨h, hs, hp⟩
  | too_deep p1 h hs hp hl hpost e => rw [e] at h1; simp at h1
  | complete p1 s1 t1 h hs hp hl hpost hf e =>
    exfalso
    rw [e] at h1 h2
    have hk := hpost.2.2.2.2.2.2.2.2.2.2 hf
    have : (complete_token p1 s1 t1).1 = s1 ∨ (complete_token p1 s1 t1).1 = JSON_MEMBER_NAME := by
      unfold complete_token; dsimp only; split_ifs <;> simp
    unfold scan_token at hk
    rcases this with h' | h' <;> rw [h'] at h1 h2 <;> simp at hk h1 h2 <;> omega
  | suspended p1 s1 t1 h hs hp hl hpost hf e =>
    obtain ⟨a1, a2, a3, a4, a5, a6, a7, a8, a9, a10, a11⟩ := hpost
    rw [e]
    refine ⟨by rw [suspend_token_level]; exact a4, ?_, ?_⟩
    · rw [suspend_token_get_state p1 s1 a4]
      simp [is_final] at hf; simp; omega
    · rw [suspend_token_scan_pos p1 s1 hf (by rw [a1]; have := a10 hf; omega)
        (by rw [a1]; exact hb2), suspend_token_text]

theorem root_step (c : Nat) :
    next_scan_state EXPECTING_JSON c = EXPECTING_JSON
      ∨ next_scan_state EXPECTING_JSON c = JSON_INVALID
      ∨ (is_token_start (next_scan_state EXPECTING_JSON c)
          || is_nested_level_start (next_scan_state EXPECTING_JSON c)) = true := by
  rcases next_scan_state_table EXPECTING_JSON c with ⟨h1, _⟩ | h1 | h1
  · exact Or.inl h1
  · exact Or.inr (Or.inl h1)
  · exact Or.inr (Or.inr ((by decide : ∀ x ∈ transitions, x.1 = EXPECTING_JSON →
      (is_token_start x.2 || is_nested_level_start x.2) = true) _ h1 rfl))

theorem scan_loop_root (rest : List Nat) : ∀ (p : jspp_t) (state txt : Nat),
    p.level < JSON_MAX_STACK → p.stack 0 = EXPECTING_JSON →
    (p.level = 0 → state = EXPECTING_JSON) →
    root_post (scan_loop p state txt rest) := by
  induction rest with
  | nil =>
    intro p state txt _ h2 h3
    exact ⟨h2, fun h => Or.inl (h3 h)⟩
  | cons c rest ih =>
    intro p state txt h1 h2 h3
    have hl := inc_level_level (set_token_start p (next_scan_state state c) txt) h1
    simp only [set_token_start_level] at hl
    simp only [scan_loop]
    split
    · split
      · trivial
      · rename_i hlev
        rw [hl] at hlev
        split
        · exact ⟨h2, fun h => by rw [hl] at h; omega⟩
        · refine ih _ _ _ ?_ h2 ?_
          · rw [hl]; simp only [JSON_MAX_STACK] at *; omega
          · intro h; rw [hl] at h; omega
    · rename_i hpush
      have hq : ∀ q : jspp_t, q = (if next_scan_state state c > __REDUCING_PARSER_STATES
          then set_state p (next_scan_state state c) else p) →
          q.level = p.level ∧ q.stack 0 = EXPECTING_JSON
            ∧ (p.level = 0 → next_scan_state state c = EXPECTING_JSON
                ∨ next_scan_state state c = JSON_INVALID) := by
        intro q hq; subst hq
        have h0 : p.level = 0 → next_scan_state state c = EXPECTING_JSON
            ∨ next_scan_state state c = JSON_INVALID := by
          intro h
          rw [h3 h] at hpush ⊢
          rcases root_step c with h' | h' | h'
          · exact Or.inl h'
          · exact Or.inr h'
          · exact absurd h' hpush
        refine ⟨by split <;> simp, ?_, h0⟩
        split
        · simp only [set_state]
          rw [stack_write_stack _ _ _ _ h1]
          by_cases hz : p.level = 0
          · rw [hz, if_pos rfl]
            rcases h0 hz with h' | h'
            · exact h'
            · rename_i hgt; rw [h'] at hgt; simp at hgt
          · rw [if_neg (fun h => hz h.symm)]; exact h2
        · exact h2
      obtain ⟨b1, b2, b3⟩ := hq _ rfl
      split
      · exact ⟨b2, fun h => b3 (by rw [← b1]; exact h)⟩
      · rename_i hfin
        refine ih _ _ _ (by rw [b1]; exact h1) b2 ?_
        intro h
        rcases b3 (by rw [← b1]; exact h) with h' | h'
        · exact h'
        · rw [h'] at hfin; exact absurd (by decide) hfin

theorem next_parsing_state_ne (s : Nat) : next_parsing_state s ≠ EXPECTING_JSON := by
  unfold next_parsing_state; split_ifs <;> decide

theorem complete_token_stack (p : jspp_t) (s t i : Nat) :
    (complete_token p s t).2.stack i =
      if is_nested_level_start s then
        (if i = p.level ∧ p.level < JSON_MAX_STACK then next_parsing_state s else p.stack i)
      else
        (if i = (p.level + 255) % 256 ∧ (p.level + 255) % 256 < JSON_MAX_STACK
          then next_parsing_state (stack_read (dec_level p) ((p.level + 255) % 256))
          else p.stack i) := by
  unfold complete_token; dsimp only
  by_cases hn : is_nested_level_start s = true
  · rw [if_pos hn, if_pos hn]
    simp only [set_state, stack_write]
    split_ifs <;> simp_all
  · rw [if_neg hn, if_neg hn]
    simp only [set_state, stack_write, get_state, stack_read, dec_level]
    split_ifs <;> simp_all

theorem complete_token_fst (p : jspp_t) (s t : Nat) :
    (complete_token p s t).1 = s ∨ ((complete_token p s t).1 = JSON_MEMBER_NAME ∧ s = JSON_STRING) := by
  unfold complete_token; dsimp only; split_ifs <;> simp_all

theorem jspp_next_root (p : jspp_t) (hb : well_bounded p) (hr : root_ok p) :
    root_ok (jspp_next p).2 ∧ (JSON_NULL ≤ (jspp_next p).1 → (jspp_next p).2.level = 0 →
      (jspp_next p).2.stack 0 = JSON_END) := by
  have pre : p.level < JSON_MAX_STACK → JSON_END < get_state p →
      p.stack 0 = EXPECTING_JSON ∧ (p.level = 0 → get_state p = EXPECTING_JSON) := by
    intro h hs
    have h0 : p.stack 0 = EXPECTING_JSON := by
      rcases hr with h' | h' | ⟨h1, h2⟩
      · omega
      · exact h'
      · exfalso
        have : get_state p = JSON_END := by
          simp only [get_state, stack_read, h1]; simpa using h2
        rw [this] at hs; exact absurd hs (by decide)
    refine ⟨h0, fun hz => ?_⟩
    simp only [get_state, stack_read, hz]
    simpa using h0
  cases jspp_next_case p hb with
  | dead h e => rw [e]; exact ⟨hr, fun h => by simp at h⟩
  | terminal h hs e => rw [e]; exact ⟨hr, fun h' => by simp at h' hs; omega⟩
  | at_end h hs hp e => rw [e]; exact ⟨hr, fun h => by simp at h⟩
  | too_deep p1 h hs hp hl hpost e =>
    rw [e]; exact ⟨Or.inl (le_of_eq hpost.2.2.2.symm), fun h => by simp at h⟩
  | complete p1 s1 t1 h hs hp hl hpost hf e =>
    obtain ⟨a1, a2, a3, a4, a5, a6, a7, a8, a9, a10, a11⟩ := hpost
    obtain ⟨q1, q2⟩ := pre h hs
    have hroot := scan_loop_root (p.text.drop (scan_pos p)) p (get_state p) (scan_pos p) h q1 q2
    rw [hl] at hroot
    obtain ⟨r1, r2⟩ := hroot
    have hz : p1.level = 0 → s1 = JSON_INVALID := by
      intro hz
      rcases r2 hz with h' | h'
      · rw [h'] at hf; exact absurd hf (by decide)
      · exact h'
    rw [e]
    have hst := complete_token_stack p1 s1 t1 0
    have hlv := complete_token_level p1 s1 t1
    by_cases hn : is_nested_level_start s1 = true
    · rw [if_pos hn] at hst hlv
      have hne : p1.level ≠ 0 := by
        intro hz'; rw [hz hz'] at hn; exact absurd hn (by decide)
      rw [if_neg (by intro hh; exact hne hh.1.symm)] at hst
      refine ⟨Or.inr (Or.inl (by rw [hst]; exact r1)), fun _ hl0 => ?_⟩
      rw [hlv] at hl0; exact absurd hl0 hne
    · rw [if_neg hn] at hst hlv
      by_cases hz' : p1.level = 0
      · refine ⟨Or.inl (by rw [hlv, hz']; decide), fun ht _ => ?_⟩
        exfalso
        rcases complete_token_fst p1 s1 t1 with h' | ⟨_, h'⟩
        · rw [h', hz hz'] at ht; simp at ht
        · rw [hz hz'] at h'; simp at h'
      · have hmod : (p1.level + 255) % 256 = p1.level - 1 := by
          simp only [JSON_MAX_STACK] at a4; omega
        rw [hmod] at hst hlv
        by_cases h1 : p1.level = 1
        · have hs0 : (complete_token p1 s1 t1).2.stack 0 = JSON_END := by
            rw [hst, h1]
            simp only [stack_read, dec_level]
            simp [r1, next_parsing_state]
          exact ⟨Or.inr (Or.inr ⟨by rw [hlv, h1], hs0⟩), fun _ _ => hs0⟩
        · rw [if_neg (by intro hh; omega)] at hst
          refine ⟨Or.inr (Or.inl (by rw [hst]; exact r1)), fun _ hl0 => ?_⟩
          rw [hlv] at hl0; omega
  | suspended p1 s1 t1 h hs hp hl hpost hf e =>
    obtain ⟨a1, a2, a3, a4, a5, a6, a7, a8, a9, a10, a11⟩ := hpost
    obtain ⟨q1, q2⟩ := pre h hs
    have hroot := scan_loop_root (p.text.drop (scan_pos p)) p (get_state p) (scan_pos p) h q1 q2
    rw [hl] at hroot
    obtain ⟨r1, r2⟩ := hroot
    rw [e]
    refine ⟨Or.inr (Or.inl ?_), fun ht => ?_⟩
    · rw [suspend_token_snd]
      simp only [set_token_end_stack, set_state]
      rw [stack_write_stack _ _ _ _ a4]
      by_cases hz : p1.level = 0
      · rw [hz, if_pos rfl]
        rcases r2 hz with h' | h'
        · exact h'
        · rw [h'] at hf; exact absurd hf (by decide)
      · rw [if_neg (fun h => hz h.symm)]; exact r1
    · have := (suspend_token_fst p1 s1).2
      simp at this ht; omega

theorem core_inv_next (p : jspp_t) (h : core_inv p) : core_inv (jspp_next p).2 :=
  ⟨jspp_next_bounded p h.1, (jspp_next_root p h.1 h.2).1⟩

theorem core_inv_skip (p : jspp_t) (a b : Nat) (h : core_inv p) :
    core_inv { p with skip_token := a, skip_level := b } := h

theorem public_inv_next (p : jspp_t) (a b : Nat) (h : core_inv p)
    (ha : ¬ (a = JSON_ARRAY_END ∨ a = JSON_OBJECT_END)) :
    public_inv (jspp_next { p with skip_token := a, skip_level := b }).1
      (jspp_next { p with skip_token := a, skip_level := b }).2 := by
  have hc := core_inv_skip p a b h
  refine ⟨core_inv_next _ hc, (jspp_next_root _ hc.1 hc.2).2, fun hs => ?_⟩
  rw [(jspp_next_frame _ hc.1).2.1] at hs
  exact absurd hs ha

theorem skip_composite_inv (fuel : Nat) : ∀ (p : jspp_t) (r : Nat × jspp_t), core_inv p →
    skip_composite fuel p = some r → public_inv r.1 r.2 := by
  induction fuel with
  | zero => intro p r _ e; simp [skip_composite] at e
  | succ n ih =>
    intro p r hc e
    have hc1 := core_inv_next p hc
    simp only [skip_composite] at e
    split at e
    · split at e
      · rename_i h3
        have e' : r = (JSON_CONTINUE, (jspp_next p).2) := by
          simp only [Option.some.injEq] at e; exact e.symm
        rw [e']
        refine ⟨hc1, fun h => by simp at h, fun _ => ?_⟩
        exact jspp_next_pending p hc.1 (by rw [h3]) (by rw [h3]; decide)
      · exact ih _ r hc1 e
    · have e' : r = jspp_next { (jspp_next p).2 with skip_token := 0 } := by
        simp only [Option.some.injEq] at e; exact e.symm
      rw [e']
      exact public_inv_next (jspp_next p).2 0 (jspp_next p).2.skip_level hc1 (by decide)

theorem jspp_skip_next_inv (fuel : Nat) : ∀ (p : jspp_t) (r : Nat × jspp_t), core_inv p →
    jspp_skip_next fuel p = some r → public_inv r.1 r.2 := by
  induction fuel with
  | zero => intro p r _ e; simp [jspp_skip_next] at e
  | succ n ih =>
    intro p r hc e
    have hc1 := core_inv_next p hc
    have hroot := (jspp_next_root p hc.1 hc.2).2
    simp only [jspp_skip_next] at e
    split at e
    · rename_i h1
      have e' : r = ((jspp_next p).1, { (jspp_next p).2 with skip_token := 0 }) := by
        simp only [Option.some.injEq] at e; exact e.symm
      rw [e']
      exact ⟨hc1, fun h => by simp at h h1; omega, fun h => by simp at h⟩
    · split at e
      · have e' : r = (JSON_CONTINUE, { (jspp_next p).2 with
            skip_level := (jspp_next p).2.level, skip_token := JSON_CONTINUE }) := by
          simp only [Option.some.injEq] at e; exact e.symm
        rw [e']
        exact ⟨hc1, fun h => by simp at h, fun h => by simp at h⟩
      · split at e
        · exact ih _ r hc1 e
        · split at e
          · exact skip_composite_inv n _ r (core_inv_skip _ _ _ hc1) e
          · split at e
            · exact skip_composite_inv n _ r (core_inv_skip _ _ _ hc1) e
            · split at e
              · rename_i h6
                have e' : r = ((jspp_next p).1, { (jspp_next p).2 with skip_token := 0 }) := by
                  simp only [Option.some.injEq] at e; exact e.symm
                rw [e']
                exact ⟨hc1, hroot, fun h => by simp at h⟩
              · have e' : r = jspp_next { (jspp_next p).2 with skip_token := 0 } := by
                  simp only [Option.some.injEq] at e; exact e.symm
                rw [e']
                exact public_inv_next (jspp_next p).2 0 (jspp_next p).2.skip_level hc1
                  (by decide)

theorem core_inv_set_fragment (p : jspp_t) (text : List Nat) (h : core_inv p)
    (ht : text.length ≤ 65535) : core_inv (set_fragment p text) := by
  refine ⟨⟨ht, fun _ => ?_⟩, h.2⟩
  simp [scan_pos, set_fragment]

theorem jspp_continue_inv (fuel : Nat) (p : jspp_t) (text : List Nat) (r : Nat × jspp_t)
    (h : core_inv p) (ht : text.length ≤ 65535) (e : jspp_continue fuel p text = some r) :
    public_inv r.1 r.2 := by
  have hc := core_inv_set_fragment p text h ht
  simp only [jspp_continue] at e
  split at e
  · exact jspp_skip_next_inv fuel _ r hc e
  · split at e
    · exact skip_composite_inv fuel _ r hc e
    · rename_i h1 h2
      have e' : r = jspp_next (set_fragment p text) := by
        simp only [Option.some.injEq] at e; exact e.symm
      rw [e']
      exact public_inv_next (set_fragment p text) (set_fragment p text).skip_token
        (set_fragment p text).skip_level hc h2

theorem core_inv_start_state (p : jspp_t) (text : List Nat) (ht : text.length ≤ 65535) :
    core_inv (start_state p text) := by
  unfold start_state
  refine ⟨⟨by simpa [set_fragment] using ht, fun _ => by simp [scan_pos, set_fragment]⟩,
    Or.inr (Or.inl ?_)⟩
  rw [stack_write_stack _ _ _ _ (by decide)]; simp

theorem start_state_skip_token (p : jspp_t) (text : List Nat) :
    (start_state p text).skip_token = 0 := by
  simp [start_state]

theorem jspp_start_inv (p : jspp_t) (text : List Nat) (ht : text.length ≤ 65535) :
    public_inv (jspp_start p text).1 (jspp_start p text).2 := by
  unfold jspp_start
  have hc := core_inv_start_state p text ht
  refine ⟨core_inv_next _ hc, (jspp_next_root _ hc.1 hc.2).2, fun hs => ?_⟩
  rw [(jspp_next_frame _ hc.1).2.1, start_state_skip_token] at hs
  simp at hs

theorem reachable_inv (token : Nat) (p : jspp_t) (h : Reachable token p) :
    public_inv token p := by
  induction h with
  | by_start parser text h => exact jspp_start_inv parser text h
  | by_next token parser _ ih =>
    by_cases hs : parser.skip_token = JSON_ARRAY_END ∨ parser.skip_token = JSON_OBJECT_END
    · have := jspp_next_at_end parser (ih.2.2 hs)
      rw [this]
      exact ⟨ih.1, fun h => by simp at h, ih.2.2⟩
    · exact public_inv_next parser parser.skip_token parser.skip_level ih.1 hs
  | by_continue token parser fuel text r _ ht e ih => exact jspp_continue_inv fuel parser text r ih.1 ht e
  | by_skip_next token parser fuel r _ e ih => exact jspp_skip_next_inv fuel parser r ih.1 e

theorem finished_next (q : jspp_t) (h : finished q) : jspp_next q = (JSON_END, q) := by
  obtain ⟨h1, h2, _⟩ := h
  have hs : get_state q = JSON_END := by
    simp only [get_state, stack_read, h1]; simpa using h2
  unfold jspp_next
  rw [if_neg (by rw [h1]; decide)]
  simp only [hs, le_refl, if_true]

theorem finished_skip_next (q : jspp_t) (h : finished q) (fuel : Nat) :
    jspp_skip_next (fuel + 1) q = some (JSON_END, { q with skip_token := 0 }) := by
  simp only [jspp_skip_next, finished_next q h, le_refl, if_true]

theorem finished_continue (q : jspp_t) (h : finished q) (fuel : Nat) (text : List Nat) :
    ∃ r, jspp_continue (fuel + 1) q text = some (JSON_END, r) ∧ finished r := by
  have hf : finished (set_fragment q text) := h
  unfold jspp_continue
  dsimp only
  split
  · exact ⟨_, finished_skip_next _ hf fuel, ⟨hf.1, hf.2.1, by simp⟩⟩
  · rw [if_neg hf.2.2, finished_next _ hf]
    exact ⟨_, rfl, hf⟩

theorem finished_later (p q : jspp_t) (h : finished p) (hq : Later p q) : finished q := by
  induction hq with
  | here => exact h
  | after_next q _ ih => rw [finished_next q ih]; exact ih
  | after_continue q fuel text r _ e ih =>
    cases fuel with
    | zero =>
      have hf : finished (set_fragment q text) := ih
      unfold jspp_continue at e
      dsimp only at e
      split at e
      · simp [jspp_skip_next] at e
      · rw [if_neg hf.2.2, finished_next _ hf] at e
        simp only [Option.some.injEq] at e
        rw [← e]; exact hf
    | succ n =>
      obtain ⟨r', e', hr'⟩ := finished_continue q ih n text
      rw [e'] at e
      simp only [Option.some.injEq] at e
      rw [← e]; exact hr'
  | after_skip_next q fuel r _ e ih =>
    cases fuel with
    | zero => simp [jspp_skip_next] at e
    | succ n =>
      rw [finished_skip_next q ih n] at e
      simp only [Option.some.injEq] at e
      rw [← e]
      exact ⟨ih.1, ih.2.1, by simp⟩

theorem finished_of_root_token (token : Nat) (parser : jspp_t) (hr : Reachable token parser)
    (hc : JSON_NULL ≤ token) (hl : parser.level = 0) : finished parser := by
  obtain ⟨_, h2, h3⟩ := reachable_inv token parser hr
  have h0 := h2 hc hl
  refine ⟨hl, h0, fun hs => ?_⟩
  obtain ⟨_, h5, _⟩ := h3 hs
  have : get_state parser = JSON_END := by
    simp only [get_state, stack_read, hl]; simpa using h0
  rw [this] at h5
  exact absurd h5 (by decide)

/-- C6: once a call has returned the token that completes the root value (a
complete token that leaves the parser at level 0), `jspp_next` returns
`JSON_END` whatever bytes remain in the fragment, and so does every later
`jspp_next` and every later `jspp_continue`, with any fragment. -/
theorem trailing_text_ignored (token : Nat) (parser : jspp_t) (hr : Reachable token parser)
    (hc : JSON_NULL ≤ token) (hl : parser.level = 0) (q : jspp_t) (hq : Later parser q) :
    (jspp_next q).1 = JSON_END
      ∧ ∀ (fuel : Nat) (text : List Nat),
          (jspp_continue (fuel + 1) q text).map Prod.fst = some JSON_END := by
  have hf := finished_later parser q (finished_of_root_token token parser hr hc hl) hq
  refine ⟨by rw [finished_next q hf], fun fuel text => ?_⟩
  obtain ⟨r, e, _⟩ := finished_continue q hf fuel text
  rw [e]; rfl

/-- Witness for C6 on the fragment `null x`: `jspp_start` returns `JSON_NULL`
at level 0, and the next call returns `JSON_END`. -/
theorem trailing_text_ignored_witness :
    (jspp_start jspp_zero [110, 117, 108, 108, 32, 120]).1 = JSON_NULL
      ∧ (jspp_start jspp_zero [110, 117, 108, 108, 32, 120]).2.level = 0
      ∧ (jspp_next (jspp_start jspp_zero [110, 117, 108, 108, 32, 120]).2).1 = JSON_END :=
  ⟨by decide, by decide,
    (trailing_text_ignored _ _
      (Reachable.by_start jspp_zero [110, 117, 108, 108, 32, 120] (by decide))
      (by decide) (by decide) _ Later.here).1⟩

/-- C5, the failing run: on the fragment ` nulL  ` of the test suite `jspp_start`
returns `JSON_INVALID`, and the next `jspp_next` returns `JSON_END`, not
`JSON_INVALID`. -/
theorem invalid_then_end :
    (jspp_start jspp_zero [32, 110, 117, 108, 76, 32, 32]).1 = JSON_INVALID
      ∧ (jspp_next (jspp_start jspp_zero [32, 110, 117, 108, 76, 32, 32]).2).1 = JSON_END := by
  decide

/-! ### Facts about the automaton, read off the transition table -/

theorem step_start_from (state c : Nat)
    (h : (is_token_start (next_scan_state state c)
      || is_nested_level_start (next_scan_state state c)) = true) :
    __REDUCING_PARSER_STATES < state := by
  rcases next_scan_state_table state c with ⟨h1, h2⟩ | h1 | h1
  · rw [h1] at h
    simp only [is_token_start, is_nested_level_start, Bool.or_eq_true, decide_eq_true_eq] at h
    simp at h h2 ⊢; omega
  · rw [h1] at h; exact absurd h (by decide)
  · exact (by decide : ∀ x ∈ transitions,
      (is_token_start x.2 || is_nested_level_start x.2) = true →
        __REDUCING_PARSER_STATES < x.1) _ h1 h

theorem step_parser_state (state c : Nat) (h : __PARSER_STATES ≤ next_scan_state state c) :
    __REDUCING_PARSER_STATES < next_scan_state state c ∨ next_scan_state state c = state := by
  rcases next_scan_state_table state c with ⟨h1, _⟩ | h1 | h1
  · exact Or.inr h1
  · rw [h1] at h; exact absurd h (by decide)
  · exact (by decide : ∀ x ∈ transitions, __PARSER_STATES ≤ x.2 →
      __REDUCING_PARSER_STATES < x.2 ∨ x.2 = x.1) _ h1 h

theorem in_token_scanner_state (state : Nat) (h : in_token state = true) :
    state < __PARSER_STATES := by
  simp [in_token] at h ⊢; omega

/-- A step that neither starts nor completes a token stays inside a string or
a number exactly when it was inside one. -/
theorem step_in_token (state c : Nat)
    (h1 : (is_token_start (next_scan_state state c)
      || is_nested_level_start (next_scan_state state c)) = false)
    (h2 : is_final (next_scan_state state c) = false) :
    in_token (next_scan_state state c) = in_token state := by
  rcases next_scan_state_table state c with ⟨h3, _⟩ | h3 | h3
  · rw [h3]
  · rw [h3] at h2; exact absurd h2 (by decide)
  · exact (by decide : ∀ x ∈ transitions,
      (is_token_start x.2 || is_nested_level_start x.2) = false → is_final x.2 = false →
        in_token x.2 = in_token x.1) _ h3 h1 h2

/-- A string or a number is completed from inside a string or a number. -/
theorem step_text_final (state c : Nat)
    (h : next_scan_state state c = JSON_STRING ∨ next_scan_state state c = JSON_INTEGER
      ∨ next_scan_state state c = JSON_DECIMAL ∨ next_scan_state state c = JSON_FLOATING_POINT) :
    in_token state = true := by
  rcases next_scan_state_table state c with ⟨h3, h4⟩ | h3 | h3
  · rw [h3] at h; simp at h h4; omega
  · rw [h3] at h; simp at h
  · exact (by decide : ∀ x ∈ transitions,
      (x.2 = JSON_STRING ∨ x.2 = JSON_INTEGER ∨ x.2 = JSON_DECIMAL ∨ x.2 = JSON_FLOATING_POINT) →
        in_token x.1 = true) _ h3 h

/-- A number is not completed from a state that `next_parsing_state` returns. -/
theorem step_after_reduce (state c : Nat) :
    ¬ (next_scan_state (next_parsing_state state) c = JSON_INTEGER
      ∨ next_scan_state (next_parsing_state state) c = JSON_DECIMAL
      ∨ next_scan_state (next_parsing_state state) c = JSON_FLOATING_POINT) := by
  intro h
  have h1 := step_text_final (next_parsing_state state) c (Or.inr h)
  revert h1
  unfold next_parsing_state
  split_ifs <;> decide

/-- In a state that `next_parsing_state` returns no token start follows a
whitespace or punctuation byte the grammar does not allow there. -/
theorem next_parsing_state_not_in_token (state : Nat) :
    in_token (next_parsing_state state) = false := by
  unfold next_parsing_state
  split_ifs <;> decide

/-! ### The stack as a list -/

theorem frames_congr (s s' : Nat → Nat) (n : Nat) (h : ∀ i, i < n → s i = s' i) :
    frames s n = frames s' n := by
  induction n with
  | zero => rfl
  | succ n ih =>
    simp only [frames]
    rw [h n (Nat.lt_succ_self n), ih (fun i hi => h i (Nat.lt_succ_of_lt hi))]

theorem frames_length (s : Nat → Nat) (n : Nat) : (frames s n).length = n := by
  induction n with
  | zero => rfl
  | succ n ih => simp [frames, ih]

theorem frames_stack_write (p : jspp_t) (i v n : Nat) (h : n ≤ i) :
    frames (stack_write p i v).stack n = frames p.stack n := by
  apply frames_congr
  intro j hj
  unfold stack_write
  split
  · simp only; rw [if_neg (by omega)]
  · rfl

/-! ### One byte of `byte_run`, case by case -/

theorem not_number_of_start (s : Nat)
    (h : (is_token_start s || is_nested_level_start s) = true) :
    ¬ (s = JSON_INTEGER ∨ s = JSON_DECIMAL ∨ s = JSON_FLOATING_POINT) := by
  intro h'
  rcases h' with h' | h' | h' <;> rw [h'] at h <;> exact absurd h (by decide)

theorem not_number_of_not_final (s : Nat) (h : is_final s = false) :
    ¬ (s = JSON_INTEGER ∨ s = JSON_DECIMAL ∨ s = JSON_FLOATING_POINT) := by
  intro h'
  rcases h' with h' | h' | h' <;> rw [h'] at h <;> exact absurd h (by decide)

theorem byte_run_too_deep (below : List Nat) (state : Nat) (acc : List Nat) (c : Nat)
    (input : List Nat)
    (hs : (is_token_start (next_scan_state state c)
      || is_nested_level_start (next_scan_state state c)) = true)
    (hd : below.length + 1 = JSON_MAX_STACK) :
    byte_run below state acc (c :: input) = [(JSON_TOO_DEEP, [])] := by
  simp only [byte_run, byte_step, if_neg (not_number_of_start _ hs), byte_consume, hs, hd,
    if_true]

theorem byte_run_opener (below : List Nat) (state : Nat) (acc : List Nat) (c : Nat)
    (input : List Nat)
    (hs : (is_token_start (next_scan_state state c)
      || is_nested_level_start (next_scan_state state c)) = true)
    (hd : ¬ below.length + 1 = JSON_MAX_STACK)
    (hf : is_final (next_scan_state state c) = true) :
    byte_run below state acc (c :: input)
      = (next_scan_state state c, []) ::
          byte_run (state :: below) (next_parsing_state (next_scan_state state c)) [] input := by
  simp only [byte_run, byte_step, if_neg (not_number_of_start _ hs), byte_consume, hs, hd,
    if_true, if_false, hf]
  rfl

theorem byte_run_token_start (below : List Nat) (state : Nat) (acc : List Nat) (c : Nat)
    (input : List Nat)
    (hs : (is_token_start (next_scan_state state c)
      || is_nested_level_start (next_scan_state state c)) = true)
    (hd : ¬ below.length + 1 = JSON_MAX_STACK)
    (hf : is_final (next_scan_state state c) = false) :
    byte_run below state acc (c :: input)
      = byte_run (state :: below) (next_scan_state state c)
          (if next_scan_state state c = NUMBER_BEGIN then [c] else []) input := by
  simp only [byte_run, byte_step, if_neg (not_number_of_start _ hs), byte_consume, hs, hd,
    if_true, if_false, hf, Bool.false_eq_true]
  rfl

theorem byte_run_invalid (below : List Nat) (state : Nat) (acc : List Nat) (c : Nat)
    (input : List Nat) (hi : next_scan_state state c = JSON_INVALID) :
    byte_run below state acc (c :: input) = [(JSON_INVALID, [])] := by
  simp only [byte_run, byte_step, byte_consume, hi]
  rfl

theorem byte_run_quiet (below : List Nat) (state : Nat) (acc : List Nat) (c : Nat)
    (input : List Nat)
    (hs : (is_token_start (next_scan_state state c)
      || is_nested_level_start (next_scan_state state c)) = false)
    (hf : is_final (next_scan_state state c) = false) :
    byte_run below state acc (c :: input)
      = byte_run below (next_scan_state state c)
          (if in_token (next_scan_state state c) then acc ++ [c] else []) input := by
  simp only [byte_run, byte_step, if_neg (not_number_of_not_final _ hf), byte_consume, hs, hf,
    Bool.false_eq_true, if_false]
  rfl

theorem byte_run_final (b : Nat) (below : List Nat) (state : Nat) (acc : List Nat) (c : Nat)
    (input : List Nat)
    (hs : (is_token_start (next_scan_state state c)
      || is_nested_level_start (next_scan_state state c)) = false)
    (hf : is_final (next_scan_state state c) = true)
    (hi : ¬ next_scan_state state c = JSON_INVALID)
    (hn : ¬ (next_scan_state state c = JSON_INTEGER ∨ next_scan_state state c = JSON_DECIMAL
      ∨ next_scan_state state c = JSON_FLOATING_POINT)) :
    byte_run (b :: below) state acc (c :: input)
      = reduce_event b (next_scan_state state c) acc :: after_token below b input := by
  by_cases hle : next_parsing_state b ≤ JSON_END
  · simp only [byte_run, byte_step, if_neg hn, byte_consume, hs, hf, hi, Bool.false_eq_true,
      if_false, if_true, byte_reduce, after_token, reduce_event, hle]
  · simp only [byte_run, byte_step, if_neg hn, byte_consume, hs, hf, hi, Bool.false_eq_true,
      if_false, if_true, byte_reduce, after_token, reduce_event, hle]
    rfl

theorem byte_run_number (b : Nat) (below : List Nat) (state : Nat) (acc : List Nat) (c : Nat)
    (input : List Nat)
    (hn : next_scan_state state c = JSON_INTEGER ∨ next_scan_state state c = JSON_DECIMAL
      ∨ next_scan_state state c = JSON_FLOATING_POINT) :
    byte_run (b :: below) state acc (c :: input)
      = reduce_event b (next_scan_state state c) acc :: after_token below b (c :: input) := by
  have h2 := step_after_reduce b c
  by_cases hle : next_parsing_state b ≤ JSON_END
  · simp only [byte_run, byte_step, if_pos hn, byte_reduce, after_token, reduce_event, hle,
      if_true]
  · simp only [byte_run, byte_step, if_pos hn, byte_reduce, after_token, reduce_event, hle,
      if_false, if_neg h2]
    cases byte_consume below (next_parsing_state b) [] c <;> rfl

/-! ### The loop of `jspp_next` against `byte_run` -/

theorem drop_cons_lt (l : List Nat) (n c : Nat) (rest : List Nat) (h : l.drop n = c :: rest) :
    n < l.length := by
  by_contra hn
  rw [List.drop_eq_nil_of_le (by omega)] at h
  exact absurd h (by simp)

theorem drop_cons_succ (l : List Nat) (n c : Nat) (rest : List Nat) (h : l.drop n = c :: rest) :
    l.drop (n + 1) = rest := by
  have : l.drop (n + 1) = (l.drop n).drop 1 := by rw [List.drop_drop]
  rw [this, h]; rfl

theorem take_drop_snoc (l : List Nat) (ts n c : Nat) (rest : List Nat) (hts : ts ≤ n)
    (h : l.drop n = c :: rest) :
    (l.drop ts).take (n - ts) ++ [c] = (l.drop ts).take (n + 1 - ts) := by
  have h1 : (l.drop ts).drop (n - ts) = c :: rest := by
    rw [List.drop_drop]
    have : ts + (n - ts) = n := by omega
    rw [this]; exact h
  have h2 : n + 1 - ts = (n - ts) + 1 := by omega
  rw [h2, List.take_succ]
  congr 1
  have h3 : (l.drop ts)[n - ts]? = some c := by
    rw [← List.head?_drop, h1]; rfl
  rw [h3]; rfl

theorem jspp_text_suspend (p : jspp_t) (s : Nat) (hs : is_final s = false)
    (h1 : p.token_start ≤ p.text.length) (h2 : p.text.length ≤ 65535) :
    jspp_text (suspend_token p s).2
      = (p.text.drop p.token_start).take (p.text.length - p.token_start) := by
  unfold jspp_text
  rw [suspend_token_text, suspend_token_token_start, suspend_token_token_length p s hs h1 h2]

theorem suspend_sim_of_rel (p : jspp_t) (state txt : Nat) (pend acc B : List Nat)
    (below : List Nat) (h : loop_rel p state txt [] pend acc)
    (hb : below = frames p.stack p.level) (hf : is_final state = false) :
    suspend_sim (byte_run below state acc B) pend B (suspend_token p state) state := by
  have htxt : txt = p.text.length := by
    have := h.rest_eq
    have h1 := congrArg List.length this
    simp at h1
    have := h.txt_le
    omega
  have hts : p.token_start ≤ p.text.length := by have := h.ts_le; omega
  have hst : (suspend_token p state).2.stack = (set_state p state).stack := by
    rw [suspend_token_snd]; rfl
  refine ⟨?_, by rw [suspend_token_level]; exact h.level_lt, ?_, ?_, ?_, ?_⟩
  · rw [suspend_token_level, hst]
    simp only [set_state]
    rw [frames_stack_write p p.level state p.level (le_refl _), ← hb]
    congr 1
    rw [jspp_text_suspend p state hf hts h.len]
    by_cases hin : in_token state = true
    · rw [if_pos hin, h.acc_in hin, htxt]
    · rw [if_neg hin]
      exact (h.acc_out (by simpa using hin)).1
  · rw [suspend_token_level, hst]
    simp only [set_state]
    rw [stack_write_stack _ _ _ _ h.level_lt, if_pos rfl]
  · rw [hst]
    simp only [set_state]
    rw [stack_write_stack _ _ _ _ h.level_lt]
    by_cases hz : p.level = 0
    · rw [hz, if_pos rfl]; exact h.root_state hz
    · rw [if_neg (fun h' => hz h'.symm)]; exact h.root
  · intro hin; exact (h.acc_out hin).2
  · simp [is_final] at hf; simp; omega

theorem nested_cases (s : Nat) (h : is_nested_level_start s = true) :
    s = JSON_ARRAY_BEGIN ∨ s = JSON_OBJECT_BEGIN := by
  simpa [is_nested_level_start] using h

theorem nested_of_start_final (s : Nat)
    (hs : (is_token_start s || is_nested_level_start s) = true) (hf : is_final s = true) :
    is_nested_level_start s = true := by
  rcases Bool.or_eq_true _ _ |>.mp hs with h | h
  · exfalso
    simp [is_token_start] at h
    rcases h with (((h | h) | h) | h) | h <;> rw [h] at hf <;> exact absurd hf (by decide)
  · exact h

theorem token_sim_opener (p : jspp_t) (state txt c : Nat) (rest pend acc B below : List Nat)
    (h : loop_rel p state txt (c :: rest) pend acc) (hb : below = frames p.stack p.level)
    (hs : (is_token_start (next_scan_state state c)
      || is_nested_level_start (next_scan_state state c)) = true)
    (hd : ¬ p.level + 1 = JSON_MAX_STACK)
    (hf : is_final (next_scan_state state c) = true) :
    token_sim (byte_run below state acc (c :: (rest ++ B))) pend B
      (complete_token (inc_level (set_token_start p (next_scan_state state c) txt))
        (next_scan_state state c) txt) := by
  have hnest := nested_of_start_final _ hs hf
  have hlen : below.length = p.level := by rw [hb, frames_length]
  have hstored := h.stored (le_of_lt (lt_trans (by decide) (step_start_from state c hs)))
  have hlt := drop_cons_lt _ _ _ _ h.rest_eq
  have hlen2 := h.len
  have hl := inc_level_level (set_token_start p (next_scan_state state c) txt) h.level_lt
  simp only [set_token_start_level] at hl
  have hlev14 : p.level + 1 < JSON_MAX_STACK := by
    have := h.level_lt; simp only [JSON_MAX_STACK] at *; omega
  rw [byte_run_opener below state acc c (rest ++ B) hs (by rw [hlen]; exact hd) hf]
  generalize hs1 : next_scan_state state c = s1 at *
  have hnb : ¬ s1 = STRING_BEGIN := by
    intro h'; rw [h'] at hf; exact absurd hf (by decide)
  have hts : (inc_level (set_token_start p s1 txt)).token_start = txt := by
    simp only [inc_level_token_start, set_token_start, if_neg hnb]
    exact Nat.mod_eq_of_lt (by omega)
  have hfst : (complete_token (inc_level (set_token_start p s1 txt)) s1 txt).1 = s1 := by
    rcases complete_token_fst (inc_level (set_token_start p s1 txt)) s1 txt with h' | ⟨_, h'⟩
    · exact h'
    · rw [h'] at hnest; exact absurd hnest (by decide)
  have hlevel : (complete_token (inc_level (set_token_start p s1 txt)) s1 txt).2.level
      = p.level + 1 := by
    rw [complete_token_level, if_pos hnest, hl]
  have hstack : ∀ i, (complete_token (inc_level (set_token_start p s1 txt)) s1 txt).2.stack i
      = if i = p.level + 1 then next_parsing_state s1 else p.stack i := by
    intro i
    rw [complete_token_stack, if_pos hnest, hl]
    by_cases hi : i = p.level + 1
    · rw [if_pos ⟨hi, hlev14⟩, if_pos hi]
    · rw [if_neg (fun h' => hi h'.1), if_neg hi]; rfl
  have hpos : scan_pos (complete_token (inc_level (set_token_start p s1 txt)) s1 txt).2
      = txt + 1 := by
    rw [complete_token_scan_pos _ s1 txt (by rw [hts]) (by omega)]
    have : ends_after s1 = true := by
      rcases nested_cases s1 hnest with h' | h' <;> rw [h'] <;> decide
    rw [if_pos (Or.inl this)]
  have hgt : JSON_END < next_parsing_state s1 := by
    rcases nested_cases s1 hnest with h' | h' <;> rw [h'] <;> decide
  refine Or.inr ⟨?_, by rw [hlevel]; exact hlev14, ?_, ?_⟩
  · rw [hfst]; rcases nested_cases s1 hnest with h' | h' <;> rw [h'] <;> decide
  · rw [hfst, hlevel, hstack, if_pos rfl, if_neg (Nat.not_le.mpr hgt), hpos, complete_token_text]
    have htext : is_text_token s1 = false := by
      rcases nested_cases s1 hnest with h' | h' <;> rw [h'] <;> decide
    rw [htext]
    simp only [Bool.false_eq_true, if_false, inc_level_text, set_token_start_text]
    rw [drop_cons_succ _ _ _ _ h.rest_eq]
    congr 2
    simp only [frames]
    rw [hstack, if_neg (by omega), hstored, hb]
    congr 1
    apply frames_congr
    intro i hi
    rw [hstack, if_neg (by omega)]
  · intro _
    rw [hlevel, hstack, hstack, if_pos rfl, if_neg (by omega)]
    exact ⟨h.root, next_parsing_state_not_in_token s1⟩

theorem complete_token_fst_eq (p : jspp_t) (s t : Nat) (hn : is_nested_level_start s = false) :
    (complete_token p s t).1
      = if s = JSON_STRING ∧ is_string_a_member_name (stack_read p ((p.level + 255) % 256))
        then JSON_MEMBER_NAME else s := by
  unfold complete_token
  dsimp only
  rw [if_neg (by simp [hn])]
  have : ∀ q : jspp_t, q.level = p.level → q.stack = p.stack →
      get_state (dec_level q) = stack_read p ((p.level + 255) % 256) := by
    intro q h1 h2
    simp only [get_state, stack_read, dec_level, h1, h2]
  rw [this _ (by split <;> simp) (by split <;> simp)]

theorem text_token_cases (s : Nat) (state : Nat)
    (h : is_text_token (if s = JSON_STRING ∧ is_string_a_member_name state
      then JSON_MEMBER_NAME else s) = true) (hs : scan_token s) :
    s = JSON_STRING ∨ s = JSON_INTEGER ∨ s = JSON_DECIMAL ∨ s = JSON_FLOATING_POINT := by
  split at h
  · rename_i h'; exact Or.inl h'.1
  · simp [is_text_token] at h
    unfold scan_token at hs
    simp at hs
    show s = 13 ∨ s = 10 ∨ s = 11 ∨ s = 12
    omega

theorem token_sim_final (p : jspp_t) (state txt c : Nat) (rest pend acc B below : List Nat)
    (h : loop_rel p state txt (c :: rest) pend acc) (hb : below = frames p.stack p.level)
    (hs : (is_token_start (next_scan_state state c)
      || is_nested_level_start (next_scan_state state c)) = false)
    (hf : is_final (next_scan_state state c) = true) :
    token_sim (byte_run below state acc (c :: (rest ++ B))) pend B
      (complete_token p (next_scan_state state c) txt) := by
  have hlt := drop_cons_lt _ _ _ _ h.rest_eq
  have hlen2 := h.len
  have hscan := next_scan_state_final state c hf
  by_cases hi : next_scan_state state c = JSON_INVALID
  · left
    refine ⟨?_, byte_run_invalid below state acc c _ hi⟩
    rcases complete_token_fst p (next_scan_state state c) txt with h' | ⟨_, h'⟩
    · rw [h', hi]
    · rw [hi] at h'; exact absurd h' (by decide)
  · right
    have hnn : is_nested_level_start (next_scan_state state c) = false := by
      simp only [Bool.or_eq_false_iff] at hs; exact hs.2
    have hlev : p.level ≠ 0 := by
      intro hz
      have hst := h.root_state hz
      rw [hst] at hs hf hi
      rcases root_step c with h' | h' | h'
      · rw [h'] at hf; exact absurd hf (by decide)
      · exact hi h'
      · rw [h'] at hs; exact absurd hs (by decide)
    obtain ⟨k, hk⟩ : ∃ k, p.level = k + 1 := ⟨p.level - 1, by omega⟩
    have hk14 : k < JSON_MAX_STACK := by have := h.level_lt; omega
    have hmod : (p.level + 255) % 256 = k := by
      have := h.level_lt; simp only [JSON_MAX_STACK] at this; omega
    have hbelow : below = p.stack k :: frames p.stack k := by
      rw [hb, hk]; rfl
    generalize hs1 : next_scan_state state c = s1 at *
    have hread : stack_read p k = p.stack k := by
      simp only [stack_read, hk14, if_true]
    have hread' : stack_read (dec_level p) k = p.stack k := by
      simp only [stack_read, hk14, if_true, dec_level_stack]
    have hfst : (complete_token p s1 txt).1
        = if s1 = JSON_STRING ∧ is_string_a_member_name (p.stack k) then JSON_MEMBER_NAME
          else s1 := by
      rw [complete_token_fst_eq p s1 txt hnn, hmod, hread]
    have hlevel : (complete_token p s1 txt).2.level = k := by
      rw [complete_token_level, hnn]
      simp only [Bool.false_eq_true, if_false]
      exact hmod
    have hstack : ∀ i, (complete_token p s1 txt).2.stack i
        = if i = k then next_parsing_state (p.stack k) else p.stack i := by
      intro i
      rw [complete_token_stack, hnn]
      simp only [Bool.false_eq_true, if_false]
      rw [hmod, hread']
      by_cases hi' : i = k
      · rw [if_pos ⟨hi', hk14⟩, if_pos hi']
      · rw [if_neg (fun h' => hi' h'.1), if_neg hi']
    have hframes : frames (complete_token p s1 txt).2.stack k = frames p.stack k := by
      apply frames_congr
      intro i hi'
      rw [hstack, if_neg (by omega)]
    have hpos : scan_pos (complete_token p s1 txt).2
        = if ends_after s1 ∨ s1 = JSON_STRING then txt + 1 else txt :=
      complete_token_scan_pos p s1 txt h.ts_le (by omega)
    have hge : JSON_NULL ≤ (complete_token p s1 txt).1 := by
      rw [hfst]
      split
      · decide
      · unfold scan_token at hscan; simp at hscan hi ⊢; omega
    have htext : is_text_token (complete_token p s1 txt).1 = true →
        acc = pend ++ jspp_text (complete_token p s1 txt).2 := by
      intro ht
      rw [hfst] at ht
      have hc := text_token_cases s1 _ ht hscan
      have hin := step_text_final state c (by rw [hs1]; exact hc)
      rw [h.acc_in hin]
      congr 1
      unfold jspp_text
      have hnc : ¬ (s1 = JSON_ARRAY_END ∨ s1 = JSON_OBJECT_END) := by
        rcases hc with h' | h' | h' | h' <;> rw [h'] <;> decide
      have hne : ends_after s1 = false := by
        rcases hc with h' | h' | h' | h' <;> rw [h'] <;> decide
      rw [complete_token_text, complete_token_token_start, if_neg hnc,
        complete_token_token_length p s1 txt h.ts_le (by omega), if_neg hnc, hne]
      simp only [Bool.false_eq_true, if_false]
    have hev : reduce_event (p.stack k) s1 acc
        = ((complete_token p s1 txt).1,
            if is_text_token (complete_token p s1 txt).1 then
              pend ++ jspp_text (complete_token p s1 txt).2 else []) := by
      unfold reduce_event
      rw [← hfst]
      by_cases ht : is_text_token (complete_token p s1 txt).1 = true
      · rw [if_pos ht, if_pos ht, htext ht]
      · rw [if_neg ht, if_neg ht]
    refine ⟨hge, by rw [hlevel]; exact hk14, ?_, ?_⟩
    · rw [hlevel, hstack, if_pos rfl, hframes, complete_token_text, hpos, ← hev, hbelow]
      by_cases hn : s1 = JSON_INTEGER ∨ s1 = JSON_DECIMAL ∨ s1 = JSON_FLOATING_POINT
      · have := byte_run_number (p.stack k) (frames p.stack k) state acc c (rest ++ B)
          (by rw [hs1]; exact hn)
        rw [hs1] at this
        rw [this]
        have he : ¬ (ends_after s1 = true ∨ s1 = JSON_STRING) := by
          rcases hn with h' | h' | h' <;> rw [h'] <;> decide
        rw [if_neg he, h.rest_eq]
        rfl
      · have := byte_run_final (p.stack k) (frames p.stack k) state acc c (rest ++ B)
          (by rw [hs1]; exact hs) (by rw [hs1]; exact hf) (by rw [hs1]; exact hi)
          (by rw [hs1]; exact hn)
        rw [hs1] at this
        rw [this]
        have he : ends_after s1 = true ∨ s1 = JSON_STRING := by
          unfold scan_token at hscan
          simp [is_nested_level_start] at hnn
          simp at hscan hi hn
          have : s1 = 7 ∨ s1 = 8 ∨ s1 = 9 ∨ s1 = 13 ∨ s1 = 16 ∨ s1 = 18 := by omega
          rcases this with h' | h' | h' | h' | h' | h' <;> rw [h'] <;> decide
        rw [if_pos he, drop_cons_succ _ _ _ _ h.rest_eq]
        rfl
    · intro hgt
      rw [hlevel] at hgt ⊢
      rw [hstack k, if_pos rfl] at hgt ⊢
      refine ⟨?_, next_parsing_state_not_in_token _⟩
      rw [hstack 0]
      by_cases hz : k = 0
      · exfalso
        rw [hz, h.root] at hgt
        exact absurd hgt (by decide)
      · rw [if_neg (fun h' => hz h'.symm)]; exact h.root

theorem token_start_cases (s : Nat)
    (hs : (is_token_start s || is_nested_level_start s) = true) (hf : is_final s = false) :
    s = NULL_N ∨ s = TRUE_T ∨ s = FALSE_F ∨ s = NUMBER_BEGIN ∨ s = STRING_BEGIN := by
  rcases Bool.or_eq_true _ _ |>.mp hs with h | h
  · simp [is_token_start] at h
    show s = 0x21 ∨ s = 0x24 ∨ s = 0x27 ∨ s = 0x2f ∨ s = 0x2b
    omega
  · exfalso
    rcases nested_cases s h with h' | h' <;> rw [h'] at hf <;> exact absurd hf (by decide)

theorem loop_rel_push (p : jspp_t) (state txt c : Nat) (rest pend acc below : List Nat)
    (h : loop_rel p state txt (c :: rest) pend acc) (hb : below = frames p.stack p.level)
    (hs : (is_token_start (next_scan_state state c)
      || is_nested_level_start (next_scan_state state c)) = true)
    (hd : ¬ p.level + 1 = JSON_MAX_STACK)
    (hf : is_final (next_scan_state state c) = false) :
    loop_rel (inc_level (set_token_start p (next_scan_state state c) txt))
        (next_scan_state state c) (txt + 1) rest pend
        (if next_scan_state state c = NUMBER_BEGIN then [c] else [])
      ∧ state :: below = frames (inc_level (set_token_start p (next_scan_state state c) txt)).stack
          (inc_level (set_token_start p (next_scan_state state c) txt)).level := by
  have hlt := drop_cons_lt _ _ _ _ h.rest_eq
  have hlen2 := h.len
  have hgt := step_start_from state c hs
  have hstored := h.stored (le_of_lt (lt_trans (by decide) hgt))
  have hnin : in_token state = false := by
    simp [in_token]; simp at hgt; omega
  obtain ⟨hacc, hpend⟩ := h.acc_out hnin
  have hl := inc_level_level (set_token_start p (next_scan_state state c) txt) h.level_lt
  simp only [set_token_start_level] at hl
  have hcases := token_start_cases _ hs hf
  generalize hs1 : next_scan_state state c = s1 at *
  have hmod : txt % 65536 = txt := Nat.mod_eq_of_lt (by omega)
  have hmod1 : (txt + 1) % 65536 = txt + 1 := Nat.mod_eq_of_lt (by omega)
  refine ⟨⟨?_, h.len, ?_, by simpa using hlt, ?_, h.root, ?_, ?_, ?_, ?_⟩, ?_⟩
  · rw [hl]; have := h.level_lt; simp only [JSON_MAX_STACK] at *; omega
  · simp only [inc_level_token_start, set_token_start]
    split
    · rw [hmod, hmod1]
    · rw [hmod]; omega
  · exact drop_cons_succ _ _ _ _ h.rest_eq
  · intro hz; rw [hl] at hz; omega
  · intro hp
    exfalso
    rcases hcases with h' | h' | h' | h' | h' <;> rw [h'] at hp <;> exact absurd hp (by decide)
  · intro hin
    rw [hpend, List.nil_append]
    simp only [inc_level_token_start, inc_level_text, set_token_start, set_token_start_text]
    rcases hcases with h' | h' | h' | h' | h'
    · rw [h'] at hin; exact absurd hin (by decide)
    · rw [h'] at hin; exact absurd hin (by decide)
    · rw [h'] at hin; exact absurd hin (by decide)
    · rw [h']
      simp only [if_true, (by decide : ¬ NUMBER_BEGIN = STRING_BEGIN), if_false]
      rw [hmod, h.rest_eq]
      simp
    · rw [h']
      simp only [if_true, (by decide : ¬ STRING_BEGIN = NUMBER_BEGIN), if_false]
      rw [hmod, hmod1]
      simp
  · intro hin
    refine ⟨?_, hpend⟩
    have : ¬ s1 = NUMBER_BEGIN := by
      intro h'; rw [h'] at hin; exact absurd hin (by decide)
    rw [if_neg this]
  · rw [hl]
    simp only [inc_level_stack, set_token_start_stack, frames]
    rw [hstored, hb]

theorem loop_rel_quiet (p : jspp_t) (state txt c : Nat) (rest pend acc : List Nat)
    (h : loop_rel p state txt (c :: rest) pend acc)
    (hs : (is_token_start (next_scan_state state c)
      || is_nested_level_start (next_scan_state state c)) = false)
    (hf : is_final (next_scan_state state c) = false) :
    loop_rel
        (if next_scan_state state c > __REDUCING_PARSER_STATES
          then set_state p (next_scan_state state c) else p)
        (next_scan_state state c) (txt + 1) rest pend
        (if in_token (next_scan_state state c) then acc ++ [c] else [])
      ∧ frames (if next_scan_state state c > __REDUCING_PARSER_STATES
          then set_state p (next_scan_state state c) else p).stack
          (if next_scan_state state c > __REDUCING_PARSER_STATES
          then set_state p (next_scan_state state c) else p).level = frames p.stack p.level := by
  have hlt := drop_cons_lt _ _ _ _ h.rest_eq
  have hin := step_in_token state c hs hf
  have hroot : p.level = 0 → next_scan_state state c = EXPECTING_JSON := by
    intro hz
    have hst := h.root_state hz
    rw [hst] at hs hf ⊢
    rcases root_step c with h' | h' | h'
    · exact h'
    · rw [h'] at hf; exact absurd hf (by decide)
    · rw [h'] at hs; exact absurd hs (by decide)
  generalize hs1 : next_scan_state state c = s1 at *
  have hq : ∀ q : jspp_t,
      q = (if s1 > __REDUCING_PARSER_STATES then set_state p s1 else p) →
      q.level = p.level ∧ q.text = p.text ∧ q.token_start = p.token_start
        ∧ q.stack 0 = EXPECTING_JSON ∧ (__PARSER_STATES ≤ s1 → q.stack q.level = s1)
        ∧ frames q.stack q.level = frames p.stack p.level := by
    intro q hq
    subst hq
    split
    · rename_i hgt
      refine ⟨by simp, by simp, by simp, ?_, ?_, ?_⟩
      · simp only [set_state]
        rw [stack_write_stack _ _ _ _ h.level_lt]
        by_cases hz : p.level = 0
        · rw [hz, if_pos rfl]; exact hroot hz
        · rw [if_neg (fun h' => hz h'.symm)]; exact h.root
      · intro _
        simp only [set_state, stack_write_level]
        rw [stack_write_stack _ _ _ _ h.level_lt, if_pos rfl]
      · simp only [set_state, stack_write_level]
        exact frames_stack_write p p.level s1 p.level (le_refl _)
    · rename_i hgt
      refine ⟨rfl, rfl, rfl, h.root, ?_, rfl⟩
      intro hp
      rcases step_parser_state state c (by rw [hs1]; exact hp) with h' | h'
      · rw [hs1] at h'; exact absurd h' hgt
      · rw [hs1] at h'
        rw [h']
        exact h.stored (by rw [← h']; exact hp)
  obtain ⟨q1, q2, q3, q4, q5, q6⟩ := hq _ rfl
  refine ⟨⟨by rw [q1]; exact h.level_lt, by rw [q2]; exact h.len,
    by rw [q3]; have := h.ts_le; omega, by rw [q2]; exact hlt, ?_, q4, ?_, q5, ?_, ?_⟩, q6⟩
  · rw [q2]; exact drop_cons_succ _ _ _ _ h.rest_eq
  · intro hz; rw [q1] at hz; exact hroot hz
  · intro hi
    rw [if_pos hi, h.acc_in (by rw [← hin]; exact hi), q2, q3, List.append_assoc,
      take_drop_snoc p.text p.token_start txt c rest h.ts_le h.rest_eq]
  · intro hi
    refine ⟨by rw [hi]; rfl, (h.acc_out (by rw [← hin]; exact hi)).2⟩

theorem scan_loop_sim (B : List Nat) (rest : List Nat) :
    ∀ (p : jspp_t) (state txt : Nat) (pend acc below : List Nat),
      loop_rel p state txt rest pend acc → below = frames p.stack p.level →
      (rest ≠ [] ∨ is_final state = false) →
      loop_sim (byte_run below state acc (rest ++ B)) pend B (scan_loop p state txt rest) := by
  induction rest with
  | nil =>
    intro p state txt pend acc below h hb hne
    have hf : is_final state = false := by
      rcases hne with h' | h'
      · exact absurd rfl h'
      · exact h'
    simp only [scan_loop, loop_sim, hf, Bool.false_eq_true, if_false, List.nil_append]
    exact suspend_sim_of_rel p state txt pend acc B below h hb hf
  | cons c rest ih =>
    intro p state txt pend acc below h hb _
    have hlenb : below.length = p.level := by rw [hb, frames_length]
    have hl := inc_level_level (set_token_start p (next_scan_state state c) txt) h.level_lt
    simp only [set_token_start_level] at hl
    simp only [scan_loop, List.cons_append]
    by_cases hs : (is_token_start (next_scan_state state c)
        || is_nested_level_start (next_scan_state state c)) = true
    · rw [if_pos hs]
      by_cases hd : (inc_level (set_token_start p (next_scan_state state c) txt)).level
          = JSON_MAX_STACK
      · rw [if_pos hd]
        simp only [loop_sim]
        rw [hl] at hd
        exact byte_run_too_deep below state acc c _ hs (by rw [hlenb]; exact hd)
      · rw [if_neg hd]
        rw [hl] at hd
        by_cases hf : is_final (next_scan_state state c) = true
        · rw [if_pos hf]
          simp only [loop_sim, hf, if_true]
          exact token_sim_opener p state txt c rest pend acc B below h hb hs hd hf
        · rw [if_neg hf]
          have hf' : is_final (next_scan_state state c) = false := by simpa using hf
          obtain ⟨hrel, hfr⟩ := loop_rel_push p state txt c rest pend acc below h hb hs hd hf'
          rw [byte_run_token_start below state acc c (rest ++ B) hs
            (by rw [hlenb]; exact hd) hf']
          exact ih _ _ _ pend _ _ hrel hfr (Or.inr hf')
    · rw [if_neg hs]
      have hs' : (is_token_start (next_scan_state state c)
          || is_nested_level_start (next_scan_state state c)) = false := by simpa using hs
      by_cases hf : is_final (next_scan_state state c) = true
      · rw [if_pos hf]
        have hng : ¬ next_scan_state state c > __REDUCING_PARSER_STATES := by
          simp [is_final] at hf; simp; omega
        rw [if_neg hng]
        simp only [loop_sim, hf, if_true]
        exact token_sim_final p state txt c rest pend acc B below h hb hs' hf
      · rw [if_neg hf]
        have hf' : is_final (next_scan_state state c) = false := by simpa using hf
        obtain ⟨hrel, hfr⟩ := loop_rel_quiet p state txt c rest pend acc h hs' hf'
        rw [byte_run_quiet below state acc c (rest ++ B) hs' hf']
        exact ih _ _ _ pend _ _ hrel (by rw [hfr]; exact hb) (Or.inr hf')

/-! ### The caller's loop against `byte_run` -/

theorem get_state_eq (q : jspp_t) (h : q.level < JSON_MAX_STACK) :
    get_state q = q.stack q.level := by
  simp only [get_state, stack_read, h, if_true]

theorem scan_loop_txt_ge (rest : List Nat) : ∀ (p : jspp_t) (state txt : Nat)
    (p1 : jspp_t) (s1 t1 : Nat), scan_loop p state txt rest = .stopped p1 s1 t1 → txt ≤ t1 := by
  induction rest with
  | nil =>
    intro p state txt p1 s1 t1 h
    simp only [scan_loop, scan_result.stopped.injEq] at h
    omega
  | cons c rest ih =>
    intro p state txt p1 s1 t1 h
    simp only [scan_loop] at h
    split at h
    · split at h
      · exact absurd h (by simp)
      · split at h
        · simp only [scan_result.stopped.injEq] at h; omega
        · have := ih _ _ _ _ _ _ h; omega
    · split at h
      · simp only [scan_result.stopped.injEq] at h; omega
      · have := ih _ _ _ _ _ _ h; omega

/-- A token that the loop completes at the byte it started with is decided by
that byte alone. -/
theorem scan_loop_first (c : Nat) (rest : List Nat) (p : jspp_t) (state txt : Nat)
    (p1 : jspp_t) (s1 : Nat) (h : scan_loop p state txt (c :: rest) = .stopped p1 s1 txt) :
    s1 = next_scan_state state c := by
  simp only [scan_loop] at h
  split at h
  · split at h
    · exact absurd h (by simp)
    · split at h
      · simp only [scan_result.stopped.injEq] at h; exact h.2.1.symm
      · have := scan_loop_txt_ge _ _ _ _ _ _ _ h; omega
  · split at h
    · simp only [scan_result.stopped.injEq] at h; exact h.2.1.symm
    · have := scan_loop_txt_ge _ _ _ _ _ _ _ h; omega

theorem loop_rel_of_call (q : jspp_t) (pend : List Nat) (h : call_rel q pend) :
    loop_rel q (q.stack q.level) (scan_pos q) (q.text.drop (scan_pos q)) pend pend := by
  refine ⟨h.level_lt, h.bounded.1, token_start_le_scan_pos q, h.bounded.2 h.level_lt, rfl,
    h.root, ?_, fun _ => rfl, ?_, ?_⟩
  · intro hz; rw [hz]; exact h.root
  · intro hin
    rw [h.mid hin]
    simp
  · intro hin
    have := h.pend_nil hin
    exact ⟨this, this⟩

theorem call_rel_set_fragment (q : jspp_t) (pend text : List Nat)
    (h1 : q.level < JSON_MAX_STACK) (h2 : JSON_END < q.stack q.level)
    (h3 : q.stack 0 = EXPECTING_JSON) (h4 : in_token (q.stack q.level) = false → pend = [])
    (h5 : q.skip_token = 0) (ht : text.length ≤ 65535) :
    call_rel (set_fragment q text) pend := by
  refine ⟨h1, ⟨ht, fun _ => ?_⟩, h2, h3, h4, fun _ => ?_, h5⟩
  · simp [scan_pos, set_fragment]
  · simp [scan_pos, set_fragment]

theorem jspp_continue_plain (fuel : Nat) (q : jspp_t) (text : List Nat)
    (h : q.skip_token = 0) :
    jspp_continue fuel q text = some (jspp_next (set_fragment q text)) := by
  have h' : (set_fragment q text).skip_token = 0 := h
  unfold jspp_continue
  dsimp only
  rw [h']
  rfl

theorem suspend_token_kind (p : jspp_t) (s : Nat) :
    (in_token s = false ∧ (suspend_token p s).1 = JSON_CONTINUE)
      ∨ (in_token s = true ∧ JSON_MEMBER_NAME_PART ≤ (suspend_token p s).1
          ∧ (suspend_token p s).1 ≤ JSON_STRING_PART) := by
  unfold suspend_token
  dsimp only
  by_cases h1 : STRING_BEGIN ≤ s ∧ s < __STRING_END
  · right
    rw [if_pos h1]
    refine ⟨by simp [in_token]; simp at h1; omega, ?_⟩
    split_ifs <;> dsimp only <;> exact ⟨by decide, by decide⟩
  · rw [if_neg h1]
    by_cases h2 : NUMBER_BEGIN ≤ s ∧ s < __NUMBER_END
    · right
      rw [if_pos h2]
      refine ⟨by simp [in_token]; simp at h2; omega, ?_⟩
      dsimp only
      exact ⟨by decide, by decide⟩
    · left
      rw [if_neg h2]
      refine ⟨?_, rfl⟩
      simp only [in_token, Bool.or_eq_false_iff, Bool.and_eq_false_iff, decide_eq_false_iff_not]
      simp at h1 h2 ⊢
      omega

theorem drive_succ (fuel : Nat) (p : jspp_t) (token : Nat) (rest : List (List Nat)) :
    drive (fuel + 1) p token rest
      = (token, jspp_text p) ::
          if token ≤ JSON_END then []
          else if token ≤ JSON_STRING_PART then
            match rest with
            | [] => []
            | text :: rest1 =>
              match jspp_continue 0 p text with
              | some r => drive fuel r.2 r.1 rest1
              | none => []
          else drive fuel (jspp_next p).2 (jspp_next p).1 rest := rfl

theorem stitch_terminal (acc : List Nat) (token : Nat) (text : List Nat) (h : token ≤ JSON_END) :
    stitch acc [(token, text)] = [(token, [])] := by
  have h1 : ¬ token = JSON_CONTINUE := by simp at h ⊢; omega
  have h2 : ¬ (JSON_MEMBER_NAME_PART ≤ token ∧ token ≤ JSON_STRING_PART) := by
    simp at h ⊢; omega
  have h3 : is_text_token token = false := by
    simp [is_text_token]; simp at h; omega
  simp only [stitch, if_neg h1, if_neg h2, h3, Bool.false_eq_true, if_false]

theorem stitch_complete (acc : List Nat) (token : Nat) (text : List Nat) (rest : List Event)
    (h : JSON_NULL ≤ token) :
    stitch acc ((token, text) :: rest)
      = (token, if is_text_token token then acc ++ text else []) :: stitch [] rest := by
  have h1 : ¬ token = JSON_CONTINUE := by simp at h ⊢; omega
  have h2 : ¬ (JSON_MEMBER_NAME_PART ≤ token ∧ token ≤ JSON_STRING_PART) := by
    simp at h ⊢; omega
  simp only [stitch, if_neg h1, if_neg h2]

theorem stitch_continue (acc : List Nat) (text : List Nat) (rest : List Event) :
    stitch acc ((JSON_CONTINUE, text) :: rest) = stitch acc rest := by
  simp only [stitch, if_true]

theorem stitch_part (acc : List Nat) (token : Nat) (text : List Nat) (rest : List Event)
    (h1 : JSON_MEMBER_NAME_PART ≤ token) (h2 : token ≤ JSON_STRING_PART) :
    stitch acc ((token, text) :: rest) = stitch (acc ++ text) rest := by
  have h3 : ¬ token = JSON_CONTINUE := by simp at h1 ⊢; omega
  simp only [stitch, if_neg h3, if_pos (And.intro h1 h2)]

theorem jspp_next_terminal (p : jspp_t) (h : p.level < JSON_MAX_STACK)
    (hs : get_state p ≤ JSON_END) : jspp_next p = (get_state p, p) := by
  unfold jspp_next
  rw [if_neg (by omega)]
  simp only [hs, if_true]

theorem drive_sim (fuel : Nat) : ∀ (q : jspp_t) (pend : List Nat) (rest : List (List Nat)),
    call_rel q pend → (∀ f ∈ rest, f.length ≤ 65535) → drive_measure q rest ≤ fuel →
    stitch pend (drive fuel (jspp_next q).2 (jspp_next q).1 rest)
      = byte_run (frames q.stack q.level) (q.stack q.level) pend
          (q.text.drop (scan_pos q) ++ rest.flatten) := by
  induction fuel with
  | zero =>
    intro q pend rest _ _ hm
    unfold drive_measure at hm; omega
  | succ n ih =>
    intro q pend rest hq hfr hm
    have hgs := get_state_eq q hq.level_lt
    rw [drive_succ]
    cases jspp_next_case q hq.bounded with
    | dead h e => have := hq.level_lt; omega
    | terminal h hs e => rw [hgs] at hs; have := hq.state_gt; omega
    | at_end h hs hp e =>
      rw [e]
      simp only [(by decide : ¬ JSON_CONTINUE ≤ JSON_END), if_false,
        (by decide : JSON_CONTINUE ≤ JSON_STRING_PART), if_true]
      rw [stitch_continue]
      have hdrop : q.text.drop (scan_pos q) = [] := by
        rw [hp]; exact List.drop_length _
      rw [hdrop, List.nil_append]
      cases rest with
      | nil => simp [stitch, byte_run]
      | cons f fs =>
        simp only [jspp_continue_plain 0 q f hq.no_skip, List.flatten_cons]
        have hrel := call_rel_set_fragment q pend f hq.level_lt hq.state_gt hq.root hq.pend_nil
          hq.no_skip (hfr f (List.mem_cons_self _ _))
        have := ih (set_fragment q f) pend fs hrel
          (fun g hg => hfr g (List.mem_cons_of_mem _ hg))
          (by
            unfold drive_measure at hm ⊢
            simp only [List.flatten_cons, List.length_append, List.length_cons] at hm
            have : (set_fragment q f).text = f := rfl
            rw [this]
            have : (set_fragment q f).stack (set_fragment q f).level = q.stack q.level := rfl
            rw [this]
            omega)
        rw [this]
        simp [scan_pos, set_fragment]
    | too_deep p1 h hs hp hl hpost e =>
      rw [e]
      simp only [(by decide : JSON_TOO_DEEP ≤ JSON_END), if_true]
      rw [stitch_terminal _ _ _ (by decide)]
      have hsim := scan_loop_sim rest.flatten (q.text.drop (scan_pos q)) q (q.stack q.level)
        (scan_pos q) pend pend _ (loop_rel_of_call q pend hq) rfl
        (Or.inl (by
          intro hnil
          have := congrArg List.length hnil
          simp at this; omega))
      rw [← hgs, hl] at hsim
      rw [← hgs]
      exact hsim.symm
    | complete p1 s1 t1 h hs hp hl hpost hf e =>
      have hsim := scan_loop_sim rest.flatten (q.text.drop (scan_pos q)) q (q.stack q.level)
        (scan_pos q) pend pend _ (loop_rel_of_call q pend hq) rfl
        (Or.inl (by
          intro hnil
          have := congrArg List.length hnil
          simp at this; omega))
      rw [← hgs, hl] at hsim
      simp only [loop_sim, hf, if_true] at hsim
      rw [← e] at hsim
      rw [← hgs]
      rcases hsim with ⟨h1, h2⟩ | ⟨h1, h2, h3, h4⟩
      · rw [h2, h1]
        simp only [(by decide : JSON_INVALID ≤ JSON_END), if_true]
        exact stitch_terminal _ _ _ (by decide)
      · rw [h3]
        have hne : ¬ (jspp_next q).1 ≤ JSON_END := by simp at h1 ⊢; omega
        have hnp : ¬ (jspp_next q).1 ≤ JSON_STRING_PART := by simp at h1 ⊢; omega
        rw [if_neg hne, if_neg hnp, stitch_complete _ _ _ _ h1]
        congr 1
        have hb2 := jspp_next_bounded q hq.bounded
        by_cases hterm : (jspp_next q).2.stack (jspp_next q).2.level ≤ JSON_END
        · rw [if_pos hterm]
          have hn1 : ∃ m, n = m + 1 := by
            refine ⟨n - 1, ?_⟩
            unfold drive_measure at hm; omega
          obtain ⟨m, hm1⟩ := hn1
          have hterm' : get_state (jspp_next q).2 ≤ JSON_END := by
            rw [get_state_eq _ h2]; exact hterm
          have e2 : jspp_next (jspp_next q).2
              = ((jspp_next q).2.stack (jspp_next q).2.level, (jspp_next q).2) := by
            rw [← get_state_eq _ h2]
            exact jspp_next_terminal _ h2 hterm'
          rw [hm1, drive_succ, e2]
          simp only [hterm, if_true]
          exact stitch_terminal _ _ _ hterm
        · rw [if_neg hterm]
          have hgt : JSON_END < (jspp_next q).2.stack (jspp_next q).2.level :=
            Nat.lt_of_not_le hterm
          obtain ⟨h5, h6⟩ := h4 hgt
          have hrel : call_rel (jspp_next q).2 [] :=
            ⟨h2, hb2, hgt, h5, fun _ => rfl, fun h' => by rw [h6] at h'; exact absurd h' (by decide),
              by rw [(jspp_next_frame q hq.bounded).2.1]; exact hq.no_skip⟩
          refine ih (jspp_next q).2 [] rest hrel hfr ?_
          -- the measure decreases
          obtain ⟨a1, a2, a3, a4, a5, a6, a7, a8, a9, a10, a11⟩ := hpost
          have hpos : scan_pos (jspp_next q).2
              = if ends_after s1 ∨ s1 = JSON_STRING then t1 + 1 else t1 := by
            rw [e]
            exact complete_token_scan_pos p1 s1 t1 a6 (by have := a9 hf; have := hq.bounded.1; omega)
          have htext : (jspp_next q).2.text = q.text := (jspp_next_frame q hq.bounded).1
          have hlt := a9 hf
          unfold drive_measure at hm ⊢
          rw [h6, htext, hpos]
          simp only [Bool.false_eq_true, if_false]
          by_cases hadv : ends_after s1 = true ∨ s1 = JSON_STRING
          · rw [if_pos hadv]; split at hm <;> omega
          · rw [if_neg hadv]
            by_cases hsame : t1 = scan_pos q
            · -- completed at the first byte: the parser was inside a number
              have : in_token (q.stack q.level) = true := by
                obtain ⟨c, rest', hcr⟩ : ∃ c rest', q.text.drop (scan_pos q) = c :: rest' := by
                  cases hd : q.text.drop (scan_pos q) with
                  | nil =>
                    have := congrArg List.length hd
                    simp at this; omega
                  | cons c rest' => exact ⟨c, rest', rfl⟩
                rw [hcr, hsame] at hl
                have hs1 := scan_loop_first c rest' q (get_state q) (scan_pos q) p1 s1 hl
                rw [hgs] at hs1
                have hk := a11 hf
                apply step_text_final (q.stack q.level) c
                rw [← hs1]
                have hinv : ¬ s1 = JSON_INVALID := by
                  intro h0
                  rcases complete_token_fst p1 s1 t1 with h' | ⟨_, h'⟩
                  · rw [← e, h0] at h'; rw [h'] at h1; exact absurd h1 (by decide)
                  · rw [h0] at h'; exact absurd h' (by decide)
                unfold scan_token at hk
                simp [ends_after] at hadv
                simp at hk hinv ⊢
                omega
              rw [this] at hm
              simp only [if_true] at hm
              omega
            · split at hm <;> omega
    | suspended p1 s1 t1 h hs hp hl hpost hf e =>
      have hsim := scan_loop_sim rest.flatten (q.text.drop (scan_pos q)) q (q.stack q.level)
        (scan_pos q) pend pend _ (loop_rel_of_call q pend hq) rfl
        (Or.inl (by
          intro hnil
          have := congrArg List.length hnil
          simp at this; omega))
      rw [← hgs, hl] at hsim
      simp only [loop_sim, hf, Bool.false_eq_true, if_false] at hsim
      rw [← e] at hsim
      rw [← hgs]
      obtain ⟨h1, h2, h3, h4, h5, h6⟩ := hsim
      rw [h1]
      have hkind := suspend_token_kind p1 s1
      rw [← e] at hkind
      have hskip : (jspp_next q).2.skip_token = 0 := by
        rw [(jspp_next_frame q hq.bounded).2.1]; exact hq.no_skip
      have hstitch : ∀ Y : List Event,
          stitch pend (((jspp_next q).1, jspp_text (jspp_next q).2) :: Y)
            = stitch (if in_token s1 then pend ++ jspp_text (jspp_next q).2 else []) Y := by
        intro Y
        rcases hkind with ⟨k1, k2⟩ | ⟨k1, k2, k3⟩
        · rw [k2, stitch_continue, k1, h5 k1]
          simp only [Bool.false_eq_true, if_false]
        · rw [stitch_part _ _ _ _ k2 k3, k1]
          simp only [if_true]
      have hne : ¬ (jspp_next q).1 ≤ JSON_END := by
        rcases hkind with ⟨_, k2⟩ | ⟨_, k2, _⟩
        · rw [k2]; decide
        · simp at k2 ⊢; omega
      have hpart : (jspp_next q).1 ≤ JSON_STRING_PART := by
        rcases hkind with ⟨_, k2⟩ | ⟨_, _, k3⟩
        · rw [k2]; decide
        · exact k3
      rw [if_neg hne, if_pos hpart, hstitch]
      cases rest with
      | nil => simp [stitch, byte_run]
      | cons f fs =>
        simp only [jspp_continue_plain 0 _ f hskip, List.flatten_cons]
        have hrel := call_rel_set_fragment (jspp_next q).2
          (if in_token s1 then pend ++ jspp_text (jspp_next q).2 else []) f h2
          (by rw [h3]; exact h6) h4
          (by
            intro hin
            rw [h3] at hin
            rw [hin]
            simp only [Bool.false_eq_true, if_false])
          hskip (hfr f (List.mem_cons_self _ _))
        have := ih (set_fragment (jspp_next q).2 f) _ fs hrel
          (fun g hg => hfr g (List.mem_cons_of_mem _ hg))
          (by
            unfold drive_measure at hm ⊢
            simp only [List.flatten_cons, List.length_append, List.length_cons] at hm
            have : (set_fragment (jspp_next q).2 f).text = f := rfl
            rw [this]
            split <;> split at hm <;> omega)
        rw [this]
        have e1 : (set_fragment (jspp_next q).2 f).stack (set_fragment (jspp_next q).2 f).level
            = s1 := h3
        rw [e1]
        simp [scan_pos, set_fragment]

theorem call_rel_start (p : jspp_t) (text : List Nat) (ht : text.length ≤ 65535) :
    call_rel (start_state p text) [] := by
  have hl : (start_state p text).level = 0 := by simp [start_state]
  have hs : (start_state p text).stack 0 = EXPECTING_JSON := by
    unfold start_state
    rw [stack_write_stack _ _ _ _ (by decide)]; simp
  refine ⟨by rw [hl]; decide, (core_inv_start_state p text ht).1, ?_, hs, fun _ => rfl, ?_,
    start_state_skip_token p text⟩
  · rw [hl, hs]; decide
  · intro h; rw [hl, hs] at h; exact absurd h (by decide)

/-- The tokens a caller stitches together from any fragmentation of a document
are the tokens of the document read byte by byte. -/
theorem parse_eq_byte_run (p : jspp_t) (fragments : List (List Nat))
    (h : ∀ f ∈ fragments, f.length ≤ 65535) :
    stitch [] (parse p fragments) = byte_run [] EXPECTING_JSON [] fragments.flatten := by
  cases fragments with
  | nil => rfl
  | cons text rest =>
    have hrel := call_rel_start p text (h text (List.mem_cons_self _ _))
    have hl : (start_state p text).level = 0 := by simp [start_state]
    have hs : (start_state p text).stack 0 = EXPECTING_JSON := hrel.root
    have hpos : scan_pos (start_state p text) = 0 := by
      simp [scan_pos, start_state, set_fragment]
    have ht : (start_state p text).text = text := by simp [start_state, set_fragment]
    have := drive_sim (drive_fuel (text :: rest)) (start_state p text) [] rest hrel
      (fun g hg => h g (List.mem_cons_of_mem _ hg))
      (by
        unfold drive_measure drive_fuel
        rw [hl, hs, hpos, ht]
        simp only [List.flatten_cons, List.length_append, List.length_cons]
        have : in_token EXPECTING_JSON = false := by decide
        rw [this]
        simp only [Bool.false_eq_true, if_false]
        omega)
    rw [hl, hs, hpos, ht] at this
    simp only [parse, jspp_start]
    rw [this]
    rfl

theorem complete_kinds_stitch (events : List Event) : ∀ acc : List Nat,
    complete_kinds events = (stitch acc events).map Prod.fst := by
  induction events with
  | nil => intro acc; rfl
  | cons e rest ih =>
    intro acc
    obtain ⟨token, text⟩ := e
    have hc : complete_kinds ((token, text) :: rest)
        = if token ≤ JSON_END ∨ JSON_NULL ≤ token then token :: complete_kinds rest
          else complete_kinds rest := by
      simp only [complete_kinds, List.map_cons, List.filter_cons, Bool.or_eq_true,
        decide_eq_true_eq]
    rw [hc]
    by_cases h1 : token = JSON_CONTINUE
    · rw [h1, stitch_continue, if_neg (by decide)]
      exact ih acc
    · by_cases h2 : JSON_MEMBER_NAME_PART ≤ token ∧ token ≤ JSON_STRING_PART
      · rw [stitch_part _ _ _ _ h2.1 h2.2, if_neg (by simp at h2 ⊢; omega)]
        exact ih _
      · have h3 : token ≤ JSON_END ∨ JSON_NULL ≤ token := by simp at h1 h2 ⊢; omega
        rw [if_pos h3]
        simp only [stitch, if_neg h1, if_neg h2, List.map_cons]
        rw [ih []]

/-- C1: fragment boundaries are invisible. For two ways of cutting one byte
string into fragments of at most 65535 bytes each, the runs (`jspp_start` on
the first fragment, `jspp_next` after a complete token, `jspp_continue` with
the next fragment after `JSON_CONTINUE` or a `*_PART` token, up to and
including the first of `JSON_INVALID`, `JSON_TOO_DEEP`, `JSON_END`) return the
same token kinds once `JSON_CONTINUE` and the `*_PART` tokens are deleted. -/
theorem fragment_boundaries_invisible (parser1 parser2 : jspp_t)
    (cut1 cut2 : List (List Nat))
    (h1 : ∀ f ∈ cut1, f.length ≤ 65535) (h2 : ∀ f ∈ cut2, f.length ≤ 65535)
    (hs : cut1.flatten = cut2.flatten) :
    complete_kinds (parse parser1 cut1) = complete_kinds (parse parser2 cut2) := by
  rw [complete_kinds_stitch _ [], complete_kinds_stitch _ [], parse_eq_byte_run _ _ h1,
    parse_eq_byte_run _ _ h2, hs]

/-- Witness for C1: `[12] ` cut as `[12` + `] ` and as one fragment. -/
theorem fragment_boundaries_invisible_witness :
    complete_kinds (parse jspp_zero [[91, 49, 50], [93, 32]])
      = complete_kinds (parse jspp_zero [[91, 49, 50, 93, 32]]) :=
  fragment_boundaries_invisible jspp_zero jspp_zero [[91, 49, 50], [93, 32]]
    [[91, 49, 50, 93, 32]] (by decide) (by decide) (by decide)

theorem text_tokens_single (fuel : Nat) : ∀ (p : jspp_t) (token : Nat),
    text_tokens (stitch [] (drive fuel p token [])) = text_tokens (drive fuel p token []) := by
  induction fuel with
  | zero => intro p token; rfl
  | succ n ih =>
    intro p token
    rw [drive_succ]
    by_cases h1 : token ≤ JSON_END
    · rw [if_pos h1, stitch_terminal _ _ _ h1]
      have : is_text_token token = false := by
        simp [is_text_token]; simp at h1; omega
      simp [text_tokens, this]
    · rw [if_neg h1]
      by_cases h2 : token ≤ JSON_STRING_PART
      · rw [if_pos h2]
        have h3 : is_text_token token = false := by
          simp [is_text_token]; simp at h2; omega
        by_cases h4 : token = JSON_CONTINUE
        · rw [h4, stitch_continue]
          simp [text_tokens, stitch, is_text_token]
        · rw [stitch_part _ _ _ _ (by simp at h1 h4 ⊢; omega) h2]
          simp [text_tokens, stitch, h3]
      · rw [if_neg h2, stitch_complete _ _ _ _ (by simp at h2 ⊢; omega)]
        simp only [text_tokens, List.filter_cons]
        have := ih (jspp_next p).2 (jspp_next p).1
        simp only [text_tokens] at this
        rw [this]
        by_cases h3 : is_text_token token = true
        · simp [h3]
        · simp [h3]

/-- C2: stitching a split token restores it. For every fragmentation of a
document that also fits one fragment, the numbers, strings and member names of
the run, each with the texts of its `*_PART` tokens and of its final token
joined, are the numbers, strings and member names of the run on the document
as a single fragment, kind by kind and text by text. -/
theorem stitched_text_restored (parser1 parser2 : jspp_t) (cut : List (List Nat))
    (h1 : ∀ f ∈ cut, f.length ≤ 65535) (h2 : cut.flatten.length ≤ 65535) :
    text_tokens (stitch [] (parse parser1 cut)) = text_tokens (parse parser2 [cut.flatten]) := by
  have hsingle : ∀ f ∈ [cut.flatten], f.length ≤ 65535 := by
    intro f hf
    simp only [List.mem_singleton] at hf
    rw [hf]; exact h2
  have e1 := parse_eq_byte_run parser1 cut h1
  have e2 := parse_eq_byte_run parser2 [cut.flatten] hsingle
  simp only [List.flatten_cons, List.flatten_nil, List.append_nil] at e2
  rw [e1, ← e2]
  exact text_tokens_single _ _ _

/-- Witness for C2: the object of the test `parse_split_object`, cut inside the
member name `answer`, stitched to `MEMBER_NAME("answer")` and `INTEGER("42")`. -/
theorem stitched_text_restored_witness :
    text_tokens (stitch [] (parse jspp_zero
        [[123, 34, 97, 110, 115], [119, 101, 114, 34, 58, 52], [50, 125]]))
      = text_tokens (parse jspp_zero
          [[123, 34, 97, 110, 115, 119, 101, 114, 34, 58, 52, 50, 125]]) :=
  stitched_text_restored jspp_zero jspp_zero
    [[123, 34, 97, 110, 115], [119, 101, 114, 34, 58, 52], [50, 125]] (by decide) (by decide)

/-! ### The scanner on the bytes of a lexeme -/

theorem scan_states_append (s : Nat) (a b : List Nat) :
    scan_states s (a ++ b) = scan_states (scan_states s a) b := by
  simp [scan_states, List.foldl_append]

theorem quiet_run_append (a : List Nat) : ∀ (s : Nat) (b : List Nat),
    quiet_run s (a ++ b) = (quiet_run s a && quiet_run (scan_states s a) b) := by
  induction a with
  | nil => intro s b; simp [quiet_run, scan_states]
  | cons c a ih =>
    intro s b
    show (quiet _ && quiet_run _ (a ++ b)) = _
    rw [ih]
    simp [quiet_run, scan_states, Bool.and_assoc]

theorem quiet_cases (s : Nat) (h : quiet s = true) :
    s = STRING_CHARS ∨ s = STRING_ESC ∨ s = INT_DIGITS ∨ s = DEC_DIGITS ∨ s = EXP
      ∨ s = EXP_DIGITS := by
  simp [quiet, in_token] at h
  simp
  omega

theorem quiet_facts (s : Nat) (h : quiet s = true) :
    (is_token_start s || is_nested_level_start s) = false ∧ is_final s = false
      ∧ in_token s = true := by
  rcases quiet_cases s h with rfl | rfl | rfl | rfl | rfl | rfl <;> decide

theorem digit_not_space (c : Nat) (hc : is_digit c = true) : is_space c = false := by
  simp only [is_digit, Bool.and_eq_true, decide_eq_true_eq] at hc
  simp [is_space]; omega

theorem step_digit (s c : Nat) (hc : is_digit c = true)
    (hs : s = NUMBER_BEGIN ∨ s = INT_DIGITS ∨ s = DEC_DIGITS ∨ s = EXP ∨ s = EXP_DIGITS) :
    next_scan_state s c = digit_target s := by
  have h9 := digit_not_space c hc
  rcases hs with rfl | rfl | rfl | rfl | rfl <;> simp [next_scan_state, digit_target, hc, h9]

theorem digits_run (ds : List Nat) (hd : ds.all is_digit = true) : ∀ s : Nat,
    (s = NUMBER_BEGIN ∨ s = INT_DIGITS ∨ s = DEC_DIGITS ∨ s = EXP ∨ s = EXP_DIGITS) →
    quiet_run s ds = true ∧ scan_states s ds = if ds = [] then s else digit_target s := by
  induction ds with
  | nil => intro s _; simp [quiet_run, scan_states]
  | cons c ds ih =>
    intro s hs
    simp only [List.all_cons, Bool.and_eq_true] at hd
    have h1 := step_digit s c hd.1 hs
    have ht : digit_target s = INT_DIGITS ∨ digit_target s = DEC_DIGITS
        ∨ digit_target s = EXP_DIGITS := by
      rcases hs with rfl | rfl | rfl | rfl | rfl <;> decide
    have htt : digit_target (digit_target s) = digit_target s := by
      rcases hs with rfl | rfl | rfl | rfl | rfl <;> decide
    have hq : quiet (digit_target s) = true := by
      rcases ht with h | h | h <;> rw [h] <;> decide
    have h2 := ih hd.2 (digit_target s) (by
      rcases ht with h | h | h <;> rw [h] <;> simp)
    simp only [quiet_run, h1, hq, h2.1, Bool.and_self, scan_states, List.foldl_cons, true_and,
      if_neg (List.cons_ne_nil c ds)]
    have h3 := h2.2
    simp only [scan_states] at h3
    rw [h3]
    split_ifs <;> simp [htt]

theorem delimiter_facts (kind d : Nat) (h : is_delimiter d = true) :
    continues_number kind d = false := by
  simp [is_delimiter, is_space] at h
  simp [continues_number, is_digit]
  omega

theorem number_state_end (kind s d : Nat) (hs : number_state kind s)
    (hd : continues_number kind d = false) :
    next_scan_state s d = kind := by
  rcases hs with ⟨rfl, rfl | rfl⟩ | ⟨rfl, rfl⟩ | ⟨rfl, rfl⟩ <;>
    simp [continues_number] at hd <;> simp [next_scan_state, hd]

theorem all_digits_cons (ds : List Nat) (h : all_digits ds = true) :
    ∃ c rest, ds = c :: rest ∧ is_digit c = true ∧ rest.all is_digit = true := by
  cases ds with
  | nil => simp [all_digits] at h
  | cons c rest =>
    simp only [all_digits, List.isEmpty_cons, Bool.not_false, List.all_cons, Bool.true_and,
      Bool.and_eq_true] at h
    exact ⟨c, rest, rfl, h.1, h.2⟩

theorem all_digits_all (ds : List Nat) (h : all_digits ds = true) : ds.all is_digit = true := by
  simp only [all_digits, Bool.and_eq_true] at h
  exact h.2

/-- The exponent of a number, from any state before it. -/
theorem exponent_run (m : Nat) (sg ds : List Nat) (s : Nat)
    (hs : s = NUMBER_BEGIN ∨ s = INT_DIGITS ∨ s = DEC_DIGITS)
    (hm : m = 69 ∨ m = 101) (hsg : (sg = [] ∨ sg = [43]) ∨ sg = [45])
    (hd : all_digits ds = true) :
    quiet_run s (m :: (sg ++ ds)) = true ∧ scan_states s (m :: (sg ++ ds)) = EXP_DIGITS := by
  have h1 : next_scan_state s m = EXP := by
    rcases hs with rfl | rfl | rfl <;> rcases hm with rfl | rfl <;> decide
  have h2 : quiet_run EXP (sg ++ ds) = true ∧ scan_states EXP (sg ++ ds) = EXP_DIGITS := by
    rcases hsg with (rfl | rfl) | rfl
    · obtain ⟨c, rest, rfl, _, _⟩ := all_digits_cons ds hd
      have h := digits_run (c :: rest) (all_digits_all _ hd) EXP (by simp)
      rw [if_neg (List.cons_ne_nil c rest)] at h
      exact h
    · have h := digits_run ds (all_digits_all _ hd) EXP_DIGITS (by simp)
      have h3 : next_scan_state EXP 43 = EXP_DIGITS := by decide
      refine ⟨?_, ?_⟩
      · show (quiet (next_scan_state EXP 43) && quiet_run (next_scan_state EXP 43) ds) = true
        rw [h3, h.1]; decide
      · show scan_states (next_scan_state EXP 43) ds = EXP_DIGITS
        rw [h3, h.2]; split_ifs <;> rfl
    · have h := digits_run ds (all_digits_all _ hd) EXP_DIGITS (by simp)
      have h3 : next_scan_state EXP 45 = EXP_DIGITS := by decide
      refine ⟨?_, ?_⟩
      · show (quiet (next_scan_state EXP 45) && quiet_run (next_scan_state EXP 45) ds) = true
        rw [h3, h.1]; decide
      · show scan_states (next_scan_state EXP 45) ds = EXP_DIGITS
        rw [h3, h.2]; split_ifs <;> rfl
  refine ⟨?_, ?_⟩
  · show (quiet (next_scan_state s m) && quiet_run (next_scan_state s m) (sg ++ ds)) = true
    rw [h1, h2.1]; decide
  · show scan_states (next_scan_state s m) (sg ++ ds) = EXP_DIGITS
    rw [h1, h2.2]

/-- The fraction of a number. -/
theorem fraction_run (f : List Nat) (s : Nat) (hs : s = NUMBER_BEGIN ∨ s = INT_DIGITS)
    (hf : all_digits f = true) :
    quiet_run s (46 :: f) = true ∧ scan_states s (46 :: f) = DEC_DIGITS := by
  have h1 : next_scan_state s 46 = DEC_DIGITS := by
    rcases hs with rfl | rfl <;> decide
  have h := digits_run f (all_digits_all _ hf) DEC_DIGITS (by simp)
  refine ⟨?_, ?_⟩
  · show (quiet (next_scan_state s 46) && quiet_run (next_scan_state s 46) f) = true
    rw [h1, h.1]; decide
  · show scan_states (next_scan_state s 46) f = DEC_DIGITS
    rw [h1, h.2]; split_ifs <;> rfl

/-- What follows the integer part of a well-formed number keeps the scanner
inside the number and leaves it in a state of the number's kind. -/
theorem suffix_run (n : number_lexeme) (hn : n.well_formed = true) (s : Nat)
    (hs : s = NUMBER_BEGIN ∨ s = INT_DIGITS) :
    quiet_run s n.suffix = true ∧ number_state n.kind (scan_states s n.suffix) := by
  obtain ⟨mi, ints, fr, ex⟩ := n
  simp only [number_lexeme.well_formed, Bool.and_eq_true] at hn
  obtain ⟨⟨_, hfr⟩, hex⟩ := hn
  cases fr with
  | none =>
    cases ex with
    | none =>
      refine ⟨rfl, Or.inl ⟨rfl, ?_⟩⟩
      exact hs
    | some e =>
      obtain ⟨m, sg, ds⟩ := e
      simp only [Bool.and_eq_true, Bool.or_eq_true, beq_iff_eq] at hex
      have h := exponent_run m sg ds s (by rcases hs with h | h <;> simp [h]) hex.1.1 hex.1.2
        hex.2
      simp only [number_lexeme.suffix, List.nil_append]
      exact ⟨h.1, Or.inr (Or.inr ⟨rfl, h.2⟩)⟩
  | some f =>
    have h := fraction_run f s hs hfr
    cases ex with
    | none =>
      simp only [number_lexeme.suffix, List.append_nil]
      exact ⟨h.1, Or.inr (Or.inl ⟨rfl, h.2⟩)⟩
    | some e =>
      obtain ⟨m, sg, ds⟩ := e
      simp only [Bool.and_eq_true, Bool.or_eq_true, beq_iff_eq] at hex
      have h2 := exponent_run m sg ds DEC_DIGITS (by simp) hex.1.1 hex.1.2 hex.2
      simp only [number_lexeme.suffix]
      rw [quiet_run_append, scan_states_append, h.1, h.2, h2.1, h2.2]
      exact ⟨rfl, Or.inr (Or.inr ⟨rfl, rfl⟩)⟩

/-- A well-formed number is its first byte, a minus sign or a digit, then
digits, then the fraction and the exponent. -/
theorem number_split (n : number_lexeme) (hn : n.well_formed = true) :
    ∃ c ds, (c = 45 ∨ is_digit c = true) ∧ ds.all is_digit = true
      ∧ n.bytes = c :: (ds ++ n.suffix) := by
  have hn' := hn
  simp only [number_lexeme.well_formed, Bool.and_eq_true] at hn'
  obtain ⟨c, rest, hds, hc, hrest⟩ := all_digits_cons _ hn'.1.1
  by_cases hm : n.minus = true
  · refine ⟨45, n.int_digits, Or.inl rfl, all_digits_all _ hn'.1.1, ?_⟩
    simp [number_lexeme.bytes, hm]
  · refine ⟨c, rest, Or.inr hc, hrest, ?_⟩
    simp [number_lexeme.bytes, hm, hds]

/-- The bytes of a well-formed number after the first keep the scanner inside
the number and leave it in a state of the number's kind. -/
theorem number_run (n : number_lexeme) (hn : n.well_formed = true) (ds : List Nat)
    (hds : ds.all is_digit = true) :
    quiet_run NUMBER_BEGIN (ds ++ n.suffix) = true
      ∧ number_state n.kind (scan_states NUMBER_BEGIN (ds ++ n.suffix)) := by
  have h := digits_run ds hds NUMBER_BEGIN (by simp)
  have hs : scan_states NUMBER_BEGIN ds = NUMBER_BEGIN
      ∨ scan_states NUMBER_BEGIN ds = INT_DIGITS := by
    rw [h.2]; split_ifs
    · exact Or.inl rfl
    · exact Or.inr rfl
  have h2 := suffix_run n hn _ hs
  rw [quiet_run_append, scan_states_append, h.1, h2.1]
  exact ⟨rfl, h2.2⟩

/-- The body of a well-formed string keeps the scanner inside the string and
leaves it where the closing quote ends the string. -/
theorem body_run (body : List string_item) (hb : body_well_formed body = true) : ∀ s : Nat,
    (s = STRING_BEGIN ∨ s = STRING_CHARS) →
    quiet_run s (body_bytes body) = true
      ∧ (scan_states s (body_bytes body) = STRING_BEGIN
        ∨ scan_states s (body_bytes body) = STRING_CHARS) := by
  induction body with
  | nil => intro s hs; exact ⟨rfl, hs⟩
  | cons item rest ih =>
    intro s hs
    simp only [body_well_formed, List.all_cons, Bool.and_eq_true] at hb
    have h := ih hb.2 STRING_CHARS (Or.inr rfl)
    cases item with
    | plain c =>
      have hc := hb.1
      simp only [string_item.well_formed, Bool.and_eq_true, bne_iff_ne, ne_eq] at hc
      have h1 : next_scan_state s c = STRING_CHARS := by
        rcases hs with rfl | rfl <;> simp [next_scan_state, hc.1, hc.2]
      refine ⟨?_, ?_⟩
      · show (quiet (next_scan_state s c)
          && quiet_run (next_scan_state s c) (body_bytes rest)) = true
        rw [h1, h.1]; decide
      · show scan_states (next_scan_state s c) (body_bytes rest) = _
          ∨ scan_states (next_scan_state s c) (body_bytes rest) = _
        rw [h1]; exact h.2
    | escaped c =>
      have h1 : next_scan_state s 92 = STRING_ESC := by
        rcases hs with rfl | rfl <;> decide
      have h2 : next_scan_state STRING_ESC c = STRING_CHARS := by
        simp [next_scan_state]
      refine ⟨?_, ?_⟩
      · show (quiet (next_scan_state s 92) && (quiet (next_scan_state (next_scan_state s 92) c)
          && quiet_run (next_scan_state (next_scan_state s 92) c) (body_bytes rest))) = true
        rw [h1, h2, h.1]; decide
      · show scan_states (next_scan_state (next_scan_state s 92) c) (body_bytes rest) = _
          ∨ scan_states (next_scan_state (next_scan_state s 92) c) (body_bytes rest) = _
        rw [h1, h2]; exact h.2

theorem string_end (s : Nat) (hs : s = STRING_BEGIN ∨ s = STRING_CHARS) :
    next_scan_state s 34 = JSON_STRING := by
  rcases hs with rfl | rfl <;> decide

/-! ### `byte_run` on the lexemes of a document -/

theorem byte_quiet_run (bytes : List Nat) : ∀ (below : List Nat) (s : Nat) (acc input : List Nat),
    quiet_run s bytes = true →
    byte_run below s acc (bytes ++ input)
      = byte_run below (scan_states s bytes) (acc ++ bytes) input := by
  induction bytes with
  | nil => intro below s acc input _; simp [scan_states]
  | cons c bytes ih =>
    intro below s acc input h
    simp only [quiet_run, Bool.and_eq_true] at h
    obtain ⟨h1, h2, h3⟩ := quiet_facts _ h.1
    rw [List.cons_append, byte_run_quiet below s acc c _ h1 h2, if_pos h3, ih _ _ _ _ h.2]
    simp [scan_states]

theorem byte_space_run (ws : List Nat) (hws : all_space ws = true) (below : List Nat) (st : Nat)
    (hst : __PARSER_STATES < st) (input : List Nat) :
    byte_run below st [] (ws ++ input) = byte_run below st [] input := by
  induction ws with
  | nil => rfl
  | cons c ws ih =>
    simp only [all_space, List.all_cons, Bool.and_eq_true] at hws
    have h1 : next_scan_state st c = st := by
      unfold next_scan_state
      rw [if_pos ⟨hst, hws.1⟩]
    have h2 : (is_token_start st || is_nested_level_start st) = false ∧ is_final st = false
        ∧ in_token st = false := by
      simp at hst
      simp [is_token_start, is_nested_level_start, is_final, in_token]
      omega
    rw [List.cons_append, byte_run_quiet below st [] c _ (by rw [h1]; exact h2.1)
      (by rw [h1]; exact h2.2.1), h1, h2.2.2]
    exact ih hws.2

theorem value_state_after (st : Nat) (h : value_state st) :
    ¬ is_string_a_member_name st = true := by
  rcases h with rfl | rfl | rfl | rfl <;> decide

theorem byte_null (below : List Nat) (st : Nat) (input : List Nat) (hst : value_state st)
    (hd : below.length ≤ 12) :
    byte_run below st [] (110 :: 117 :: 108 :: 108 :: input)
      = (JSON_NULL, []) :: after_token below st input := by
  have h0 : next_scan_state st 110 = NULL_N := by
    rcases hst with rfl | rfl | rfl | rfl <;> decide
  have hd' : ¬ below.length + 1 = JSON_MAX_STACK := by simp; omega
  rw [byte_run_token_start below st [] 110 _ (by rw [h0]; decide) hd' (by rw [h0]; decide), h0,
    byte_run_quiet _ NULL_N _ 117 _ (by decide) (by decide),
    byte_run_quiet _ _ _ 108 _ (by decide) (by decide),
    byte_run_final st below _ _ 108 input (by decide) (by decide) (by decide) (by decide)]
  rfl

theorem byte_true (below : List Nat) (st : Nat) (input : List Nat) (hst : value_state st)
    (hd : below.length ≤ 12) :
    byte_run below st [] (116 :: 114 :: 117 :: 101 :: input)
      = (JSON_TRUE, []) :: after_token below st input := by
  have h0 : next_scan_state st 116 = TRUE_T := by
    rcases hst with rfl | rfl | rfl | rfl <;> decide
  have hd' : ¬ below.length + 1 = JSON_MAX_STACK := by simp; omega
  rw [byte_run_token_start below st [] 116 _ (by rw [h0]; decide) hd' (by rw [h0]; decide), h0,
    byte_run_quiet _ TRUE_T _ 114 _ (by decide) (by decide),
    byte_run_quiet _ _ _ 117 _ (by decide) (by decide),
    byte_run_final st below _ _ 101 input (by decide) (by decide) (by decide) (by decide)]
  rfl

theorem byte_false (below : List Nat) (st : Nat) (input : List Nat) (hst : value_state st)
    (hd : below.length ≤ 12) :
    byte_run below st [] (102 :: 97 :: 108 :: 115 :: 101 :: input)
      = (JSON_FALSE, []) :: after_token below st input := by
  have h0 : next_scan_state st 102 = FALSE_F := by
    rcases hst with rfl | rfl | rfl | rfl <;> decide
  have hd' : ¬ below.length + 1 = JSON_MAX_STACK := by simp; omega
  rw [byte_run_token_start below st [] 102 _ (by rw [h0]; decide) hd' (by rw [h0]; decide), h0,
    byte_run_quiet _ FALSE_F _ 97 _ (by decide) (by decide),
    byte_run_quiet _ _ _ 108 _ (by decide) (by decide),
    byte_run_quiet _ _ _ 115 _ (by decide) (by decide),
    byte_run_final st below _ _ 101 input (by decide) (by decide) (by decide) (by decide)]
  rfl

theorem number_kind_cases (n : number_lexeme) :
    n.kind = JSON_INTEGER ∨ n.kind = JSON_DECIMAL ∨ n.kind = JSON_FLOATING_POINT := by
  obtain ⟨mi, ints, fr, ex⟩ := n
  cases fr <;> cases ex <;> simp [number_lexeme.kind]

theorem number_start (st c : Nat) (hst : value_state st) (hc : c = 45 ∨ is_digit c = true) :
    next_scan_state st c = NUMBER_BEGIN := by
  rcases hc with rfl | hc
  · rcases hst with rfl | rfl | rfl | rfl <;> decide
  · have h9 := digit_not_space c hc
    have hc' := hc
    simp only [is_digit, Bool.and_eq_true, decide_eq_true_eq] at hc'
    have e1 : c ≠ 110 := by omega
    have e2 : c ≠ 116 := by omega
    have e3 : c ≠ 102 := by omega
    have e4 : c ≠ 34 := by omega
    have e5 : c ≠ 123 := by omega
    have e6 : c ≠ 91 := by omega
    have e7 : c ≠ 93 := by omega
    rcases hst with rfl | rfl | rfl | rfl <;>
      simp [next_scan_state, scan_value, h9, hc, e1, e2, e3, e4, e5, e6, e7]

theorem byte_number (n : number_lexeme) (below : List Nat) (st : Nat) (input : List Nat)
    (hst : value_state st) (hd : below.length ≤ 12) (hn : n.well_formed = true)
    (hi : delimited input = true) :
    byte_run below st [] (n.bytes ++ input)
      = (n.kind, n.bytes) :: after_token below st input := by
  obtain ⟨c, ds, hc, hds, hb⟩ := number_split n hn
  obtain ⟨hq, hs⟩ := number_run n hn ds hds
  have h0 := number_start st c hst hc
  have hd' : ¬ below.length + 1 = JSON_MAX_STACK := by simp; omega
  cases input with
  | nil => simp [delimited] at hi
  | cons d rest =>
    have he := number_state_end _ _ d hs (delimiter_facts _ d hi)
    have hk := number_kind_cases n
    rw [hb, List.cons_append,
      byte_run_token_start below st [] c _ (by rw [h0]; decide) hd' (by rw [h0]; decide), h0,
      if_pos rfl, byte_quiet_run _ _ _ _ _ hq,
      byte_run_number st below _ _ d rest (by rw [he]; exact hk), he]
    congr 1
    rcases hk with h | h | h <;> rw [h] <;> simp [reduce_event, is_text_token]

theorem byte_string (body : List string_item) (below : List Nat) (st : Nat) (input : List Nat)
    (hst : string_state st) (hd : below.length ≤ 12) (hb : body_well_formed body = true) :
    byte_run below st [] (34 :: (body_bytes body ++ 34 :: input))
      = (if is_string_a_member_name st then JSON_MEMBER_NAME else JSON_STRING, body_bytes body)
          :: after_token below st input := by
  have h0 : next_scan_state st 34 = STRING_BEGIN := by
    rcases hst with (rfl | rfl | rfl | rfl) | rfl | rfl <;> decide
  have hd' : ¬ below.length + 1 = JSON_MAX_STACK := by simp; omega
  obtain ⟨hq, hs⟩ := body_run body hb STRING_BEGIN (Or.inl rfl)
  have he := string_end _ hs
  rw [byte_run_token_start below st [] 34 _ (by rw [h0]; decide) hd' (by rw [h0]; decide), h0,
    if_neg (by decide), byte_quiet_run _ _ _ _ _ hq,
    byte_run_final st below _ _ 34 input (by rw [he]; decide) (by rw [he]; decide)
      (by rw [he]; decide) (by rw [he]; decide), he]
  congr 1
  by_cases hm : is_string_a_member_name st = true
  · simp [reduce_event, is_text_token, hm]
  · simp [reduce_event, is_text_token, hm]

/-! ### `byte_run` on punctuation -/

theorem byte_open_array (below : List Nat) (st : Nat) (input : List Nat) (hst : value_state st)
    (hd : below.length ≤ 12) :
    byte_run below st [] (91 :: input)
      = (JSON_ARRAY_BEGIN, []) :: byte_run (st :: below) EXPECTING_ARRAY_ELEMENT_OR_END [] input := by
  have h0 : next_scan_state st 91 = JSON_ARRAY_BEGIN := by
    rcases hst with rfl | rfl | rfl | rfl <;> decide
  have hd' : ¬ below.length + 1 = JSON_MAX_STACK := by simp; omega
  rw [byte_run_opener below st [] 91 _ (by rw [h0]; decide) hd' (by rw [h0]; decide), h0]
  rfl

theorem byte_open_object (below : List Nat) (st : Nat) (input : List Nat) (hst : value_state st)
    (hd : below.length ≤ 12) :
    byte_run below st [] (123 :: input)
      = (JSON_OBJECT_BEGIN, [])
          :: byte_run (st :: below) EXPECTING_OBJECT_MEMBER_NAME_OR_END [] input := by
  have h0 : next_scan_state st 123 = JSON_OBJECT_BEGIN := by
    rcases hst with rfl | rfl | rfl | rfl <;> decide
  have hd' : ¬ below.length + 1 = JSON_MAX_STACK := by simp; omega
  rw [byte_run_opener below st [] 123 _ (by rw [h0]; decide) hd' (by rw [h0]; decide), h0]
  rfl

theorem byte_close_array (b : Nat) (below : List Nat) (st : Nat) (input : List Nat)
    (hst : st = EXPECTING_ARRAY_TAIL ∨ st = EXPECTING_ARRAY_ELEMENT_OR_END) :
    byte_run (b :: below) st [] (93 :: input)
      = (JSON_ARRAY_END, []) :: after_token below b input := by
  have h0 : next_scan_state st 93 = JSON_ARRAY_END := by
    rcases hst with rfl | rfl <;> decide
  rw [byte_run_final b below st [] 93 input (by rw [h0]; decide) (by rw [h0]; decide)
    (by rw [h0]; decide) (by rw [h0]; decide), h0]
  rfl

theorem byte_close_object (b : Nat) (below : List Nat) (st : Nat) (input : List Nat)
    (hst : st = EXPECTING_OBJECT_TAIL ∨ st = EXPECTING_OBJECT_MEMBER_NAME_OR_END) :
    byte_run (b :: below) st [] (125 :: input)
      = (JSON_OBJECT_END, []) :: after_token below b input := by
  have h0 : next_scan_state st 125 = JSON_OBJECT_END := by
    rcases hst with rfl | rfl <;> decide
  rw [byte_run_final b below st [] 125 input (by rw [h0]; decide) (by rw [h0]; decide)
    (by rw [h0]; decide) (by rw [h0]; decide), h0]
  rfl

theorem byte_comma_array (below : List Nat) (input : List Nat) :
    byte_run below EXPECTING_ARRAY_TAIL [] (44 :: input)
      = byte_run below EXPECTING_ARRAY_ELEMENT [] input := by
  rw [byte_run_quiet below EXPECTING_ARRAY_TAIL [] 44 _ (by decide) (by decide)]
  rfl

theorem byte_comma_object (below : List Nat) (input : List Nat) :
    byte_run below EXPECTING_OBJECT_TAIL [] (44 :: input)
      = byte_run below EXPECTING_OBJECT_MEMBER_NAME [] input := by
  rw [byte_run_quiet below EXPECTING_OBJECT_TAIL [] 44 _ (by decide) (by decide)]
  rfl

theorem byte_colon (below : List Nat) (input : List Nat) :
    byte_run below EXPECTING_OBJECT_MEMBER_NAME_VALUE_SEPARATOR [] (58 :: input)
      = byte_run below EXPECTING_OBJECT_MEMBER_VALUE [] input := by
  rw [byte_run_quiet below EXPECTING_OBJECT_MEMBER_NAME_VALUE_SEPARATOR [] 58 _ (by decide)
    (by decide)]
  rfl

theorem after_element (below : List Nat) (st : Nat) (input : List Nat)
    (hst : st = EXPECTING_ARRAY_ELEMENT_OR_END ∨ st = EXPECTING_ARRAY_ELEMENT) :
    after_token below st input = byte_run below EXPECTING_ARRAY_TAIL [] input := by
  rcases hst with rfl | rfl <;> rfl

theorem after_member_value (below : List Nat) (input : List Nat) :
    after_token below EXPECTING_OBJECT_MEMBER_VALUE input
      = byte_run below EXPECTING_OBJECT_TAIL [] input := rfl

theorem after_member_name (below : List Nat) (st : Nat) (input : List Nat)
    (hst : st = EXPECTING_OBJECT_MEMBER_NAME_OR_END ∨ st = EXPECTING_OBJECT_MEMBER_NAME) :
    after_token below st input
      = byte_run below EXPECTING_OBJECT_MEMBER_NAME_VALUE_SEPARATOR [] input := by
  rcases hst with rfl | rfl <;> rfl

theorem after_root (input : List Nat) :
    after_token [] EXPECTING_JSON input = [(JSON_END, [])] := rfl

theorem fits_le (v : json_value) (depth : Nat) (h : v.fits depth = true) : depth ≤ 12 := by
  cases v <;> simp [json_value.fits] at h <;> omega

theorem delimited_space (ws : List Nat) (hws : all_space ws = true) (c : Nat) (input : List Nat)
    (hc : is_delimiter c = true) : delimited (ws ++ c :: input) = true := by
  cases ws with
  | nil => exact hc
  | cons w ws =>
    simp only [all_space, List.all_cons, Bool.and_eq_true] at hws
    simp [delimited, is_delimiter, hws.1]

/-! ### `byte_run` on a document -/

mutual

/-- Read byte by byte from a state that expects a value, the text of a
well-formed value that fits gives the tokens of the value, and the run goes on
behind it. -/
theorem value_run : ∀ (v : json_value) (below : List Nat) (st : Nat) (input : List Nat),
    value_state st → v.well_formed = true → v.fits below.length = true →
    (v.is_number = true → delimited input = true) →
    byte_run below st [] (v.render ++ input) = v.tokens ++ after_token below st input
  | .lit_null, below, st, input, hst, _, hf, _ => by
    simp only [json_value.render, json_value.tokens, List.cons_append, List.nil_append]
    exact byte_null below st input hst (fits_le _ _ hf)
  | .lit_true, below, st, input, hst, _, hf, _ => by
    simp only [json_value.render, json_value.tokens, List.cons_append, List.nil_append]
    exact byte_true below st input hst (fits_le _ _ hf)
  | .lit_false, below, st, input, hst, _, hf, _ => by
    simp only [json_value.render, json_value.tokens, List.cons_append, List.nil_append]
    exact byte_false below st input hst (fits_le _ _ hf)
  | .number n, below, st, input, hst, hw, hf, hn => by
    simp only [json_value.render, json_value.tokens, List.cons_append, List.nil_append]
    exact byte_number n below st input hst (fits_le _ _ hf) hw (hn rfl)
  | .string body, below, st, input, hst, hw, hf, _ => by
    simp only [json_value.render, json_value.tokens, List.cons_append, List.nil_append,
      List.append_assoc]
    rw [byte_string body below st input (Or.inl hst) (fits_le _ _ hf) hw,
      if_neg (value_state_after st hst)]
  | .empty_array ws, below, st, input, hst, hw, hf, _ => by
    simp only [json_value.well_formed] at hw
    simp only [json_value.render, json_value.tokens, List.cons_append, List.nil_append,
      List.append_assoc]
    rw [byte_open_array below st _ hst (fits_le _ _ hf), byte_space_run ws hw _ _ (by simp),
      byte_close_array st below _ input (Or.inr rfl)]
  | .array ws es, below, st, input, hst, hw, hf, _ => by
    have hd := fits_le _ _ hf
    simp only [json_value.well_formed, Bool.and_eq_true] at hw
    simp only [json_value.fits, Bool.and_eq_true] at hf
    simp only [json_value.render, json_value.tokens, List.cons_append, List.nil_append,
      List.append_assoc]
    rw [byte_open_array below st _ hst hd, byte_space_run ws hw.1 _ _ (by simp),
      elements_run es (st :: below) _ input (Or.inl rfl) hw.2 hf.2,
      byte_close_array st below _ input (Or.inl rfl)]
  | .empty_object ws, below, st, input, hst, hw, hf, _ => by
    simp only [json_value.well_formed] at hw
    simp only [json_value.render, json_value.tokens, List.cons_append, List.nil_append,
      List.append_assoc]
    rw [byte_open_object below st _ hst (fits_le _ _ hf), byte_space_run ws hw _ _ (by simp),
      byte_close_object st below _ input (Or.inr rfl)]
  | .object ws ms, below, st, input, hst, hw, hf, _ => by
    have hd := fits_le _ _ hf
    simp only [json_value.well_formed, Bool.and_eq_true] at hw
    simp only [json_value.fits, Bool.and_eq_true] at hf
    simp only [json_value.render, json_value.tokens, List.cons_append, List.nil_append,
      List.append_assoc]
    rw [byte_open_object below st _ hst hd, byte_space_run ws hw.1 _ _ (by simp),
      members_run ms (st :: below) _ input (Or.inl rfl) hw.2 hf.2,
      byte_close_object st below _ input (Or.inl rfl)]

/-- The elements of an array, up to the closing bracket. -/
theorem elements_run : ∀ (es : json_elements) (below : List Nat) (st : Nat) (input : List Nat),
    (st = EXPECTING_ARRAY_ELEMENT_OR_END ∨ st = EXPECTING_ARRAY_ELEMENT) →
    es.well_formed = true → es.fits below.length = true →
    byte_run below st [] (es.render ++ 93 :: input)
      = es.tokens ++ byte_run below EXPECTING_ARRAY_TAIL [] (93 :: input)
  | .last v ws, below, st, input, hst, hw, hf => by
    simp only [json_elements.well_formed, Bool.and_eq_true] at hw
    simp only [json_elements.fits] at hf
    simp only [json_elements.render, json_elements.tokens, List.append_assoc]
    rw [value_run v below st _ (by rcases hst with h | h <;> simp [value_state, h]) hw.1 hf
      (fun _ => delimited_space ws hw.2 93 input (by decide)),
      after_element below st _ hst, byte_space_run ws hw.2 _ _ (by simp)]
  | .more v ws1 ws2 rest, below, st, input, hst, hw, hf => by
    simp only [json_elements.well_formed, Bool.and_eq_true] at hw
    simp only [json_elements.fits, Bool.and_eq_true] at hf
    simp only [json_elements.render, json_elements.tokens, List.append_assoc, List.cons_append]
    rw [value_run v below st _ (by rcases hst with h | h <;> simp [value_state, h]) hw.1.1.1 hf.1
      (fun _ => delimited_space ws1 hw.1.1.2 44 _ (by decide)),
      after_element below st _ hst, byte_space_run ws1 hw.1.1.2 _ _ (by simp),
      byte_comma_array, byte_space_run ws2 hw.1.2 _ _ (by simp),
      elements_run rest below _ input (Or.inr rfl) hw.2 hf.2]

/-- The members of an object, up to the closing brace. -/
theorem members_run : ∀ (ms : json_members) (below : List Nat) (st : Nat) (input : List Nat),
    (st = EXPECTING_OBJECT_MEMBER_NAME_OR_END ∨ st = EXPECTING_OBJECT_MEMBER_NAME) →
    ms.well_formed = true → ms.fits below.length = true →
    byte_run below st [] (ms.render ++ 125 :: input)
      = ms.tokens ++ byte_run below EXPECTING_OBJECT_TAIL [] (125 :: input)
  | .last name ws1 ws2 v ws3, below, st, input, hst, hw, hf => by
    simp only [json_members.well_formed, Bool.and_eq_true] at hw
    simp only [json_members.fits] at hf
    obtain ⟨⟨⟨⟨hname, hws1⟩, hws2⟩, hv⟩, hws3⟩ := hw
    simp only [json_members.render, json_members.tokens, List.append_assoc, List.cons_append]
    rw [byte_string name below st _ (Or.inr hst) (fits_le _ _ hf) hname,
      if_pos (by rcases hst with h | h <;> rw [h] <;> decide),
      after_member_name below st _ hst, byte_space_run ws1 hws1 _ _ (by simp), byte_colon,
      byte_space_run ws2 hws2 _ _ (by simp),
      value_run v below _ _ (Or.inr (Or.inr (Or.inr rfl))) hv hf
        (fun _ => delimited_space ws3 hws3 125 input (by decide)),
      after_member_value, byte_space_run ws3 hws3 _ _ (by simp)]
  | .more name ws1 ws2 v ws3 ws4 rest, below, st, input, hst, hw, hf => by
    simp only [json_members.well_formed, Bool.and_eq_true] at hw
    simp only [json_members.fits, Bool.and_eq_true] at hf
    obtain ⟨⟨⟨⟨⟨⟨hname, hws1⟩, hws2⟩, hv⟩, hws3⟩, hws4⟩, hrest⟩ := hw
    simp only [json_members.render, json_members.tokens, List.append_assoc, List.cons_append]
    rw [byte_string name below st _ (Or.inr hst) (fits_le _ _ hf.1) hname,
      if_pos (by rcases hst with h | h <;> rw [h] <;> decide),
      after_member_name below st _ hst, byte_space_run ws1 hws1 _ _ (by simp), byte_colon,
      byte_space_run ws2 hws2 _ _ (by simp),
      value_run v below _ _ (Or.inr (Or.inr (Or.inr rfl))) hv hf.1
        (fun _ => delimited_space ws3 hws3 44 _ (by decide)),
      after_member_value, byte_space_run ws3 hws3 _ _ (by simp), byte_comma_object,
      byte_space_run ws4 hws4 _ _ (by simp),
      members_run rest below _ input (Or.inr rfl) hrest hf.2]

end

/-! ### Whole documents -/

theorem document_run (ws1 : List Nat) (v : json_value) (ws2 : List Nat)
    (hws1 : all_space ws1 = true) (hw : v.well_formed = true) (hf : v.fits 0 = true)
    (hn : v.is_number = true → delimited ws2 = true) :
    byte_run [] EXPECTING_JSON [] (document ws1 v ws2) = v.tokens ++ [(JSON_END, [])] := by
  unfold document
  rw [byte_space_run ws1 hws1 [] _ (by simp),
    value_run v [] EXPECTING_JSON ws2 (Or.inl rfl) hw hf hn, after_root]

/-- A run on one fragment that reports a terminal token has returned complete
tokens only. -/
theorem single_fragment (fuel : Nat) : ∀ (p : jspp_t) (token : Nat),
    stitch [] (drive fuel p token []) = (drive fuel p token []).map reported
      ∨ ∀ e ∈ stitch [] (drive fuel p token []), JSON_END < e.1 := by
  induction fuel with
  | zero => intro p token; left; rfl
  | succ fuel ih =>
    intro p token
    by_cases h1 : token ≤ JSON_END
    · left
      have h2 : ¬ token = JSON_CONTINUE := by simp at h1 ⊢; omega
      have h3 : ¬ (JSON_MEMBER_NAME_PART ≤ token ∧ token ≤ JSON_STRING_PART) := by
        simp at h1 ⊢; omega
      have h4 : is_text_token token = false := by
        simp at h1
        simp [is_text_token]; omega
      simp [drive, h1, stitch, h2, h3, h4, reported]
    · by_cases h2 : token ≤ JSON_STRING_PART
      · right
        have h5 : drive (fuel + 1) p token [] = [(token, jspp_text p)] := by
          simp only [drive, if_neg h1, if_pos h2]
        rw [h5]
        by_cases h3 : token = JSON_CONTINUE
        · simp [stitch, h3]
        · have h4 : JSON_MEMBER_NAME_PART ≤ token ∧ token ≤ JSON_STRING_PART := by
            simp at h1 h2 h3 ⊢; omega
          simp only [stitch, if_neg h3, if_pos h4]
          intro e he
          cases he
      · have h5 : drive (fuel + 1) p token []
            = (token, jspp_text p) :: drive fuel (jspp_next p).2 (jspp_next p).1 [] := by
          simp only [drive, if_neg h1, if_neg h2]
        have h3 : ¬ token = JSON_CONTINUE := by simp at h2 ⊢; omega
        have h4 : ¬ (JSON_MEMBER_NAME_PART ≤ token ∧ token ≤ JSON_STRING_PART) := by
          simp at h2 ⊢; omega
        rw [h5]
        simp only [stitch, if_neg h3, if_neg h4, List.nil_append, List.map_cons]
        rcases ih (jspp_next p).2 (jspp_next p).1 with h | h
        · left
          rw [h]
          rfl
        · right
          intro e he
          rcases List.mem_cons.1 he with rfl | he
          · simp at h1 ⊢; omega
          · exact h e he

mutual

theorem value_tokens_kinds : ∀ (v : json_value), ∀ e ∈ v.tokens, JSON_END < e.1
  | .lit_null, e, he => by simp [json_value.tokens] at he; simp [he]
  | .lit_true, e, he => by simp [json_value.tokens] at he; simp [he]
  | .lit_false, e, he => by simp [json_value.tokens] at he; simp [he]
  | .number n, e, he => by
    simp only [json_value.tokens, List.mem_singleton] at he
    rw [he]
    rcases number_kind_cases n with h | h | h <;> simp [h]
  | .string _, e, he => by simp [json_value.tokens] at he; simp [he]
  | .empty_array _, e, he => by
    simp [json_value.tokens] at he
    rcases he with he | he <;> simp [he]
  | .empty_object _, e, he => by
    simp [json_value.tokens] at he
    rcases he with he | he <;> simp [he]
  | .array _ es, e, he => by
    simp only [json_value.tokens, List.mem_cons, List.mem_append, List.mem_singleton,
      List.not_mem_nil, or_false] at he
    rcases he with he | he | he
    · simp [he]
    · exact elements_tokens_kinds es e he
    · simp [he]
  | .object _ ms, e, he => by
    simp only [json_value.tokens, List.mem_cons, List.mem_append, List.mem_singleton,
      List.not_mem_nil, or_false] at he
    rcases he with he | he | he
    · simp [he]
    · exact members_tokens_kinds ms e he
    · simp [he]

theorem elements_tokens_kinds : ∀ (es : json_elements), ∀ e ∈ es.tokens, JSON_END < e.1
  | .last v _, e, he => value_tokens_kinds v e (by simpa [json_elements.tokens] using he)
  | .more v _ _ rest, e, he => by
    simp only [json_elements.tokens, List.mem_append] at he
    rcases he with he | he
    · exact value_tokens_kinds v e he
    · exact elements_tokens_kinds rest e he

theorem members_tokens_kinds : ∀ (ms : json_members), ∀ e ∈ ms.tokens, JSON_END < e.1
  | .last _ _ _ v _, e, he => by
    simp only [json_members.tokens, List.mem_cons] at he
    rcases he with he | he
    · simp [he]
    · exact value_tokens_kinds v e he
  | .more _ _ _ v _ _ rest, e, he => by
    simp only [json_members.tokens, List.mem_cons, List.mem_append] at he
    rcases he with he | he | he
    · simp [he]
    · exact value_tokens_kinds v e he
    · exact members_tokens_kinds rest e he

end

/-- C3: a JSON tree with an array or an object at the root, nested so that no
scalar, member name or container lies inside more than 12 containers, with
well-formed numbers and strings and any whitespace between the lexemes, given
as one fragment: `jspp_start` and the calls of `jspp_next` after it return the
tokens of the tree in document order and then `JSON_END`, and `jspp_text` after
each number, string and member name is its lexeme (for a string the bytes
between the quotes). What follows the root value, whitespace in a JSON text,
plays no part. -/
theorem parse_agrees_with_reference (parser : jspp_t) (ws1 : List Nat) (v : json_value)
    (ws2 : List Nat) (hws1 : all_space ws1 = true) (hroot : v.is_container = true) (hw : v.well_formed = true) (hf : v.fits 0 = true)
    (hlen : (document ws1 v ws2).length ≤ 65535) :
    (parse parser [document ws1 v ws2]).map reported = v.tokens ++ [(JSON_END, [])] := by
  have hn : v.is_number = true → delimited ws2 = true := by
    intro h
    cases v <;> simp [json_value.is_number, json_value.is_container] at h hroot
  have h1 := parse_eq_byte_run parser [document ws1 v ws2] (by
    intro f hf'
    rw [List.mem_singleton.1 hf']
    exact hlen)
  rw [List.flatten_singleton, document_run ws1 v ws2 hws1 hw hf hn] at h1
  rcases single_fragment (drive_fuel [document ws1 v ws2])
    (jspp_start parser (document ws1 v ws2)).2 (jspp_start parser (document ws1 v ws2)).1
    with h | h
  · change stitch [] (parse parser [document ws1 v ws2])
      = (parse parser [document ws1 v ws2]).map reported at h
    rw [← h]
    exact h1
  · have h2 := h (JSON_END, []) (by
      show (JSON_END, []) ∈ stitch [] (parse parser [document ws1 v ws2])
      rw [h1]
      simp)
    simp at h2

theorem parse_agrees_with_reference_witness :
    (parse jspp_zero [document [32]
      (.object [] (.last [.plain 97] [] [32]
        (.array [] (.more (.number ⟨true, [49], some [53], none⟩) [] [32]
          (.last (.string [.plain 98]) []))) [])) [10]]).map reported
      = [(JSON_OBJECT_BEGIN, []), (JSON_MEMBER_NAME, [97]), (JSON_ARRAY_BEGIN, []),
          (JSON_DECIMAL, [45, 49, 46, 53]), (JSON_STRING, [98]), (JSON_ARRAY_END, []),
          (JSON_OBJECT_END, []), (JSON_END, [])] :=
  parse_agrees_with_reference jspp_zero [32] _ [10] (by decide) (by decide) (by decide)
    (by decide) (by decide)

/-- The run on a well-formed document that fits, cut in any way: `JSON_END`, no
`JSON_INVALID`, no `JSON_TOO_DEEP`, and the complete tokens of the document. -/
theorem document_reaches_end (parser : jspp_t) (ws1 : List Nat) (v : json_value)
    (ws2 : List Nat) (cut : List (List Nat))
    (hws1 : all_space ws1 = true) (hws2 : all_space ws2 = true)
    (hw : v.well_formed = true) (hf : v.fits 0 = true)
    (hn : v.is_number = true → ws2 ≠ [])
    (hcut : cut.flatten = document ws1 v ws2) (hlen : ∀ f ∈ cut, f.length ≤ 65535) :
    JSON_END ∈ (parse parser cut).map Prod.fst
      ∧ JSON_INVALID ∉ (parse parser cut).map Prod.fst
      ∧ JSON_TOO_DEEP ∉ (parse parser cut).map Prod.fst
      ∧ complete_kinds (parse parser cut) = v.tokens.map Prod.fst ++ [JSON_END] := by
  have hn' : v.is_number = true → delimited ws2 = true := by
    intro h
    cases ws2 with
    | nil => exact absurd rfl (hn h)
    | cons c ws =>
      simp only [all_space, List.all_cons, Bool.and_eq_true] at hws2
      simp [delimited, is_delimiter, hws2.1]
  have h1 := parse_eq_byte_run parser cut hlen
  rw [hcut, document_run ws1 v ws2 hws1 hw hf hn'] at h1
  have h2 : complete_kinds (parse parser cut) = v.tokens.map Prod.fst ++ [JSON_END] := by
    rw [complete_kinds_stitch _ [], h1]
    simp
  have h3 : ∀ x, x ≤ JSON_END → x ∈ (parse parser cut).map Prod.fst →
      x ∈ v.tokens.map Prod.fst ++ [JSON_END] := by
    intro x hx hm
    rw [← h2]
    unfold complete_kinds
    exact List.mem_filter.2 ⟨hm, by simp [hx]⟩
  have h4 : ∀ x, x < JSON_END → x ∉ (parse parser cut).map Prod.fst := by
    intro x hx hm
    have h5 := h3 x (Nat.le_of_lt hx) hm
    rcases List.mem_append.1 h5 with h6 | h6
    · obtain ⟨e, he, rfl⟩ := List.mem_map.1 h6
      have := value_tokens_kinds v e he
      omega
    · simp at h6 hx
      omega
  refine ⟨?_, h4 _ (by decide), h4 _ (by decide), h2⟩
  have h5 : JSON_END ∈ complete_kinds (parse parser cut) := by rw [h2]; simp
  unfold complete_kinds at h5
  exact (List.mem_filter.1 h5).1

/-- C4 (as amended): a well-formed JSON text in which no scalar, member name
or container lies inside more than 12 containers, a number at the root followed
by whitespace, cut into fragments in any way: the run returns `JSON_END`, and
neither `JSON_INVALID` nor `JSON_TOO_DEEP`; its complete tokens are those of
the text. -/
theorem well_formed_reaches_end (parser : jspp_t) (ws1 : List Nat) (v : json_value)
    (ws2 : List Nat) (cut : List (List Nat))
    (hws1 : all_space ws1 = true) (hws2 : all_space ws2 = true)
    (hw : v.well_formed = true) (hf : v.fits 0 = true)
    (hn : v.is_number = true → ws2 ≠ [])
    (hcut : cut.flatten = document ws1 v ws2) (hlen : ∀ f ∈ cut, f.length ≤ 65535) :
    JSON_END ∈ (parse parser cut).map Prod.fst
      ∧ JSON_INVALID ∉ (parse parser cut).map Prod.fst
      ∧ JSON_TOO_DEEP ∉ (parse parser cut).map Prod.fst
      ∧ complete_kinds (parse parser cut) = v.tokens.map Prod.fst ++ [JSON_END] :=
  document_reaches_end parser ws1 v ws2 cut hws1 hws2 hw hf hn hcut hlen

theorem well_formed_reaches_end_witness :
    JSON_END ∈ (parse jspp_zero [[32, 45, 49], [50, 101], [43, 55, 10]]).map Prod.fst
      ∧ JSON_INVALID ∉ (parse jspp_zero [[32, 45, 49], [50, 101], [43, 55, 10]]).map Prod.fst
      ∧ JSON_TOO_DEEP ∉ (parse jspp_zero [[32, 45, 49], [50, 101], [43, 55, 10]]).map Prod.fst
      ∧ complete_kinds (parse jspp_zero [[32, 45, 49], [50, 101], [43, 55, 10]])
        = [JSON_FLOATING_POINT, JSON_END] :=
  well_formed_reaches_end jspp_zero [32] (.number ⟨true, [49, 50], none, some (101, [43], [55])⟩)
    [10] [[32, 45, 49], [50, 101], [43, 55, 10]] (by decide) (by decide) (by decide) (by decide)
    (by decide) (by decide) (by decide)

/-- C4 (counterexample): fourteen arrays one in another are well-formed JSON,
and the run on `[[[[[[[[[[[[[[]]]]]]]]]]]]]]` returns thirteen times
`JSON_ARRAY_BEGIN` and then `JSON_TOO_DEEP`, never `JSON_END`. -/
theorem fourteen_arrays_too_deep :
    (nested_arrays 13).well_formed = true
      ∧ (nested_arrays 13).render = List.replicate 14 91 ++ List.replicate 14 93
      ∧ (parse jspp_zero [(nested_arrays 13).render]).map Prod.fst
        = List.replicate 13 JSON_ARRAY_BEGIN ++ [JSON_TOO_DEEP] := by
  refine ⟨by decide, by decide, by decide⟩

/-! ### The loop of `jspp_next` on the bytes of a lexeme -/

theorem scan_quiet_step (p : jspp_t) (s txt c : Nat) (rest : List Nat)
    (hq : quiet (next_scan_state s c) = true) :
    scan_loop p s txt (c :: rest) = scan_loop p (next_scan_state s c) (txt + 1) rest := by
  obtain ⟨h1, h2, _⟩ := quiet_facts _ hq
  have h3 : ¬ next_scan_state s c > __REDUCING_PARSER_STATES := by
    rcases quiet_cases _ hq with h | h | h | h | h | h <;> rw [h] <;> decide
  simp only [scan_loop, h1, h2, Bool.false_eq_true, if_false, if_neg h3]

theorem scan_quiet_run (bytes : List Nat) : ∀ (p : jspp_t) (s txt : Nat) (rest : List Nat),
    quiet_run s bytes = true →
    scan_loop p s txt (bytes ++ rest)
      = scan_loop p (scan_states s bytes) (txt + bytes.length) rest := by
  induction bytes with
  | nil => intro p s txt rest _; rfl
  | cons c bytes ih =>
    intro p s txt rest h
    simp only [quiet_run, Bool.and_eq_true] at h
    rw [List.cons_append, scan_quiet_step p s txt c _ h.1, ih _ _ _ _ h.2]
    simp only [scan_states, List.foldl_cons, List.length_cons]
    congr 1
    omega

theorem scan_final_step (p : jspp_t) (s txt c : Nat) (rest : List Nat)
    (hs : (is_token_start (next_scan_state s c)
      || is_nested_level_start (next_scan_state s c)) = false)
    (hf : is_final (next_scan_state s c) = true) :
    scan_loop p s txt (c :: rest) = .stopped p (next_scan_state s c) txt := by
  have h3 : ¬ next_scan_state s c > __REDUCING_PARSER_STATES := by
    simp [is_final] at hf
    simp; omega
  simp only [scan_loop, hs, hf, Bool.false_eq_true, if_false, if_neg h3, if_true]

theorem scan_start_step (p : jspp_t) (s txt c : Nat) (rest : List Nat)
    (hs : is_token_start (next_scan_state s c) = true) (hl : p.level ≤ 12) :
    scan_loop p s txt (c :: rest)
      = scan_loop (inc_level (set_token_start p (next_scan_state s c) txt))
          (next_scan_state s c) (txt + 1) rest := by
  have hf : is_final (next_scan_state s c) = false := by
    simp [is_token_start] at hs
    rcases hs with (((h | h) | h) | h) | h <;> rw [h] <;> decide
  have hd : ¬ (inc_level (set_token_start p (next_scan_state s c) txt)).level
      = JSON_MAX_STACK := by
    simp [inc_level]
    omega
  simp only [scan_loop, hs, Bool.true_or, if_true, if_neg hd, hf, Bool.false_eq_true, if_false]

theorem scan_space_step (p : jspp_t) (s txt c : Nat) (rest : List Nat)
    (hs : __REDUCING_PARSER_STATES < s) (hc : is_space c = true) :
    scan_loop p s txt (c :: rest) = scan_loop (set_state p s) s (txt + 1) rest := by
  have h1 : next_scan_state s c = s := by
    unfold next_scan_state
    rw [if_pos ⟨by simp at hs ⊢; omega, hc⟩]
  have h2 : (is_token_start s || is_nested_level_start s) = false ∧ is_final s = false := by
    simp at hs
    simp [is_token_start, is_nested_level_start, is_final]
    omega
  simp only [scan_loop, h1, h2.1, h2.2, Bool.false_eq_true, if_false]
  rw [if_pos hs]

/-! ### Single elements that do not conform -/

theorem jspp_next_scan (p : jspp_t) (hl : p.level < JSON_MAX_STACK)
    (hs : JSON_END < get_state p) (ht : scan_pos p ≠ p.text.length) :
    jspp_next p
      = match scan_loop p (get_state p) (scan_pos p) (p.text.drop (scan_pos p)) with
        | .too_deep p1 => (JSON_TOO_DEEP, p1)
        | .stopped p1 state1 txt1 =>
          if is_final state1 then complete_token p1 state1 txt1 else suspend_token p1 state1 := by
  unfold jspp_next
  rw [if_neg (by omega)]
  simp only []
  rw [if_neg (by omega)]
  unfold scan_pos at ht
  rw [if_neg (by simpa [jspp_t.text_length] using ht)]
  rfl

theorem spellings_step (s l : Nat) (sp : List Nat) (h : (s, l :: sp) ∈ spellings) :
    (∀ c, c ≠ l → next_scan_state s c = JSON_INVALID)
      ∧ (sp ≠ [] → (next_scan_state s l, sp) ∈ spellings
          ∧ (is_token_start (next_scan_state s l)
              || is_nested_level_start (next_scan_state s l)) = false
          ∧ is_final (next_scan_state s l) = false
          ∧ ¬ next_scan_state s l > __REDUCING_PARSER_STATES) := by
  simp only [spellings, List.mem_cons, Prod.mk.injEq, List.cons.injEq, List.mem_singleton,
    List.not_mem_nil, or_false] at h
  rcases h with h | h | h | h | h | h | h | h | h | h <;> obtain ⟨rfl, rfl, rfl⟩ := h <;>
    refine ⟨fun c hc => by simp [next_scan_state, hc], fun _ => ?_⟩ <;> first
      | (exfalso; contradiction)
      | decide

theorem scan_deviates (rest : List Nat) : ∀ (s : Nat) (sp : List Nat) (p : jspp_t) (txt : Nat),
    (s, sp) ∈ spellings → deviates sp rest = true →
    ∃ p1 txt1, scan_loop p s txt rest = .stopped p1 JSON_INVALID txt1 := by
  induction rest with
  | nil =>
    intro s sp p txt _ hd
    cases sp <;> simp [deviates] at hd
  | cons c rest ih =>
    intro s sp p txt hm hd
    cases sp with
    | nil => simp [deviates] at hd
    | cons l sp =>
      obtain ⟨h1, h2⟩ := spellings_step s l sp hm
      by_cases hc : c = l
      · subst hc
        simp only [deviates, bne_self_eq_false, Bool.false_or] at hd
        have hne : sp ≠ [] := by
          intro h
          subst h
          simp [deviates] at hd
        obtain ⟨h3, h4, h5, h6⟩ := h2 hne
        have h7 : scan_loop p s txt (c :: rest)
            = scan_loop p (next_scan_state s c) (txt + 1) rest := by
          simp only [scan_loop, h4, h5, Bool.false_eq_true, if_false, if_neg h6]
        rw [h7]
        exact ih _ sp p _ h3 hd
      · have h3 := h1 c hc
        refine ⟨p, txt, ?_⟩
        rw [scan_final_step p s txt c rest (by rw [h3]; decide) (by rw [h3]; decide), h3]

theorem scan_nonconforming (ws : List Nat) (c : Nat) (rest : List Nat)
    (hws : all_space ws = true)
    (h : (is_space c = false ∧ starts_value c = false)
      ∨ (c = 110 ∧ deviates [117, 108, 108] rest = true)
      ∨ (c = 116 ∧ deviates [114, 117, 101] rest = true)
      ∨ (c = 102 ∧ deviates [97, 108, 115, 101] rest = true)) :
    ∀ (p : jspp_t) (txt : Nat), p.level ≤ 12 →
    ∃ p1 txt1, scan_loop p EXPECTING_JSON txt (ws ++ c :: rest)
      = .stopped p1 JSON_INVALID txt1 := by
  induction ws with
  | nil =>
    intro p txt hl
    rcases h with ⟨h1, h2⟩ | ⟨rfl, h2⟩ | ⟨rfl, h2⟩ | ⟨rfl, h2⟩
    · have h3 : next_scan_state EXPECTING_JSON c = JSON_INVALID := by
        simp [starts_value] at h2
        obtain ⟨⟨⟨⟨⟨⟨⟨e1, e2⟩, e3⟩, e4⟩, e5⟩, e6⟩, e7⟩, e8⟩ := h2
        simp [next_scan_state, scan_value, h1, e1, e2, e3, e4, e5, e6, e7, e8]
      refine ⟨p, txt, ?_⟩
      rw [List.nil_append,
        scan_final_step p _ txt c rest (by rw [h3]; decide) (by rw [h3]; decide), h3]
    · rw [List.nil_append, scan_start_step p _ txt 110 rest (by decide) hl]
      exact scan_deviates rest NULL_N _ _ _ (by decide) h2
    · rw [List.nil_append, scan_start_step p _ txt 116 rest (by decide) hl]
      exact scan_deviates rest TRUE_T _ _ _ (by decide) h2
    · rw [List.nil_append, scan_start_step p _ txt 102 rest (by decide) hl]
      exact scan_deviates rest FALSE_F _ _ _ (by decide) h2
  | cons w ws ih =>
    intro p txt hl
    simp only [all_space, List.all_cons, Bool.and_eq_true] at hws
    rw [List.cons_append, scan_space_step p _ txt w _ (by decide) hws.1]
    exact ih hws.2 _ _ (by simpa using hl)

/-- C8: a fragment whose first byte other than whitespace is none of `n`, `t`,
`f`, `"`, `{`, `[`, `-` and the digits, or is `n`, `t` or `f` with a byte after
it in the fragment that is not the byte `null`, `true` or `false` has in its
place: `jspp_start` returns `JSON_INVALID`. -/
theorem nonconforming_element_rejected (parser : jspp_t) (ws : List Nat) (c : Nat)
    (rest : List Nat) (hws : all_space ws = true)
    (h : (is_space c = false ∧ starts_value c = false)
      ∨ (c = 110 ∧ deviates [117, 108, 108] rest = true)
      ∨ (c = 116 ∧ deviates [114, 117, 101] rest = true)
      ∨ (c = 102 ∧ deviates [97, 108, 115, 101] rest = true)) :
    (jspp_start parser (ws ++ c :: rest)).1 = JSON_INVALID := by
  have hlev : (start_state parser (ws ++ c :: rest)).level = 0 := by simp [start_state]
  have hst : get_state (start_state parser (ws ++ c :: rest)) = EXPECTING_JSON := by
    unfold get_state
    rw [hlev]
    simp [start_state, stack_read, stack_write]
  have hpos : scan_pos (start_state parser (ws ++ c :: rest)) = 0 := by
    simp [scan_pos, start_state, set_fragment]
  have htext : (start_state parser (ws ++ c :: rest)).text = ws ++ c :: rest := by
    simp [start_state, set_fragment]
  unfold jspp_start
  rw [jspp_next_scan _ (by rw [hlev]; decide) (by rw [hst]; decide)
    (by rw [hpos, htext]; simp; omega), hst, hpos, htext, List.drop_zero]
  obtain ⟨p1, txt1, h1⟩ := scan_nonconforming ws c rest hws h (start_state parser (ws ++ c :: rest))
    0 (by rw [hlev]; decide)
  rw [h1]
  simp only []
  rw [if_pos (by decide)]
  rcases complete_token_fst p1 JSON_INVALID txt1 with h2 | ⟨_, h2⟩
  · exact h2
  · exact absurd h2 (by decide)

theorem nonconforming_element_rejected_witness :
    (jspp_start jspp_zero [32, 116, 114, 85, 101, 32]).1 = JSON_INVALID :=
  nonconforming_element_rejected jspp_zero [32] 116 [114, 85, 101, 32] (by decide)
    (Or.inr (Or.inr (Or.inl ⟨rfl, by decide⟩)))

/-! ### Numbers and strings at a value position -/

theorem value_state_gt (st : Nat) (h : value_state st) : JSON_END < st := by
  rcases h with rfl | rfl | rfl | rfl <;> decide

/-- The loop of `jspp_next` over a number and the byte behind it. -/
theorem scan_number (p : jspp_t) (n : number_lexeme) (st txt d : Nat) (rest : List Nat)
    (hn : n.well_formed = true) (hd : continues_number n.kind d = false)
    (hst : value_state st) (hl : p.level ≤ 12) :
    scan_loop p st txt (n.bytes ++ d :: rest)
      = .stopped (inc_level (set_token_start p NUMBER_BEGIN txt)) n.kind
          (txt + n.bytes.length) := by
  obtain ⟨c, ds, hc, hds, hb⟩ := number_split n hn
  obtain ⟨hq, hs⟩ := number_run n hn ds hds
  have h0 := number_start st c hst hc
  have he := number_state_end _ _ d hs hd
  have hk := number_kind_cases n
  rw [hb, List.cons_append, scan_start_step p st txt c _ (by rw [h0]; decide) hl, h0,
    scan_quiet_run _ _ _ _ _ hq,
    scan_final_step _ _ _ d rest (by rw [he]; rcases hk with h | h | h <;> rw [h] <;> decide)
      (by rw [he]; rcases hk with h | h | h <;> rw [h] <;> decide), he]
  simp only [List.length_cons]
  congr 1
  omega

/-- The loop of `jspp_next` over a string. -/
theorem scan_string (p : jspp_t) (body : List string_item) (st txt : Nat) (rest : List Nat)
    (hb : body_well_formed body = true) (hst : string_state st) (hl : p.level ≤ 12) :
    scan_loop p st txt (34 :: (body_bytes body ++ 34 :: rest))
      = .stopped (inc_level (set_token_start p STRING_BEGIN txt)) JSON_STRING
          (txt + 1 + (body_bytes body).length) := by
  have h0 : next_scan_state st 34 = STRING_BEGIN := by
    rcases hst with (rfl | rfl | rfl | rfl) | rfl | rfl <;> decide
  obtain ⟨hq, hs⟩ := body_run body hb STRING_BEGIN (Or.inl rfl)
  have he := string_end _ hs
  rw [scan_start_step p st txt 34 _ (by rw [h0]; decide) hl, h0, scan_quiet_run _ _ _ _ _ hq,
    scan_final_step _ _ _ 34 rest (by rw [he]; decide) (by rw [he]; decide), he]

/-- C9 (counterexample): the number `1` with `]` behind it, an element of the
thirteenth of thirteen arrays one in another: the call that scans it returns
`JSON_TOO_DEEP`, not `JSON_INTEGER`. -/
theorem number_at_level_13_too_deep :
    (parse jspp_zero [List.replicate 13 91 ++ [49, 93]]).map Prod.fst
      = List.replicate 13 JSON_ARRAY_BEGIN ++ [JSON_TOO_DEEP] := by
  decide

/-- C10 (counterexample): the string `"a"`, an element of the thirteenth of
thirteen arrays one in another: the call that scans it returns `JSON_TOO_DEEP`,
not `JSON_STRING`. -/
theorem string_at_level_13_too_deep :
    (parse jspp_zero [List.replicate 13 91 ++ [34, 97, 34, 93]]).map Prod.fst
      = List.replicate 13 JSON_ARRAY_BEGIN ++ [JSON_TOO_DEEP] := by
  decide

/-! ### Prefixes of a document -/

theorem byte_run_append (X : List Nat) : ∀ (below : List Nat) (state : Nat) (acc Y : List Nat),
    byte_run below state acc (X ++ Y)
      = (byte_scan below state acc X).1
        ++ (match (byte_scan below state acc X).2 with
            | none => []
            | some (b, s, a) => byte_run b s a Y) := by
  induction X with
  | nil => intro below state acc Y; rfl
  | cons c X ih =>
    intro below state acc Y
    simp only [List.cons_append, byte_run, byte_scan]
    cases h : byte_step below state acc c with
    | halt events => simp
    | go events below1 state1 acc1 =>
      simp only [List.append_assoc]
      show events ++ byte_run below1 state1 acc1 (X ++ Y) = _
      rw [ih]

theorem byte_run_scan (X : List Nat) (below : List Nat) (state : Nat) (acc : List Nat) :
    byte_run below state acc X = (byte_scan below state acc X).1 := by
  have h := byte_run_append X below state acc []
  rw [List.append_nil] at h
  rw [h]
  cases h2 : (byte_scan below state acc X).2 with
  | none => simp
  | some cfg =>
    obtain ⟨b, s, a⟩ := cfg
    simp [byte_run]

theorem reducing_cases (st : Nat) (h : reducing st) :
    st = EXPECTING_JSON ∨ st = EXPECTING_ARRAY_ELEMENT_OR_END ∨ st = EXPECTING_ARRAY_ELEMENT
      ∨ st = EXPECTING_OBJECT_MEMBER_NAME_OR_END ∨ st = EXPECTING_OBJECT_MEMBER_NAME
      ∨ st = EXPECTING_OBJECT_MEMBER_VALUE := by
  simp [reducing] at h
  simp
  omega

theorem reducing_next (st : Nat) (h : reducing st) : next_parsing_state st ≠ JSON_INVALID := by
  rcases reducing_cases st h with rfl | rfl | rfl | rfl | rfl | rfl <;> decide

theorem step_start_reducing (state c : Nat)
    (h : (is_token_start (next_scan_state state c)
      || is_nested_level_start (next_scan_state state c)) = true) :
    reducing state := by
  rcases next_scan_state_table state c with ⟨h1, h2⟩ | h1 | h1
  · rw [h1] at h
    simp only [is_token_start, is_nested_level_start, Bool.or_eq_true, decide_eq_true_eq] at h
    simp at h h2 ⊢; omega
  · rw [h1] at h; exact absurd h (by decide)
  · exact (by unfold reducing; decide : ∀ x ∈ transitions,
      (is_token_start x.2 || is_nested_level_start x.2) = true → reducing x.1) _ h1 h

theorem reduce_event_fst (st tok : Nat) (acc : List Nat) (h : tok ≠ JSON_INVALID) :
    (reduce_event st tok acc).1 ≠ JSON_INVALID := by
  unfold reduce_event
  dsimp only
  split_ifs
  · decide
  · exact h

theorem byte_reduce_cases (b : List Nat) (tok : Nat) (acc : List Nat)
    (hb : ∀ st ∈ b, reducing st) (ht : tok ≠ JSON_INVALID) :
    (∃ evs, byte_reduce b tok acc = .halt evs ∧ JSON_INVALID ∉ evs.map Prod.fst)
      ∨ (∃ st b1, b = st :: b1
          ∧ byte_reduce b tok acc = .go [reduce_event st tok acc] b1 (next_parsing_state st) []) := by
  cases b with
  | nil =>
    left
    refine ⟨[(tok, [])], rfl, ?_⟩
    simp
    exact fun h => ht h.symm
  | cons st b1 =>
    have h1 := reducing_next st (hb st (List.mem_cons_self _ _))
    have h2 := reduce_event_fst st tok acc ht
    by_cases hle : next_parsing_state st ≤ JSON_END
    · left
      refine ⟨[reduce_event st tok acc, (next_parsing_state st, [])], ?_, ?_⟩
      · simp only [byte_reduce, reduce_event, hle, if_true]
      · simp only [List.map_cons, List.map_nil, List.mem_cons, List.not_mem_nil, or_false,
          not_or]
        exact ⟨fun h => h2 h.symm, fun h => h1 h.symm⟩
    · right
      refine ⟨st, b1, rfl, ?_⟩
      simp only [byte_reduce, reduce_event, hle, if_false]

theorem byte_consume_cases (b : List Nat) (s : Nat) (acc : List Nat) (c : Nat)
    (hb : ∀ st ∈ b, reducing st) :
    byte_consume b s acc c = .halt [(JSON_INVALID, [])]
      ∨ (JSON_INVALID ∉ (byte_consume b s acc c).events.map Prod.fst
          ∧ ∀ ev b1 s1 a1, byte_consume b s acc c = .go ev b1 s1 a1 → ∀ st ∈ b1, reducing st) := by
  by_cases hs : (is_token_start (next_scan_state s c)
      || is_nested_level_start (next_scan_state s c)) = true
  · right
    have hr := step_start_reducing s c hs
    have hb' : ∀ st ∈ s :: b, reducing st := by
      intro st hst
      rcases List.mem_cons.1 hst with rfl | hst
      · exact hr
      · exact hb st hst
    have hne : next_scan_state s c ≠ JSON_INVALID := by
      intro h
      rw [h] at hs
      exact absurd hs (by decide)
    by_cases hd : b.length + 1 = JSON_MAX_STACK
    · simp only [byte_consume, hs, hd, if_true, byte_result.events]
      exact ⟨by decide, fun _ _ _ _ h => by cases h⟩
    · by_cases hf : is_final (next_scan_state s c) = true
      · simp only [byte_consume, hs, hd, if_true, if_false, hf, byte_result.events]
        refine ⟨?_, ?_⟩
        · simp only [List.map_cons, List.map_nil, List.mem_singleton]
          exact fun h => hne h.symm
        · intro ev b1 s1 a1 h
          cases h
          exact hb'
      · simp only [byte_consume, hs, hd, if_true, if_false, hf, byte_result.events]
        refine ⟨by simp, ?_⟩
        intro ev b1 s1 a1 h
        cases h
        exact hb'
  · rw [Bool.not_eq_true] at hs
    by_cases hf : is_final (next_scan_state s c) = true
    · by_cases hi : next_scan_state s c = JSON_INVALID
      · left
        simp only [byte_consume, hs, hf, hi, if_true, if_false, Bool.false_eq_true]
        rfl
      · right
        have he : byte_consume b s acc c = byte_reduce b (next_scan_state s c) acc := by
          simp only [byte_consume, hs, hf, hi, if_true, if_false, Bool.false_eq_true]
        rw [he]
        rcases byte_reduce_cases b (next_scan_state s c) acc hb hi with
          ⟨evs, h1, h2⟩ | ⟨st, b1, h1, h2⟩
        · rw [h1]
          exact ⟨h2, fun _ _ _ _ h => by cases h⟩
        · rw [h2]
          refine ⟨?_, ?_⟩
          · simp only [byte_result.events, List.map_cons, List.map_nil, List.mem_singleton]
            exact fun h => reduce_event_fst st _ acc hi h.symm
          · intro ev b2 s1 a1 h
            cases h
            intro x hx
            exact hb x (by rw [h1]; exact List.mem_cons_of_mem _ hx)
    · right
      simp only [byte_consume, hs, hf, if_false, byte_result.events, Bool.false_eq_true]
      refine ⟨by simp, ?_⟩
      intro ev b1 s1 a1 h
      cases h
      exact hb

/-- One byte of `byte_run` below which the states are those `jspp_next` leaves
there: either the scanner rejects the byte, after the number it ends if it
ends one, or the byte gives no `JSON_INVALID`. -/
theorem byte_step_cases (b : List Nat) (s : Nat) (acc : List Nat) (c : Nat)
    (hb : ∀ st ∈ b, reducing st) :
    (∃ extra, byte_step b s acc c = .halt (extra ++ [(JSON_INVALID, [])])
        ∧ number_or_nothing extra)
      ∨ (JSON_INVALID ∉ (byte_step b s acc c).events.map Prod.fst
          ∧ ∀ ev b1 s1 a1, byte_step b s acc c = .go ev b1 s1 a1 → ∀ st ∈ b1, reducing st) := by
  by_cases hn : next_scan_state s c = JSON_INTEGER ∨ next_scan_state s c = JSON_DECIMAL
      ∨ next_scan_state s c = JSON_FLOATING_POINT
  · have hi : next_scan_state s c ≠ JSON_INVALID := by
      rcases hn with h | h | h <;> rw [h] <;> decide
    rcases byte_reduce_cases b (next_scan_state s c) acc hb hi with
      ⟨evs, h1, h2⟩ | ⟨st, b1, h1, h2⟩
    · right
      have he : byte_step b s acc c = .halt evs := by
        simp only [byte_step, if_pos hn, h1]
      rw [he]
      exact ⟨h2, fun _ _ _ _ h => by cases h⟩
    · have hb1 : ∀ x ∈ b1, reducing x := fun x hx =>
        hb x (by rw [h1]; exact List.mem_cons_of_mem _ hx)
      have hev : reduce_event st (next_scan_state s c) acc = (next_scan_state s c, acc) := by
        rcases hn with h | h | h <;> rw [h] <;> simp [reduce_event, is_text_token]
      rcases byte_consume_cases b1 (next_parsing_state st) [] c hb1 with h3 | ⟨h3, h4⟩
      · left
        refine ⟨[(next_scan_state s c, acc)], ?_, Or.inr ⟨acc, ?_⟩⟩
        · simp only [byte_step, if_pos hn, h2, h3, hev]
        · rcases hn with h | h | h <;> rw [h] <;> simp
      · right
        cases h5 : byte_consume b1 (next_parsing_state st) [] c with
        | halt ev1 =>
          have he : byte_step b s acc c = .halt ([(next_scan_state s c, acc)] ++ ev1) := by
            simp only [byte_step, if_pos hn, h2, h5, hev]
          rw [he]
          rw [h5] at h3
          refine ⟨?_, fun _ _ _ _ h => by cases h⟩
          simp only [byte_result.events, List.map_append, List.map_cons, List.map_nil,
            List.mem_append, List.mem_singleton, not_or]
          exact ⟨fun h => hi h.symm, h3⟩
        | go ev1 b2 s2 a2 =>
          have he : byte_step b s acc c
              = .go ([(next_scan_state s c, acc)] ++ ev1) b2 s2 a2 := by
            simp only [byte_step, if_pos hn, h2, h5, hev]
          rw [he]
          rw [h5] at h3
          refine ⟨?_, ?_⟩
          · simp only [byte_result.events, List.map_append, List.map_cons, List.map_nil,
              List.mem_append, List.mem_singleton, not_or]
            exact ⟨fun h => hi h.symm, h3⟩
          · intro ev b3 s3 a3 h
            cases h
            exact h4 _ _ _ _ h5
  · have he : byte_step b s acc c = byte_consume b s acc c := by
      simp only [byte_step, if_neg hn]
    rw [he]
    rcases byte_consume_cases b s acc c hb with h | h
    · left
      exact ⟨[], by rw [h]; rfl, Or.inl rfl⟩
    · right
      exact h

theorem byte_scan_reducing (X : List Nat) : ∀ (below : List Nat) (state : Nat) (acc : List Nat),
    (∀ st ∈ below, reducing st) → ∀ b s a, (byte_scan below state acc X).2 = some (b, s, a) →
    ∀ st ∈ b, reducing st := by
  induction X with
  | nil =>
    intro below state acc hb b s a h
    simp only [byte_scan, Option.some.injEq, Prod.mk.injEq] at h
    rw [← h.1]
    exact hb
  | cons c X ih =>
    intro below state acc hb b s a h
    cases h5 : byte_step below state acc c with
    | halt ev =>
      simp [byte_scan, h5] at h
    | go ev b1 s1 a1 =>
      simp only [byte_scan, h5] at h
      rcases byte_step_cases below state acc c hb with ⟨extra, h6, _⟩ | ⟨_, h6⟩
      · rw [h5] at h6
        cases h6
      · exact ih b1 s1 a1 (h6 _ _ _ _ h5) b s a h

/-! ### The byte the scanner rejects -/

theorem invalid_mem_stitch (events : List Event) :
    JSON_INVALID ∈ (stitch [] events).map Prod.fst ↔ JSON_INVALID ∈ events.map Prod.fst := by
  rw [← complete_kinds_stitch events []]
  unfold complete_kinds
  rw [List.mem_filter]
  simp

/-- Read byte by byte: if the bytes up to and including `c` give
`JSON_INVALID` and the bytes before `c` do not, the run on any text that goes on
after `c` is the run on the bytes before `c`, the number `c` ends if it ends
one, and `JSON_INVALID`. -/
theorem byte_run_rejects (X : List Nat) (c : Nat) (Y : List Nat)
    (hbad : JSON_INVALID ∈ (byte_run [] EXPECTING_JSON [] (X ++ [c])).map Prod.fst)
    (hgood : JSON_INVALID ∉ (byte_run [] EXPECTING_JSON [] X).map Prod.fst) :
    ∃ extra, number_or_nothing extra
      ∧ byte_run [] EXPECTING_JSON [] (X ++ c :: Y)
        = byte_run [] EXPECTING_JSON [] X ++ extra ++ [(JSON_INVALID, [])] := by
  rw [byte_run_append] at hbad
  rw [byte_run_append X _ _ _ (c :: Y)]
  rw [byte_run_scan] at hgood
  rw [byte_run_scan X]
  cases hc : (byte_scan [] EXPECTING_JSON [] X).2 with
  | none =>
    rw [hc] at hbad
    simp only [List.append_nil] at hbad
    exact absurd hbad hgood
  | some cfg =>
    obtain ⟨b, s, a⟩ := cfg
    rw [hc] at hbad
    simp only [] at hbad ⊢
    have hb := byte_scan_reducing X [] EXPECTING_JSON [] (by simp) b s a hc
    rcases byte_step_cases b s a c hb with ⟨extra, h1, h2⟩ | ⟨h1, _⟩
    · refine ⟨extra, h2, ?_⟩
      simp only [byte_run, h1, List.append_assoc]
    · exfalso
      rw [List.map_append, List.mem_append] at hbad
      rcases hbad with hbad | hbad
      · exact hgood hbad
      · apply h1
        cases h5 : byte_step b s a c with
        | halt ev =>
          simp only [byte_run, h5] at hbad
          exact hbad
        | go ev b1 s1 a1 =>
          simp only [byte_run, h5, List.append_nil] at hbad
          exact hbad

/-! ### The last byte of a document -/

theorem snoc_of_all (l : List Nat) (f : Nat → Bool) (hne : l ≠ []) (h : l.all f = true) :
    ∃ init c, l = init ++ [c] ∧ f c = true := by
  refine ⟨l.dropLast, l.getLast hne, (List.dropLast_append_getLast hne).symm, ?_⟩
  exact List.all_eq_true.1 h _ (List.getLast_mem hne)

theorem digits_last (ds : List Nat) (h : all_digits ds = true) :
    ∃ init c, ds = init ++ [c] ∧ closing c = true := by
  obtain ⟨c0, rest, h0, _, _⟩ := all_digits_cons ds h
  obtain ⟨init, c, h1, h2⟩ := snoc_of_all ds is_digit (by rw [h0]; simp) (all_digits_all ds h)
  exact ⟨init, c, h1, by simp [closing, h2]⟩

theorem last_append (a b : List Nat) (h : ∃ init c, b = init ++ [c] ∧ closing c = true) :
    ∃ init c, a ++ b = init ++ [c] ∧ closing c = true := by
  obtain ⟨init, c, h1, h2⟩ := h
  exact ⟨a ++ init, c, by rw [h1, List.append_assoc], h2⟩

theorem last_cons (a : Nat) (b : List Nat) (h : ∃ init c, b = init ++ [c] ∧ closing c = true) :
    ∃ init c, a :: b = init ++ [c] ∧ closing c = true :=
  last_append [a] b h

theorem number_last (n : number_lexeme) (hn : n.well_formed = true) :
    ∃ init c, n.bytes = init ++ [c] ∧ closing c = true := by
  obtain ⟨mi, ints, fr, ex⟩ := n
  simp only [number_lexeme.well_formed, Bool.and_eq_true] at hn
  obtain ⟨⟨hi, hfr⟩, hex⟩ := hn
  simp only [number_lexeme.bytes, number_lexeme.suffix]
  apply last_append
  cases ex with
  | some e =>
    obtain ⟨m, sg, ds⟩ := e
    simp only [Bool.and_eq_true] at hex
    apply last_append
    apply last_append
    apply last_cons
    apply last_append
    exact digits_last ds hex.2
  | none =>
    cases fr with
    | some f =>
      simp only [List.append_nil]
      apply last_append
      apply last_cons
      exact digits_last f hfr
    | none =>
      simp only [List.append_nil]
      exact digits_last ints hi

theorem render_last (v : json_value) (hw : v.well_formed = true) :
    ∃ init c, v.render = init ++ [c] ∧ closing c = true := by
  cases v with
  | lit_null => exact ⟨[110, 117, 108], 108, by simp [json_value.render], by decide⟩
  | lit_true => exact ⟨[116, 114, 117], 101, by simp [json_value.render], by decide⟩
  | lit_false => exact ⟨[102, 97, 108, 115], 101, by simp [json_value.render], by decide⟩
  | number n => exact number_last n hw
  | string body =>
    exact ⟨34 :: body_bytes body, 34, by simp [json_value.render], by decide⟩
  | empty_array ws => exact ⟨91 :: ws, 93, by simp [json_value.render], by decide⟩
  | array ws es =>
    exact ⟨91 :: (ws ++ es.render), 93, by simp [json_value.render], by decide⟩
  | empty_object ws => exact ⟨123 :: ws, 125, by simp [json_value.render], by decide⟩
  | object ws ms =>
    exact ⟨123 :: (ws ++ ms.render), 125, by simp [json_value.render], by decide⟩

/-- A well-formed document ends with whitespace or with the last byte of a
value. -/
theorem document_last (ws1 : List Nat) (v : json_value) (ws2 : List Nat)
    (hws2 : all_space ws2 = true) (hw : v.well_formed = true) :
    ∃ init c, document ws1 v ws2 = init ++ [c] ∧ (is_space c = true ∨ closing c = true) := by
  by_cases h : ws2 = []
  · obtain ⟨init, c, h1, h2⟩ := render_last v hw
    refine ⟨ws1 ++ init, c, ?_, Or.inr h2⟩
    simp [document, h, h1]
  · obtain ⟨init, c, h1, h2⟩ := snoc_of_all ws2 is_space h hws2
    refine ⟨ws1 ++ (v.render ++ init), c, ?_, Or.inl h2⟩
    simp [document, h1]

/-! ### `jspp_next` does not look at the hints of the skip engine -/

theorem stack_write_with_skip (p : jspp_t) (a b i s : Nat) :
    stack_write (with_skip p a b) i s = with_skip (stack_write p i s) a b := by
  unfold stack_write
  split <;> rfl

theorem set_state_with_skip (p : jspp_t) (a b s : Nat) :
    set_state (with_skip p a b) s = with_skip (set_state p s) a b := by
  unfold set_state
  exact stack_write_with_skip p a b _ s

theorem scan_loop_with_skip (a b : Nat) (rest : List Nat) : ∀ (p : jspp_t) (state txt : Nat),
    scan_loop (with_skip p a b) state txt rest = (scan_loop p state txt rest).with_skip a b := by
  induction rest with
  | nil => intro p state txt; rfl
  | cons c rest ih =>
    intro p state txt
    simp only [scan_loop]
    have e1 : inc_level (set_token_start (with_skip p a b) (next_scan_state state c) txt)
        = with_skip (inc_level (set_token_start p (next_scan_state state c) txt)) a b := rfl
    rw [e1, set_state_with_skip]
    split
    · have e2 : (with_skip (inc_level (set_token_start p (next_scan_state state c) txt)) a
          b).level = (inc_level (set_token_start p (next_scan_state state c) txt)).level := rfl
      rw [e2]
      split
      · rfl
      · split
        · rfl
        · exact ih _ _ _
    · have e3 : (if next_scan_state state c > __REDUCING_PARSER_STATES
          then with_skip (set_state p (next_scan_state state c)) a b else with_skip p a b)
          = with_skip (if next_scan_state state c > __REDUCING_PARSER_STATES
              then set_state p (next_scan_state state c) else p) a b := by
        split <;> rfl
      rw [e3]
      split
      · rfl
      · exact ih _ _ _

theorem complete_token_with_skip (p : jspp_t) (a b s t : Nat) :
    complete_token (with_skip p a b) s t
      = ((complete_token p s t).1, with_skip (complete_token p s t).2 a b) := by
  unfold complete_token
  dsimp only
  have e1 : ∀ q : jspp_t, set_token_end (with_skip q a b) s t
      = with_skip (set_token_end q s t) a b := fun _ => rfl
  have e2 : (if s = JSON_ARRAY_END ∨ s = JSON_OBJECT_END
      then set_token_start (with_skip p a b) s t else with_skip p a b)
      = with_skip (if s = JSON_ARRAY_END ∨ s = JSON_OBJECT_END
          then set_token_start p s t else p) a b := by
    split <;> rfl
  rw [e2, e1]
  have e3 : ∀ q : jspp_t, dec_level (with_skip q a b) = with_skip (dec_level q) a b :=
    fun _ => rfl
  have e4 : ∀ q : jspp_t, get_state (with_skip q a b) = get_state q := fun _ => rfl
  rw [e3, e4, set_state_with_skip, set_state_with_skip]
  split <;> rfl

theorem suspend_token_with_skip (p : jspp_t) (a b s : Nat) :
    suspend_token (with_skip p a b) s
      = ((suspend_token p s).1, with_skip (suspend_token p s).2 a b) := by
  unfold suspend_token
  dsimp only
  rw [set_state_with_skip]
  have e1 : ∀ q : jspp_t, set_token_end (with_skip q a b) s (with_skip p a b).text_length
      = with_skip (set_token_end q s p.text_length) a b := fun _ => rfl
  rw [e1]
  have e2 : ∀ q : jspp_t, (with_skip q a b).level = q.level := fun _ => rfl
  have e3 : ∀ (q : jspp_t) (i : Nat), stack_read (with_skip q a b) i = stack_read q i :=
    fun _ _ => rfl
  simp only [e2, e3]
  split_ifs <;> rfl

/-- The hints of the skip engine pass through `jspp_next` untouched and do not
change what it does. -/
theorem jspp_next_with_skip (p : jspp_t) (a b : Nat) :
    jspp_next (with_skip p a b) = ((jspp_next p).1, with_skip (jspp_next p).2 a b) := by
  unfold jspp_next
  have e2 : (with_skip p a b).level = p.level := rfl
  have e4 : get_state (with_skip p a b) = get_state p := rfl
  have e5 : (with_skip p a b).token_start = p.token_start := rfl
  have e6 : (with_skip p a b).token_length = p.token_length := rfl
  have e7 : (with_skip p a b).token = p.token := rfl
  have e8 : (with_skip p a b).text_length = p.text_length := rfl
  have e9 : (with_skip p a b).text = p.text := rfl
  simp only [e2, e4, e5, e6, e7, e8, e9, scan_loop_with_skip]
  by_cases h1 : p.level ≥ JSON_MAX_STACK
  · simp only [if_pos h1]
  · simp only [if_neg h1]
    by_cases h2 : get_state p ≤ JSON_END
    · simp only [if_pos h2]
    · simp only [if_neg h2]
      by_cases h3 : (p.token_start + p.token_length + if p.token = JSON_STRING then 1 else 0)
          = p.text_length
      · simp only [if_pos h3]
      · simp only [if_neg h3]
        generalize scan_loop p (get_state p) _ _ = r
        cases r with
        | too_deep p1 => rfl
        | stopped p1 s1 t1 =>
          simp only [scan_result.with_skip]
          by_cases h4 : is_final s1 = true
          · simp only [if_pos h4]
            exact complete_token_with_skip p1 a b s1 t1
          · simp only [if_neg h4]
            exact suspend_token_with_skip p1 a b s1

/-! ### Skipping a scalar, not skipping a closer -/

theorem clear_skip_eq (p : jspp_t) : clear_skip p = with_skip p 0 p.skip_level := rfl

/-- The hints of the skip engine after `jspp_next` are those before it. -/
theorem jspp_next_skip_fields (p : jspp_t) :
    (jspp_next p).2.skip_token = p.skip_token ∧ (jspp_next p).2.skip_level = p.skip_level := by
  have h := jspp_next_with_skip p p.skip_token p.skip_level
  have e : with_skip p p.skip_token p.skip_level = p := rfl
  rw [e] at h
  have h2 := congrArg Prod.snd h
  simp only [] at h2
  constructor
  · rw [h2]; rfl
  · rw [h2]; rfl

theorem jspp_next_clear_skip (p : jspp_t) :
    jspp_next (clear_skip p) = ((jspp_next p).1, clear_skip (jspp_next p).2) := by
  rw [clear_skip_eq, jspp_next_with_skip, clear_skip_eq, (jspp_next_skip_fields p).2]

/-- The last branch of `jspp_skip_next`: after a value token the next call of
`jspp_next` is returned. -/
theorem skip_next_value (p : jspp_t) (fuel : Nat) (h : is_value_token (jspp_next p).1 = true) :
    jspp_skip_next (fuel + 1) p
      = some ((jspp_next (jspp_next p).2).1, clear_skip (jspp_next (jspp_next p).2).2) := by
  simp only [is_value_token, Bool.and_eq_true, decide_eq_true_eq] at h
  have h1 : ¬ (jspp_next p).1 ≤ JSON_END := by simp at h ⊢; omega
  have h2 : ¬ (jspp_next p).1 ≤ JSON_MEMBER_NAME_PART := by simp at h ⊢; omega
  have h3 : ¬ (jspp_next p).1 = JSON_MEMBER_NAME := by simp at h ⊢; omega
  have h4 : ¬ (jspp_next p).1 = JSON_ARRAY_BEGIN := by simp at h ⊢; omega
  have h5 : ¬ (jspp_next p).1 = JSON_OBJECT_BEGIN := by simp at h ⊢; omega
  have h6 : ¬ ((jspp_next p).1 = JSON_ARRAY_END ∨ (jspp_next p).1 = JSON_OBJECT_END) := by
    simp at h ⊢; omega
  simp only [jspp_skip_next, if_neg h1, if_neg h2, if_neg h3, if_neg h4, if_neg h5, if_neg h6]
  exact congrArg some (jspp_next_clear_skip (jspp_next p).2)

/-- C12: in a state in which `jspp_next` returns a complete value token
(`JSON_NULL`, `JSON_TRUE`, `JSON_FALSE`, `JSON_INTEGER`, `JSON_DECIMAL`,
`JSON_FLOATING_POINT` or `JSON_STRING`), `jspp_skip_next` returns what a second
`jspp_next` returns and leaves the parser as the two calls of `jspp_next` do,
with `skip_token` 0. -/
theorem skip_scalar (p : jspp_t) (fuel : Nat) (h : is_value_token (jspp_next p).1 = true) :
    jspp_skip_next (fuel + 1) p
      = some ((jspp_next (jspp_next p).2).1, clear_skip (jspp_next (jspp_next p).2).2) :=
  skip_next_value p fuel h

theorem skip_scalar_witness :
    jspp_skip_next 1 (jspp_start jspp_zero [91, 49, 44, 50, 93]).2
      = some ((jspp_next (jspp_next (jspp_start jspp_zero [91, 49, 44, 50, 93]).2).2).1,
          clear_skip (jspp_next (jspp_next (jspp_start jspp_zero [91, 49, 44, 50, 93]).2).2).2) :=
  skip_scalar (jspp_start jspp_zero [91, 49, 44, 50, 93]).2 0 (by decide)

/-- C17: in a state in which `jspp_next` returns `JSON_OBJECT_END` or
`JSON_ARRAY_END`, `jspp_skip_next` returns that token and leaves the parser as
`jspp_next` does, with `skip_token` 0. -/
theorem closer_not_skipped (p : jspp_t) (fuel : Nat)
    (h : (jspp_next p).1 = JSON_OBJECT_END ∨ (jspp_next p).1 = JSON_ARRAY_END) :
    jspp_skip_next (fuel + 1) p = some ((jspp_next p).1, clear_skip (jspp_next p).2) := by
  have h1 : ¬ (jspp_next p).1 ≤ JSON_END := by rcases h with h | h <;> rw [h] <;> decide
  have h2 : ¬ (jspp_next p).1 ≤ JSON_MEMBER_NAME_PART := by
    rcases h with h | h <;> rw [h] <;> decide
  have h3 : ¬ (jspp_next p).1 = JSON_MEMBER_NAME := by rcases h with h | h <;> rw [h] <;> decide
  have h4 : ¬ (jspp_next p).1 = JSON_ARRAY_BEGIN := by rcases h with h | h <;> rw [h] <;> decide
  have h5 : ¬ (jspp_next p).1 = JSON_OBJECT_BEGIN := by
    rcases h with h | h <;> rw [h] <;> decide
  have h6 : (jspp_next p).1 = JSON_ARRAY_END ∨ (jspp_next p).1 = JSON_OBJECT_END := h.symm
  simp only [jspp_skip_next, if_neg h1, if_neg h2, if_neg h3, if_neg h4, if_neg h5, if_pos h6]
  rfl

theorem closer_not_skipped_witness :
    jspp_skip_next 1 (jspp_start jspp_zero [91, 32, 93]).2
      = some ((jspp_next (jspp_start jspp_zero [91, 32, 93]).2).1,
          clear_skip (jspp_next (jspp_start jspp_zero [91, 32, 93]).2).2) :=
  closer_not_skipped (jspp_start jspp_zero [91, 32, 93]).2 0 (Or.inr (by decide))

/-! ### Every result of a public function comes from a call of `jspp_next` -/

theorem from_next_self (q : jspp_t) (h : core_inv q) : from_next (jspp_next q) :=
  ⟨q, (jspp_next q).2.skip_token, (jspp_next q).2.skip_level, h, rfl, Or.inl rfl⟩

theorem skip_composite_from_next (fuel : Nat) : ∀ (p : jspp_t) (r : Nat × jspp_t), core_inv p →
    skip_composite fuel p = some r → from_next r := by
  induction fuel with
  | zero => intro p r _ e; simp [skip_composite] at e
  | succ n ih =>
    intro p r hc e
    have hc1 := core_inv_next p hc
    simp only [skip_composite] at e
    split at e
    · split at e
      · rename_i h3
        have e' : r = (JSON_CONTINUE, (jspp_next p).2) := by
          simp only [Option.some.injEq] at e; exact e.symm
        rw [e']
        exact ⟨p, (jspp_next p).2.skip_token, (jspp_next p).2.skip_level, hc, rfl,
          Or.inl h3.symm⟩
      · exact ih _ r hc1 e
    · have e' : r = jspp_next { (jspp_next p).2 with skip_token := 0 } := by
        simp only [Option.some.injEq] at e; exact e.symm
      rw [e']
      exact from_next_self _ (core_inv_skip _ _ _ hc1)

theorem jspp_skip_next_from_next (fuel : Nat) : ∀ (p : jspp_t) (r : Nat × jspp_t), core_inv p →
    jspp_skip_next fuel p = some r → from_next r := by
  induction fuel with
  | zero => intro p r _ e; simp [jspp_skip_next] at e
  | succ n ih =>
    intro p r hc e
    have hc1 := core_inv_next p hc
    simp only [jspp_skip_next] at e
    split at e
    · have e' : r = ((jspp_next p).1, { (jspp_next p).2 with skip_token := 0 }) := by
        simp only [Option.some.injEq] at e; exact e.symm
      rw [e']
      exact ⟨p, 0, (jspp_next p).2.skip_level, hc, rfl, Or.inl rfl⟩
    · rename_i h1
      split at e
      · rename_i h2
        have e' : r = (JSON_CONTINUE, { (jspp_next p).2 with
            skip_level := (jspp_next p).2.level, skip_token := JSON_CONTINUE }) := by
          simp only [Option.some.injEq] at e; exact e.symm
        rw [e']
        refine ⟨p, JSON_CONTINUE, (jspp_next p).2.level, hc, rfl, Or.inr ⟨rfl, ?_, h2⟩⟩
        simp at h1 ⊢
        omega
      · split at e
        · exact ih _ r hc1 e
        · split at e
          · exact skip_composite_from_next n _ r (core_inv_skip _ _ _ hc1) e
          · split at e
            · exact skip_composite_from_next n _ r (core_inv_skip _ _ _ hc1) e
            · split at e
              · have e' : r = ((jspp_next p).1, { (jspp_next p).2 with skip_token := 0 }) := by
                  simp only [Option.some.injEq] at e; exact e.symm
                rw [e']
                exact ⟨p, 0, (jspp_next p).2.skip_level, hc, rfl, Or.inl rfl⟩
              · have e' : r = jspp_next { (jspp_next p).2 with skip_token := 0 } := by
                  simp only [Option.some.injEq] at e; exact e.symm
                rw [e']
                exact from_next_self _ (core_inv_skip _ _ _ hc1)

theorem jspp_continue_from_next (fuel : Nat) (p : jspp_t) (text : List Nat) (r : Nat × jspp_t)
    (h : core_inv p) (ht : text.length ≤ 65535) (e : jspp_continue fuel p text = some r) :
    from_next r := by
  have hc := core_inv_set_fragment p text h ht
  simp only [jspp_continue] at e
  split at e
  · exact jspp_skip_next_from_next fuel _ r hc e
  · split at e
    · exact skip_composite_from_next fuel _ r hc e
    · have e' : r = jspp_next (set_fragment p text) := by
        simp only [Option.some.injEq] at e; exact e.symm
      rw [e']
      exact from_next_self _ hc

theorem reachable_from_next (token : Nat) (p : jspp_t) (h : Reachable token p) :
    from_next (token, p) := by
  cases h with
  | by_start parser text h => exact from_next_self _ (core_inv_start_state parser text h)
  | by_next token parser h => exact from_next_self _ (reachable_inv _ _ h).1
  | by_continue token parser fuel text r h ht e =>
    exact jspp_continue_from_next fuel parser text r (reachable_inv _ _ h).1 ht e
  | by_skip_next token parser fuel r h e =>
    exact jspp_skip_next_from_next fuel parser r (reachable_inv _ _ h).1 e

/-- A call of `jspp_next` that returns a complete token leaves the parser
below the depth limit. -/
theorem jspp_next_complete_level (q : jspp_t) (hc : core_inv q)
    (h : JSON_NULL ≤ (jspp_next q).1) : (jspp_next q).2.level < JSON_MAX_STACK := by
  have hb := hc.1
  cases jspp_next_case q hb with
  | dead h1 e => rw [e] at h; simp at h
  | terminal h1 hs e => rw [e] at h; simp at h hs; omega
  | at_end h1 hs hp e => rw [e] at h; simp at h
  | too_deep p1 h1 hs hp hl hpost e => rw [e] at h; simp at h
  | complete p1 s1 t1 h1 hs hp hl hpost hf e =>
    obtain ⟨a1, a2, a3, a4, a5⟩ := hpost
    have hgs := get_state_eq q h1
    have h0 : q.stack 0 = EXPECTING_JSON := by
      rcases hc.2 with h' | h' | ⟨h2, h3⟩
      · omega
      · exact h'
      · exfalso
        rw [hgs, h2, h3] at hs
        exact absurd hs (by decide)
    have hroot := scan_loop_root (q.text.drop (scan_pos q)) q (get_state q) (scan_pos q) h1 h0
      (by intro hz; rw [hgs, hz]; exact h0)
    rw [hl] at hroot
    rw [e, complete_token_level]
    split
    · exact a4
    · have hne : p1.level ≠ 0 := by
        intro hz
        rcases hroot.2 hz with h5 | h5
        · rw [h5] at hf
          exact absurd hf (by decide)
        · rw [e] at h
          rcases complete_token_fst p1 s1 t1 with h6 | ⟨_, h6⟩
          · rw [h6, h5] at h
            exact absurd h (by decide)
          · rw [h5] at h6
            exact absurd h6 (by decide)
      simp at a4 ⊢
      omega
  | suspended p1 s1 t1 h1 hs hp hl hpost hf e =>
    have := suspend_token_fst p1 s1
    rw [e] at h
    simp at h this
    omega

/-- A call of `jspp_next` that returns a `*_PART` token has stored a scanner
state, not `JSON_STRING`, in `token`. -/
theorem jspp_next_part_token (q : jspp_t) (hb : well_bounded q)
    (h1 : JSON_MEMBER_NAME_PART ≤ (jspp_next q).1) (h2 : (jspp_next q).1 ≤ JSON_STRING_PART) :
    (jspp_next q).2.token ≠ JSON_STRING := by
  cases jspp_next_case q hb with
  | dead h e => rw [e] at h1; simp at h1
  | terminal h hs e => rw [e] at h1; simp at h1 hs; omega
  | at_end h hs hp e => rw [e] at h1; simp at h1
  | too_deep p1 h hs hp hl hpost e => rw [e] at h1; simp at h1
  | complete p1 s1 t1 h hs hp hl hpost hf e =>
    exfalso
    have h3 := jspp_next_pending q hb (by simp at h1 ⊢; omega) h2
    rw [e] at h1 h2
    rcases complete_token_fst p1 s1 t1 with h5 | ⟨h5, _⟩
    · have hk := hpost.2.2.2.2.2.2.2.2.2.2 hf
      unfold scan_token at hk
      rw [h5] at h1 h2
      simp at hk h1 h2
      omega
    · rw [h5] at h2
      simp at h2
  | suspended p1 s1 t1 h hs hp hl hpost hf e =>
    rw [e, suspend_token_token]
    simp [is_final] at hf
    simp
    omega

/-! ### The token fields between calls -/

/-- C20: after a call of `jspp_start`, `jspp_continue`, `jspp_next` or
`jspp_skip_next` that returns a complete token (`JSON_NULL` to
`JSON_ARRAY_END`), `token_start + token_length` is at most `text_length`, and
the slice of `jspp_text` has `token_length` bytes of the fragment. -/
theorem complete_token_inside_fragment (token : Nat) (p : jspp_t) (h : Reachable token p)
    (ht : JSON_NULL ≤ token) :
    p.token_start + p.token_length ≤ p.text.length
      ∧ (jspp_text p).length = p.token_length := by
  obtain ⟨q, a, b, hc, e, h1 | ⟨h1, _⟩⟩ := reachable_from_next token p h
  · simp only [] at e h1
    rw [h1] at ht
    have hl := jspp_next_complete_level q hc ht
    have hb := (core_inv_next q hc).1.2 hl
    have h2 : p.token_start + p.token_length ≤ p.text.length := by
      rw [e]
      show (jspp_next q).2.token_start + (jspp_next q).2.token_length
        ≤ (jspp_next q).2.text.length
      unfold scan_pos at hb
      omega
    refine ⟨h2, ?_⟩
    unfold jspp_text
    rw [List.length_take, List.length_drop]
    omega
  · simp only [] at h1
    rw [h1] at ht
    exact absurd ht (by decide)

theorem complete_token_inside_fragment_witness :
    (jspp_start jspp_zero [91, 93]).2.token_start + (jspp_start jspp_zero [91, 93]).2.token_length
        ≤ (jspp_start jspp_zero [91, 93]).2.text.length
      ∧ (jspp_text (jspp_start jspp_zero [91, 93]).2).length
        = (jspp_start jspp_zero [91, 93]).2.token_length :=
  complete_token_inside_fragment _ _ (Reachable.by_start jspp_zero [91, 93] (by decide))
    (by decide)

/-- C19 (as amended): after a call that returns `JSON_CONTINUE`,
`JSON_MEMBER_NAME_PART`, `JSON_NUMBER_PART` or `JSON_STRING_PART` the cursor is
at the end of the fragment: `token_start + token_length` is `text_length`,
but for `JSON_CONTINUE` returned right behind a complete string or member name
(`token` is `JSON_STRING`), where the closing quote counts one more. -/
theorem pending_at_fragment_end (token : Nat) (p : jspp_t) (h : Reachable token p)
    (h1 : JSON_CONTINUE ≤ token) (h2 : token ≤ JSON_STRING_PART) :
    p.token_start + p.token_length + (if p.token = JSON_STRING then 1 else 0) = p.text.length
      ∧ (JSON_MEMBER_NAME_PART ≤ token → p.token_start + p.token_length = p.text.length) := by
  obtain ⟨q, a, b, hc, e, h3⟩ := reachable_from_next token p h
  simp only [] at e h3
  have h4 : JSON_CONTINUE ≤ (jspp_next q).1 ∧ (jspp_next q).1 ≤ JSON_STRING_PART := by
    rcases h3 with h3 | ⟨_, h3, h5⟩
    · rw [← h3]; exact ⟨h1, h2⟩
    · exact ⟨h3, by simp at h5 ⊢; omega⟩
  have h5 := (jspp_next_pending q hc.1 h4.1 h4.2).2.2
  have h6 : p.token_start + p.token_length + (if p.token = JSON_STRING then 1 else 0)
      = p.text.length := by
    rw [e]
    exact h5
  refine ⟨h6, fun h7 => ?_⟩
  rcases h3 with h3 | ⟨h3, _⟩
  · have h8 := jspp_next_part_token q hc.1 (by rw [← h3]; exact h7) h4.2
    have h9 : p.token = (jspp_next q).2.token := by rw [e]; rfl
    rw [h9, if_neg h8] at h6
    omega
  · rw [h3] at h7
    exact absurd h7 (by decide)

theorem pending_at_fragment_end_witness :
    (jspp_next (jspp_start jspp_zero [91, 49, 50]).2).2.token_start
        + (jspp_next (jspp_start jspp_zero [91, 49, 50]).2).2.token_length
        + (if (jspp_next (jspp_start jspp_zero [91, 49, 50]).2).2.token = JSON_STRING
            then 1 else 0)
        = (jspp_next (jspp_start jspp_zero [91, 49, 50]).2).2.text.length
      ∧ (JSON_MEMBER_NAME_PART ≤ (jspp_next (jspp_start jspp_zero [91, 49, 50]).2).1 →
          (jspp_next (jspp_start jspp_zero [91, 49, 50]).2).2.token_start
            + (jspp_next (jspp_start jspp_zero [91, 49, 50]).2).2.token_length
            = (jspp_next (jspp_start jspp_zero [91, 49, 50]).2).2.text.length) :=
  pending_at_fragment_end _ _
    (Reachable.by_next _ _ (Reachable.by_start jspp_zero [91, 49, 50] (by decide)))
    (by decide) (by decide)

/-- C19 (counterexample): the fragment `["a"` ends with the closing quote of a
string. After `JSON_ARRAY_BEGIN` and `JSON_STRING` the third call returns
`JSON_CONTINUE` with `token_start + token_length` 3, one less than
`text_length` 4. -/
theorem continue_behind_closing_quote :
    (calls 2 (jspp_start jspp_zero [91, 34, 97, 34])).1 = JSON_CONTINUE
      ∧ (calls 2 (jspp_start jspp_zero [91, 34, 97, 34])).2.token_start
          + (calls 2 (jspp_start jspp_zero [91, 34, 97, 34])).2.token_length = 3
      ∧ (calls 2 (jspp_start jspp_zero [91, 34, 97, 34])).2.text_length = 4 := by
  decide

/-! ### The token for a fragment that ends inside the document -/

theorem entry_state_inv (q : jspp_t) (h : entry_state q) : core_inv q := by
  cases h with
  | of_next token parser h => exact (reachable_inv _ _ h).1
  | of_start parser text h => exact core_inv_start_state parser text h
  | of_continue token parser text h ht _ _ =>
    exact core_inv_set_fragment parser text (reachable_inv _ _ h).1 ht

theorem suspend_token_part_kind (p : jspp_t) (s : Nat) :
    (suspend_token p s).1
      = part_kind s (stack_read (suspend_token p s).2 ((suspend_token p s).2.level - 1)) := by
  have h2 : (suspend_token p s).2.level = p.level := suspend_token_level p s
  have h3 : ∀ i, stack_read (suspend_token p s).2 i = stack_read (set_state p s) i := by
    intro i
    rw [suspend_token_snd]
    rfl
  rw [h2, h3]
  unfold suspend_token part_kind
  dsimp only
  by_cases hn : NUMBER_BEGIN ≤ s ∧ s < __NUMBER_END
  · have hs : ¬ (STRING_BEGIN ≤ s ∧ s < __STRING_END) := by simp at hn ⊢; omega
    rw [if_neg hs, if_pos hn, if_pos hn]
  · rw [if_neg hn, if_neg hn]
    by_cases hs : STRING_BEGIN ≤ s ∧ s < __STRING_END
    · rw [if_pos hs, if_pos hs]
      have e1 : (set_token_end (set_state p s) s p.text_length).level = p.level := by simp
      have e2 : ∀ i, stack_read (set_token_end (set_state p s) s p.text_length) i
          = stack_read (set_state p s) i := fun _ => rfl
      rw [e1, e2]
      by_cases hz : p.level = 0
      · rw [if_pos hz, hz]
        have e3 : stack_read (set_state p s) (0 - 1) = s := by
          simp only [set_state, hz]
          rw [stack_read_write p 0 s (0 - 1) (by decide)]
          rfl
        rw [e3]
        have e4 : ¬ (s = EXPECTING_OBJECT_MEMBER_NAME ∨ s = EXPECTING_OBJECT_MEMBER_NAME_OR_END) := by
          simp at hs ⊢; omega
        have e5 : ¬ is_string_a_member_name 0 = true := by decide
        rw [if_neg e4, if_neg e5]
      · rw [if_neg hz]
        simp only [is_string_a_member_name, Bool.or_eq_true, decide_eq_true_eq]
        split_ifs <;> rfl
    · rw [if_neg hs, if_neg hs]

/-- C18 (as amended): on every state the body of `jspp_next` runs on in a call
of `jspp_next`, `jspp_start` or `jspp_continue` (no skip to resume), the parser
not stopped (the level inside the stack, the state on top no terminal token):
a call that scans at least one byte and whose loop comes to the end of the
fragment in a state `s1` that completes no token stores `s1` on top of the
stack and returns `JSON_NUMBER_PART` inside a number, `JSON_MEMBER_NAME_PART`
inside a string that stands where a member name is expected,
`JSON_STRING_PART` inside any other string and `JSON_CONTINUE` otherwise
(`part_kind`); and every such token of a call that scans a byte comes from a
loop that has come to the end of the fragment in this way. When the fragment is
used up on entry, the call returns `JSON_CONTINUE` whatever the state on top is
and leaves the parser as it is (for `jspp_continue` and `jspp_start` that is the
parser with the fragment installed and `token_start`, `token_length` and
`token` reset). -/
theorem exhausted_fragment_classified (q : jspp_t) (hq : entry_state q) :
    (scan_pos q ≠ q.text.length → q.level < JSON_MAX_STACK → JSON_END < get_state q →
      ∀ p1 s1 t1,
        scan_loop q (get_state q) (scan_pos q) (q.text.drop (scan_pos q)) = .stopped p1 s1 t1 →
        is_final s1 = false →
        t1 = q.text.length ∧ get_state (jspp_next q).2 = s1
          ∧ (jspp_next q).1
            = part_kind s1 (stack_read (jspp_next q).2 ((jspp_next q).2.level - 1)))
      ∧ (scan_pos q ≠ q.text.length → JSON_CONTINUE ≤ (jspp_next q).1 →
        (jspp_next q).1 ≤ JSON_STRING_PART →
        ∃ p1 s1 t1,
          scan_loop q (get_state q) (scan_pos q) (q.text.drop (scan_pos q)) = .stopped p1 s1 t1
            ∧ is_final s1 = false ∧ t1 = q.text.length
            ∧ get_state (jspp_next q).2 = s1
            ∧ (jspp_next q).1
              = part_kind s1 (stack_read (jspp_next q).2 ((jspp_next q).2.level - 1)))
      ∧ (scan_pos q = q.text.length → q.level < JSON_MAX_STACK → JSON_END < get_state q →
        jspp_next q = (JSON_CONTINUE, q)) := by
  have hc := entry_state_inv q hq
  refine ⟨?_, ?_, ?_⟩
  · intro hpos hlev hst p1 s1 t1 hloop hfin
    cases jspp_next_case q hc.1 with
    | dead h e => exact absurd hlev (Nat.not_lt.mpr h)
    | terminal h hs e => exact absurd hst (Nat.not_lt.mpr hs)
    | at_end h hs hp e => exact absurd hp hpos
    | too_deep p2 h hs hp hl hpost e =>
      rw [hl] at hloop
      exact absurd hloop (by simp)
    | complete p2 s2 t2 h hs hp hl hpost hf e =>
      rw [hl] at hloop
      simp only [scan_result.stopped.injEq] at hloop
      obtain ⟨_, rfl, _⟩ := hloop
      rw [hf] at hfin
      exact absurd hfin (by decide)
    | suspended p2 s2 t2 h hs hp hl hpost hf e =>
      rw [hl] at hloop
      simp only [scan_result.stopped.injEq] at hloop
      obtain ⟨rfl, rfl, rfl⟩ := hloop
      obtain ⟨a1, a2, a3, a4, a5, a6, a7, a8, a9, a10, a11⟩ := hpost
      refine ⟨a10 hf, ?_, ?_⟩
      · rw [e]
        exact suspend_token_get_state p2 s2 a4
      · rw [e]
        exact suspend_token_part_kind p2 s2
  · intro hpos h1 h2
    cases jspp_next_case q hc.1 with
    | dead h e => rw [e] at h1; simp at h1
    | terminal h hs e => rw [e] at h1; simp at h1 hs; omega
    | at_end h hs hp e => exact absurd hp hpos
    | too_deep p1 h hs hp hl hpost e => rw [e] at h1; simp at h1
    | complete p1 s1 t1 h hs hp hl hpost hf e =>
      exfalso
      rw [e] at h1 h2
      have hk := hpost.2.2.2.2.2.2.2.2.2.2 hf
      unfold scan_token at hk
      rcases complete_token_fst p1 s1 t1 with h5 | ⟨h5, _⟩
      · rw [h5] at h1 h2
        simp at hk h1 h2
        omega
      · rw [h5] at h2
        simp at h2
    | suspended p1 s1 t1 h hs hp hl hpost hf e =>
      obtain ⟨a1, a2, a3, a4, a5, a6, a7, a8, a9, a10, a11⟩ := hpost
      refine ⟨p1, s1, t1, hl, hf, a10 hf, ?_, ?_⟩
      · rw [e]
        exact suspend_token_get_state p1 s1 a4
      · rw [e]
        exact suspend_token_part_kind p1 s1
  · intro hpos hl hs
    cases jspp_next_case q hc.1 with
    | dead h e => exact absurd hl (Nat.not_lt.mpr h)
    | terminal h hs1 e => exact absurd hs (Nat.not_lt.mpr hs1)
    | at_end h hs1 hp e => exact e
    | too_deep p1 h hs1 hp hl1 hpost e => exact absurd hpos (Nat.ne_of_lt hp)
    | complete p1 s1 t1 h hs1 hp hl1 hpost hf e => exact absurd hpos (Nat.ne_of_lt hp)
    | suspended p1 s1 t1 h hs1 hp hl1 hpost hf e => exact absurd hpos (Nat.ne_of_lt hp)

theorem exhausted_fragment_classified_witness :
    (3 = (jspp_start jspp_zero [123, 34, 97]).2.text.length
        ∧ get_state (jspp_next (jspp_start jspp_zero [123, 34, 97]).2).2 = STRING_CHARS
        ∧ (jspp_next (jspp_start jspp_zero [123, 34, 97]).2).1
          = part_kind STRING_CHARS
              (stack_read (jspp_next (jspp_start jspp_zero [123, 34, 97]).2).2
                ((jspp_next (jspp_start jspp_zero [123, 34, 97]).2).2.level - 1)))
      ∧ (∃ p1 s1 t1,
        scan_loop (jspp_start jspp_zero [123, 34, 97]).2
            (get_state (jspp_start jspp_zero [123, 34, 97]).2)
            (scan_pos (jspp_start jspp_zero [123, 34, 97]).2)
            ((jspp_start jspp_zero [123, 34, 97]).2.text.drop
              (scan_pos (jspp_start jspp_zero [123, 34, 97]).2)) = .stopped p1 s1 t1
          ∧ is_final s1 = false ∧ t1 = (jspp_start jspp_zero [123, 34, 97]).2.text.length
          ∧ get_state (jspp_next (jspp_start jspp_zero [123, 34, 97]).2).2 = s1
          ∧ (jspp_next (jspp_start jspp_zero [123, 34, 97]).2).1
            = part_kind s1 (stack_read (jspp_next (jspp_start jspp_zero [123, 34, 97]).2).2
                ((jspp_next (jspp_start jspp_zero [123, 34, 97]).2).2.level - 1)))
      ∧ jspp_next (jspp_next (jspp_start jspp_zero [123, 34, 97]).2).2
          = (JSON_CONTINUE, (jspp_next (jspp_start jspp_zero [123, 34, 97]).2).2) :=
  ⟨(exhausted_fragment_classified (jspp_start jspp_zero [123, 34, 97]).2
      (entry_state.of_next _ _ (Reachable.by_start jspp_zero [123, 34, 97] (by decide)))).1
      (by decide) (by decide) (by decide)
      (inc_level (set_token_start (jspp_start jspp_zero [123, 34, 97]).2 STRING_BEGIN 1))
      STRING_CHARS 3 (by rfl) (by decide),
    (exhausted_fragment_classified (jspp_start jspp_zero [123, 34, 97]).2
      (entry_state.of_next _ _ (Reachable.by_start jspp_zero [123, 34, 97] (by decide)))).2.1
      (by decide) (by decide) (by decide),
    (exhausted_fragment_classified (jspp_next (jspp_start jspp_zero [123, 34, 97]).2).2
      (entry_state.of_next _ _ (Reachable.by_next _ _
        (Reachable.by_start jspp_zero [123, 34, 97] (by decide))))).2.2
      (by decide) (by decide) (by decide)⟩

/-- C18 (counterexample): the fragment `12` leaves the scanner inside a number
and `jspp_start` returns `JSON_NUMBER_PART`; a second `jspp_next`, and
`jspp_continue` with an empty fragment, come to the end of the fragment with
the scanner still inside the number, and return `JSON_CONTINUE`. -/
theorem continue_inside_number :
    (jspp_start jspp_zero [49, 50]).1 = JSON_NUMBER_PART
      ∧ (jspp_next (jspp_start jspp_zero [49, 50]).2).1 = JSON_CONTINUE
      ∧ get_state (jspp_next (jspp_start jspp_zero [49, 50]).2).2 = INT_DIGITS
      ∧ (jspp_continue 0 (jspp_start jspp_zero [49, 50]).2 []).map Prod.fst = some JSON_CONTINUE
      ∧ (jspp_continue 0 (jspp_start jspp_zero [49, 50]).2 []).map (fun r => get_state r.2)
          = some INT_DIGITS := by
  decide

/-! ### The branches of `jspp_skip_next` and `skip_composite` -/

theorem skip_next_array (p : jspp_t) (fuel : Nat) (h : (jspp_next p).1 = JSON_ARRAY_BEGIN) :
    jspp_skip_next (fuel + 1) p
      = skip_composite fuel
          (with_skip (jspp_next p).2 JSON_ARRAY_END (((jspp_next p).2.level + 255) % 256)) := by
  simp only [jspp_skip_next, h]
  rfl

theorem skip_next_object (p : jspp_t) (fuel : Nat) (h : (jspp_next p).1 = JSON_OBJECT_BEGIN) :
    jspp_skip_next (fuel + 1) p
      = skip_composite fuel
          (with_skip (jspp_next p).2 JSON_OBJECT_END (((jspp_next p).2.level + 255) % 256)) := by
  simp only [jspp_skip_next, h]
  rfl

theorem skip_next_member (p : jspp_t) (fuel : Nat) (h : (jspp_next p).1 = JSON_MEMBER_NAME) :
    jspp_skip_next (fuel + 1) p = jspp_skip_next fuel (jspp_next p).2 := by
  simp only [jspp_skip_next, h]
  rfl

theorem skip_composite_step (p : jspp_t) (fuel : Nat)
    (h : (jspp_next p).1 ≠ (jspp_next p).2.skip_token
      ∨ (jspp_next p).2.level > (jspp_next p).2.skip_level)
    (hc : (jspp_next p).1 ≠ JSON_CONTINUE) :
    skip_composite (fuel + 1) p = skip_composite fuel (jspp_next p).2 := by
  simp only [skip_composite, if_pos h, if_neg hc]

theorem skip_composite_exit (p : jspp_t) (fuel : Nat)
    (h : ¬ ((jspp_next p).1 ≠ (jspp_next p).2.skip_token
      ∨ (jspp_next p).2.level > (jspp_next p).2.skip_level)) :
    skip_composite (fuel + 1) p = some (jspp_next (clear_skip (jspp_next p).2)) := by
  simp only [skip_composite, if_neg h]
  rfl

theorem jspp_next_terminal_state (q : jspp_t) (hl : q.level < JSON_MAX_STACK)
    (hs : get_state q ≤ JSON_END) : jspp_next q = (get_state q, q) := by
  unfold jspp_next
  rw [if_neg (by omega)]
  simp only [hs, if_true]

/-- Once `jspp_next` answers with a terminal token other than the closer
awaited, the loop of `skip_composite` does not end. -/
theorem skip_composite_stuck (fuel : Nat) (q : jspp_t) (hl : q.level < JSON_MAX_STACK)
    (hs : get_state q ≤ JSON_END)
    (hk : get_state q ≠ q.skip_token ∨ q.level > q.skip_level) :
    skip_composite fuel q = none := by
  have e := jspp_next_terminal_state q hl hs
  induction fuel with
  | zero => rfl
  | succ n ih =>
    rw [skip_composite_step q n (by rw [e]; exact hk) (by rw [e]; simp at hs ⊢; omega), e]
    exact ih

/-- C16 (failing input): after `jspp_start` on `[[x]]` has returned
`JSON_ARRAY_BEGIN`, `jspp_skip_next` skips the inner array, in which `x` is a
syntax error: `skip_composite` gets `JSON_INVALID`, `JSON_INVALID` and then
`JSON_END` from every call of `jspp_next`, none of them the closer it waits for
and none `JSON_CONTINUE`, so that its loop is not left, whatever the number of
iterations granted. -/
theorem skip_never_returns (fuel : Nat) :
    jspp_skip_next fuel (jspp_start jspp_zero [91, 91, 120, 93, 93]).2 = none := by
  cases fuel with
  | zero => rfl
  | succ n =>
    rw [skip_next_array _ n (by decide)]
    cases n with
    | zero => rfl
    | succ n =>
      rw [skip_composite_step _ n (by decide) (by decide)]
      cases n with
      | zero => rfl
      | succ n =>
        rw [skip_composite_step _ n (by decide) (by decide)]
        exact skip_composite_stuck n _ (by decide) (by decide) (by decide)

/-- C15 (failing input): the document `["ab",1]` cut inside the string into
`["a` and `b",1]`. After `JSON_ARRAY_BEGIN`, `jspp_skip_next` returns
`JSON_CONTINUE` in the first fragment but leaves `skip_token` 0, and
`jspp_continue` with the second fragment returns `JSON_STRING` with the text
`b`, the rest of the string that was to be skipped; on the document in one
fragment `jspp_skip_next` returns `JSON_INTEGER` with the text `1`. The same
with the number of `[12,3]` cut into `[1` and `2,3]`: `jspp_continue` returns
`JSON_INTEGER` with the text `2`, not `3`. -/
theorem split_string_skip_forgotten :
    (jspp_skip_next 2 (jspp_start jspp_zero [91, 34, 97]).2).map
        (fun r => (r.1, r.2.skip_token)) = some (JSON_CONTINUE, 0)
      ∧ ((jspp_skip_next 2 (jspp_start jspp_zero [91, 34, 97]).2).bind
          (fun r => jspp_continue 2 r.2 [98, 34, 44, 49, 93])).map
            (fun r => (r.1, jspp_text r.2)) = some (JSON_STRING, [98])
      ∧ (jspp_skip_next 2 (jspp_start jspp_zero [91, 34, 97, 98, 34, 44, 49, 93]).2).map
          (fun r => (r.1, jspp_text r.2)) = some (JSON_INTEGER, [49])
      ∧ (jspp_skip_next 2 (jspp_start jspp_zero [91, 49]).2).map
          (fun r => (r.1, r.2.skip_token)) = some (JSON_CONTINUE, 0)
      ∧ ((jspp_skip_next 2 (jspp_start jspp_zero [91, 49]).2).bind
          (fun r => jspp_continue 2 r.2 [50, 44, 51, 93])).map
            (fun r => (r.1, jspp_text r.2)) = some (JSON_INTEGER, [50])
      ∧ (jspp_skip_next 2 (jspp_start jspp_zero [91, 49, 50, 44, 51, 93]).2).map
          (fun r => (r.1, jspp_text r.2)) = some (JSON_INTEGER, [51]) := by
  decide

/-! ### Documents beyond the depth limit -/

theorem render_first (v : json_value) (hw : v.well_formed = true) :
    ∃ c rest, v.render = c :: rest ∧ ∀ st, value_state st →
      (is_token_start (next_scan_state st c)
        || is_nested_level_start (next_scan_state st c)) = true := by
  cases v with
  | lit_null =>
    exact ⟨110, [117, 108, 108], rfl, fun st h => by rcases h with rfl | rfl | rfl | rfl <;> decide⟩
  | lit_true =>
    exact ⟨116, [114, 117, 101], rfl, fun st h => by rcases h with rfl | rfl | rfl | rfl <;> decide⟩
  | lit_false =>
    exact ⟨102, [97, 108, 115, 101], rfl,
      fun st h => by rcases h with rfl | rfl | rfl | rfl <;> decide⟩
  | number n =>
    obtain ⟨c, ds, hc, _, hb⟩ := number_split n hw
    refine ⟨c, ds ++ n.suffix, by simp [json_value.render, hb], fun st h => ?_⟩
    rw [number_start st c h hc]
    decide
  | string body =>
    exact ⟨34, body_bytes body ++ [34], by simp [json_value.render],
      fun st h => by rcases h with rfl | rfl | rfl | rfl <;> decide⟩
  | empty_array ws =>
    exact ⟨91, ws ++ [93], by simp [json_value.render],
      fun st h => by rcases h with rfl | rfl | rfl | rfl <;> decide⟩
  | array ws es =>
    exact ⟨91, ws ++ (es.render ++ [93]), by simp [json_value.render],
      fun st h => by rcases h with rfl | rfl | rfl | rfl <;> decide⟩
  | empty_object ws =>
    exact ⟨123, ws ++ [125], by simp [json_value.render],
      fun st h => by rcases h with rfl | rfl | rfl | rfl <;> decide⟩
  | object ws ms =>
    exact ⟨123, ws ++ (ms.render ++ [125]), by simp [json_value.render],
      fun st h => by rcases h with rfl | rfl | rfl | rfl <;> decide⟩

/-- A value that begins at the last level of the stack gives `JSON_TOO_DEEP`
with its first byte. -/
theorem value_at_limit (v : json_value) (below : List Nat) (st : Nat) (input : List Nat)
    (hst : value_state st) (hw : v.well_formed = true) (hd : below.length = 13) :
    byte_run below st [] (v.render ++ input) = [(JSON_TOO_DEEP, [])] := by
  obtain ⟨c, rest, h1, h2⟩ := render_first v hw
  rw [h1, List.cons_append]
  exact byte_run_too_deep below st [] c _ (h2 st hst) (by rw [hd])

theorem fits_of_le (v : json_value) (depth : Nat) (hd : depth ≤ 12)
    (h : v.fits depth = false) :
    (∃ ws es, v = .array ws es ∧ es.fits (depth + 1) = false)
      ∨ (∃ ws ms, v = .object ws ms ∧ ms.fits (depth + 1) = false) := by
  cases v <;> simp [json_value.fits, hd] at h
  · exact Or.inl ⟨_, _, rfl, h⟩
  · exact Or.inr ⟨_, _, rfl, h⟩

theorem deep_run_limit : deep_run [(JSON_TOO_DEEP, [])] :=
  ⟨[], rfl, fun _ h => by cases h⟩

theorem deep_run_append (T run : List Event) (hT : ∀ e ∈ T, JSON_END < e.1)
    (h : deep_run run) : deep_run (T ++ run) := by
  obtain ⟨evs, h1, h2⟩ := h
  refine ⟨T ++ evs, by rw [h1, List.append_assoc], ?_⟩
  intro e he
  rcases List.mem_append.1 he with he | he
  · exact hT e he
  · exact h2 e he

theorem deep_run_cons (e : Event) (run : List Event) (he : JSON_END < e.1)
    (h : deep_run run) : deep_run (e :: run) :=
  deep_run_append [e] run (fun x hx => by rw [List.mem_singleton.1 hx]; exact he) h

mutual

/-- Read byte by byte, a well-formed value that does not fit gives
`JSON_TOO_DEEP` after the tokens before the place where the stack is full. -/
theorem value_deep : ∀ (v : json_value) (below : List Nat) (st : Nat) (input : List Nat),
    value_state st → v.well_formed = true → below.length ≤ 13 →
    v.fits below.length = false →
    deep_run (byte_run below st [] (v.render ++ input))
  | .lit_null, below, st, input, hst, hw, hd, hf => by
    have h13 : below.length = 13 := by simp [json_value.fits] at hf; omega
    rw [value_at_limit _ below st input hst hw h13]
    exact deep_run_limit
  | .lit_true, below, st, input, hst, hw, hd, hf => by
    have h13 : below.length = 13 := by simp [json_value.fits] at hf; omega
    rw [value_at_limit _ below st input hst hw h13]
    exact deep_run_limit
  | .lit_false, below, st, input, hst, hw, hd, hf => by
    have h13 : below.length = 13 := by simp [json_value.fits] at hf; omega
    rw [value_at_limit _ below st input hst hw h13]
    exact deep_run_limit
  | .number n, below, st, input, hst, hw, hd, hf => by
    have h13 : below.length = 13 := by simp [json_value.fits] at hf; omega
    rw [value_at_limit _ below st input hst hw h13]
    exact deep_run_limit
  | .string body, below, st, input, hst, hw, hd, hf => by
    have h13 : below.length = 13 := by simp [json_value.fits] at hf; omega
    rw [value_at_limit _ below st input hst hw h13]
    exact deep_run_limit
  | .empty_array ws, below, st, input, hst, hw, hd, hf => by
    have h13 : below.length = 13 := by simp [json_value.fits] at hf; omega
    rw [value_at_limit _ below st input hst hw h13]
    exact deep_run_limit
  | .empty_object ws, below, st, input, hst, hw, hd, hf => by
    have h13 : below.length = 13 := by simp [json_value.fits] at hf; omega
    rw [value_at_limit _ below st input hst hw h13]
    exact deep_run_limit
  | .array ws es, below, st, input, hst, hw, hd, hf => by
    by_cases h13 : below.length = 13
    · rw [value_at_limit _ below st input hst hw h13]
      exact deep_run_limit
    · have hd' : below.length ≤ 12 := by omega
      simp only [json_value.well_formed, Bool.and_eq_true] at hw
      have hf' : es.fits (below.length + 1) = false := by
        simp [json_value.fits, hd'] at hf
        exact hf
      simp only [json_value.render, List.cons_append, List.append_assoc]
      rw [byte_open_array below st _ hst hd', byte_space_run ws hw.1 _ _ (by simp)]
      exact deep_run_cons _ _ (by decide)
        (elements_deep es (st :: below) _ _ (Or.inl rfl) hw.2
          (by simp only [List.length_cons]; omega) hf')
  | .object ws ms, below, st, input, hst, hw, hd, hf => by
    by_cases h13 : below.length = 13
    · rw [value_at_limit _ below st input hst hw h13]
      exact deep_run_limit
    · have hd' : below.length ≤ 12 := by omega
      simp only [json_value.well_formed, Bool.and_eq_true] at hw
      have hf' : ms.fits (below.length + 1) = false := by
        simp [json_value.fits, hd'] at hf
        exact hf
      simp only [json_value.render, List.cons_append, List.append_assoc]
      rw [byte_open_object below st _ hst hd', byte_space_run ws hw.1 _ _ (by simp)]
      exact deep_run_cons _ _ (by decide)
        (members_deep ms (st :: below) _ _ (Or.inl rfl) hw.2
          (by simp only [List.length_cons]; omega) hf')

/-- The elements of an array, one of which does not fit. -/
theorem elements_deep : ∀ (es : json_elements) (below : List Nat) (st : Nat) (input : List Nat),
    (st = EXPECTING_ARRAY_ELEMENT_OR_END ∨ st = EXPECTING_ARRAY_ELEMENT) →
    es.well_formed = true → below.length ≤ 13 → es.fits below.length = false →
    deep_run (byte_run below st [] (es.render ++ input))
  | .last v ws, below, st, input, hst, hw, hd, hf => by
    simp only [json_elements.well_formed, Bool.and_eq_true] at hw
    simp only [json_elements.fits] at hf
    simp only [json_elements.render, List.append_assoc]
    exact value_deep v below st _ (by rcases hst with h | h <;> simp [value_state, h]) hw.1 hd hf
  | .more v ws1 ws2 rest, below, st, input, hst, hw, hd, hf => by
    simp only [json_elements.well_formed, Bool.and_eq_true] at hw
    have hvs : value_state st := by rcases hst with h | h <;> simp [value_state, h]
    simp only [json_elements.render, List.append_assoc, List.cons_append]
    by_cases hv : v.fits below.length = true
    · have hr : rest.fits below.length = false := by
        simp [json_elements.fits, hv] at hf
        exact hf
      rw [value_run v below st _ hvs hw.1.1.1 hv
        (fun _ => delimited_space ws1 hw.1.1.2 44 _ (by decide)),
        after_element below st _ hst, byte_space_run ws1 hw.1.1.2 _ _ (by simp),
        byte_comma_array, byte_space_run ws2 hw.1.2 _ _ (by simp)]
      exact deep_run_append _ _ (value_tokens_kinds v)
        (elements_deep rest below _ input (Or.inr rfl) hw.2 hd hr)
    · exact value_deep v below st _ hvs hw.1.1.1 hd (by simpa using hv)

/-- The members of an object, one of which does not fit. -/
theorem members_deep : ∀ (ms : json_members) (below : List Nat) (st : Nat) (input : List Nat),
    (st = EXPECTING_OBJECT_MEMBER_NAME_OR_END ∨ st = EXPECTING_OBJECT_MEMBER_NAME) →
    ms.well_formed = true → below.length ≤ 13 → ms.fits below.length = false →
    deep_run (byte_run below st [] (ms.render ++ input))
  | .last name ws1 ws2 v ws3, below, st, input, hst, hw, hd, hf => by
    simp only [json_members.well_formed, Bool.and_eq_true] at hw
    simp only [json_members.fits] at hf
    obtain ⟨⟨⟨⟨hname, hws1⟩, hws2⟩, hv⟩, hws3⟩ := hw
    simp only [json_members.render, List.append_assoc, List.cons_append]
    by_cases h13 : below.length = 13
    · rw [byte_run_too_deep below st [] 34 _
        (by rcases hst with h | h <;> rw [h] <;> decide) (by rw [h13])]
      exact deep_run_limit
    · rw [byte_string name below st _ (Or.inr hst) (by omega) hname,
        if_pos (by rcases hst with h | h <;> rw [h] <;> decide),
        after_member_name below st _ hst, byte_space_run ws1 hws1 _ _ (by simp), byte_colon,
        byte_space_run ws2 hws2 _ _ (by simp)]
      exact deep_run_cons _ _ (by show JSON_END < JSON_MEMBER_NAME; decide)
        (value_deep v below _ _ (Or.inr (Or.inr (Or.inr rfl))) hv hd hf)
  | .more name ws1 ws2 v ws3 ws4 rest, below, st, input, hst, hw, hd, hf => by
    simp only [json_members.well_formed, Bool.and_eq_true] at hw
    obtain ⟨⟨⟨⟨⟨⟨hname, hws1⟩, hws2⟩, hv⟩, hws3⟩, hws4⟩, hrest⟩ := hw
    simp only [json_members.render, List.append_assoc, List.cons_append]
    by_cases h13 : below.length = 13
    · rw [byte_run_too_deep below st [] 34 _
        (by rcases hst with h | h <;> rw [h] <;> decide) (by rw [h13])]
      exact deep_run_limit
    · rw [byte_string name below st _ (Or.inr hst) (by omega) hname,
        if_pos (by rcases hst with h | h <;> rw [h] <;> decide),
        after_member_name below st _ hst, byte_space_run ws1 hws1 _ _ (by simp), byte_colon,
        byte_space_run ws2 hws2 _ _ (by simp)]
      apply deep_run_cons _ _ (by show JSON_END < JSON_MEMBER_NAME; decide)
      by_cases hvf : v.fits below.length = true
      · have hr : rest.fits below.length = false := by
          simp [json_members.fits, hvf] at hf
          exact hf
        rw [value_run v below _ _ (Or.inr (Or.inr (Or.inr rfl))) hv hvf
          (fun _ => delimited_space ws3 hws3 44 _ (by decide)),
          after_member_value, byte_space_run ws3 hws3 _ _ (by simp), byte_comma_object,
          byte_space_run ws4 hws4 _ _ (by simp)]
        exact deep_run_append _ _ (value_tokens_kinds v)
          (members_deep rest below _ input (Or.inr rfl) hrest hd hr)
      · exact value_deep v below _ _ (Or.inr (Or.inr (Or.inr rfl))) hv hd (by simpa using hvf)

end

/-! ### The depth limit -/

mutual

theorem value_levels_pos : ∀ v : json_value, 1 ≤ v.levels
  | .lit_null => by simp [json_value.levels]
  | .lit_true => by simp [json_value.levels]
  | .lit_false => by simp [json_value.levels]
  | .number _ => by simp [json_value.levels]
  | .string _ => by simp [json_value.levels]
  | .empty_array _ => by simp [json_value.levels]
  | .empty_object _ => by simp [json_value.levels]
  | .array _ es => by simp [json_value.levels]
  | .object _ ms => by simp [json_value.levels]

end

mutual

theorem value_fits_iff : ∀ (v : json_value) (d : Nat), v.fits d = true ↔ d + v.levels ≤ 13
  | .lit_null, d => by simp [json_value.fits, json_value.levels]
  | .lit_true, d => by simp [json_value.fits, json_value.levels]
  | .lit_false, d => by simp [json_value.fits, json_value.levels]
  | .number _, d => by simp [json_value.fits, json_value.levels]
  | .string _, d => by simp [json_value.fits, json_value.levels]
  | .empty_array _, d => by simp [json_value.fits, json_value.levels]
  | .empty_object _, d => by simp [json_value.fits, json_value.levels]
  | .array _ es, d => by
    have h := elements_fits_iff es (d + 1)
    have hp := elements_levels_pos es
    simp only [json_value.fits, json_value.levels, Bool.and_eq_true, decide_eq_true_eq, h]
    omega
  | .object _ ms, d => by
    have h := members_fits_iff ms (d + 1)
    have hp := members_levels_pos ms
    simp only [json_value.fits, json_value.levels, Bool.and_eq_true, decide_eq_true_eq, h]
    omega

theorem elements_fits_iff : ∀ (es : json_elements) (d : Nat),
    es.fits d = true ↔ d + es.levels ≤ 13
  | .last v _, d => by
    simp only [json_elements.fits, json_elements.levels]
    exact value_fits_iff v d
  | .more v _ _ rest, d => by
    have h1 := value_fits_iff v d
    have h2 := elements_fits_iff rest d
    simp only [json_elements.fits, json_elements.levels, Bool.and_eq_true, h1, h2]
    omega

theorem members_fits_iff : ∀ (ms : json_members) (d : Nat),
    ms.fits d = true ↔ d + ms.levels ≤ 13
  | .last _ _ _ v _, d => by
    simp only [json_members.fits, json_members.levels]
    exact value_fits_iff v d
  | .more _ _ _ v _ _ rest, d => by
    have h1 := value_fits_iff v d
    have h2 := members_fits_iff rest d
    simp only [json_members.fits, json_members.levels, Bool.and_eq_true, h1, h2]
    omega

theorem elements_levels_pos : ∀ es : json_elements, 1 ≤ es.levels
  | .last v _ => by simp only [json_elements.levels]; exact value_levels_pos v
  | .more v _ _ rest => by
    have := value_levels_pos v
    simp only [json_elements.levels]
    omega

theorem members_levels_pos : ∀ ms : json_members, 1 ≤ ms.levels
  | .last _ _ _ v _ => by simp only [json_members.levels]; exact value_levels_pos v
  | .more _ _ _ v _ _ rest => by
    have := value_levels_pos v
    simp only [json_members.levels]
    omega

end

theorem terminal_mem_stitch (events : List Event) (x : Nat) (hx : x ≤ JSON_END) :
    x ∈ (stitch [] events).map Prod.fst ↔ x ∈ events.map Prod.fst := by
  rw [← complete_kinds_stitch events []]
  unfold complete_kinds
  rw [List.mem_filter]
  simp [hx]

/-- C11 (as amended): a well-formed document, a number at the root followed by
whitespace, cut into fragments in any way. With every scalar and member name
counted as a level of nesting like a container: if the document has
`JSON_MAX_STACK` (14) levels or more the parser returns `JSON_TOO_DEEP`, and
if it has fewer the parse comes to `JSON_END` without `JSON_TOO_DEEP`. -/
theorem depth_limit (parser : jspp_t) (ws1 : List Nat) (v : json_value) (ws2 : List Nat)
    (cut : List (List Nat)) (hws1 : all_space ws1 = true) (hws2 : all_space ws2 = true)
    (hw : v.well_formed = true) (hn : v.is_number = true → ws2 ≠ [])
    (hcut : cut.flatten = document ws1 v ws2) (hlen : ∀ f ∈ cut, f.length ≤ 65535) :
    (JSON_MAX_STACK ≤ v.levels → JSON_TOO_DEEP ∈ (parse parser cut).map Prod.fst)
      ∧ (v.levels < JSON_MAX_STACK → JSON_TOO_DEEP ∉ (parse parser cut).map Prod.fst
          ∧ JSON_END ∈ (parse parser cut).map Prod.fst) := by
  constructor
  · intro h
    have hf : v.fits ([] : List Nat).length = false := by
      have := value_fits_iff v 0
      simp only [List.length_nil]
      simp at h
      by_contra hc
      have hc' : v.fits 0 = true := by simpa using hc
      have := this.1 hc'
      omega
    have h1 := parse_eq_byte_run parser cut hlen
    rw [hcut] at h1
    unfold document at h1
    rw [byte_space_run ws1 hws1 [] _ (by simp)] at h1
    obtain ⟨evs, h2, _⟩ := value_deep v [] EXPECTING_JSON ws2 (Or.inl rfl) hw (by simp) hf
    rw [h2] at h1
    rw [← terminal_mem_stitch _ _ (by decide), h1]
    simp
  · intro h
    have hf : v.fits 0 = true := (value_fits_iff v 0).2 (by simp at h; omega)
    have h1 := document_reaches_end parser ws1 v ws2 cut hws1 hws2 hw hf hn hcut hlen
    exact ⟨h1.2.2.1, h1.1⟩

theorem depth_limit_witness :
    JSON_TOO_DEEP ∈ (parse jspp_zero [List.replicate 14 91, List.replicate 14 93]).map Prod.fst :=
  (depth_limit jspp_zero [] (nested_arrays 13) [] [List.replicate 14 91, List.replicate 14 93]
    (by decide) (by decide) (by decide) (by decide) (by decide) (by decide)).1 (by decide)

/-- C11 (counterexample): `null` inside thirteen arrays is a well-formed
document whose nesting, 13 containers, is shallower than `JSON_MAX_STACK`, and
the parser returns `JSON_TOO_DEEP` on it. -/
theorem thirteen_arrays_and_scalar_too_deep :
    (nested_around 13 .lit_null).well_formed = true
      ∧ (nested_around 13 .lit_null).nesting < JSON_MAX_STACK
      ∧ (parse jspp_zero [(nested_around 13 .lit_null).render]).map Prod.fst
        = List.replicate 13 JSON_ARRAY_BEGIN ++ [JSON_TOO_DEEP] := by
  refine ⟨by decide, by decide, by decide⟩

/-! ### The level after the loop of `jspp_next` -/

theorem step_kinds (state c : Nat) :
    (__PARSER_STATES ≤ next_scan_state state c → is_final (next_scan_state state c) = false →
        __PARSER_STATES ≤ state)
      ∧ (state < __PARSER_STATES → is_final (next_scan_state state c) = false →
          next_scan_state state c < __PARSER_STATES
            ∧ (is_token_start (next_scan_state state c)
                || is_nested_level_start (next_scan_state state c)) = false)
      ∧ (state < __PARSER_STATES → is_final (next_scan_state state c) = true →
          next_scan_state state c = JSON_INVALID
            ∨ is_value_token (next_scan_state state c) = true)
      ∧ (__PARSER_STATES ≤ state → is_final (next_scan_state state c) = true →
          (is_token_start (next_scan_state state c)
            || is_nested_level_start (next_scan_state state c)) = false →
          next_scan_state state c = JSON_INVALID ∨ next_scan_state state c = JSON_ARRAY_END
            ∨ next_scan_state state c = JSON_OBJECT_END)
      ∧ ((is_token_start (next_scan_state state c)
            || is_nested_level_start (next_scan_state state c)) = true →
          __PARSER_STATES ≤ state
            ∧ (is_final (next_scan_state state c) = false →
                next_scan_state state c < __PARSER_STATES)) := by
  rcases next_scan_state_table state c with ⟨h1, h2⟩ | h1 | h1
  · rw [h1]
    simp at h2
    refine ⟨fun _ _ => by simp; omega, fun h => by simp at h; omega,
      fun h => by simp at h; omega, fun _ h => by simp [is_final] at h; omega, fun h => ?_⟩
    simp [is_token_start, is_nested_level_start] at h
    omega
  · rw [h1]
    refine ⟨fun h => absurd h (by decide), fun _ h => absurd h (by decide),
      fun _ _ => Or.inl rfl, fun _ _ _ => Or.inl rfl, fun h => absurd h (by decide)⟩
  · exact (by decide : ∀ x ∈ transitions,
      (__PARSER_STATES ≤ x.2 → is_final x.2 = false → __PARSER_STATES ≤ x.1)
      ∧ (x.1 < __PARSER_STATES → is_final x.2 = false →
          x.2 < __PARSER_STATES
            ∧ (is_token_start x.2 || is_nested_level_start x.2) = false)
      ∧ (x.1 < __PARSER_STATES → is_final x.2 = true →
          x.2 = JSON_INVALID ∨ is_value_token x.2 = true)
      ∧ (__PARSER_STATES ≤ x.1 → is_final x.2 = true →
          (is_token_start x.2 || is_nested_level_start x.2) = false →
          x.2 = JSON_INVALID ∨ x.2 = JSON_ARRAY_END ∨ x.2 = JSON_OBJECT_END)
      ∧ ((is_token_start x.2 || is_nested_level_start x.2) = true →
          __PARSER_STATES ≤ x.1 ∧ (is_final x.2 = false → x.2 < __PARSER_STATES))) _ h1

theorem step_parser_stays (state c : Nat) (h : __PARSER_STATES ≤ state)
    (hs : (is_token_start (next_scan_state state c)
      || is_nested_level_start (next_scan_state state c)) = false)
    (hf : is_final (next_scan_state state c) = false) :
    __PARSER_STATES ≤ next_scan_state state c := by
  rcases next_scan_state_table state c with ⟨h1, h2⟩ | h1 | h1
  · rw [h1]; exact h
  · rw [h1] at hf; exact absurd hf (by decide)
  · exact (by decide : ∀ x ∈ transitions, __PARSER_STATES ≤ x.1 →
      (is_token_start x.2 || is_nested_level_start x.2) = false → is_final x.2 = false →
        __PARSER_STATES ≤ x.2) _ h1 h hs hf

theorem level_post_mono (p q : jspp_t) (state state1 : Nat) (r : scan_result)
    (hl : q.level = p.level) (hs : state1 < __PARSER_STATES ↔ state < __PARSER_STATES)
    (h : level_post q state1 r) : level_post p state r := by
  cases r with
  | too_deep p1 => trivial
  | stopped p1 s1 t1 =>
    simp only [level_post] at h ⊢
    intro hf hi
    have h' := h hf hi
    by_cases hc : state < __PARSER_STATES
    · rw [if_pos hc]
      rw [if_pos (hs.2 hc), hl] at h'
      exact h'
    · rw [if_neg hc]
      rw [if_neg (fun x => hc (hs.1 x)), hl] at h'
      exact h'

theorem level_post_push (p q : jspp_t) (state state1 : Nat) (r : scan_result)
    (hl : q.level = p.level + 1) (hs1 : state1 < __PARSER_STATES)
    (hs : __PARSER_STATES ≤ state) (h : level_post q state1 r) : level_post p state r := by
  cases r with
  | too_deep p1 => trivial
  | stopped p1 s1 t1 =>
    simp only [level_post] at h ⊢
    intro hf hi
    have h' := h hf hi
    rw [if_pos hs1, hl] at h'
    rw [if_neg (by omega)]
    exact Or.inl ⟨h'.1, Or.inl h'.2⟩

theorem scan_loop_level (rest : List Nat) : ∀ (p : jspp_t) (state txt : Nat),
    p.level < JSON_MAX_STACK → is_final state = false →
    level_post p state (scan_loop p state txt rest) := by
  induction rest with
  | nil =>
    intro p state txt _ hnf
    simp only [scan_loop, level_post]
    intro hf
    rw [hnf] at hf
    exact absurd hf (by decide)
  | cons c rest ih =>
    intro p state txt hl hnf
    obtain ⟨f1, f2, f3, f4, f5⟩ := step_kinds state c
    have hinc : (inc_level (set_token_start p (next_scan_state state c) txt)).level
        = p.level + 1 := by
      simp [inc_level]
      simp at hl
      omega
    simp only [scan_loop]
    by_cases hs : (is_token_start (next_scan_state state c)
        || is_nested_level_start (next_scan_state state c)) = true
    · rw [if_pos hs]
      obtain ⟨g1, g2⟩ := f5 hs
      by_cases hd : (inc_level (set_token_start p (next_scan_state state c) txt)).level
          = JSON_MAX_STACK
      · rw [if_pos hd]
        trivial
      · rw [if_neg hd]
        by_cases hf : is_final (next_scan_state state c) = true
        · rw [if_pos hf]
          simp only [level_post]
          intro _ _
          rw [if_neg (by omega)]
          refine Or.inl ⟨hinc, Or.inr ?_⟩
          simp only [Bool.or_eq_true] at hs
          rcases hs with hs | hs
          · exfalso
            simp [is_token_start] at hs
            rcases hs with (((h | h) | h) | h) | h <;> rw [h] at hf <;>
              exact absurd hf (by decide)
          · exact hs
        · rw [if_neg hf]
          have hf' : is_final (next_scan_state state c) = false := by simpa using hf
          exact level_post_push p _ state _ _ hinc (g2 hf') g1
            (ih _ _ _ (by rw [hinc] at hd ⊢; simp at hd hl ⊢; omega) hf')
    · rw [if_neg hs]
      have hs' : (is_token_start (next_scan_state state c)
          || is_nested_level_start (next_scan_state state c)) = false := by simpa using hs
      have hlev : (if next_scan_state state c > __REDUCING_PARSER_STATES
          then set_state p (next_scan_state state c) else p).level = p.level := by
        split <;> simp
      by_cases hf : is_final (next_scan_state state c) = true
      · rw [if_pos hf]
        simp only [level_post]
        intro _ hi
        by_cases hc : state < __PARSER_STATES
        · rw [if_pos hc]
          refine ⟨hlev, ?_⟩
          rcases f3 hc hf with h | h
          · exact absurd h hi
          · exact h
        · rw [if_neg hc]
          refine Or.inr ⟨hlev, ?_⟩
          rcases f4 (by omega) hf hs' with h | h
          · exact absurd h hi
          · exact h
      · rw [if_neg hf]
        have hf' : is_final (next_scan_state state c) = false := by simpa using hf
        refine level_post_mono p _ state (next_scan_state state c) _ hlev ?_
          (ih _ _ _ (by rw [hlev]; exact hl) hf')
        constructor
        · intro h
          by_contra hc
          have := step_parser_stays state c (by omega) hs' hf'
          omega
        · intro h
          exact (f2 h hf').1

/-! ### One call of `jspp_next` against the run that is left -/

theorem next_parsing_state_cases (s : Nat) :
    next_parsing_state s ≤ JSON_END ∨ __PARSER_STATES ≤ next_parsing_state s := by
  unfold next_parsing_state
  split_ifs <;> decide

theorem complete_token_top (p : jspp_t) (s t : Nat)
    (h : (complete_token p s t).2.level < JSON_MAX_STACK)
    (hp : p.level < JSON_MAX_STACK) :
    (complete_token p s t).2.stack (complete_token p s t).2.level ≤ JSON_END
      ∨ __PARSER_STATES ≤ (complete_token p s t).2.stack (complete_token p s t).2.level := by
  rw [complete_token_stack]
  rw [complete_token_level] at h ⊢
  by_cases hn : is_nested_level_start s = true
  · rw [if_pos hn] at h ⊢
    rw [if_pos hn, if_pos ⟨rfl, hp⟩]
    exact next_parsing_state_cases _
  · rw [if_neg hn] at h ⊢
    rw [if_neg hn, if_pos ⟨rfl, h⟩]
    exact next_parsing_state_cases _

theorem at_run_state (q : jspp_t) (tok : Nat) (txt : List Nat) (R : List Event)
    (h : at_run q ((tok, txt) :: R)) (ht : JSON_NULL ≤ tok) : JSON_END < q.stack q.level := by
  by_contra hc
  have hr := h.run
  rw [if_pos (by omega)] at hr
  simp only [List.cons.injEq, Prod.mk.injEq] at hr
  rw [hr.1.1] at ht
  simp at ht hc
  omega

theorem at_run_rel (q : jspp_t) (R : List Event) (h : at_run q R)
    (hs : JSON_END < q.stack q.level) :
    loop_rel q (q.stack q.level) (scan_pos q) (q.text.drop (scan_pos q)) [] [] := by
  have hp := h.parser_state hs
  have hin : in_token (q.stack q.level) = false := by
    by_contra hc
    have := in_token_scanner_state _ (by simpa using hc)
    omega
  refine ⟨h.level_lt, h.bounded.1, token_start_le_scan_pos q, h.bounded.2 h.level_lt, rfl,
    h.root hs, ?_, fun _ => rfl, ?_, fun _ => ⟨rfl, rfl⟩⟩
  · intro hz
    rw [hz]
    have := h.root hs
    exact this
  · intro hc
    rw [hin] at hc
    exact absurd hc (by decide)

/-- A call of `jspp_next` where the run that is left begins with a complete
token: the call returns that token with its text, leaves the rest of the run,
and moves the level as the token says. -/
theorem next_of_run (q : jspp_t) (tok : Nat) (txt : List Nat) (R : List Event)
    (h : at_run q ((tok, txt) :: R)) (ht : JSON_NULL ≤ tok) :
    (jspp_next q).1 = tok
      ∧ (is_text_token tok = true → jspp_text (jspp_next q).2 = txt)
      ∧ at_run (jspp_next q).2 R
      ∧ (jspp_next q).2.level = level_after q.level tok := by
  have hs := at_run_state q tok txt R h ht
  have hps := h.parser_state hs
  have hgs := get_state_eq q h.level_lt
  have rel := at_run_rel q _ h hs
  have hrun := h.run
  rw [if_neg (by omega)] at hrun
  have hnf : is_final (q.stack q.level) = false := by
    simp [is_final]
    simp at hps
    omega
  cases jspp_next_case q h.bounded with
  | dead h1 e => have := h.level_lt; omega
  | terminal h1 hs1 e => rw [hgs] at hs1; omega
  | at_end h1 hs1 hp e =>
    rw [hp, List.drop_length] at hrun
    exact absurd hrun (by simp [byte_run])
  | too_deep p1 h1 hs1 hp hl hpost e =>
    exfalso
    have sim := scan_loop_sim [] (q.text.drop (scan_pos q)) q (q.stack q.level) (scan_pos q)
      [] [] _ rel rfl (Or.inr hnf)
    rw [hgs] at hl
    rw [hl, List.append_nil, ← hrun] at sim
    simp only [loop_sim, List.cons.injEq, Prod.mk.injEq] at sim
    rw [sim.1.1] at ht
    exact absurd ht (by decide)
  | suspended p1 s1 t1 h1 hs1 hp hl hpost hf e =>
    exfalso
    have sim := scan_loop_sim [] (q.text.drop (scan_pos q)) q (q.stack q.level) (scan_pos q)
      [] [] _ rel rfl (Or.inr hnf)
    rw [hgs] at hl
    rw [hl, List.append_nil, ← hrun] at sim
    simp only [loop_sim, hf, Bool.false_eq_true, if_false] at sim
    have := sim.1
    simp [byte_run] at this
  | complete p1 s1 t1 h1 hs1 hp hl hpost hf e =>
    have sim := scan_loop_sim [] (q.text.drop (scan_pos q)) q (q.stack q.level) (scan_pos q)
      [] [] _ rel rfl (Or.inr hnf)
    have hlev := scan_loop_level (q.text.drop (scan_pos q)) q (q.stack q.level) (scan_pos q)
      h.level_lt hnf
    rw [hgs] at hl
    rw [hl] at hlev
    rw [hl, List.append_nil, ← hrun] at sim
    simp only [loop_sim, hf, if_true] at sim
    rw [← e] at sim
    rcases sim with ⟨h2, h3⟩ | ⟨h2, h3, h4, h5⟩
    · simp only [List.cons.injEq, Prod.mk.injEq] at h3
      rw [h3.1.1] at ht
      exact absurd ht (by decide)
    · simp only [List.cons.injEq, Prod.mk.injEq, List.nil_append, List.append_nil] at h4
      obtain ⟨⟨h6, h7⟩, h8⟩ := h4
      have htop := complete_token_top p1 s1 t1 (by rw [← e]; exact h3) hpost.2.2.2.1
      rw [← e] at htop
      refine ⟨h6.symm, ?_, ⟨h3, jspp_next_bounded q h.bounded, fun x => (h5 x).1, ?_, h8⟩, ?_⟩
      · intro hx
        rw [h6] at hx
        rw [h7, if_pos hx]
      · intro x
        rcases htop with y | y
        · omega
        · exact y
      · have hne : s1 ≠ JSON_INVALID := by
          intro hz
          rcases complete_token_fst p1 s1 t1 with y | ⟨_, y⟩
          · rw [← e, hz] at y
            rw [y] at h2
            exact absurd h2 (by decide)
          · rw [hz] at y
            exact absurd y (by decide)
        have hl2 := hlev hf hne
        rw [if_neg (by omega)] at hl2
        have hcl : (jspp_next q).2.level
            = if is_nested_level_start s1 then p1.level else (p1.level + 255) % 256 := by
          rw [e]; exact complete_token_level p1 s1 t1
        have htk : tok = s1 ∨ (tok = JSON_MEMBER_NAME ∧ s1 = JSON_STRING) := by
          rw [h6, e]
          exact complete_token_fst p1 s1 t1
        have hq := h.level_lt
        rcases hl2 with ⟨y1, y2 | y2⟩ | ⟨y1, y2⟩
        · -- a value token
          have hnn : ¬ is_nested_level_start s1 = true := by
            simp [is_value_token] at y2
            simp [is_nested_level_start]
            omega
          rw [hcl, if_neg hnn, y1]
          have hk : ¬ (tok = JSON_ARRAY_BEGIN ∨ tok = JSON_OBJECT_BEGIN)
              ∧ ¬ (tok = JSON_ARRAY_END ∨ tok = JSON_OBJECT_END) := by
            simp [is_value_token] at y2
            rcases htk with z | ⟨z, _⟩ <;> rw [z] <;> simp <;> omega
          simp only [level_after, if_neg hk.1, if_neg hk.2]
          simp at hq
          omega
        · -- an opener
          rw [hcl, if_pos y2, y1]
          have hk : tok = JSON_ARRAY_BEGIN ∨ tok = JSON_OBJECT_BEGIN := by
            simp [is_nested_level_start] at y2
            rcases htk with z | ⟨_, z⟩
            · rw [z]; exact y2
            · rw [z] at y2; simp at y2
          simp only [level_after, if_pos hk]
        · -- a closer
          have hnn : ¬ is_nested_level_start s1 = true := by
            rcases y2 with z | z <;> rw [z] <;> decide
          have hk : tok = JSON_ARRAY_END ∨ tok = JSON_OBJECT_END := by
            rcases htk with z | ⟨_, z⟩
            · rw [z]; exact y2
            · rw [z] at y2; simp at y2
          have hk2 : ¬ (tok = JSON_ARRAY_BEGIN ∨ tok = JSON_OBJECT_BEGIN) := by
            rcases hk with z | z <;> rw [z] <;> decide
          have h3' := h3
          rw [hcl, if_neg hnn, y1] at h3'
          rw [hcl, if_neg hnn, y1]
          simp only [level_after, if_neg hk2, if_pos hk]
          simp at h3' hq
          omega

/-! ### Calls along a list of tokens -/

theorem calls_shift (n : Nat) (t : Nat) (q : jspp_t) :
    calls n (jspp_next q) = calls (n + 1) (t, q) := by
  induction n with
  | zero => rfl
  | succ n ih =>
    show jspp_next (calls n (jspp_next q)).2 = jspp_next (calls (n + 1) (t, q)).2
    rw [ih]

theorem calls_congr (n : Nat) (a b : Nat) (q : jspp_t) :
    calls (n + 1) (a, q) = calls (n + 1) (b, q) := by
  rw [← calls_shift n a q, ← calls_shift n b q]

theorem calls_add (m n : Nat) (r : Nat × jspp_t) : calls (m + n) r = calls n (calls m r) := by
  induction n with
  | zero => rfl
  | succ n ih =>
    show jspp_next (calls (m + n) r).2 = jspp_next (calls n (calls m r)).2
    rw [ih]

theorem depth_after_cons (level : Nat) (e : Event) (T : List Event) :
    depth_after level (e :: T) = depth_after (level_after level e.1) T := rfl

theorem depth_after_append (level : Nat) (A B : List Event) :
    depth_after level (A ++ B) = depth_after (depth_after level A) B := by
  simp [depth_after, List.foldl_append]

theorem stays_above_append (floor : Nat) (A : List Event) : ∀ (level : Nat) (B : List Event),
    stays_above floor level A → stays_above floor (depth_after level A) B →
    stays_above floor level (A ++ B) := by
  induction A with
  | nil => intro level B _ h; exact h
  | cons e A ih =>
    intro level B h1 h2
    exact ⟨h1.1, ih _ B h1.2 h2⟩

theorem stays_above_mono (floor floor1 : Nat) (hle : floor1 ≤ floor) (T : List Event) :
    ∀ level : Nat, stays_above floor level T → stays_above floor1 level T := by
  induction T with
  | nil => intro _ _; trivial
  | cons e T ih =>
    intro level h
    exact ⟨Nat.le_trans hle h.1, ih _ h.2⟩

/-- The calls that return the tokens `T` leave the run behind `T` and the level
`T` leads to. -/
theorem calls_run (T : List Event) : ∀ (r : Nat × jspp_t) (R : List Event),
    at_run r.2 (T ++ R) → (∀ e ∈ T, JSON_NULL ≤ e.1) →
    at_run (calls T.length r).2 R
      ∧ (calls T.length r).2.level = depth_after r.2.level T := by
  induction T with
  | nil => intro r R h _; exact ⟨h, rfl⟩
  | cons e T ih =>
    intro r R h hT
    obtain ⟨tok, txt⟩ := e
    have h1 := next_of_run r.2 tok txt (T ++ R) h (hT _ (List.mem_cons_self _ _))
    have h2 := ih (jspp_next r.2) R h1.2.2.1 (fun x hx => hT x (List.mem_cons_of_mem _ hx))
    have e1 : calls T.length (jspp_next r.2) = calls (T.length + 1) r :=
      calls_shift T.length r.1 r.2
    rw [e1] at h2
    refine ⟨h2.1, ?_⟩
    rw [List.length_cons, h2.2, h1.2.2.2, depth_after_cons]

/-! ### Levels along the tokens of a document -/

theorem level_after_plain (level token : Nat)
    (h1 : ¬ (token = JSON_ARRAY_BEGIN ∨ token = JSON_OBJECT_BEGIN))
    (h2 : ¬ (token = JSON_ARRAY_END ∨ token = JSON_OBJECT_END)) :
    level_after level token = level := by
  simp only [level_after, if_neg h1, if_neg h2]

theorem level_after_number (level : Nat) (n : number_lexeme) :
    level_after level n.kind = level := by
  rcases number_kind_cases n with h | h | h <;> rw [h] <;> rfl

theorem stays_above_single (level : Nat) (e : Event) (h : level_after level e.1 = level) :
    stays_above level level [e] ∧ depth_after level [e] = level := by
  refine ⟨⟨by rw [h], trivial⟩, ?_⟩
  show level_after level e.1 = level
  exact h

theorem stays_above_wrap (level : Nat) (o c : Nat) (inner : List Event)
    (ho : level_after level o = level + 1) (hc : level_after (level + 1) c = level)
    (h : stays_above (level + 1) (level + 1) inner
      ∧ depth_after (level + 1) inner = level + 1) :
    stays_above level level ((o, []) :: (inner ++ [(c, [])]))
      ∧ depth_after level ((o, []) :: (inner ++ [(c, [])])) = level := by
  constructor
  · refine ⟨by show level ≤ level_after level o; rw [ho]; omega, ?_⟩
    show stays_above level (level_after level o) (inner ++ [(c, [])])
    rw [ho]
    refine stays_above_append level inner _ _
      (stays_above_mono (level + 1) level (by omega) inner _ h.1) ?_
    rw [h.2]
    exact ⟨by show level ≤ level_after (level + 1) c; rw [hc], trivial⟩
  · rw [depth_after_cons, depth_after_append]
    show depth_after (depth_after (level_after level o) inner) [(c, [])] = level
    rw [ho, h.2]
    exact hc

mutual

/-- Along the tokens of a value the level does not fall below the level the
value begins at, and it ends there. -/
theorem value_tokens_level : ∀ (v : json_value) (level : Nat),
    stays_above level level v.tokens ∧ depth_after level v.tokens = level
  | .lit_null, level => stays_above_single level _ rfl
  | .lit_true, level => stays_above_single level _ rfl
  | .lit_false, level => stays_above_single level _ rfl
  | .number n, level => stays_above_single level _ (level_after_number level n)
  | .string _, level => stays_above_single level _ rfl
  | .empty_array _, level => stays_above_wrap level _ _ [] rfl rfl ⟨trivial, rfl⟩
  | .empty_object _, level => stays_above_wrap level _ _ [] rfl rfl ⟨trivial, rfl⟩
  | .array _ es, level =>
    stays_above_wrap level _ _ es.tokens rfl rfl (elements_tokens_level es (level + 1))
  | .object _ ms, level =>
    stays_above_wrap level _ _ ms.tokens rfl rfl (members_tokens_level ms (level + 1))

theorem elements_tokens_level : ∀ (es : json_elements) (level : Nat),
    stays_above level level es.tokens ∧ depth_after level es.tokens = level
  | .last v _, level => value_tokens_level v level
  | .more v _ _ rest, level => by
    have h1 := value_tokens_level v level
    have h2 := elements_tokens_level rest level
    simp only [json_elements.tokens]
    refine ⟨stays_above_append level _ _ _ h1.1 (by rw [h1.2]; exact h2.1), ?_⟩
    rw [depth_after_append, h1.2, h2.2]

theorem members_tokens_level : ∀ (ms : json_members) (level : Nat),
    stays_above level level ms.tokens ∧ depth_after level ms.tokens = level
  | .last name _ _ v _, level => by
    have h1 := value_tokens_level v level
    simp only [json_members.tokens]
    exact ⟨⟨by show level ≤ level; omega, h1.1⟩, h1.2⟩
  | .more name _ _ v _ _ rest, level => by
    have h1 := value_tokens_level v level
    have h2 := members_tokens_level rest level
    simp only [json_members.tokens]
    refine ⟨⟨by show level ≤ level; omega,
      stays_above_append level _ _ _ h1.1
        (by show stays_above level (depth_after level v.tokens) rest.tokens
            rw [h1.2]; exact h2.1)⟩, ?_⟩
    rw [depth_after_cons, depth_after_append]
    show depth_after (depth_after level v.tokens) rest.tokens = level
    rw [h1.2, h2.2]

end

/-! The tokens of a document are complete tokens. -/

mutual

theorem value_tokens_complete : ∀ (v : json_value), ∀ e ∈ v.tokens, JSON_NULL ≤ e.1
  | .lit_null, e, he => by simp [json_value.tokens] at he; simp [he]
  | .lit_true, e, he => by simp [json_value.tokens] at he; simp [he]
  | .lit_false, e, he => by simp [json_value.tokens] at he; simp [he]
  | .number n, e, he => by
    simp only [json_value.tokens, List.mem_singleton] at he
    rw [he]
    rcases number_kind_cases n with h | h | h <;> simp [h]
  | .string _, e, he => by simp [json_value.tokens] at he; simp [he]
  | .empty_array _, e, he => by
    simp [json_value.tokens] at he
    rcases he with he | he <;> simp [he]
  | .empty_object _, e, he => by
    simp [json_value.tokens] at he
    rcases he with he | he <;> simp [he]
  | .array _ es, e, he => by
    simp only [json_value.tokens, List.mem_cons, List.mem_append, List.mem_singleton,
      List.not_mem_nil, or_false] at he
    rcases he with he | he | he
    · simp [he]
    · exact elements_tokens_complete es e he
    · simp [he]
  | .object _ ms, e, he => by
    simp only [json_value.tokens, List.mem_cons, List.mem_append, List.mem_singleton,
      List.not_mem_nil, or_false] at he
    rcases he with he | he | he
    · simp [he]
    · exact members_tokens_complete ms e he
    · simp [he]

theorem elements_tokens_complete : ∀ (es : json_elements), ∀ e ∈ es.tokens, JSON_NULL ≤ e.1
  | .last v _, e, he => value_tokens_complete v e (by simpa [json_elements.tokens] using he)
  | .more v _ _ rest, e, he => by
    simp only [json_elements.tokens, List.mem_append] at he
    rcases he with he | he
    · exact value_tokens_complete v e he
    · exact elements_tokens_complete rest e he

theorem members_tokens_complete : ∀ (ms : json_members), ∀ e ∈ ms.tokens, JSON_NULL ≤ e.1
  | .last _ _ _ v _, e, he => by
    simp only [json_members.tokens, List.mem_cons] at he
    rcases he with he | he
    · simp [he]
    · exact value_tokens_complete v e he
  | .more _ _ _ v _ _ rest, e, he => by
    simp only [json_members.tokens, List.mem_cons, List.mem_append] at he
    rcases he with he | he | he
    · simp [he]
    · exact value_tokens_complete v e he
    · exact members_tokens_complete rest e he

end

/-- The tokens of a container: the opener, the tokens inside, the closer. -/
theorem container_tokens (u : json_value) (h : u.is_container = true) :
    ∃ o c inner, u.tokens = (o, []) :: (inner ++ [(c, [])])
      ∧ ((o = JSON_ARRAY_BEGIN ∧ c = JSON_ARRAY_END)
          ∨ (o = JSON_OBJECT_BEGIN ∧ c = JSON_OBJECT_END))
      ∧ (∀ level, stays_above level level inner ∧ depth_after level inner = level)
      ∧ (∀ e ∈ inner, JSON_NULL ≤ e.1) := by
  cases u with
  | empty_array ws =>
    exact ⟨_, _, [], rfl, Or.inl ⟨rfl, rfl⟩, fun _ => ⟨trivial, rfl⟩, fun _ he => by cases he⟩
  | empty_object ws =>
    exact ⟨_, _, [], rfl, Or.inr ⟨rfl, rfl⟩, fun _ => ⟨trivial, rfl⟩, fun _ he => by cases he⟩
  | array ws es =>
    exact ⟨_, _, es.tokens, rfl, Or.inl ⟨rfl, rfl⟩, elements_tokens_level es,
      elements_tokens_complete es⟩
  | object ws ms =>
    exact ⟨_, _, ms.tokens, rfl, Or.inr ⟨rfl, rfl⟩, members_tokens_level ms,
      members_tokens_complete ms⟩
  | lit_null => simp [json_value.is_container] at h
  | lit_true => simp [json_value.is_container] at h
  | lit_false => simp [json_value.is_container] at h
  | number n => simp [json_value.is_container] at h
  | string b => simp [json_value.is_container] at h

/-- The token of a scalar. -/
theorem scalar_tokens (u : json_value) (h : u.is_container = false) :
    ∃ e, u.tokens = [e] ∧ is_value_token e.1 = true := by
  cases u with
  | lit_null => exact ⟨_, rfl, by decide⟩
  | lit_true => exact ⟨_, rfl, by decide⟩
  | lit_false => exact ⟨_, rfl, by decide⟩
  | number n =>
    refine ⟨_, rfl, ?_⟩
    rcases number_kind_cases n with h | h | h <;> simp [h, is_value_token]
  | string b => exact ⟨_, rfl, by show is_value_token JSON_STRING = true; decide⟩
  | empty_array ws => simp [json_value.is_container] at h
  | empty_object ws => simp [json_value.is_container] at h
  | array ws es => simp [json_value.is_container] at h
  | object ws ms => simp [json_value.is_container] at h

/-! ### `jspp_skip_next` along the tokens of a value -/

theorem with_skip_level_mod (level : Nat) (h : level < JSON_MAX_STACK) :
    (level + 1 + 255) % 256 = level := by
  simp at h
  omega

/-- The loop of `skip_composite` inside a container: it runs over the tokens
inside, which keep the level above `L`, and ends behind the closer. -/
theorem skip_composite_inner (T : List Event) : ∀ (q : jspp_t) (fuel c L : Nat) (R : List Event),
    at_run q (T ++ (c, []) :: R) → (∀ e ∈ T, JSON_NULL ≤ e.1) →
    stays_above (L + 1) q.level T → depth_after q.level T = L + 1 →
    (c = JSON_ARRAY_END ∨ c = JSON_OBJECT_END) → T.length + 1 ≤ fuel →
    skip_composite fuel (with_skip q c L)
      = some ((calls (T.length + 2) (0, q)).1, with_skip (calls (T.length + 2) (0, q)).2 0 L) := by
  induction T with
  | nil =>
    intro q fuel c L R h _ _ hd hc hf
    obtain ⟨f, rfl⟩ : ∃ f, fuel = f + 1 := ⟨fuel - 1, by simp at hf; omega⟩
    have hl : q.level = L + 1 := hd
    have h1 := next_of_run q c [] R h (by rcases hc with z | z <;> rw [z] <;> decide)
    have hlev : (jspp_next q).2.level = L := by
      rw [h1.2.2.2, hl]
      rcases hc with z | z <;> rw [z] <;> rfl
    have e1 := jspp_next_with_skip q c L
    have hexit : ¬ ((jspp_next (with_skip q c L)).1 ≠ (jspp_next (with_skip q c L)).2.skip_token
        ∨ (jspp_next (with_skip q c L)).2.level > (jspp_next (with_skip q c L)).2.skip_level) := by
      rw [e1]
      show ¬ ((jspp_next q).1 ≠ c ∨ (jspp_next q).2.level > L)
      rw [h1.1, hlev]
      simp
    rw [skip_composite_exit _ f hexit, e1]
    show some (jspp_next (with_skip (jspp_next q).2 0 L)) = _
    rw [jspp_next_with_skip]
    rfl
  | cons e T ih =>
    intro q fuel c L R h hT hs hd hc hf
    obtain ⟨f, rfl⟩ : ∃ f, fuel = f + 1 := ⟨fuel - 1, by simp at hf; omega⟩
    obtain ⟨tok, txt⟩ := e
    have hge : JSON_NULL ≤ tok := hT (tok, txt) (List.mem_cons_self _ _)
    have h1 := next_of_run q tok txt (T ++ (c, []) :: R) h hge
    have e1 := jspp_next_with_skip q c L
    have hcont : (jspp_next (with_skip q c L)).1 ≠ (jspp_next (with_skip q c L)).2.skip_token
        ∨ (jspp_next (with_skip q c L)).2.level > (jspp_next (with_skip q c L)).2.skip_level := by
      rw [e1]
      right
      show (jspp_next q).2.level > L
      rw [h1.2.2.2]
      have := hs.1
      simp only [] at this
      omega
    have hnc : (jspp_next (with_skip q c L)).1 ≠ JSON_CONTINUE := by
      rw [e1]
      show (jspp_next q).1 ≠ JSON_CONTINUE
      rw [h1.1]
      simp at hge ⊢
      omega
    rw [skip_composite_step _ f hcont hnc, e1]
    show skip_composite f (with_skip (jspp_next q).2 c L) = _
    rw [ih (jspp_next q).2 f c L R h1.2.2.1 (fun x hx => hT x (List.mem_cons_of_mem _ hx))
      (by rw [h1.2.2.2]; exact hs.2) (by rw [h1.2.2.2]; exact hd) hc
      (by simp only [List.length_cons] at hf; omega)]
    have e2 : calls (T.length + 2) (0, (jspp_next q).2)
        = calls (((tok, txt) :: T).length + 2) (0, q) := by
      rw [calls_congr (T.length + 1) 0 (jspp_next q).1 (jspp_next q).2]
      exact calls_shift (T.length + 2) 0 q
    rw [e2]

/-- `jspp_skip_next` where the run that is left begins with the tokens of a
value: it returns what the call of `jspp_next` behind these tokens returns, and
leaves the parser as that call does, the hints of the skip engine aside. -/
theorem skip_value_run (u : json_value) (q : jspp_t) (R : List Event) (fuel : Nat)
    (h : at_run q (u.tokens ++ R)) (hf : u.tokens.length + 1 ≤ fuel) :
    ∃ b, jspp_skip_next fuel q
      = some ((calls (u.tokens.length + 1) (0, q)).1,
          with_skip (calls (u.tokens.length + 1) (0, q)).2 0 b) := by
  obtain ⟨f, rfl⟩ : ∃ f, fuel = f + 1 := ⟨fuel - 1, by omega⟩
  by_cases hu : u.is_container = true
  · obtain ⟨o, c, inner, ht, hoc, hin, hk⟩ := container_tokens u hu
    have hrun : u.tokens ++ R = (o, []) :: (inner ++ (c, []) :: R) := by
      rw [ht]; simp
    rw [hrun] at h
    have ho : JSON_NULL ≤ o := by rcases hoc with ⟨z, _⟩ | ⟨z, _⟩ <;> rw [z] <;> decide
    have h1 := next_of_run q o [] _ h ho
    have hl1 : (jspp_next q).2.level = q.level + 1 := by
      rw [h1.2.2.2]
      rcases hoc with ⟨z, _⟩ | ⟨z, _⟩ <;> rw [z] <;> rfl
    have hc : c = JSON_ARRAY_END ∨ c = JSON_OBJECT_END := by
      rcases hoc with ⟨_, z⟩ | ⟨_, z⟩
      · exact Or.inl z
      · exact Or.inr z
    have hsk : jspp_skip_next (f + 1) q
        = skip_composite f (with_skip (jspp_next q).2 c q.level) := by
      rcases hoc with ⟨z1, z2⟩ | ⟨z1, z2⟩
      · rw [skip_next_array q f (by rw [h1.1, z1]), hl1, with_skip_level_mod _ h.level_lt, z2]
      · rw [skip_next_object q f (by rw [h1.1, z1]), hl1, with_skip_level_mod _ h.level_lt, z2]
    have hlen : u.tokens.length = inner.length + 2 := by rw [ht]; simp
    refine ⟨q.level, ?_⟩
    rw [hsk, skip_composite_inner inner (jspp_next q).2 f c q.level R h1.2.2.1 hk
      (by rw [hl1]; exact (hin _).1) (by rw [hl1]; exact (hin _).2) hc (by omega)]
    have e2 : calls (inner.length + 2) (0, (jspp_next q).2)
        = calls (u.tokens.length + 1) (0, q) := by
      rw [calls_congr (inner.length + 1) 0 (jspp_next q).1 (jspp_next q).2, hlen]
      exact calls_shift (inner.length + 2) 0 q
    rw [e2]
  · obtain ⟨e, ht, hv⟩ := scalar_tokens u (by simpa using hu)
    obtain ⟨tok, txt⟩ := e
    rw [ht] at h
    have hv' : JSON_NULL ≤ tok := by
      simp [is_value_token] at hv
      simp
      omega
    have h1 := next_of_run q tok txt _ h hv'
    refine ⟨(jspp_next (jspp_next q).2).2.skip_level, ?_⟩
    rw [skip_next_value q f (by rw [h1.1]; exact hv), ht]
    rfl

/-- `jspp_skip_next` where the run that is left begins with a member: the name
and the tokens of the value. -/
theorem skip_member_run (name : List Nat) (u : json_value) (q : jspp_t) (R : List Event)
    (fuel : Nat) (h : at_run q ((JSON_MEMBER_NAME, name) :: (u.tokens ++ R)))
    (hf : u.tokens.length + 2 ≤ fuel) :
    ∃ b, jspp_skip_next fuel q
      = some ((calls (u.tokens.length + 2) (0, q)).1,
          with_skip (calls (u.tokens.length + 2) (0, q)).2 0 b) := by
  obtain ⟨f, rfl⟩ : ∃ f, fuel = f + 1 := ⟨fuel - 1, by omega⟩
  have h1 := next_of_run q JSON_MEMBER_NAME name _ h (by decide)
  obtain ⟨b, hb⟩ := skip_value_run u (jspp_next q).2 R f h1.2.2.1 (by omega)
  refine ⟨b, ?_⟩
  rw [skip_next_member q f h1.1, hb]
  have e2 : calls (u.tokens.length + 1) (0, (jspp_next q).2)
      = calls (u.tokens.length + 2) (0, q) := by
    rw [calls_congr u.tokens.length 0 (jspp_next q).1 (jspp_next q).2]
    exact calls_shift (u.tokens.length + 1) 0 q
  rw [e2]

/-! ### Skipping inside a document -/

/-- The parser before the first call of `jspp_next`, inside `jspp_start`, on a
well-formed document that fits. -/
theorem at_run_start (parser : jspp_t) (ws1 : List Nat) (root : json_value) (ws2 : List Nat)
    (hws1 : all_space ws1 = true) (hw : root.well_formed = true) (hf : root.fits 0 = true)
    (hn : root.is_number = true → delimited ws2 = true)
    (hlen : (document ws1 root ws2).length ≤ 65535) :
    at_run (start_state parser (document ws1 root ws2)) (root.tokens ++ [(JSON_END, [])]) := by
  have hlev : (start_state parser (document ws1 root ws2)).level = 0 := by simp [start_state]
  have hst : (start_state parser (document ws1 root ws2)).stack 0 = EXPECTING_JSON := by
    simp [start_state, stack_write]
  have hpos : scan_pos (start_state parser (document ws1 root ws2)) = 0 := by
    simp [scan_pos, start_state, set_fragment]
  have htext : (start_state parser (document ws1 root ws2)).text = document ws1 root ws2 := by
    simp [start_state, set_fragment]
  refine ⟨by rw [hlev]; decide, (core_inv_start_state parser _ hlen).1, fun _ => hst, ?_, ?_⟩
  · intro _
    rw [hlev, hst]
    decide
  · rw [hlev, hst, if_neg (by decide), hpos, htext, List.drop_zero]
    exact (document_run ws1 root ws2 hws1 hw hf hn).symm

theorem calls_start (parser : jspp_t) (text : List Nat) (n : Nat) :
    calls n (jspp_start parser text) = calls (n + 1) (0, start_state parser text) :=
  calls_shift n 0 (start_state parser text)

/-- The parser after the calls that have returned the tokens `a :: A` of a
document. -/
theorem at_run_calls (parser : jspp_t) (ws1 : List Nat) (root : json_value) (ws2 : List Nat)
    (a : Event) (A R : List Event)
    (hws1 : all_space ws1 = true) (hw : root.well_formed = true) (hf : root.fits 0 = true)
    (hn : root.is_number = true → delimited ws2 = true)
    (hlen : (document ws1 root ws2).length ≤ 65535)
    (hT : root.tokens = a :: (A ++ R)) :
    at_run (calls A.length (jspp_start parser (document ws1 root ws2))).2
      (R ++ [(JSON_END, [])]) := by
  have h0 := at_run_start parser ws1 root ws2 hws1 hw hf hn hlen
  have hc : ∀ e ∈ a :: A, JSON_NULL ≤ e.1 := by
    intro e he
    apply value_tokens_complete root e
    rw [hT]
    rcases List.mem_cons.1 he with h | h
    · rw [h]; exact List.mem_cons_self _ _
    · exact List.mem_cons_of_mem _ (List.mem_append_left _ h)
  have h1 := (calls_run (a :: A) (0, start_state parser (document ws1 root ws2))
    (R ++ [(JSON_END, [])]) (by
      show at_run (start_state parser (document ws1 root ws2)) _
      rw [hT] at h0
      simpa using h0) hc).1
  rw [calls_start]
  exact h1

theorem calls_from (n m : Nat) (r : Nat × jspp_t) :
    calls (m + 1) (0, (calls n r).2) = calls (n + (m + 1)) r := by
  rw [calls_congr m 0 (calls n r).1 (calls n r).2]
  exact (calls_add n (m + 1) r).symm

/-- C14: a well-formed document in one fragment that fits, `u` a container in
it: `a :: A` are the tokens before it, `B` the tokens behind it. After the calls
that returned `a :: A`, when the next token is the opener of `u`,
`jspp_skip_next` returns the token that `jspp_next` returns right behind the
closer that matches it, the last token of `u`, and leaves the parser as the
calls of `jspp_next` do that take the tokens of `u` one by one and the one
behind them, the hints of the skip engine aside. -/
theorem skip_composite_matches (parser : jspp_t) (ws1 : List Nat) (root : json_value)
    (ws2 : List Nat) (a : Event) (A : List Event) (u : json_value) (B : List Event)
    (fuel : Nat) (hws1 : all_space ws1 = true) (hw : root.well_formed = true)
    (hf : root.fits 0 = true) (hlen : (document ws1 root ws2).length ≤ 65535)
    (hT : root.tokens = a :: (A ++ (u.tokens ++ B))) (hu : u.is_container = true)
    (hfuel : u.tokens.length + 1 ≤ fuel) :
    ∃ b, jspp_skip_next fuel (calls A.length (jspp_start parser (document ws1 root ws2))).2
      = some ((calls (A.length + (u.tokens.length + 1))
            (jspp_start parser (document ws1 root ws2))).1,
          with_skip (calls (A.length + (u.tokens.length + 1))
            (jspp_start parser (document ws1 root ws2))).2 0 b) := by
  have hn : root.is_number = true → delimited ws2 = true := by
    intro h
    exfalso
    obtain ⟨o, c, inner, ht, _⟩ := container_tokens u hu
    cases root <;> simp [json_value.is_number] at h
    rw [ht] at hT
    simp [json_value.tokens] at hT
  have h1 := at_run_calls parser ws1 root ws2 a A (u.tokens ++ B) hws1 hw hf hn hlen hT
  rw [List.append_assoc] at h1
  obtain ⟨b, hb⟩ := skip_value_run u _ _ fuel h1 hfuel
  refine ⟨b, ?_⟩
  rw [hb, calls_from]

theorem skip_composite_matches_witness :
    ∃ b, jspp_skip_next 9 (calls 1 (jspp_start jspp_zero
        [123, 34, 97, 34, 58, 91, 91, 49, 93, 44, 50, 93, 44, 34, 98, 34, 58, 51, 125])).2
      = some ((calls 8 (jspp_start jspp_zero
            [123, 34, 97, 34, 58, 91, 91, 49, 93, 44, 50, 93, 44, 34, 98, 34, 58, 51, 125])).1,
          with_skip (calls 8 (jspp_start jspp_zero
            [123, 34, 97, 34, 58, 91, 91, 49, 93, 44, 50, 93, 44, 34, 98, 34, 58, 51, 125])).2
            0 b) :=
  skip_composite_matches jspp_zero []
    (.object [] (.more [.plain 97] [] []
      (.array [] (.more (.array [] (.last (.number ⟨false, [49], none, none⟩) [])) [] []
        (.last (.number ⟨false, [50], none, none⟩) []))) [] []
      (.last [.plain 98] [] [] (.number ⟨false, [51], none, none⟩) []))) []
    (JSON_OBJECT_BEGIN, []) [(JSON_MEMBER_NAME, [97])]
    (.array [] (.more (.array [] (.last (.number ⟨false, [49], none, none⟩) [])) [] []
      (.last (.number ⟨false, [50], none, none⟩) [])))
    [(JSON_MEMBER_NAME, [98]), (JSON_INTEGER, [51]), (JSON_OBJECT_END, [])]
    9 (by decide) (by decide) (by decide) (by decide) (by decide) (by decide) (by decide)

/-! ### Skipping a member -/

/-- C13 (as amended): a well-formed document in one fragment in which no
scalar, member name or container lies inside more than 12 containers, with a
member of an object in it: `a :: A` are the tokens before the member, `name` and
`u` its name and value, `B` the tokens behind it. After the calls that returned
`a :: A`, when the next token is the member name, `jspp_skip_next` returns the
token behind the value, with its text, and leaves the parser as the calls of
`jspp_next` do that take the name and the tokens of `u` one by one and the one
behind them, the hints of the skip engine aside. -/
theorem skip_member (parser : jspp_t) (ws1 : List Nat) (root : json_value)
    (ws2 : List Nat) (a : Event) (A : List Event) (name : List Nat) (u : json_value)
    (B : List Event) (fuel : Nat) (hws1 : all_space ws1 = true)
    (hw : root.well_formed = true) (hf : root.fits 0 = true)
    (hlen : (document ws1 root ws2).length ≤ 65535)
    (hT : root.tokens = a :: (A ++ ((JSON_MEMBER_NAME, name) :: (u.tokens ++ B))))
    (hfuel : u.tokens.length + 2 ≤ fuel) :
    (∃ b, jspp_skip_next fuel (calls A.length (jspp_start parser (document ws1 root ws2))).2
        = some ((calls (A.length + (u.tokens.length + 2))
              (jspp_start parser (document ws1 root ws2))).1,
            with_skip (calls (A.length + (u.tokens.length + 2))
              (jspp_start parser (document ws1 root ws2))).2 0 b))
      ∧ (∀ e B1, B = e :: B1 →
          (calls (A.length + (u.tokens.length + 2))
              (jspp_start parser (document ws1 root ws2))).1 = e.1
            ∧ (is_text_token e.1 = true →
                jspp_text (calls (A.length + (u.tokens.length + 2))
                  (jspp_start parser (document ws1 root ws2))).2 = e.2)) := by
  have hn : root.is_number = true → delimited ws2 = true := by
    intro h
    exfalso
    cases root <;> simp [json_value.is_number] at h
    simp [json_value.tokens] at hT
  have h1 := at_run_calls parser ws1 root ws2 a A ((JSON_MEMBER_NAME, name) :: (u.tokens ++ B))
    hws1 hw hf hn hlen hT
  constructor
  · rw [List.cons_append, List.append_assoc] at h1
    obtain ⟨b, hb⟩ := skip_member_run name u _ _ fuel h1 hfuel
    refine ⟨b, ?_⟩
    rw [hb, calls_from]
  · intro e B1 hB
    obtain ⟨tok, txt⟩ := e
    have hc : ∀ x ∈ (JSON_MEMBER_NAME, name) :: u.tokens, JSON_NULL ≤ x.1 := by
      intro x hx
      rcases List.mem_cons.1 hx with h | h
      · rw [h]; show JSON_NULL ≤ JSON_MEMBER_NAME; decide
      · exact value_tokens_complete u x h
    have htok : JSON_NULL ≤ tok := by
      apply value_tokens_complete root (tok, txt)
      rw [hT, hB]
      simp
    have h2 := calls_run ((JSON_MEMBER_NAME, name) :: u.tokens)
      (calls A.length (jspp_start parser (document ws1 root ws2)))
      ((tok, txt) :: (B1 ++ [(JSON_END, [])])) (by
        rw [hB] at h1
        simpa using h1) hc
    have h3 := next_of_run _ tok txt _ h2.1 htok
    have e1 : jspp_next (calls ((JSON_MEMBER_NAME, name) :: u.tokens).length
        (calls A.length (jspp_start parser (document ws1 root ws2)))).2
        = calls (A.length + (u.tokens.length + 2))
            (jspp_start parser (document ws1 root ws2)) := by
      rw [← calls_add]
      rfl
    rw [e1] at h3
    exact ⟨h3.1, h3.2.1⟩

theorem skip_member_witness :
    (∃ b, jspp_skip_next 3 (calls 0 (jspp_start jspp_zero
          [123, 34, 97, 34, 58, 49, 44, 34, 98, 34, 58, 50, 125])).2
        = some ((calls 3 (jspp_start jspp_zero
              [123, 34, 97, 34, 58, 49, 44, 34, 98, 34, 58, 50, 125])).1,
            with_skip (calls 3 (jspp_start jspp_zero
              [123, 34, 97, 34, 58, 49, 44, 34, 98, 34, 58, 50, 125])).2 0 b))
      ∧ (∀ e B1, [(JSON_MEMBER_NAME, [98]), (JSON_INTEGER, [50]), (JSON_OBJECT_END, [])]
            = e :: B1 →
          (calls 3 (jspp_start jspp_zero
              [123, 34, 97, 34, 58, 49, 44, 34, 98, 34, 58, 50, 125])).1 = e.1
            ∧ (is_text_token e.1 = true →
                jspp_text (calls 3 (jspp_start jspp_zero
                  [123, 34, 97, 34, 58, 49, 44, 34, 98, 34, 58, 50, 125])).2 = e.2)) :=
  skip_member jspp_zero []
    (.object [] (.more [.plain 97] [] [] (.number ⟨false, [49], none, none⟩) [] []
      (.last [.plain 98] [] [] (.number ⟨false, [50], none, none⟩) []))) []
    (JSON_OBJECT_BEGIN, []) [] [97] (.number ⟨false, [49], none, none⟩)
    [(JSON_MEMBER_NAME, [98]), (JSON_INTEGER, [50]), (JSON_OBJECT_END, [])]
    3 (by decide) (by decide) (by decide) (by decide) (by decide) (by decide)

/-! ### A member that nests too deep -/

theorem never_member (p : jspp_t) (h : (jspp_next p).1 = JSON_MEMBER_NAME)
    (hn : ∀ fuel, jspp_skip_next fuel (jspp_next p).2 = none) :
    ∀ fuel, jspp_skip_next fuel p = none := by
  intro fuel
  cases fuel with
  | zero => rfl
  | succ n => rw [skip_next_member p n h]; exact hn n

theorem never_array (p : jspp_t) (h : (jspp_next p).1 = JSON_ARRAY_BEGIN)
    (hn : ∀ fuel, skip_composite fuel
      (with_skip (jspp_next p).2 JSON_ARRAY_END (((jspp_next p).2.level + 255) % 256)) = none) :
    ∀ fuel, jspp_skip_next fuel p = none := by
  intro fuel
  cases fuel with
  | zero => rfl
  | succ n => rw [skip_next_array p n h]; exact hn n

theorem never_step (p : jspp_t)
    (h : (jspp_next p).1 ≠ (jspp_next p).2.skip_token
      ∨ (jspp_next p).2.level > (jspp_next p).2.skip_level)
    (hc : (jspp_next p).1 ≠ JSON_CONTINUE)
    (hn : ∀ fuel, skip_composite fuel (jspp_next p).2 = none) :
    ∀ fuel, skip_composite fuel p = none := by
  intro fuel
  cases fuel with
  | zero => rfl
  | succ n => rw [skip_composite_step p n h hc]; exact hn n

theorem never_dead (q : jspp_t) (hl : JSON_MAX_STACK ≤ q.level)
    (hk : JSON_TOO_DEEP ≠ q.skip_token ∨ q.level > q.skip_level) :
    ∀ fuel, skip_composite fuel q = none := by
  have e : jspp_next q = (JSON_TOO_DEEP, q) := by
    unfold jspp_next
    rw [if_pos hl]
  intro fuel
  induction fuel with
  | zero => rfl
  | succ n ih =>
    rw [skip_composite_step q n (by rw [e]; exact hk)
      (by rw [e]; show JSON_TOO_DEEP ≠ JSON_CONTINUE; decide), e]
    exact ih

/-- C13 (counterexample): the object `{"a":[[[[[[[[[[[[[]]]]]]]]]]]]]}` is
well-formed and lies in one fragment; its member `a` holds thirteen arrays one
in another. After `JSON_OBJECT_BEGIN`, when the next token is the member name,
`jspp_skip_next` does not return the token behind the value: the innermost
array gives `JSON_TOO_DEEP`, and the loop of `skip_composite` is not left,
whatever the number of iterations granted. -/
theorem deep_member_skip_never_returns :
    (json_value.object [] (.last [.plain 97] [] [] (nested_arrays 12) [])).well_formed = true
      ∧ (json_value.object [] (.last [.plain 97] [] [] (nested_arrays 12) [])).render
        = [123, 34, 97, 34, 58] ++ (List.replicate 13 91 ++ (List.replicate 13 93 ++ [125]))
      ∧ ∀ fuel, jspp_skip_next fuel (jspp_start jspp_zero
          ([123, 34, 97, 34, 58] ++ (List.replicate 13 91 ++ (List.replicate 13 93 ++ [125])))).2
          = none := by
  refine ⟨by decide, by decide, ?_⟩
  apply never_member _ (by decide)
  apply never_array _ (by decide)
  iterate 12 apply never_step _ (by decide) (by decide)
  exact never_dead _ (by decide) (by decide)

/-! ### What every call returns and leaves behind -/

theorem jspp_next_token_le (q : jspp_t) (hb : well_bounded q) :
    (jspp_next q).1 ≤ JSON_ARRAY_END := by
  cases jspp_next_case q hb with
  | dead h e => rw [e]; show JSON_TOO_DEEP ≤ JSON_ARRAY_END; decide
  | terminal h hs e => rw [e]; simp at hs ⊢; omega
  | at_end h hs hp e => rw [e]; show JSON_CONTINUE ≤ JSON_ARRAY_END; decide
  | too_deep p1 h hs hp hl hpost e => rw [e]; show JSON_TOO_DEEP ≤ JSON_ARRAY_END; decide
  | complete p1 s1 t1 h hs hp hl hpost hf e =>
    have hk := hpost.2.2.2.2.2.2.2.2.2.2 hf
    rw [e]
    rcases complete_token_fst p1 s1 t1 with h5 | ⟨h5, _⟩
    · rw [h5]; unfold scan_token at hk; simp at hk ⊢; omega
    · rw [h5]; decide
  | suspended p1 s1 t1 h hs hp hl hpost hf e =>
    rw [e]
    have := (suspend_token_fst p1 s1).2
    simp at this ⊢; omega

/-- C26: every value a call of `jspp_start`, `jspp_continue`, `jspp_next` or
`jspp_skip_next` returns is one of the tokens `JSON_INVALID` (0) to
`JSON_ARRAY_END` (18) of the public enumeration; a scanner or parser state
(`0x20` and above) is never returned. -/
theorem token_in_enumeration (token : Nat) (parser : jspp_t) (h : Reachable token parser) :
    token ≤ JSON_ARRAY_END ∧ token < __SCANNER_STATES := by
  have key : token ≤ JSON_ARRAY_END := by
    obtain ⟨q, a, b, hc, _, h3⟩ := reachable_from_next token parser h
    rcases h3 with h3 | ⟨h3, _, _⟩
    · simp only at h3
      rw [h3]
      exact jspp_next_token_le q hc.1
    · simp only at h3
      rw [h3]
      decide
  refine ⟨key, ?_⟩
  simp at key ⊢
  omega

theorem token_in_enumeration_witness :
    (jspp_next (jspp_start jspp_zero [91, 49, 120]).2).1 ≤ JSON_ARRAY_END
      ∧ (jspp_next (jspp_start jspp_zero [91, 49, 120]).2).1 < __SCANNER_STATES :=
  token_in_enumeration _ _
    (Reachable.by_next _ _ (Reachable.by_start jspp_zero [91, 49, 120] (by decide)))

theorem at_fragment_end_with_skip (p : jspp_t) (a b : Nat) (h : at_fragment_end p) :
    at_fragment_end (with_skip p a b) := h

theorem reachable_pending (token : Nat) (parser : jspp_t) (h : Reachable token parser)
    (h1 : JSON_CONTINUE ≤ token) (h2 : token ≤ JSON_STRING_PART) : at_fragment_end parser := by
  obtain ⟨q, a, b, hc, e, h3⟩ := reachable_from_next token parser h
  simp only at e h3
  rw [e]
  apply at_fragment_end_with_skip
  rcases h3 with h3 | ⟨_, h4, h5⟩
  · exact jspp_next_pending q hc.1 (by rw [← h3]; exact h1) (by rw [← h3]; exact h2)
  · exact jspp_next_pending q hc.1 h4 (by simp at h5 ⊢; omega)

/-- C23: after a call of `jspp_start`, `jspp_continue`, `jspp_next` (or
`jspp_skip_next`) has returned `JSON_CONTINUE` or a `*_PART` token, every
further call of `jspp_next` returns `JSON_CONTINUE` and leaves the parser as it
was, field by field. -/
theorem asking_again_harmless (token : Nat) (parser : jspp_t) (h : Reachable token parser)
    (h1 : JSON_CONTINUE ≤ token) (h2 : token ≤ JSON_STRING_PART) (n : Nat) :
    calls (n + 1) (token, parser) = (JSON_CONTINUE, parser) := by
  have hend := jspp_next_at_end parser (reachable_pending token parser h h1 h2)
  induction n with
  | zero => exact hend
  | succ n ih =>
    show jspp_next (calls (n + 1) (token, parser)).2 = _
    rw [ih]
    exact hend

theorem asking_again_harmless_witness :
    calls 3 (jspp_start jspp_zero [91, 34, 97])
      = (JSON_CONTINUE, (jspp_next (jspp_start jspp_zero [91, 34, 97]).2).2) := by
  have h := asking_again_harmless (jspp_next (jspp_start jspp_zero [91, 34, 97]).2).1
    (jspp_next (jspp_start jspp_zero [91, 34, 97]).2).2
    (Reachable.by_next _ _ (Reachable.by_start jspp_zero [91, 34, 97] (by decide)))
    (by decide) (by decide) 1
  exact h

/-! ### The slice `jspp_text` returns -/

theorem jspp_next_slice (q : jspp_t) (hb : well_bounded q)
    (ht : (jspp_next q).1 ≠ JSON_TOO_DEEP) :
    (jspp_next q).2.token_start + (jspp_next q).2.token_length
      ≤ (jspp_next q).2.text.length := by
  have hb2 := hb.1
  have hle : ∀ p : jspp_t, p.token_start + p.token_length ≤ scan_pos p := by
    intro p; unfold scan_pos; omega
  cases jspp_next_case q hb with
  | dead h e => rw [e] at ht; exact absurd rfl ht
  | terminal h hs e => rw [e]; exact le_trans (hle q) (hb.2 h)
  | at_end h hs hp e => rw [e]; exact le_trans (hle q) (hb.2 h)
  | too_deep p1 h hs hp hl hpost e => rw [e] at ht; exact absurd rfl ht
  | complete p1 s1 t1 h hs hp hl hpost hf e =>
    obtain ⟨a1, a2, a3, a4, a5, a6, a7, a8, a9, a10, a11⟩ := hpost
    refine le_trans (hle _) ?_
    rw [e, complete_token_scan_pos p1 s1 t1 a6 (by have := a9 hf; omega), complete_token_text,
      a1]
    have := a9 hf
    split <;> omega
  | suspended p1 s1 t1 h hs hp hl hpost hf e =>
    obtain ⟨a1, a2, a3, a4, a5, a6, a7, a8, a9, a10, a11⟩ := hpost
    refine le_trans (hle _) ?_
    rw [e, suspend_token_scan_pos p1 s1 hf (by rw [a1]; have := a10 hf; omega)
      (by rw [a1]; exact hb2), suspend_token_text]

/-- C21 (as amended): after any sequence of public calls that begins with
`jspp_start` and whose last call has returned anything but `JSON_TOO_DEEP`
(`JSON_INVALID` and `JSON_END` included), the slice of `jspp_text` lies inside
the current fragment: `token_start + token_length ≤ text_length`, and the
slice has `token_length` bytes. -/
theorem text_inside_fragment (token : Nat) (parser : jspp_t) (h : Reachable token parser)
    (ht : token ≠ JSON_TOO_DEEP) :
    parser.token_start + parser.token_length ≤ parser.text_length
      ∧ (jspp_text parser).length = parser.token_length := by
  have key : parser.token_start + parser.token_length ≤ parser.text.length := by
    obtain ⟨q, a, b, hc, e, h3⟩ := reachable_from_next token parser h
    simp only at e h3
    rw [e]
    show (jspp_next q).2.token_start + (jspp_next q).2.token_length
      ≤ (jspp_next q).2.text.length
    apply jspp_next_slice q hc.1
    rcases h3 with h3 | ⟨_, h4, _⟩
    · rw [← h3]; exact ht
    · intro h5
      rw [h5] at h4
      exact absurd h4 (by decide)
  refine ⟨key, ?_⟩
  unfold jspp_text
  rw [List.length_take, List.length_drop]
  omega

theorem text_inside_fragment_witness :
    (jspp_start jspp_zero [32, 110, 117, 108, 76]).2.token_start
        + (jspp_start jspp_zero [32, 110, 117, 108, 76]).2.token_length
        ≤ (jspp_start jspp_zero [32, 110, 117, 108, 76]).2.text_length
      ∧ (jspp_text (jspp_start jspp_zero [32, 110, 117, 108, 76]).2).length
        = (jspp_start jspp_zero [32, 110, 117, 108, 76]).2.token_length :=
  text_inside_fragment _ _ (Reachable.by_start jspp_zero [32, 110, 117, 108, 76] (by decide))
    (by decide)

/-- C21 (counterexample): thirteen `[` and a `"` as the last byte of the
fragment. The fourteenth call returns `JSON_TOO_DEEP` from inside the loop:
`token_start` is behind the quote, at the end of the fragment, `token_length`
is still the `1` of the last `[`, and the slice of `jspp_text` ends one byte
behind the fragment. -/
theorem slice_behind_fragment_after_too_deep :
    (calls 13 (jspp_start jspp_zero (List.replicate 13 91 ++ [34]))).1 = JSON_TOO_DEEP
      ∧ (calls 13 (jspp_start jspp_zero (List.replicate 13 91 ++ [34]))).2.text_length = 14
      ∧ (calls 13 (jspp_start jspp_zero (List.replicate 13 91 ++ [34]))).2.token_start = 14
      ∧ (calls 13 (jspp_start jspp_zero (List.replicate 13 91 ++ [34]))).2.token_length = 1
      ∧ ¬ ((calls 13 (jspp_start jspp_zero (List.replicate 13 91 ++ [34]))).2.token_start
          + (calls 13 (jspp_start jspp_zero (List.replicate 13 91 ++ [34]))).2.token_length
          ≤ (calls 13 (jspp_start jspp_zero (List.replicate 13 91 ++ [34]))).2.text_length) := by
  decide

/-! ### The level after `JSON_INVALID` at the root -/

/-- C22 (the defect): `jspp_start` on the fragment `x` returns `JSON_INVALID`
through the branch for complete tokens, which decrements the level; at the
root the `uint8_t` wraps and the level is left at 255, outside the stack. -/
theorem level_wraps_after_invalid :
    (jspp_start jspp_zero [120]).1 = JSON_INVALID
      ∧ (jspp_start jspp_zero [120]).2.level = 255
      ∧ ¬ (jspp_start jspp_zero [120]).2.level < JSON_MAX_STACK := by
  decide

/-! ### Where `JSON_TOO_DEEP` comes from -/

theorem begins_ite (x : Nat) (c : Prop) [Decidable c] (a b : Nat)
    (ha : c → begins x a) (hb : ¬ c → begins x b) : begins x (if c then a else b) := by
  by_cases h : c
  · rw [if_pos h]; exact ha h
  · rw [if_neg h]; exact hb h

theorem next_scan_state_begins (state c : Nat) : begins c (next_scan_state state c) := by
  unfold next_scan_state scan_value
  repeat' (apply begins_ite <;> intro hc)
  all_goals unfold begins
  all_goals first
    | (intro h; exact absurd h (by decide))
    | (intro h; exfalso; simp [is_token_start, is_nested_level_start] at h hc; omega)
    | (intro _; subst hc; exact ⟨by decide, by decide⟩)
    | (intro _; refine ⟨by simp [starts_value, hc], ?_⟩
       simp [is_digit] at hc
       constructor
       · intro h; exact absurd h (by decide)
       · intro h; omega)

theorem start_in_parser_state (state c : Nat)
    (h : (is_token_start (next_scan_state state c)
      || is_nested_level_start (next_scan_state state c)) = true) :
    __PARSER_STATES ≤ state ∧ (is_final (next_scan_state state c) = false →
      next_scan_state state c < __PARSER_STATES) :=
  (step_kinds state c).2.2.2.2 h

/-- Inside a literal, a number or a string the loop does not return
`JSON_TOO_DEEP`. -/
theorem scan_loop_in_token (rest : List Nat) : ∀ (p : jspp_t) (s txt : Nat) (p1 : jspp_t),
    s < __PARSER_STATES → scan_loop p s txt rest ≠ .too_deep p1 := by
  induction rest with
  | nil =>
    intro p s txt p1 _ h
    simp [scan_loop] at h
  | cons c rest ih =>
    intro p s txt p1 hs h
    have hns : ¬ (is_token_start (next_scan_state s c)
        || is_nested_level_start (next_scan_state s c)) = true := by
      intro hc
      have := (start_in_parser_state s c hc).1
      omega
    simp only [scan_loop] at h
    rw [if_neg hns] at h
    by_cases hf : is_final (next_scan_state s c) = true
    · rw [if_pos hf] at h
      exact absurd h (by simp)
    · rw [if_neg hf] at h
      have hf' : is_final (next_scan_state s c) = false := by simpa using hf
      exact ih _ _ _ _ ((step_kinds s c).2.1 hs hf').1 h

/-- The early return of the loop: it is taken at a byte a value may begin
with, from level 13, with `token_start` at that byte (behind it for `"`). -/
theorem scan_loop_too_deep (rest : List Nat) : ∀ (p : jspp_t) (s txt : Nat) (p1 : jspp_t),
    p.level < JSON_MAX_STACK → scan_loop p s txt rest = .too_deep p1 →
    ∃ pre c post, rest = pre ++ c :: post ∧ starts_value c = true
      ∧ p.level = 13 ∧ p1.level = JSON_MAX_STACK
      ∧ p1.token_start = if c = 34 then ((txt + pre.length) % 65536 + 1) % 65536
          else (txt + pre.length) % 65536 := by
  induction rest with
  | nil =>
    intro p s txt p1 _ h
    simp [scan_loop] at h
  | cons c rest ih =>
    intro p s txt p1 hl h
    have hinc : (inc_level (set_token_start p (next_scan_state s c) txt)).level
        = p.level + 1 := by
      simp [inc_level]
      simp at hl
      omega
    simp only [scan_loop] at h
    by_cases hs : (is_token_start (next_scan_state s c)
        || is_nested_level_start (next_scan_state s c)) = true
    · rw [if_pos hs] at h
      obtain ⟨b1, b2⟩ := next_scan_state_begins s c hs
      by_cases hd : (inc_level (set_token_start p (next_scan_state s c) txt)).level
          = JSON_MAX_STACK
      · rw [if_pos hd] at h
        simp only [scan_result.too_deep.injEq] at h
        refine ⟨[], c, rest, rfl, b1, ?_, ?_, ?_⟩
        · rw [hinc] at hd; simp at hd; omega
        · rw [← h]; exact hd
        · rw [← h]
          simp only [inc_level_token_start, set_token_start, List.length_nil, Nat.add_zero]
          by_cases hq : c = 34
          · rw [if_pos (b2.2 hq), if_pos hq]
          · rw [if_neg (fun e => hq (b2.1 e)), if_neg hq]
      · rw [if_neg hd] at h
        by_cases hf : is_final (next_scan_state s c) = true
        · rw [if_pos hf] at h
          exact absurd h (by simp)
        · rw [if_neg hf] at h
          have hf' : is_final (next_scan_state s c) = false := by simpa using hf
          exact absurd h (scan_loop_in_token rest _ _ _ _
            ((start_in_parser_state s c hs).2 hf'))
    · rw [if_neg hs] at h
      by_cases hf : is_final (next_scan_state s c) = true
      · rw [if_pos hf] at h
        exact absurd h (by simp)
      · rw [if_neg hf] at h
        have hlev : (if next_scan_state s c > __REDUCING_PARSER_STATES
            then set_state p (next_scan_state s c) else p).level = p.level := by
          split <;> simp
        obtain ⟨pre, d, post, e1, e2, e3, e4, e5⟩ := ih _ _ _ _ (by rw [hlev]; exact hl) h
        refine ⟨c :: pre, d, post, by rw [e1]; rfl, e2, by rw [← hlev]; exact e3, e4, ?_⟩
        rw [e5]
        simp only [List.length_cons]
        have : txt + 1 + pre.length = txt + (pre.length + 1) := by omega
        rw [this]

/-! ### Induction over the calls of a caller -/

theorem skip_composite_ind (P : jspp_t → Prop)
    (h_next : ∀ q, core_inv q → P q → P (jspp_next q).2)
    (h_skip : ∀ q a b, P q → P (with_skip q a b)) (fuel : Nat) :
    ∀ (p : jspp_t) (r : Nat × jspp_t), core_inv p → P p →
      skip_composite fuel p = some r → P r.2 := by
  induction fuel with
  | zero => intro p r _ _ e; simp [skip_composite] at e
  | succ n ih =>
    intro p r hc hp e
    have hc1 := core_inv_next p hc
    have hp1 := h_next p hc hp
    simp only [skip_composite] at e
    split at e
    · split at e
      · have e' : r = (JSON_CONTINUE, (jspp_next p).2) := by
          simp only [Option.some.injEq] at e; exact e.symm
        rw [e']
        exact hp1
      · exact ih _ r hc1 hp1 e
    · have e' : r = jspp_next { (jspp_next p).2 with skip_token := 0 } := by
        simp only [Option.some.injEq] at e; exact e.symm
      rw [e']
      exact h_next _ (core_inv_skip _ _ _ hc1) (h_skip _ 0 (jspp_next p).2.skip_level hp1)

theorem jspp_skip_next_ind (P : jspp_t → Prop)
    (h_next : ∀ q, core_inv q → P q → P (jspp_next q).2)
    (h_skip : ∀ q a b, P q → P (with_skip q a b)) (fuel : Nat) :
    ∀ (p : jspp_t) (r : Nat × jspp_t), core_inv p → P p →
      jspp_skip_next fuel p = some r → P r.2 := by
  induction fuel with
  | zero => intro p r _ _ e; simp [jspp_skip_next] at e
  | succ n ih =>
    intro p r hc hp e
    have hc1 := core_inv_next p hc
    have hp1 := h_next p hc hp
    simp only [jspp_skip_next] at e
    split at e
    · have e' : r = ((jspp_next p).1, { (jspp_next p).2 with skip_token := 0 }) := by
        simp only [Option.some.injEq] at e; exact e.symm
      rw [e']
      exact h_skip _ 0 (jspp_next p).2.skip_level hp1
    · split at e
      · have e' : r = (JSON_CONTINUE, { (jspp_next p).2 with
            skip_level := (jspp_next p).2.level, skip_token := JSON_CONTINUE }) := by
          simp only [Option.some.injEq] at e; exact e.symm
        rw [e']
        exact h_skip _ JSON_CONTINUE (jspp_next p).2.level hp1
      · split at e
        · exact ih _ r hc1 hp1 e
        · split at e
          · exact skip_composite_ind P h_next h_skip n _ r (core_inv_skip _ _ _ hc1)
              (h_skip _ JSON_ARRAY_END (((jspp_next p).2.level + 255) % 256) hp1) e
          · split at e
            · exact skip_composite_ind P h_next h_skip n _ r (core_inv_skip _ _ _ hc1)
                (h_skip _ JSON_OBJECT_END (((jspp_next p).2.level + 255) % 256) hp1) e
            · split at e
              · have e' : r = ((jspp_next p).1, { (jspp_next p).2 with skip_token := 0 }) := by
                  simp only [Option.some.injEq] at e; exact e.symm
                rw [e']
                exact h_skip _ 0 (jspp_next p).2.skip_level hp1
              · have e' : r = jspp_next { (jspp_next p).2 with skip_token := 0 } := by
                  simp only [Option.some.injEq] at e; exact e.symm
                rw [e']
                exact h_next _ (core_inv_skip _ _ _ hc1)
                  (h_skip _ 0 (jspp_next p).2.skip_level hp1)

/-- A property of the start state that `jspp_next`, the hints of the skip
engine and a new fragment keep holds after every sequence of public calls. -/
theorem reachable_ind (P : jspp_t → Prop)
    (h_start : ∀ q text, text.length ≤ 65535 → P (start_state q text))
    (h_next : ∀ q, core_inv q → P q → P (jspp_next q).2)
    (h_skip : ∀ q a b, P q → P (with_skip q a b))
    (h_frag : ∀ q text, text.length ≤ 65535 → P q → P (set_fragment q text))
    (token : Nat) (p : jspp_t) (h : Reachable token p) : P p := by
  induction h with
  | by_start parser text h =>
    exact h_next _ (core_inv_start_state parser text h) (h_start parser text h)
  | by_next token parser h ih => exact h_next _ (reachable_inv _ _ h).1 ih
  | by_continue token parser fuel text r h ht e ih =>
    have hc := core_inv_set_fragment parser text (reachable_inv _ _ h).1 ht
    have hp := h_frag parser text ht ih
    simp only [jspp_continue] at e
    split at e
    · exact jspp_skip_next_ind P h_next h_skip fuel _ r hc hp e
    · split at e
      · exact skip_composite_ind P h_next h_skip fuel _ r hc hp e
      · have e' : r = jspp_next (set_fragment parser text) := by
          simp only [Option.some.injEq] at e; exact e.symm
        rw [e']
        exact h_next _ hc hp
  | by_skip_next token parser fuel r h e ih =>
    exact jspp_skip_next_ind P h_next h_skip fuel _ r (reachable_inv _ _ h).1 ih e

/-! ### The cell on top of the stack -/

theorem next_parsing_state_ne_too_deep (s : Nat) : next_parsing_state s ≠ JSON_TOO_DEEP := by
  unfold next_parsing_state; split_ifs <;> decide

theorem top_ok_next (q : jspp_t) (hc : core_inv q) (h : top_ok q) : top_ok (jspp_next q).2 := by
  cases jspp_next_case q hc.1 with
  | dead h1 e => rw [e]; exact h
  | terminal h1 hs e => rw [e]; exact h
  | at_end h1 hs hp e => rw [e]; exact h
  | too_deep p1 h1 hs hp hl hpost e =>
    rw [e]
    intro hlt
    have := hpost.2.2.2
    simp only at hlt
    omega
  | complete p1 s1 t1 h1 hs hp hl hpost hf e =>
    obtain ⟨a1, a2, a3, a4, a5⟩ := hpost
    rw [e]
    intro hlt
    rw [get_state_eq _ hlt, complete_token_stack]
    rw [complete_token_level] at hlt ⊢
    by_cases hn : is_nested_level_start s1 = true
    · rw [if_pos hn] at hlt ⊢
      rw [if_pos hn, if_pos ⟨rfl, hlt⟩]
      exact next_parsing_state_ne_too_deep _
    · rw [if_neg hn] at hlt ⊢
      rw [if_neg hn, if_pos ⟨rfl, hlt⟩]
      exact next_parsing_state_ne_too_deep _
  | suspended p1 s1 t1 h1 hs hp hl hpost hf e =>
    obtain ⟨a1, a2, a3, a4, a5⟩ := hpost
    rw [e]
    intro _
    rw [suspend_token_get_state p1 s1 a4]
    intro h5
    rw [h5] at hf
    exact absurd hf (by decide)

theorem top_ok_start (q : jspp_t) (text : List Nat) : top_ok (start_state q text) := by
  intro _
  have : get_state (start_state q text) = EXPECTING_JSON := by
    simp only [start_state, get_state, stack_write_level]
    rw [stack_read_write _ _ _ _ (by decide)]
    rfl
  rw [this]
  decide

theorem reachable_top (token : Nat) (p : jspp_t) (h : Reachable token p) : top_ok p :=
  reachable_ind top_ok (fun q text _ => top_ok_start q text) top_ok_next
    (fun _ _ _ h => h) (fun _ _ _ h => h) token p h

theorem entry_state_top (q : jspp_t) (h : entry_state q) : top_ok q := by
  cases h with
  | of_next token parser h => exact reachable_top _ _ h
  | of_start parser text h => exact top_ok_start parser text
  | of_continue token parser text h ht _ _ =>
    have h1 := reachable_top _ _ h
    exact h1

theorem reachable_calls (n : Nat) (r : Nat × jspp_t) (h : Reachable r.1 r.2) :
    Reachable (calls n r).1 (calls n r).2 := by
  induction n with
  | zero => exact h
  | succ n ih => exact Reachable.by_next _ _ ih

/-- C29 (as amended): a call of `jspp_next` (also the one inside `jspp_start`
and `jspp_continue`) on a parser whose level is inside the stack returns
`JSON_TOO_DEEP` only from level 13 and at a byte a token begins with: `{`, `[`,
but also `"`, `-`, a digit, `n`, `t` or `f`; `token_start` is left at that
byte (behind it for `"`) and the level at `JSON_MAX_STACK`. -/
theorem too_deep_at_token_start (q : jspp_t) (hq : entry_state q)
    (hl : q.level < JSON_MAX_STACK) (ht : (jspp_next q).1 = JSON_TOO_DEEP) :
    ∃ pre c post, q.text.drop (scan_pos q) = pre ++ c :: post
      ∧ starts_value c = true ∧ q.level = 13
      ∧ (jspp_next q).2.level = JSON_MAX_STACK
      ∧ (jspp_next q).2.token_start
        = scan_pos q + pre.length + (if c = 34 then 1 else 0) := by
  have hc := entry_state_inv q hq
  have htop := entry_state_top q hq
  cases jspp_next_case q hc.1 with
  | dead h e => omega
  | terminal h hs e =>
    rw [e] at ht
    exact absurd ht (htop hl)
  | at_end h hs hp e => rw [e] at ht; simp at ht
  | too_deep p1 h hs hp hloop hpost e =>
    obtain ⟨pre, c, post, e1, e2, e3, e4, e5⟩ :=
      scan_loop_too_deep _ q (get_state q) (scan_pos q) p1 hl hloop
    refine ⟨pre, c, post, e1, e2, e3, by rw [e]; exact e4, ?_⟩
    rw [e]
    simp only
    rw [e5]
    have hlen := congrArg List.length e1
    simp only [List.length_drop, List.length_append, List.length_cons] at hlen
    have := hc.1.1
    split <;> omega
  | complete p1 s1 t1 h hs hp hloop hpost hf e =>
    exfalso
    have hk := hpost.2.2.2.2.2.2.2.2.2.2 hf
    rw [e] at ht
    rcases complete_token_fst p1 s1 t1 with h5 | ⟨h5, _⟩
    · rw [h5] at ht
      rw [ht] at hk
      revert hk
      decide
    · rw [h5] at ht
      exact absurd ht (by decide)
  | suspended p1 s1 t1 h hs hp hloop hpost hf e =>
    exfalso
    rw [e] at ht
    have := (suspend_token_fst p1 s1).1
    rw [ht] at this
    exact absurd this (by decide)

theorem too_deep_at_token_start_witness :
    ∃ pre c post,
      (calls 12 (jspp_start jspp_zero (List.replicate 13 91 ++ [45, 49, 93]))).2.text.drop
          (scan_pos (calls 12 (jspp_start jspp_zero (List.replicate 13 91 ++ [45, 49, 93]))).2)
        = pre ++ c :: post
      ∧ starts_value c = true
      ∧ (calls 12 (jspp_start jspp_zero (List.replicate 13 91 ++ [45, 49, 93]))).2.level = 13
      ∧ (jspp_next
          (calls 12 (jspp_start jspp_zero (List.replicate 13 91 ++ [45, 49, 93]))).2).2.level
        = JSON_MAX_STACK
      ∧ (jspp_next
          (calls 12 (jspp_start jspp_zero (List.replicate 13 91 ++ [45, 49, 93]))).2).2.token_start
        = scan_pos (calls 12 (jspp_start jspp_zero (List.replicate 13 91 ++ [45, 49, 93]))).2
          + pre.length + (if c = 34 then 1 else 0) :=
  too_deep_at_token_start
    (calls 12 (jspp_start jspp_zero (List.replicate 13 91 ++ [45, 49, 93]))).2
    (entry_state.of_next _ _ (reachable_calls 12
      (jspp_start jspp_zero (List.replicate 13 91 ++ [45, 49, 93]))
      (Reachable.by_start jspp_zero (List.replicate 13 91 ++ [45, 49, 93]) (by decide))))
    (by decide) (by decide)

/-- C29 (counterexample): `true` inside thirteen arrays. The first thirteen
calls return `JSON_ARRAY_BEGIN`; the fourteenth is the first to return
`JSON_TOO_DEEP`, and the byte it scans, the one `token_start` is left at, is
`t`, the start of a literal, not `{` or `[`. -/
theorem too_deep_at_literal :
    (List.range 13).map
        (fun i => (calls i (jspp_start jspp_zero
          (List.replicate 13 91 ++ [116, 114, 117, 101]))).1)
        = List.replicate 13 JSON_ARRAY_BEGIN
      ∧ (calls 13 (jspp_start jspp_zero
          (List.replicate 13 91 ++ [116, 114, 117, 101]))).1 = JSON_TOO_DEEP
      ∧ (calls 13 (jspp_start jspp_zero
          (List.replicate 13 91 ++ [116, 114, 117, 101]))).2.token_start = 13
      ∧ (List.replicate 13 91 ++ [116, 114, 117, 101]).drop 13 = [116, 114, 117, 101] := by
  decide

/-! ### The bytes between two tokens, and the string or the minus sign behind them -/

theorem parser_state_quiet (s : Nat) (h : __PARSER_STATES ≤ s) :
    (is_token_start s || is_nested_level_start s) = false ∧ is_final s = false := by
  simp [is_token_start, is_nested_level_start, is_final] at h ⊢
  omega

/-- The loop of `jspp_next` over the bytes between two tokens: the level stays,
and the state the scanner is left in is the one stored on top of the stack. -/
theorem scan_between (sep : List Nat) : ∀ (p : jspp_t) (st txt : Nat) (rest : List Nat),
    between st sep = true → p.level < JSON_MAX_STACK →
    (__REDUCING_PARSER_STATES < st → get_state p = st) →
    ∃ p1, scan_loop p st txt (sep ++ rest)
        = scan_loop p1 (scan_states st sep) (txt + sep.length) rest
      ∧ p1.level = p.level ∧ p1.text = p.text
      ∧ (__REDUCING_PARSER_STATES < scan_states st sep → get_state p1 = scan_states st sep) := by
  induction sep with
  | nil =>
    intro p st txt rest _ _ hst
    exact ⟨p, rfl, rfl, rfl, hst⟩
  | cons c sep ih =>
    intro p st txt rest hb hl hst
    simp only [between, Bool.and_eq_true, decide_eq_true_eq] at hb
    obtain ⟨q1, q2⟩ := parser_state_quiet _ hb.1
    have hstep : scan_loop p st txt (c :: (sep ++ rest))
        = scan_loop (if next_scan_state st c > __REDUCING_PARSER_STATES
            then set_state p (next_scan_state st c) else p)
          (next_scan_state st c) (txt + 1) (sep ++ rest) := by
      simp only [scan_loop, q1, q2, Bool.false_eq_true, if_false]
    have hlev : (if next_scan_state st c > __REDUCING_PARSER_STATES
        then set_state p (next_scan_state st c) else p).level = p.level := by
      split <;> simp
    have htext : (if next_scan_state st c > __REDUCING_PARSER_STATES
        then set_state p (next_scan_state st c) else p).text = p.text := by
      split <;> simp
    obtain ⟨p1, e1, e2, e3, e4⟩ := ih _ (next_scan_state st c) (txt + 1) rest hb.2
      (by rw [hlev]; exact hl)
      (by
        intro h
        rw [if_pos h]
        simp only [get_state, set_state, stack_write_level]
        rw [stack_read_write _ _ _ _ hl, if_pos rfl])
    refine ⟨p1, ?_, by rw [e2, hlev], by rw [e3, htext], e4⟩
    rw [List.cons_append, hstep, e1]
    simp only [List.length_cons]
    have : txt + 1 + sep.length = txt + (sep.length + 1) := by omega
    rw [this]
    rfl

theorem in_string_run (tail : List Nat) : ∀ s : Nat, in_string s →
    quiet_run s tail = true → in_string (scan_states s tail) := by
  induction tail with
  | nil => intro s hs _; exact hs
  | cons c tail ih =>
    intro s hs hq
    simp only [quiet_run, Bool.and_eq_true] at hq
    refine ih _ ?_ hq.2
    rcases next_scan_state_table s c with ⟨h1, h2⟩ | h1 | h1
    · unfold in_string at hs
      simp at hs h2
      omega
    · rw [h1] at hq
      exact absurd hq.1 (by decide)
    · exact (by decide : ∀ x ∈ transitions, (STRING_BEGIN ≤ x.1 ∧ x.1 < __STRING_END) →
        quiet x.2 = true → (STRING_BEGIN ≤ x.2 ∧ x.2 < __STRING_END)) _ h1 hs hq.1

theorem string_state_reducing (s : Nat) (h : string_state s) : __REDUCING_PARSER_STATES < s := by
  rcases h with (rfl | rfl | rfl | rfl) | rfl | rfl <;> decide

theorem string_state_start (s : Nat) (h : string_state s) : next_scan_state s 34 = STRING_BEGIN := by
  rcases h with (rfl | rfl | rfl | rfl) | rfl | rfl <;> decide

theorem between_state_gt (st : Nat) (sep : List Nat) (h : between st sep = true)
    (hs : JSON_END < scan_states st sep) : JSON_END < st := by
  cases sep with
  | nil => exact hs
  | cons c sep =>
    simp only [between, Bool.and_eq_true, decide_eq_true_eq] at h
    rcases next_scan_state_table st c with ⟨_, h2⟩ | h1 | h1
    · simp at h2 ⊢; omega
    · rw [h1] at h; exact absurd h.1 (by decide)
    · exact (by decide : ∀ x ∈ transitions, JSON_END < x.1) _ h1

/-- What is common to the calls of C27 and C28: the loop has come to the byte
behind the bytes between the tokens. -/
theorem jspp_next_between (p : jspp_t) (pre sep tail : List Nat)
    (htext : p.text = pre ++ (sep ++ tail)) (hpos : scan_pos p = pre.length)
    (hl : p.level < JSON_MAX_STACK) (hsep : between (get_state p) sep = true)
    (hs : __REDUCING_PARSER_STATES < scan_states (get_state p) sep) (ht : tail ≠ []) :
    ∃ p1, p1.level = p.level ∧ p1.text = p.text
      ∧ get_state p1 = scan_states (get_state p) sep
      ∧ jspp_next p
        = match scan_loop p1 (scan_states (get_state p) sep) (pre.length + sep.length) tail with
          | .too_deep p2 => (JSON_TOO_DEEP, p2)
          | .stopped p2 state1 txt1 =>
            if is_final state1 then complete_token p2 state1 txt1
            else suspend_token p2 state1 := by
  have hgt : JSON_END < get_state p :=
    between_state_gt _ sep hsep (by simp at hs ⊢; omega)
  have hdrop : p.text.drop pre.length = sep ++ tail := by
    rw [htext, List.drop_left]
  obtain ⟨p1, e1, e2, e3, e4⟩ := scan_between sep p (get_state p) pre.length tail hsep
    hl (fun _ => rfl)
  refine ⟨p1, e2, e3, e4 hs, ?_⟩
  rw [jspp_next_scan p hl hgt
    (by
      rw [hpos, htext]
      cases tail with
      | nil => exact absurd rfl ht
      | cons c tail => simp), hpos, hdrop, e1]
  all_goals rfl

/-- C28 (as amended): a `-` where a value may begin, at most 12 levels deep,
followed in the fragment by a byte `d` that is no digit, `.`, `e` or `E`: the
call returns `JSON_INTEGER`, and the token text is the `-` alone, of length
1. -/
theorem bare_minus_is_integer (p : jspp_t) (pre sep : List Nat) (d : Nat) (rest : List Nat)
    (htext : p.text = pre ++ (sep ++ 45 :: d :: rest)) (hlen : p.text.length ≤ 65535)
    (hpos : scan_pos p = pre.length) (hl : p.level ≤ 12)
    (hsep : between (get_state p) sep = true)
    (hs : value_state (scan_states (get_state p) sep))
    (hd : continues_number JSON_INTEGER d = false) :
    (jspp_next p).1 = JSON_INTEGER ∧ jspp_text (jspp_next p).2 = [45]
      ∧ (jspp_next p).2.token_length = 1 := by
  obtain ⟨p1, e1, e2, e3, e4⟩ := jspp_next_between p pre sep (45 :: d :: rest) htext hpos
    (by simp; omega) hsep (string_state_reducing _ (Or.inl hs)) (by simp)
  have hl1 : p1.level ≤ 12 := by rw [e1]; exact hl
  have hlen' : pre.length + sep.length + rest.length + 2 ≤ 65535 := by
    rw [htext] at hlen
    simp only [List.length_append, List.length_cons] at hlen
    omega
  have h0 := number_start _ 45 hs (Or.inl rfl)
  have he := number_state_end JSON_INTEGER NUMBER_BEGIN d (Or.inl ⟨rfl, Or.inl rfl⟩) hd
  have hnext : jspp_next p
      = complete_token (inc_level (set_token_start p1 NUMBER_BEGIN (pre.length + sep.length)))
          JSON_INTEGER (pre.length + sep.length + 1) := by
    rw [e4, scan_start_step p1 _ _ 45 (d :: rest) (by rw [h0]; decide) hl1, h0,
      scan_final_step _ _ _ d rest (by rw [he]; decide) (by rw [he]; decide), he]
    simp only []
    rw [if_pos (by decide)]
  have hts : (inc_level (set_token_start p1 NUMBER_BEGIN (pre.length + sep.length))).token_start
      = pre.length + sep.length := by
    simp only [inc_level_token_start, set_token_start]
    rw [if_neg (by decide)]
    omega
  have h1 : (jspp_next p).2.token_start = pre.length + sep.length := by
    rw [hnext, complete_token_token_start, if_neg (by decide), hts]
  have h2 : (jspp_next p).2.token_length = 1 := by
    rw [hnext, complete_token_token_length _ _ _ (by rw [hts]; omega) (by omega),
      if_neg (by decide), hts]
    have : ends_after JSON_INTEGER = false := by decide
    rw [this]
    simp
  have h3 : (jspp_next p).2.text = p.text := by
    rw [hnext, complete_token_text]
    simp only [inc_level_text, set_token_start_text]
    exact e2
  refine ⟨?_, ?_, h2⟩
  · rw [hnext]
    rcases complete_token_fst (inc_level (set_token_start p1 NUMBER_BEGIN
      (pre.length + sep.length))) JSON_INTEGER (pre.length + sep.length + 1) with h | ⟨_, h⟩
    · exact h
    · exact absurd h (by decide)
  · unfold jspp_text
    rw [h1, h2, h3, htext, ← List.append_assoc, ← List.length_append, List.drop_left]
    rfl

theorem bare_minus_is_integer_witness :
    (jspp_next (jspp_next (jspp_start jspp_zero [91, 49, 44, 32, 45, 93]).2).2).1
        = JSON_INTEGER
      ∧ jspp_text (jspp_next (jspp_next (jspp_start jspp_zero [91, 49, 44, 32, 45, 93]).2).2).2
        = [45]
      ∧ (jspp_next (jspp_next (jspp_start jspp_zero
          [91, 49, 44, 32, 45, 93]).2).2).2.token_length = 1 :=
  bare_minus_is_integer (jspp_next (jspp_start jspp_zero [91, 49, 44, 32, 45, 93]).2).2
    [91, 49] [44, 32] 93 [] (by decide) (by decide) (by decide) (by decide) (by decide)
    (Or.inr (Or.inr (Or.inl (by decide)))) (by decide)

/-- C28 (counterexample): `-]` inside thirteen arrays, a place for an array
element: the call that scans the `-` returns `JSON_TOO_DEEP`, not
`JSON_INTEGER`. -/
theorem bare_minus_at_level_13_too_deep :
    (calls 12 (jspp_start jspp_zero (List.replicate 13 91 ++ [45, 93]))).1 = JSON_ARRAY_BEGIN
      ∧ (calls 12 (jspp_start jspp_zero (List.replicate 13 91 ++ [45, 93]))).2.level = 13
      ∧ get_state (calls 12 (jspp_start jspp_zero (List.replicate 13 91 ++ [45, 93]))).2
        = EXPECTING_ARRAY_ELEMENT_OR_END
      ∧ (calls 13 (jspp_start jspp_zero (List.replicate 13 91 ++ [45, 93]))).1
        = JSON_TOO_DEEP := by
  decide

/-! ### Empty arrays in arrays -/

theorem in_arrays_state (q : jspp_t) (k top j : Nat) (rest : List Nat)
    (h : in_arrays q k top j rest) : get_state q = top := by
  rw [get_state_eq q (by rw [h.level]; exact h.lt), h.level, h.top_eq]

theorem in_arrays_pos (q : jspp_t) (k top j c : Nat) (rest : List Nat)
    (h : in_arrays q k top j (c :: rest)) : scan_pos q ≠ q.text.length := by
  intro hc
  have := h.rest_eq
  rw [← h.pos, hc, List.drop_length] at this
  exact absurd this (by simp)

theorem drop_next (l : List Nat) (j c : Nat) (rest : List Nat) (h : l.drop j = c :: rest) :
    l.drop (j + 1) = rest := by
  have e : l.drop (j + 1) = (l.drop j).drop 1 := by
    simp [List.drop_drop, Nat.add_comm]
  rw [e, h]
  rfl

theorem open_top_step (k : Nat) : next_scan_state (open_top k) 91 = JSON_ARRAY_BEGIN := by
  unfold open_top
  split <;> decide

theorem open_step (q : jspp_t) (k j : Nat) (rest : List Nat)
    (h : in_arrays q k (open_top k) j (91 :: rest)) (hk : k ≤ 12) (hj : j < 65535) :
    (jspp_next q).1 = JSON_ARRAY_BEGIN
      ∧ in_arrays (jspp_next q).2 (k + 1) (open_top (k + 1)) (j + 1) rest := by
  have hst := in_arrays_state q k _ j _ h
  have h91 := open_top_step k
  have hinc : (inc_level (set_token_start q JSON_ARRAY_BEGIN j)).level = k + 1 := by
    simp [inc_level, h.level]
    omega
  have hts : (inc_level (set_token_start q JSON_ARRAY_BEGIN j)).token_start = j := by
    simp only [inc_level_token_start, set_token_start]
    rw [if_neg (by decide)]
    omega
  have hnext : jspp_next q
      = complete_token (inc_level (set_token_start q JSON_ARRAY_BEGIN j)) JSON_ARRAY_BEGIN j := by
    rw [jspp_next_scan q (by rw [h.level]; exact h.lt)
      (by rw [hst]; unfold open_top; split <;> decide) (in_arrays_pos q k _ j 91 rest h),
      hst, h.pos, h.rest_eq]
    simp only [scan_loop, h91]
    rw [if_pos (by decide), if_neg (by rw [hinc]; simp; omega), if_pos (by decide)]
    simp only []
    rw [if_pos (by decide)]
  have hstack : ∀ i, (jspp_next q).2.stack i
      = if i = k + 1 then EXPECTING_ARRAY_ELEMENT_OR_END else q.stack i := by
    intro i
    rw [hnext, complete_token_stack, if_pos (by decide), hinc]
    by_cases hi : i = k + 1
    · rw [if_pos ⟨hi, by simp; omega⟩, if_pos hi]
      decide
    · rw [if_neg (fun hc => hi hc.1), if_neg hi]
      rfl
  refine ⟨?_, ?_, ?_, ?_, ?_, ?_, ?_, ?_⟩
  · rw [hnext]
    rcases complete_token_fst (inc_level (set_token_start q JSON_ARRAY_BEGIN j))
      JSON_ARRAY_BEGIN j with h5 | ⟨_, h5⟩
    · exact h5
    · exact absurd h5 (by decide)
  · rw [hnext, complete_token_level, if_pos (by decide), hinc]
  · simp; omega
  · rw [hstack, if_pos rfl]
    unfold open_top
    rw [if_neg (by omega)]
  · intro _
    rw [hstack, if_neg (by omega)]
    by_cases h0 : 0 < k
    · exact h.root h0
    · have hk0 : k = 0 := by omega
      have := h.top_eq
      rw [hk0] at this
      rw [this]
      rfl
  · intro i hi1 hi2
    rw [hstack, if_neg (by omega)]
    by_cases hik : i = k
    · rw [hik, h.top_eq]
      unfold open_top
      rw [if_neg (by omega)]
    · exact h.cells i hi1 (by omega)
  · rw [hnext, complete_token_scan_pos _ _ _ (by rw [hts]) hj, if_pos (Or.inl (by decide))]
  · rw [hnext, complete_token_text]
    exact drop_next _ _ _ _ h.rest_eq

theorem deep_step (q : jspp_t) (j : Nat) (rest : List Nat)
    (h : in_arrays q 13 (open_top 13) j (91 :: rest)) : (jspp_next q).1 = JSON_TOO_DEEP := by
  have hst := in_arrays_state q 13 _ j _ h
  have h91 := open_top_step 13
  rw [jspp_next_scan q (by rw [h.level]; exact h.lt)
    (by rw [hst]; decide) (in_arrays_pos q 13 _ j 91 rest h), hst, h.pos, h.rest_eq]
  simp only [scan_loop, h91]
  rw [if_pos (by decide), if_pos (by simp [inc_level, h.level])]

theorem close_step (q : jspp_t) (k top j : Nat) (rest : List Nat)
    (h : in_arrays q (k + 1) top j (93 :: rest))
    (htop : top = EXPECTING_ARRAY_ELEMENT_OR_END ∨ top = EXPECTING_ARRAY_TAIL)
    (hj : j < 65535) :
    (jspp_next q).1 = JSON_ARRAY_END ∧ in_arrays (jspp_next q).2 k (close_top k) (j + 1) rest := by
  have hst := in_arrays_state q (k + 1) _ j _ h
  have h93 : next_scan_state top 93 = JSON_ARRAY_END := by
    rcases htop with rfl | rfl <;> decide
  have hlt := h.lt
  have hnext : jspp_next q = complete_token q JSON_ARRAY_END j := by
    rw [jspp_next_scan q (by rw [h.level]; exact h.lt)
      (by rw [hst]; rcases htop with rfl | rfl <;> decide)
      (in_arrays_pos q (k + 1) _ j 93 rest h), hst, h.pos, h.rest_eq,
      scan_final_step q top j 93 rest (by rw [h93]; decide) (by rw [h93]; decide), h93]
    simp only []
    rw [if_pos (by decide)]
  have hdec : (q.level + 255) % 256 = k := by
    rw [h.level]
    simp at hlt
    omega
  have hbelow : q.stack k = open_top k := by
    unfold open_top
    by_cases h0 : k = 0
    · rw [if_pos h0, h0]
      exact h.root (by omega)
    · rw [if_neg h0]
      exact h.cells k (by omega) (by omega)
  have hstack : ∀ i, (jspp_next q).2.stack i = if i = k then close_top k else q.stack i := by
    intro i
    rw [hnext, complete_token_stack, if_neg (by decide), hdec]
    have hr : stack_read (dec_level q) k = open_top k := by
      simp only [stack_read, dec_level_stack]
      rw [if_pos (by simp at hlt ⊢; omega), hbelow]
    by_cases hi : i = k
    · rw [if_pos ⟨hi, by simp at hlt ⊢; omega⟩, if_pos hi, hr]
      unfold open_top close_top
      split <;> decide
    · rw [if_neg (fun hc => hi hc.1), if_neg hi]
  refine ⟨?_, ?_, ?_, ?_, ?_, ?_, ?_, ?_⟩
  · rw [hnext]
    rcases complete_token_fst q JSON_ARRAY_END j with h5 | ⟨_, h5⟩
    · exact h5
    · exact absurd h5 (by decide)
  · rw [hnext, complete_token_level, if_neg (by decide), hdec]
  · simp at hlt ⊢; omega
  · rw [hstack, if_pos rfl]
  · intro h0
    rw [hstack, if_neg (by omega)]
    exact h.root (by omega)
  · intro i hi1 hi2
    rw [hstack, if_neg (by omega)]
    exact h.cells i hi1 (by omega)
  · rw [hnext, complete_token_scan_pos _ _ _ (by rw [← h.pos]; exact token_start_le_scan_pos q) hj,
      if_pos (Or.inl (by decide))]
  · rw [hnext, complete_token_text]
    exact drop_next _ _ _ _ h.rest_eq

theorem in_arrays_start (parser : jspp_t) (text : List Nat) :
    in_arrays (start_state parser text) 0 (open_top 0) 0 text := by
  have hs : (start_state parser text).stack 0 = EXPECTING_JSON := by
    simp only [start_state]
    rw [stack_write_stack _ _ _ _ (by decide), if_pos rfl]
  refine ⟨?_, by decide, hs, fun h => absurd h (by decide), fun i h1 h2 => by omega, ?_, ?_⟩
  · simp [start_state]
  · simp [scan_pos, start_state, set_fragment]
  · simp [start_state, set_fragment]

theorem opens (m : Nat) : ∀ (q : jspp_t) (t k j : Nat) (rest : List Nat),
    in_arrays q k (open_top k) j (List.replicate m 91 ++ rest) → k + m ≤ 13 →
    j + m ≤ 65535 →
    (∀ i, i < m → (calls (i + 1) (t, q)).1 = JSON_ARRAY_BEGIN)
      ∧ in_arrays (calls m (t, q)).2 (k + m) (open_top (k + m)) (j + m) rest := by
  induction m with
  | zero =>
    intro q t k j rest h _ _
    exact ⟨fun i hi => absurd hi (by omega), h⟩
  | succ m ih =>
    intro q t k j rest h hk hj
    have h1 : in_arrays q k (open_top k) j (List.replicate m 91 ++ (91 :: rest)) := by
      rw [List.replicate_succ', List.append_assoc] at h
      exact h
    obtain ⟨a1, a2⟩ := ih q t k j (91 :: rest) h1 (by omega) (by omega)
    obtain ⟨b1, b2⟩ := open_step _ (k + m) (j + m) rest a2 (by omega) (by omega)
    refine ⟨fun i hi => ?_, b2⟩
    by_cases him : i < m
    · exact a1 i him
    · have e : i = m := by omega
      rw [e]
      exact b1

theorem closes (m : Nat) : ∀ (q : jspp_t) (t d top j : Nat) (rest : List Nat),
    in_arrays q d top j (List.replicate m 93 ++ rest) →
    (top = EXPECTING_ARRAY_ELEMENT_OR_END ∨ top = EXPECTING_ARRAY_TAIL) → m ≤ d →
    j + m ≤ 65535 →
    (∀ i, i < m → (calls (i + 1) (t, q)).1 = JSON_ARRAY_END)
      ∧ in_arrays (calls m (t, q)).2 (d - m) (if m = 0 then top else close_top (d - m))
          (j + m) rest := by
  induction m with
  | zero =>
    intro q t d top j rest h _ _ _
    exact ⟨fun i hi => absurd hi (by omega), h⟩
  | succ m ih =>
    intro q t d top j rest h htop hd hj
    have h1 : in_arrays q d top j (List.replicate m 93 ++ (93 :: rest)) := by
      rw [List.replicate_succ', List.append_assoc] at h
      exact h
    obtain ⟨a1, a2⟩ := ih q t d top j (93 :: rest) h1 htop (by omega) (by omega)
    have e : d - m = d - (m + 1) + 1 := by omega
    rw [e] at a2
    have htop1 : (if m = 0 then top else close_top (d - (m + 1) + 1))
        = EXPECTING_ARRAY_ELEMENT_OR_END
        ∨ (if m = 0 then top else close_top (d - (m + 1) + 1)) = EXPECTING_ARRAY_TAIL := by
      by_cases hm : m = 0
      · rw [if_pos hm]; exact htop
      · rw [if_neg hm]
        right
        unfold close_top
        rw [if_neg (by omega)]
    obtain ⟨b1, b2⟩ := close_step _ (d - (m + 1)) _ (j + m) rest a2 htop1 (by omega)
    refine ⟨fun i hi => ?_, ?_⟩
    · by_cases him : i < m
      · exact a1 i him
      · have e1 : i = m := by omega
        rw [e1]
        exact b1
    · rw [if_neg (by omega)]
      exact b2

theorem brackets_deep (n : Nat) (h : 14 ≤ n) :
    brackets n = List.replicate 13 91 ++ (91 :: (List.replicate (n - 14) 91
      ++ List.replicate n 93)) := by
  obtain ⟨m, rfl⟩ : ∃ m, n = 13 + (1 + m) := ⟨n - 14, by omega⟩
  unfold brackets
  rw [List.replicate_add, List.replicate_add]
  have : 13 + (1 + m) - 14 = m := by omega
  rw [this]
  simp

/-- C30: the fragment of `n` bytes `[` and `n` bytes `]`. For `1 ≤ n ≤ 13`
the first `n` calls (`jspp_start` and `n - 1` times `jspp_next`) return
`JSON_ARRAY_BEGIN`, the next `n` calls return `JSON_ARRAY_END` and the call
after them returns `JSON_END`. For `n ≥ 14` the first 13 calls return
`JSON_ARRAY_BEGIN` and the fourteenth returns `JSON_TOO_DEEP`. -/
theorem empty_arrays_threshold (parser : jspp_t) (n : Nat) :
    (1 ≤ n → n ≤ 13 →
      (∀ i, i < n → (calls i (jspp_start parser (brackets n))).1 = JSON_ARRAY_BEGIN)
        ∧ (∀ i, n ≤ i → i < 2 * n →
            (calls i (jspp_start parser (brackets n))).1 = JSON_ARRAY_END)
        ∧ (calls (2 * n) (jspp_start parser (brackets n))).1 = JSON_END)
      ∧ (14 ≤ n →
        (∀ i, i < 13 → (calls i (jspp_start parser (brackets n))).1 = JSON_ARRAY_BEGIN)
          ∧ (calls 13 (jspp_start parser (brackets n))).1 = JSON_TOO_DEEP) := by
  have h0 := in_arrays_start parser (brackets n)
  constructor
  · intro h1 h13
    have h0' : in_arrays (start_state parser (brackets n)) 0 (open_top 0) 0
        (List.replicate n 91 ++ List.replicate n 93) := h0
    obtain ⟨a1, a2⟩ := opens n _ 0 0 0 _ h0' (by omega) (by omega)
    rw [Nat.zero_add] at a2
    have a2' : in_arrays (calls n (0, start_state parser (brackets n))).2 n (open_top n) n
        (List.replicate n 93 ++ []) := by
      rw [List.append_nil]; exact a2
    obtain ⟨c1, c2⟩ := closes n _ 0 n _ n [] a2'
      (Or.inl (by unfold open_top; rw [if_neg (by omega)])) (le_refl _) (by omega)
    rw [if_neg (by omega), Nat.sub_self] at c2
    refine ⟨fun i hi => ?_, fun i hi1 hi2 => ?_, ?_⟩
    · rw [calls_start]
      exact a1 i hi
    · rw [calls_start]
      have e : i + 1 = n + ((i - n) + 1) := by omega
      rw [e, ← calls_from]
      exact c1 (i - n) (by omega)
    · rw [calls_start]
      have e : 2 * n = n + ((n - 1) + 1) := by omega
      have e1 : (calls (2 * n) (0, start_state parser (brackets n))).2
          = (calls n (0, (calls n (0, start_state parser (brackets n))).2)).2 := by
        rw [e, ← calls_from]
        have : n - 1 + 1 = n := by omega
        rw [this]
      show (jspp_next (calls (2 * n) (0, start_state parser (brackets n))).2).1 = JSON_END
      rw [e1, jspp_next_terminal_state _ (by rw [c2.level]; decide)
        (by rw [in_arrays_state _ _ _ _ _ c2]; decide), in_arrays_state _ _ _ _ _ c2]
      rfl
  · intro h14
    rw [brackets_deep n h14] at h0
    obtain ⟨a1, a2⟩ := opens 13 _ 0 0 0 _ h0 (by omega) (by omega)
    refine ⟨fun i hi => ?_, ?_⟩
    · rw [calls_start, brackets_deep n h14]
      exact a1 i hi
    · rw [calls_start, brackets_deep n h14]
      exact deep_step _ _ _ a2

theorem empty_arrays_threshold_witness :
    ((calls 0 (jspp_start jspp_zero (brackets 2))).1 = JSON_ARRAY_BEGIN
        ∧ (calls 1 (jspp_start jspp_zero (brackets 2))).1 = JSON_ARRAY_BEGIN
        ∧ (calls 2 (jspp_start jspp_zero (brackets 2))).1 = JSON_ARRAY_END
        ∧ (calls 3 (jspp_start jspp_zero (brackets 2))).1 = JSON_ARRAY_END
        ∧ (calls (2 * 2) (jspp_start jspp_zero (brackets 2))).1 = JSON_END)
      ∧ (calls 12 (jspp_start jspp_zero (brackets 14))).1 = JSON_ARRAY_BEGIN
      ∧ (calls 13 (jspp_start jspp_zero (brackets 14))).1 = JSON_TOO_DEEP :=
  ⟨⟨((empty_arrays_threshold jspp_zero 2).1 (by decide) (by decide)).1 0 (by decide),
    ((empty_arrays_threshold jspp_zero 2).1 (by decide) (by decide)).1 1 (by decide),
    ((empty_arrays_threshold jspp_zero 2).1 (by decide) (by decide)).2.1 2 (by decide)
      (by decide),
    ((empty_arrays_threshold jspp_zero 2).1 (by decide) (by decide)).2.1 3 (by decide)
      (by decide),
    ((empty_arrays_threshold jspp_zero 2).1 (by decide) (by decide)).2.2⟩,
   ((empty_arrays_threshold jspp_zero 14).2 (by decide)).1 12 (by decide),
   ((empty_arrays_threshold jspp_zero 14).2 (by decide)).2⟩

/-! ### What a call depends on: the cells of the stack up to the level -/

theorem agree_mono (n m : Nat) (s u : Nat → Nat) (h : agree n s u) (hm : m ≤ n) : agree m s u :=
  fun i hi => h i (by omega)

theorem stack_write_with_stack (p : jspp_t) (u : Nat → Nat) (i v : Nat) :
    stack_write (with_stack p u) i v
      = with_stack (stack_write p i v) (stack_write (with_stack p u) i v).stack := by
  unfold stack_write with_stack
  split <;> rfl

theorem set_state_agree (a : jspp_t) (u : Nat → Nat) (v : Nat) (hl : a.level < JSON_MAX_STACK)
    (h : agree a.level a.stack u) :
    agree (a.level + 1) (set_state a v).stack (set_state (with_stack a u) v).stack := by
  intro i hi
  simp only [set_state]
  have e : (with_stack a u).level = a.level := rfl
  rw [e, stack_write_stack _ _ _ _ hl, stack_write_stack _ _ _ _ hl]
  by_cases hi1 : i = a.level
  · rw [if_pos hi1, if_pos hi1]
  · rw [if_neg hi1, if_neg hi1]
    exact h i (by omega)

theorem set_state_alike (a : jspp_t) (u : Nat → Nat) (v : Nat)
    (h : a.level < JSON_MAX_STACK → agree a.level a.stack u) :
    alike (set_state a v) (set_state (with_stack a u) v) := by
  refine ⟨(set_state (with_stack a u) v).stack, stack_write_with_stack a u a.level v, ?_⟩
  intro hl
  rw [set_state_level] at hl ⊢
  exact set_state_agree a u v hl (h hl)

theorem get_state_with_stack (a : jspp_t) (u : Nat → Nat)
    (h : a.level < JSON_MAX_STACK → a.stack a.level = u a.level) :
    get_state (with_stack a u) = get_state a := by
  simp only [get_state, stack_read, with_stack]
  split
  · rename_i hl
    exact (h hl).symm
  · rfl

/-- The loop of `jspp_next` reads no cell of the stack, and writes the cell at
the level before the level goes up. -/
theorem same_loop (rest : List Nat) : ∀ (p : jspp_t) (u : Nat → Nat) (state txt : Nat),
    p.level < JSON_MAX_STACK → agree p.level p.stack u →
    (__PARSER_STATES ≤ state → agree (p.level + 1) p.stack u) →
    same_result (scan_loop p state txt rest) (scan_loop (with_stack p u) state txt rest) := by
  induction rest with
  | nil =>
    intro p u state txt hl ha _
    exact ⟨rfl, rfl, hl, u, rfl, ha⟩
  | cons c rest ih =>
    intro p u state txt hl ha hp
    obtain ⟨f1, f2, f3, f4, f5⟩ := step_kinds state c
    have hinc : (inc_level (set_token_start p (next_scan_state state c) txt)).level
        = p.level + 1 := by
      simp [inc_level]
      simp at hl
      omega
    have hw : inc_level (set_token_start (with_stack p u) (next_scan_state state c) txt)
        = with_stack (inc_level (set_token_start p (next_scan_state state c) txt)) u := rfl
    simp only [scan_loop]
    by_cases hs : (is_token_start (next_scan_state state c)
        || is_nested_level_start (next_scan_state state c)) = true
    · rw [if_pos hs, if_pos hs, hw]
      obtain ⟨g1, g2⟩ := f5 hs
      have hw2 : (with_stack (inc_level (set_token_start p (next_scan_state state c) txt)) u).level
          = (inc_level (set_token_start p (next_scan_state state c) txt)).level := rfl
      rw [hw2]
      by_cases hd : (inc_level (set_token_start p (next_scan_state state c) txt)).level
          = JSON_MAX_STACK
      · rw [if_pos hd, if_pos hd]
        exact ⟨hd, u, rfl⟩
      · rw [if_neg hd, if_neg hd]
        have hl2 : (inc_level (set_token_start p (next_scan_state state c) txt)).level
            < JSON_MAX_STACK := by
          rw [hinc] at hd ⊢
          simp at hd hl ⊢
          omega
        have ha2 : agree (inc_level (set_token_start p (next_scan_state state c) txt)).level
            (inc_level (set_token_start p (next_scan_state state c) txt)).stack u := by
          rw [hinc]
          exact hp g1
        by_cases hf : is_final (next_scan_state state c) = true
        · rw [if_pos hf, if_pos hf]
          exact ⟨rfl, rfl, hl2, u, rfl, ha2⟩
        · rw [if_neg hf, if_neg hf]
          have hf1 : is_final (next_scan_state state c) = false := by simpa using hf
          exact ih _ u _ _ hl2 ha2 (fun h => by have := g2 hf1; omega)
    · rw [if_neg hs, if_neg hs]
      by_cases hr : next_scan_state state c > __REDUCING_PARSER_STATES
      · rw [if_pos hr, if_pos hr]
        have hnf : ¬ is_final (next_scan_state state c) = true := by
          simp [is_final] at hr ⊢
          omega
        rw [if_neg hnf, if_neg hnf]
        have e := stack_write_with_stack p u p.level (next_scan_state state c)
        have e1 : set_state (with_stack p u) (next_scan_state state c)
            = with_stack (set_state p (next_scan_state state c))
                (set_state (with_stack p u) (next_scan_state state c)).stack := e
        rw [e1]
        have hag := set_state_agree p u (next_scan_state state c) hl ha
        exact ih _ _ _ _ (by rw [set_state_level]; exact hl)
          (by rw [set_state_level]; exact agree_mono _ _ _ _ hag (by omega))
          (fun _ => by rw [set_state_level]; exact hag)
      · rw [if_neg hr, if_neg hr]
        by_cases hf : is_final (next_scan_state state c) = true
        · rw [if_pos hf, if_pos hf]
          exact ⟨rfl, rfl, hl, u, rfl, ha⟩
        · rw [if_neg hf, if_neg hf]
          have hf1 : is_final (next_scan_state state c) = false := by simpa using hf
          exact ih _ u _ _ hl ha (fun h => hp (f1 h hf1))

theorem jspp_next_dead (p : jspp_t) (h : JSON_MAX_STACK ≤ p.level) :
    jspp_next p = (JSON_TOO_DEEP, p) := by
  unfold jspp_next
  rw [if_pos h]

theorem alike_fields (p : jspp_t) (u : Nat → Nat) :
    (with_stack p u).text = p.text ∧ (with_stack p u).token_start = p.token_start
      ∧ (with_stack p u).token_length = p.token_length ∧ (with_stack p u).token = p.token
      ∧ (with_stack p u).skip_token = p.skip_token ∧ (with_stack p u).skip_level = p.skip_level
      ∧ (with_stack p u).level = p.level ∧ scan_pos (with_stack p u) = scan_pos p
      ∧ jspp_text (with_stack p u) = jspp_text p :=
  ⟨rfl, rfl, rfl, rfl, rfl, rfl, rfl, rfl, rfl⟩

theorem same_complete (a : jspp_t) (u : Nat → Nat) (s t : Nat) (hl : a.level < JSON_MAX_STACK)
    (h : agree a.level a.stack u) :
    (complete_token (with_stack a u) s t).1 = (complete_token a s t).1
      ∧ alike (complete_token a s t).2 (complete_token (with_stack a u) s t).2 := by
  have hw : set_token_end (if s = JSON_ARRAY_END ∨ s = JSON_OBJECT_END
        then set_token_start (with_stack a u) s t else with_stack a u) s t
      = with_stack (set_token_end (if s = JSON_ARRAY_END ∨ s = JSON_OBJECT_END
        then set_token_start a s t else a) s t) u := by
    split <;> rfl
  have hlev : (set_token_end (if s = JSON_ARRAY_END ∨ s = JSON_OBJECT_END
        then set_token_start a s t else a) s t).level = a.level := by
    split <;> rfl
  have hstk : (set_token_end (if s = JSON_ARRAY_END ∨ s = JSON_OBJECT_END
        then set_token_start a s t else a) s t).stack = a.stack := by
    split <;> rfl
  unfold complete_token
  dsimp only
  rw [hw]
  generalize hb : set_token_end (if s = JSON_ARRAY_END ∨ s = JSON_OBJECT_END
        then set_token_start a s t else a) s t = b at hlev hstk
  by_cases hn : is_nested_level_start s = true
  · rw [if_pos hn, if_pos hn]
    exact ⟨rfl, set_state_alike b u _ (fun _ => by rw [hlev, hstk]; exact h)⟩
  · rw [if_neg hn, if_neg hn]
    have hd : dec_level (with_stack b u) = with_stack (dec_level b) u := rfl
    rw [hd]
    have hdl : (dec_level b).level = (a.level + 255) % 256 := by
      simp only [dec_level, hlev]
    have hag : (dec_level b).level < JSON_MAX_STACK →
        agree ((dec_level b).level + 1) (dec_level b).stack u := by
      intro hlt
      rw [hdl] at hlt ⊢
      rw [dec_level_stack, hstk]
      simp at hlt hl
      exact agree_mono _ _ _ _ h (by omega)
    have hg : get_state (with_stack (dec_level b) u) = get_state (dec_level b) :=
      get_state_with_stack _ _ (fun hlt => hag hlt _ (by omega))
    rw [hg]
    exact ⟨rfl, set_state_alike _ u _
      (fun hlt => agree_mono _ _ _ _ (hag hlt) (by omega))⟩

theorem same_suspend (a : jspp_t) (u : Nat → Nat) (s : Nat) (hl : a.level < JSON_MAX_STACK)
    (h : agree a.level a.stack u) :
    (suspend_token (with_stack a u) s).1 = (suspend_token a s).1
      ∧ alike (suspend_token a s).2 (suspend_token (with_stack a u) s).2 := by
  have hal := set_state_alike a u s (fun _ => h)
  obtain ⟨v, hv, hag⟩ := hal
  have hag1 := hag (by rw [set_state_level]; exact hl)
  rw [set_state_level] at hag1
  constructor
  · unfold suspend_token
    dsimp only
    rw [hv]
    have e1 : (set_token_end (with_stack (set_state a s) v) s
        (with_stack a u).text_length).level = a.level := by
      show (set_state a s).level = a.level
      simp
    have e2 : (set_token_end (set_state a s) s a.text_length).level = a.level := by simp
    have e3 : ∀ i, i < a.level →
        stack_read (set_token_end (with_stack (set_state a s) v) s
          (with_stack a u).text_length) i
          = stack_read (set_token_end (set_state a s) s a.text_length) i := by
      intro i hi
      show (if i < JSON_MAX_STACK then v i else 0)
        = if i < JSON_MAX_STACK then (set_state a s).stack i else 0
      rw [hag1 i (by omega)]
    rw [e1, e2]
    by_cases hz : a.level = 0
    · simp only [hz, if_true]
      split_ifs <;> rfl
    · simp only [hz, if_false]
      rw [e3 _ (by omega)]
      split_ifs <;> rfl
  · rw [suspend_token_snd, suspend_token_snd, hv]
    exact ⟨v, rfl, fun hlt => by
      simp only [set_token_end_level, set_state_level] at hlt ⊢
      exact hag1⟩

/-- A call of `jspp_next` on two parsers that differ at most in the cells above
the level returns the same token and leaves two such parsers. -/
theorem alike_next (p q : jspp_t) (h : alike p q) :
    (jspp_next q).1 = (jspp_next p).1 ∧ alike (jspp_next p).2 (jspp_next q).2 := by
  obtain ⟨u, rfl, hu⟩ := h
  by_cases hl : JSON_MAX_STACK ≤ p.level
  · rw [jspp_next_dead p hl, jspp_next_dead (with_stack p u) hl]
    exact ⟨rfl, u, rfl, hu⟩
  · have hlt : p.level < JSON_MAX_STACK := by omega
    have hg : get_state (with_stack p u) = get_state p :=
      get_state_with_stack _ _ (fun _ => hu hlt _ (by omega))
    by_cases hs : get_state p ≤ JSON_END
    · rw [jspp_next_terminal_state p hlt hs,
        jspp_next_terminal_state (with_stack p u) hlt (by rw [hg]; exact hs), hg]
      exact ⟨rfl, u, rfl, hu⟩
    · have hs1 : JSON_END < get_state p := by omega
      by_cases hp : scan_pos p = p.text.length
      · rw [jspp_next_at_end p ⟨hlt, hs1, hp⟩,
          jspp_next_at_end (with_stack p u) ⟨hlt, by rw [hg]; exact hs1, hp⟩]
        exact ⟨rfl, u, rfl, hu⟩
      · rw [jspp_next_scan p hlt hs1 hp,
          jspp_next_scan (with_stack p u) hlt (by rw [hg]; exact hs1) hp, hg]
        have hloop := same_loop (p.text.drop (scan_pos p)) p u (get_state p) (scan_pos p) hlt
          (agree_mono _ _ _ _ (hu hlt) (by omega)) (fun _ => hu hlt)
        have e1 : (with_stack p u).text = p.text := rfl
        have e2 : scan_pos (with_stack p u) = scan_pos p := rfl
        rw [e1, e2]
        generalize scan_loop p (get_state p) (scan_pos p) (p.text.drop (scan_pos p)) = r1
          at hloop
        generalize scan_loop (with_stack p u) (get_state p) (scan_pos p)
          (p.text.drop (scan_pos p)) = r2 at hloop
        cases r1 with
        | too_deep a =>
          cases r2 with
          | too_deep b =>
            obtain ⟨h1, v, hv⟩ := hloop
            exact ⟨rfl, v, hv, fun hc => by simp only at hc; omega⟩
          | stopped b s1 t1 => exact absurd hloop (by simp [same_result])
        | stopped a s t =>
          cases r2 with
          | too_deep b => exact absurd hloop (by simp [same_result])
          | stopped b s1 t1 =>
            obtain ⟨h1, h2, h3, v, hv, hag⟩ := hloop
            rw [h1, h2, hv]
            simp only
            by_cases hf : is_final s = true
            · rw [if_pos hf, if_pos hf]
              exact same_complete a v s t h3 hag
            · rw [if_neg hf, if_neg hf]
              exact same_suspend a v s h3 hag

theorem alike_next_eq (p q : jspp_t) (h : alike p q) :
    ∃ u, jspp_next q = ((jspp_next p).1, with_stack (jspp_next p).2 u)
      ∧ ((jspp_next p).2.level < JSON_MAX_STACK →
          agree ((jspp_next p).2.level + 1) (jspp_next p).2.stack u) := by
  obtain ⟨h1, u, h2, h3⟩ := alike_next p q h
  exact ⟨u, Prod.ext h1 h2, h3⟩

theorem alike_skip (p : jspp_t) (u : Nat → Nat) (a b : Nat)
    (h : p.level < JSON_MAX_STACK → agree (p.level + 1) p.stack u) :
    alike { p with skip_token := a, skip_level := b }
      { with_stack p u with skip_token := a, skip_level := b } :=
  ⟨u, rfl, h⟩

theorem same_skip_composite (fuel : Nat) : ∀ (p q : jspp_t), alike p q →
    same_outcome (skip_composite fuel p) (skip_composite fuel q) := by
  induction fuel with
  | zero => intro p q _; exact trivial
  | succ n ih =>
    intro p q h
    obtain ⟨u, e, hu⟩ := alike_next_eq p q h
    simp only [skip_composite]
    rw [e]
    have f1 : (with_stack (jspp_next p).2 u).skip_token = (jspp_next p).2.skip_token := rfl
    have f2 : (with_stack (jspp_next p).2 u).skip_level = (jspp_next p).2.skip_level := rfl
    have f3 : (with_stack (jspp_next p).2 u).level = (jspp_next p).2.level := rfl
    simp only [f1, f2, f3]
    split
    · split
      · exact ⟨rfl, u, rfl, hu⟩
      · exact ih _ _ ⟨u, rfl, hu⟩
    · have := alike_next _ _ (alike_skip (jspp_next p).2 u 0 (jspp_next p).2.skip_level hu)
      exact this

theorem same_skip_next (fuel : Nat) : ∀ (p q : jspp_t), alike p q →
    same_outcome (jspp_skip_next fuel p) (jspp_skip_next fuel q) := by
  induction fuel with
  | zero => intro p q _; exact trivial
  | succ n ih =>
    intro p q h
    obtain ⟨u, e, hu⟩ := alike_next_eq p q h
    simp only [jspp_skip_next]
    rw [e]
    have f3 : (with_stack (jspp_next p).2 u).level = (jspp_next p).2.level := rfl
    simp only [f3]
    split
    · exact ⟨rfl, alike_skip (jspp_next p).2 u 0 (jspp_next p).2.skip_level hu⟩
    · split
      · exact ⟨rfl, alike_skip (jspp_next p).2 u JSON_CONTINUE (jspp_next p).2.level hu⟩
      · split
        · exact ih _ _ ⟨u, rfl, hu⟩
        · split
          · exact same_skip_composite n _ _ (alike_skip (jspp_next p).2 u JSON_ARRAY_END
              (((jspp_next p).2.level + 255) % 256) hu)
          · split
            · exact same_skip_composite n _ _ (alike_skip (jspp_next p).2 u JSON_OBJECT_END
                (((jspp_next p).2.level + 255) % 256) hu)
            · split
              · exact ⟨rfl, alike_skip (jspp_next p).2 u 0 (jspp_next p).2.skip_level hu⟩
              · exact alike_next _ _
                  (alike_skip (jspp_next p).2 u 0 (jspp_next p).2.skip_level hu)

theorem same_continue (fuel : Nat) (p q : jspp_t) (text : List Nat) (h : alike p q) :
    same_outcome (jspp_continue fuel p text) (jspp_continue fuel q text) := by
  obtain ⟨u, rfl, hu⟩ := h
  have ha : alike (set_fragment p text) (set_fragment (with_stack p u) text) := ⟨u, rfl, hu⟩
  simp only [jspp_continue]
  have f1 : (set_fragment (with_stack p u) text).skip_token
      = (set_fragment p text).skip_token := rfl
  rw [f1]
  split
  · exact same_skip_next fuel _ _ ha
  · split
    · exact same_skip_composite fuel _ _ ha
    · exact alike_next _ _ ha

theorem same_perform (fuel : Nat) (p q : jspp_t) (c : call) (h : alike p q) :
    same_outcome (perform fuel p c) (perform fuel q c) := by
  cases c with
  | next_token => exact alike_next p q h
  | more text => exact same_continue fuel p q text h
  | skip => exact same_skip_next fuel p q h

theorem alike_text (p q : jspp_t) (h : alike p q) : jspp_text q = jspp_text p := by
  obtain ⟨u, rfl, _⟩ := h
  rfl

theorem same_observe (fuel : Nat) (cs : List call) : ∀ (p q : jspp_t), alike p q →
    observe fuel q cs = observe fuel p cs := by
  induction cs with
  | nil => intro p q _; rfl
  | cons c cs ih =>
    intro p q h
    have hp := same_perform fuel p q c h
    simp only [observe]
    generalize perform fuel p c = r1 at hp
    generalize perform fuel q c = r2 at hp
    cases r1 with
    | none =>
      cases r2 with
      | none => rfl
      | some b => exact absurd hp (by simp [same_outcome])
    | some a =>
      cases r2 with
      | none => exact absurd hp (by simp [same_outcome])
      | some b =>
        obtain ⟨h1, h2⟩ := hp
        simp only
        rw [ih _ _ h2, h1, alike_text _ _ h2]

theorem alike_start (first second : jspp_t) (text : List Nat) :
    alike (start_state first text) (start_state second text) := by
  refine ⟨(start_state second text).stack, ?_, ?_⟩
  · simp [start_state, set_fragment, stack_write, with_stack]
  · intro _ i hi
    have hl : (start_state first text).level = 0 := by simp [start_state]
    rw [hl] at hi
    have hi0 : i = 0 := by omega
    rw [hi0]
    simp only [start_state]
    rw [stack_write_stack _ _ _ _ (by decide), stack_write_stack _ _ _ _ (by decide),
      if_pos rfl, if_pos rfl]

/-- C25: `jspp_start` re-initialises the parser. Whatever the parser struct
holds before (`first` and `second` are any two contents), `jspp_start` on the
same fragment followed by the same sequence of calls of `jspp_next`,
`jspp_continue` and `jspp_skip_next` returns the same tokens with the same
token texts, and the same calls fail to return. -/
theorem start_reinitialises (fuel : Nat) (first second : jspp_t) (text : List Nat)
    (cs : List call) : session fuel first text cs = session fuel second text cs := by
  have h := alike_next _ _ (alike_start first second text)
  unfold session jspp_start
  rw [same_observe fuel cs _ _ h.2, h.1, alike_text _ _ h.2]

/-! ### Whitespace in front of a fragment -/

theorem moved_stack_write (W : List Nat) (ts : Nat) (p : jspp_t) (i v : Nat) :
    stack_write (moved W ts p) i v = moved W ts (stack_write p i v) := by
  unfold stack_write moved
  split <;> rfl

theorem moved_set_state (W : List Nat) (ts : Nat) (p : jspp_t) (v : Nat) :
    set_state (moved W ts p) v = moved W ts (set_state p v) :=
  moved_stack_write W ts p p.level v

theorem moved_set_token_start (W : List Nat) (ts : Nat) (p : jspp_t) (s t : Nat)
    (h : t + 1 + W.length ≤ 65535) :
    set_token_start (moved W ts p) s (t + W.length)
      = moved W ((set_token_start p s t).token_start + W.length) (set_token_start p s t) := by
  simp only [set_token_start, moved, jspp_t.mk.injEq, true_and, and_true]
  split <;> omega

theorem moved_set_token_end (W : List Nat) (p : jspp_t) (s t : Nat)
    (h : p.token_start + W.length < 65536) :
    set_token_end (moved W (p.token_start + W.length) p) s (t + W.length)
      = moved W (p.token_start + W.length) (set_token_end p s t) := by
  simp only [set_token_end, moved, jspp_t.mk.injEq, true_and, and_true]
  split <;> omega

/-- The loop of `jspp_next` on the fragment with `W` in front, begun
`W.length` bytes further on. -/
theorem shift_loop (W : List Nat) (rest : List Nat) : ∀ (p : jspp_t) (ts state txt : Nat),
    txt + rest.length + W.length ≤ 65535 →
    moved_result W ts p (scan_loop p state txt rest)
      (scan_loop (moved W ts p) state (txt + W.length) rest) := by
  induction rest with
  | nil =>
    intro p ts state txt _
    exact ⟨rfl, rfl, Or.inr ⟨rfl, rfl, rfl⟩⟩
  | cons c rest ih =>
    intro p ts state txt hb
    simp only [List.length_cons] at hb
    have hw : inc_level (set_token_start (moved W ts p) (next_scan_state state c)
          (txt + W.length))
        = moved W ((inc_level (set_token_start p (next_scan_state state c) txt)).token_start
            + W.length) (inc_level (set_token_start p (next_scan_state state c) txt)) := by
      rw [moved_set_token_start W ts p _ txt (by omega)]
      rfl
    have e1 : txt + W.length + 1 = txt + 1 + W.length := by omega
    simp only [scan_loop]
    by_cases hs : (is_token_start (next_scan_state state c)
        || is_nested_level_start (next_scan_state state c)) = true
    · rw [if_pos hs, if_pos hs, hw]
      have hl : (moved W ((inc_level (set_token_start p (next_scan_state state c)
          txt)).token_start + W.length)
          (inc_level (set_token_start p (next_scan_state state c) txt))).level
          = (inc_level (set_token_start p (next_scan_state state c) txt)).level := rfl
      rw [hl]
      by_cases hd : (inc_level (set_token_start p (next_scan_state state c) txt)).level
          = JSON_MAX_STACK
      · rw [if_pos hd, if_pos hd]
        rfl
      · rw [if_neg hd, if_neg hd]
        by_cases hf : is_final (next_scan_state state c) = true
        · rw [if_pos hf, if_pos hf]
          exact ⟨rfl, rfl, Or.inl rfl⟩
        · rw [if_neg hf, if_neg hf, e1]
          have := ih (inc_level (set_token_start p (next_scan_state state c) txt))
            ((inc_level (set_token_start p (next_scan_state state c) txt)).token_start
              + W.length) (next_scan_state state c) (txt + 1) (by omega)
          revert this
          generalize scan_loop (inc_level (set_token_start p (next_scan_state state c) txt))
            (next_scan_state state c) (txt + 1) rest = r1
          generalize scan_loop (moved W ((inc_level (set_token_start p (next_scan_state state c)
            txt)).token_start + W.length)
            (inc_level (set_token_start p (next_scan_state state c) txt)))
            (next_scan_state state c) (txt + 1 + W.length) rest = r2
          intro h
          cases r1 with
          | too_deep a =>
            cases r2 with
            | too_deep b => exact h
            | stopped b s1 t1 => exact h
          | stopped a s t =>
            cases r2 with
            | too_deep b => exact h
            | stopped b s1 t1 =>
              obtain ⟨h1, h2, h3⟩ := h
              refine ⟨h1, h2, Or.inl ?_⟩
              rcases h3 with h3 | ⟨h3, h4, _⟩
              · exact h3
              · rw [h3, h4]
    · rw [if_neg hs, if_neg hs]
      have hw1 : (if next_scan_state state c > __REDUCING_PARSER_STATES
            then set_state (moved W ts p) (next_scan_state state c) else moved W ts p)
          = moved W ts (if next_scan_state state c > __REDUCING_PARSER_STATES
            then set_state p (next_scan_state state c) else p) := by
        split
        · exact moved_set_state W ts p _
        · rfl
      rw [hw1]
      have hts : (if next_scan_state state c > __REDUCING_PARSER_STATES
            then set_state p (next_scan_state state c) else p).token_start = p.token_start := by
        split <;> simp
      have hlv : (if next_scan_state state c > __REDUCING_PARSER_STATES
            then set_state p (next_scan_state state c) else p).level = p.level := by
        split <;> simp
      by_cases hf : is_final (next_scan_state state c) = true
      · rw [if_pos hf, if_pos hf]
        exact ⟨rfl, rfl, Or.inr ⟨rfl, hts, hlv⟩⟩
      · rw [if_neg hf, if_neg hf, e1]
        have := ih (if next_scan_state state c > __REDUCING_PARSER_STATES
            then set_state p (next_scan_state state c) else p) ts
            (next_scan_state state c) (txt + 1) (by omega)
        revert this
        generalize scan_loop (if next_scan_state state c > __REDUCING_PARSER_STATES
            then set_state p (next_scan_state state c) else p)
            (next_scan_state state c) (txt + 1) rest = r1
        generalize scan_loop (moved W ts (if next_scan_state state c > __REDUCING_PARSER_STATES
            then set_state p (next_scan_state state c) else p))
            (next_scan_state state c) (txt + 1 + W.length) rest = r2
        intro h
        cases r1 with
        | too_deep a =>
          cases r2 with
          | too_deep b => exact h
          | stopped b s1 t1 => exact h
        | stopped a s t =>
          cases r2 with
          | too_deep b => exact h
          | stopped b s1 t1 =>
            obtain ⟨h1, h2, h3⟩ := h
            refine ⟨h1, h2, ?_⟩
            rcases h3 with h3 | ⟨h3, h4, h5⟩
            · exact Or.inl h3
            · exact Or.inr ⟨h3, by rw [h4, hts], by rw [h5, hlv]⟩

theorem shift_complete (W : List Nat) (a : jspp_t) (s t : Nat) (h1 : a.token_start ≤ t)
    (h2 : t + 1 + W.length ≤ 65535) :
    complete_token (moved W (a.token_start + W.length) a) s (t + W.length)
      = ((complete_token a s t).1,
          moved W ((complete_token a s t).2.token_start + W.length) (complete_token a s t).2) := by
  have hw : (if s = JSON_ARRAY_END ∨ s = JSON_OBJECT_END
        then set_token_start (moved W (a.token_start + W.length) a) s (t + W.length)
        else moved W (a.token_start + W.length) a)
      = moved W ((if s = JSON_ARRAY_END ∨ s = JSON_OBJECT_END then set_token_start a s t
          else a).token_start + W.length)
          (if s = JSON_ARRAY_END ∨ s = JSON_OBJECT_END then set_token_start a s t else a) := by
    split
    · exact moved_set_token_start W _ a s t h2
    · rfl
  have hts : (if s = JSON_ARRAY_END ∨ s = JSON_OBJECT_END then set_token_start a s t
      else a).token_start ≤ t := by
    split
    · rename_i hc
      have hm := Nat.mod_le t 65536
      rcases hc with rfl | rfl <;> simp [set_token_start] <;> omega
    · exact h1
  unfold complete_token
  dsimp only
  rw [hw]
  generalize (if s = JSON_ARRAY_END ∨ s = JSON_OBJECT_END then set_token_start a s t else a) = b
    at hts
  rw [moved_set_token_end W b s t (by omega)]
  have e0 : b.token_start = (set_token_end b s t).token_start := rfl
  rw [e0]
  generalize set_token_end b s t = d
  by_cases hn : is_nested_level_start s = true
  · rw [if_pos hn, if_pos hn, moved_set_state]
    simp only [set_state_token_start]
  · rw [if_neg hn, if_neg hn]
    have hd : dec_level (moved W (d.token_start + W.length) d)
        = moved W (d.token_start + W.length) (dec_level d) := rfl
    have hg : get_state (moved W (d.token_start + W.length) (dec_level d))
        = get_state (dec_level d) := rfl
    rw [hd, hg, moved_set_state]
    simp only [set_state_token_start, dec_level_token_start]

theorem shift_suspend (W : List Nat) (a : jspp_t) (s : Nat)
    (h : a.token_start + W.length < 65536) :
    suspend_token (moved W (a.token_start + W.length) a) s
      = ((suspend_token a s).1,
          moved W ((suspend_token a s).2.token_start + W.length) (suspend_token a s).2) := by
  have e1 : (moved W (a.token_start + W.length) a).text_length = a.text_length + W.length := by
    simp [jspp_t.text_length, moved]
    omega
  have e2 : set_token_end (set_state (moved W (a.token_start + W.length) a) s) s
        (moved W (a.token_start + W.length) a).text_length
      = moved W (a.token_start + W.length) (set_token_end (set_state a s) s a.text_length) := by
    rw [e1, moved_set_state]
    have e := moved_set_token_end W (set_state a s) s a.text_length (by simpa using h)
    rw [set_state_token_start] at e
    exact e
  have e3 : (suspend_token a s).2.token_start = a.token_start := suspend_token_token_start a s
  rw [e3]
  unfold suspend_token
  dsimp only
  rw [e2]
  have e4 : (moved W (a.token_start + W.length)
      (set_token_end (set_state a s) s a.text_length)).level
      = (set_token_end (set_state a s) s a.text_length).level := rfl
  have e5 : ∀ i, stack_read (moved W (a.token_start + W.length)
      (set_token_end (set_state a s) s a.text_length)) i
      = stack_read (set_token_end (set_state a s) s a.text_length) i := fun _ => rfl
  rw [e4]
  simp only [e5]
  split_ifs <;> rfl

theorem moved_scan_pos (W : List Nat) (p : jspp_t) :
    scan_pos (moved W (p.token_start + W.length) p) = scan_pos p + W.length := by
  simp only [scan_pos, moved]
  omega

theorem moved_drop (W : List Nat) (ts : Nat) (p : jspp_t) (j : Nat) :
    (moved W ts p).text.drop (j + W.length) = p.text.drop j := by
  show (W ++ p.text).drop (j + W.length) = _
  rw [Nat.add_comm, List.drop_append]

theorem moved_next_scan (W : List Nat) (p : jspp_t) (hl : p.level < JSON_MAX_STACK)
    (hs : JSON_END < get_state p) (hp : scan_pos p ≠ p.text.length) :
    jspp_next (moved W (p.token_start + W.length) p)
      = match scan_loop (moved W (p.token_start + W.length) p) (get_state p)
          (scan_pos p + W.length) (p.text.drop (scan_pos p)) with
        | .too_deep p1 => (JSON_TOO_DEEP, p1)
        | .stopped p1 state1 txt1 =>
          if is_final state1 then complete_token p1 state1 txt1
          else suspend_token p1 state1 := by
  have h := jspp_next_scan (moved W (p.token_start + W.length) p) hl hs
    (by
      rw [moved_scan_pos]
      show scan_pos p + W.length ≠ (W ++ p.text).length
      rw [List.length_append]
      omega)
  rw [moved_scan_pos, moved_drop] at h
  exact h

theorem started_next (W : List Nat) (p : jspp_t) (hb : well_bounded p)
    (hlen : p.text.length + W.length ≤ 65535) :
    jspp_next (moved W (p.token_start + W.length) p)
      = ((jspp_next p).1,
          moved W ((jspp_next p).2.token_start + W.length) (jspp_next p).2) := by
  have hbound : p.level < JSON_MAX_STACK →
      scan_pos p + (p.text.drop (scan_pos p)).length + W.length ≤ 65535 := by
    intro hl
    have := hb.2 hl
    rw [List.length_drop]
    omega
  cases jspp_next_case p hb with
  | dead h e =>
    rw [e]
    exact jspp_next_dead _ h
  | terminal h hs e =>
    rw [e]
    exact jspp_next_terminal_state (moved W (p.token_start + W.length) p) h hs
  | at_end h hs hp e =>
    rw [e]
    refine jspp_next_at_end (moved W (p.token_start + W.length) p) ⟨h, hs, ?_⟩
    rw [moved_scan_pos, hp]
    show p.text.length + W.length = (W ++ p.text).length
    rw [List.length_append]
    omega
  | too_deep a h hs hp hl hpost e =>
    rw [e, moved_next_scan W p h hs (by omega)]
    have hsl := shift_loop W (p.text.drop (scan_pos p)) p (p.token_start + W.length)
      (get_state p) (scan_pos p) (hbound h)
    rw [hl] at hsl
    revert hsl
    generalize scan_loop (moved W (p.token_start + W.length) p) (get_state p)
      (scan_pos p + W.length) (p.text.drop (scan_pos p)) = r2
    intro hsl
    cases r2 with
    | too_deep b =>
      have hb1 : b = moved W (a.token_start + W.length) a := hsl
      rw [hb1]
    | stopped b s1 t1 => exact absurd hsl (by simp [moved_result])
  | complete a s t h hs hp hl hpost hf e =>
    obtain ⟨a1, a2, a3, a4, a5, a6, a7, a8, a9, a10, a11⟩ := hpost
    rw [e, moved_next_scan W p h hs (by omega)]
    have hsl := shift_loop W (p.text.drop (scan_pos p)) p (p.token_start + W.length)
      (get_state p) (scan_pos p) (hbound h)
    rw [hl] at hsl
    revert hsl
    generalize scan_loop (moved W (p.token_start + W.length) p) (get_state p)
      (scan_pos p + W.length) (p.text.drop (scan_pos p)) = r2
    intro hsl
    cases r2 with
    | too_deep b => exact absurd hsl (by simp [moved_result])
    | stopped b s1 t1 =>
      obtain ⟨h1, h2, h3⟩ := hsl
      have hb1 : b = moved W (a.token_start + W.length) a := by
        rcases h3 with h3 | ⟨h3, h4, _⟩
        · exact h3
        · rw [h3, h4]
      rw [h1, h2, hb1]
      simp only
      rw [if_pos hf]
      exact shift_complete W a s t a6 (by have := a9 hf; omega)
  | suspended a s t h hs hp hl hpost hf e =>
    obtain ⟨a1, a2, a3, a4, a5, a6, a7, a8, a9, a10, a11⟩ := hpost
    rw [e, moved_next_scan W p h hs (by omega)]
    have hsl := shift_loop W (p.text.drop (scan_pos p)) p (p.token_start + W.length)
      (get_state p) (scan_pos p) (hbound h)
    rw [hl] at hsl
    revert hsl
    generalize scan_loop (moved W (p.token_start + W.length) p) (get_state p)
      (scan_pos p + W.length) (p.text.drop (scan_pos p)) = r2
    intro hsl
    cases r2 with
    | too_deep b => exact absurd hsl (by simp [moved_result])
    | stopped b s1 t1 =>
      obtain ⟨h1, h2, h3⟩ := hsl
      have hb1 : b = moved W (a.token_start + W.length) a := by
        rcases h3 with h3 | ⟨h3, h4, _⟩
        · exact h3
        · rw [h3, h4]
      rw [h1, h2, hb1]
      simp only
      rw [if_neg (by rw [hf]; decide)]
      exact shift_suspend W a s (by omega)

theorem started_step (W : List Nat) (p q : jspp_t) (h : started W p q) :
    (jspp_next q).1 = (jspp_next p).1 ∧ started W (jspp_next p).2 (jspp_next q).2 := by
  obtain ⟨rfl, hb, hlen⟩ := h
  rw [started_next W p hb hlen]
  exact ⟨rfl, rfl, jspp_next_bounded p hb, by rw [(jspp_next_frame p hb).1]; exact hlen⟩

theorem started_calls (W : List Nat) (n : Nat) : ∀ (r r1 : Nat × jspp_t),
    r1.1 = r.1 → started W r.2 r1.2 →
    (calls n r1).1 = (calls n r).1 ∧ started W (calls n r).2 (calls n r1).2 := by
  induction n with
  | zero => intro r r1 h1 h2; exact ⟨h1, h2⟩
  | succ n ih =>
    intro r r1 h1 h2
    exact started_step W _ _ (ih r r1 h1 h2).2

theorem started_text (W : List Nat) (p q : jspp_t) (h : started W p q) :
    jspp_text q = jspp_text p ∧ q.token_start = p.token_start + W.length := by
  obtain ⟨rfl, _, _⟩ := h
  refine ⟨?_, rfl⟩
  unfold jspp_text
  show ((W ++ p.text).drop (p.token_start + W.length)).take p.token_length = _
  rw [Nat.add_comm, List.drop_append]

/-! ### The first call on a fragment with whitespace in front -/

theorem root_space (c : Nat) (hc : is_space c = true) :
    next_scan_state EXPECTING_JSON c = EXPECTING_JSON := by
  simp [next_scan_state, hc]

theorem root_starts (c : Nat) (hv : starts_value c = true) :
    (is_token_start (next_scan_state EXPECTING_JSON c)
      || is_nested_level_start (next_scan_state EXPECTING_JSON c)) = true := by
  simp only [starts_value, Bool.or_eq_true, decide_eq_true_eq] at hv
  rcases hv with ((((((h | h) | h) | h) | h) | h) | h) | h
  · subst h; decide
  · subst h; decide
  · subst h; decide
  · subst h; decide
  · subst h; decide
  · subst h; decide
  · rw [number_start _ c (Or.inl rfl) (Or.inl h)]; decide
  · rw [number_start _ c (Or.inl rfl) (Or.inr h)]; decide

theorem set_state_same (p : jspp_t) (s : Nat) (hl : p.level < JSON_MAX_STACK)
    (hg : get_state p = s) : set_state p s = p := by
  rw [get_state_eq p hl] at hg
  cases p with
  | mk text token_start token_length token skip_token skip_level level stack =>
    simp only [set_state, stack_write] at hl hg ⊢
    rw [if_pos hl]
    simp only [jspp_t.mk.injEq, true_and]
    funext j
    by_cases hj : j = level
    · rw [if_pos hj, hj, hg]
    · rw [if_neg hj]

/-- The loop of `jspp_next` over whitespace at the root leaves the parser as it
is. -/
theorem spaces_loop (W : List Nat) : ∀ (p : jspp_t) (txt : Nat) (rest : List Nat),
    all_space W = true → p.level < JSON_MAX_STACK → get_state p = EXPECTING_JSON →
    scan_loop p EXPECTING_JSON txt (W ++ rest)
      = scan_loop p EXPECTING_JSON (txt + W.length) rest := by
  induction W with
  | nil => intro p txt rest _ _ _; rfl
  | cons c W ih =>
    intro p txt rest hW hl hg
    simp only [all_space, List.all_cons, Bool.and_eq_true] at hW
    rw [List.cons_append, scan_space_step p _ txt c _ (by decide) hW.1,
      set_state_same p _ hl hg, ih p (txt + 1) rest hW.2 hl hg]
    simp only [List.length_cons]
    have : txt + 1 + W.length = txt + (W.length + 1) := by omega
    rw [this]

theorem level_mono (rest : List Nat) : ∀ (p : jspp_t) (s txt : Nat) (a : jspp_t) (s1 t1 : Nat),
    p.level < JSON_MAX_STACK → scan_loop p s txt rest = .stopped a s1 t1 →
    p.level ≤ a.level := by
  induction rest with
  | nil =>
    intro p s txt a s1 t1 _ h
    simp only [scan_loop, scan_result.stopped.injEq] at h
    rw [← h.1]
  | cons c rest ih =>
    intro p s txt a s1 t1 hl h
    have hinc : (inc_level (set_token_start p (next_scan_state s c) txt)).level
        = p.level + 1 := by
      simp [inc_level]
      simp at hl
      omega
    simp only [scan_loop] at h
    split at h
    · split at h
      · exact absurd h (by simp)
      · rename_i hd
        split at h
        · simp only [scan_result.stopped.injEq] at h
          rw [← h.1, hinc]
          omega
        · have := ih _ _ _ _ _ _ (by rw [hinc] at hd ⊢; simp at hd hl ⊢; omega) h
          rw [hinc] at this
          omega
    · have hlv : (if next_scan_state s c > __REDUCING_PARSER_STATES
          then set_state p (next_scan_state s c) else p).level = p.level := by
        split <;> simp
      split at h
      · simp only [scan_result.stopped.injEq] at h
        rw [← h.1, hlv]
      · have := ih _ _ _ _ _ _ (by rw [hlv]; exact hl) h
        rw [hlv] at this
        exact this

/-- Where a token begins in the fragment, the loop of the first call pushes a
level. -/
theorem begins_loop (S : List Nat) : ∀ (p : jspp_t) (txt : Nat) (a : jspp_t) (s1 t1 : Nat),
    begins_token S = true → p.level < JSON_MAX_STACK →
    scan_loop p EXPECTING_JSON txt S = .stopped a s1 t1 → p.level < a.level := by
  induction S with
  | nil => intro p txt a s1 t1 h _ _; exact absurd h (by decide)
  | cons c S ih =>
    intro p txt a s1 t1 hb hl h
    simp only [begins_token] at hb
    by_cases hc : is_space c = true
    · rw [if_pos hc] at hb
      rw [scan_space_step p _ txt c _ (by decide) hc] at h
      have := ih _ _ _ _ _ hb (by rw [set_state_level]; exact hl) h
      rw [set_state_level] at this
      exact this
    · rw [if_neg hc] at hb
      have hs := root_starts c hb
      have hinc : (inc_level (set_token_start p (next_scan_state EXPECTING_JSON c) txt)).level
          = p.level + 1 := by
        simp [inc_level]
        simp at hl
        omega
      simp only [scan_loop] at h
      rw [if_pos hs] at h
      split at h
      · exact absurd h (by simp)
      · rename_i hd
        split at h
        · simp only [scan_result.stopped.injEq] at h
          rw [← h.1, hinc]
          omega
        · have := level_mono _ _ _ _ _ _ _ (by rw [hinc] at hd ⊢; simp at hd hl ⊢; omega) h
          rw [hinc] at this
          omega

theorem stuck_calls (n : Nat) (r r1 : Nat × jspp_t) (h1 : r1.1 = r.1) (h : stuck r.2 r1.2) :
    (calls n r1).1 = (calls n r).1 ∧ (calls n r).2 = r.2 ∧ (calls n r1).2 = r1.2 := by
  obtain ⟨tok, e1, e2⟩ := h
  induction n with
  | zero => exact ⟨h1, rfl, rfl⟩
  | succ n ih =>
    show (jspp_next (calls n r1).2).1 = (jspp_next (calls n r).2).1
      ∧ (jspp_next (calls n r).2).2 = r.2 ∧ (jspp_next (calls n r1).2).2 = r1.2
    rw [ih.2.1, ih.2.2, e1, e2]
    exact ⟨rfl, rfl, rfl⟩

theorem start_state_moved (parser : jspp_t) (W S : List Nat) :
    start_state parser (W ++ S) = moved W 0 (start_state parser S) := by
  simp [start_state, set_fragment, stack_write, moved]

theorem start_state_facts (parser : jspp_t) (S : List Nat) :
    (start_state parser S).level = 0 ∧ get_state (start_state parser S) = EXPECTING_JSON
      ∧ scan_pos (start_state parser S) = 0 ∧ (start_state parser S).token_start = 0
      ∧ (start_state parser S).text = S ∧ (start_state parser S).stack 0 = EXPECTING_JSON := by
  have h := in_arrays_start parser S
  refine ⟨h.level, in_arrays_state _ _ _ _ _ h, h.pos, ?_, ?_, h.top_eq⟩
  · simp [start_state, set_fragment]
  · simp [start_state, set_fragment]

theorem stuck_of_pending (p q : jspp_t) (hp : well_bounded p) (hq : well_bounded q)
    (h1 : (jspp_next p).1 = JSON_CONTINUE) (h2 : (jspp_next q).1 = JSON_CONTINUE) :
    stuck (jspp_next p).2 (jspp_next q).2 :=
  ⟨JSON_CONTINUE,
    jspp_next_at_end _ (jspp_next_pending p hp (by rw [h1]) (by rw [h1]; decide)),
    jspp_next_at_end _ (jspp_next_pending q hq (by rw [h2]) (by rw [h2]; decide))⟩

theorem stuck_of_dead (a b : jspp_t) (h1 : JSON_MAX_STACK ≤ a.level)
    (h2 : JSON_MAX_STACK ≤ b.level) : stuck a b :=
  ⟨JSON_TOO_DEEP, jspp_next_dead a h1, jspp_next_dead b h2⟩

/-- The first call of the two runs. -/
theorem first_call (parser : jspp_t) (W S : List Nat) (hW : all_space W = true)
    (hlen : W.length + S.length ≤ 65535) :
    (jspp_start parser (W ++ S)).1 = (jspp_start parser S).1
      ∧ (started W (jspp_start parser S).2 (jspp_start parser (W ++ S)).2
          ∨ stuck (jspp_start parser S).2 (jspp_start parser (W ++ S)).2)
      ∧ (begins_token S = true →
          started W (jspp_start parser S).2 (jspp_start parser (W ++ S)).2) := by
  obtain ⟨f1, f2, f3, f4, f5, f6⟩ := start_state_facts parser S
  have hc := (core_inv_start_state parser S (by omega)).1
  have hc1 := (core_inv_start_state parser (W ++ S) (by simp; omega)).1
  have hm := start_state_moved parser W S
  unfold jspp_start
  rw [hm] at hc1 ⊢
  generalize start_state parser S = p at f1 f2 f3 f4 f5 f6 hc hc1
  have hl : p.level < JSON_MAX_STACK := by rw [f1]; decide
  have hs : JSON_END < get_state p := by rw [f2]; decide
  have hl1 : (moved W 0 p).level < JSON_MAX_STACK := hl
  have hs1 : JSON_END < get_state (moved W 0 p) := hs
  have hg1 : get_state (moved W 0 p) = EXPECTING_JSON := f2
  have hp1 : scan_pos (moved W 0 p) = 0 := by
    simp only [scan_pos, moved]
    simp only [scan_pos, f4] at f3
    omega
  have ht1 : (moved W 0 p).text = W ++ S := by
    show W ++ p.text = _
    rw [f5]
  have hlenp : p.text.length + W.length ≤ 65535 := by rw [f5]; omega
  by_cases hS : S = []
  · -- nothing but `W`
    have e : jspp_next p = (JSON_CONTINUE, p) :=
      jspp_next_at_end p ⟨hl, hs, by rw [f3, f5, hS]; rfl⟩
    have e1 : (jspp_next (moved W 0 p)).1 = JSON_CONTINUE := by
      by_cases hWn : W = []
      · rw [jspp_next_at_end _ ⟨hl1, hs1, by rw [hp1, ht1, hWn, hS]; rfl⟩]
      · rw [jspp_next_scan _ hl1 hs1
          (by rw [hp1, ht1, hS]; cases W with
            | nil => exact absurd rfl hWn
            | cons c W => simp), hg1, hp1, ht1, List.drop_zero,
          spaces_loop W _ 0 S hW hl1 hg1, hS]
        simp only [scan_loop]
        rw [if_neg (by decide)]
        rcases suspend_token_kind (moved W 0 p) EXPECTING_JSON with ⟨_, h⟩ | ⟨h, _⟩
        · exact h
        · exact absurd h (by decide)
    have hst := stuck_of_pending p (moved W 0 p) hc hc1 (by rw [e]) e1
    refine ⟨by rw [e1, e], Or.inr hst, fun hb => ?_⟩
    rw [hS] at hb
    exact absurd hb (by decide)
  · have hscan : jspp_next p
        = match scan_loop p EXPECTING_JSON 0 S with
          | .too_deep p1 => (JSON_TOO_DEEP, p1)
          | .stopped p1 state1 txt1 =>
            if is_final state1 then complete_token p1 state1 txt1
            else suspend_token p1 state1 := by
      rw [jspp_next_scan p hl hs (by
        rw [f3, f5]
        cases S with
        | nil => exact absurd rfl hS
        | cons c S => simp), f2, f3, f5, List.drop_zero]
      all_goals rfl
    have hscan1 : jspp_next (moved W 0 p)
        = match scan_loop (moved W 0 p) EXPECTING_JSON (0 + W.length) S with
          | .too_deep p1 => (JSON_TOO_DEEP, p1)
          | .stopped p1 state1 txt1 =>
            if is_final state1 then complete_token p1 state1 txt1
            else suspend_token p1 state1 := by
      rw [jspp_next_scan _ hl1 hs1 (by
        rw [hp1, ht1, List.length_append]
        have := List.length_pos.mpr hS
        omega), hg1, hp1, ht1, List.drop_zero, spaces_loop W _ 0 S hW hl1 hg1]
      all_goals rfl
    have hsl := shift_loop W S p 0 EXPECTING_JSON 0 (by omega)
    have hpost := scan_loop_post S p EXPECTING_JSON 0 (by omega) (by rw [f5]; omega)
      (by rw [f5]; omega) hl (Or.inl hS)
    have hroot := scan_loop_root S p EXPECTING_JSON 0 hl f6 (fun _ => rfl)
    have hbeg := begins_loop S p 0
    have hbd := jspp_next_bounded p hc
    have hfr := (jspp_next_frame p hc).1
    have hk1 : JSON_CONTINUE ≤ (jspp_next p).1 → (jspp_next p).1 ≤ JSON_STRING_PART →
        (jspp_next (moved W 0 p)).1 = (jspp_next p).1 →
        (jspp_next p).1 = JSON_CONTINUE → stuck (jspp_next p).2 (jspp_next (moved W 0 p)).2 :=
      fun _ _ h3 h4 => stuck_of_pending p (moved W 0 p) hc hc1 h4 (by rw [h3, h4])
    revert hsl hpost hroot hbeg hbd hfr hk1
    rw [hscan, hscan1]
    generalize scan_loop p EXPECTING_JSON 0 S = r
    generalize scan_loop (moved W 0 p) EXPECTING_JSON (0 + W.length) S = r1
    intro hsl hpost hroot hbeg hbd hfr hk1
    cases r with
    | too_deep a =>
      cases r1 with
      | stopped b s1 t1 => exact absurd hsl (by simp [moved_result])
      | too_deep b =>
        have hb1 : b = moved W (a.token_start + W.length) a := hsl
        have hst : started W a b := ⟨hb1, hbd, by
          have : a.text = p.text := hfr
          rw [this]; exact hlenp⟩
        exact ⟨rfl, Or.inl hst, fun _ => hst⟩
    | stopped a s t =>
      cases r1 with
      | too_deep b => exact absurd hsl (by simp [moved_result])
      | stopped b s1 t1 =>
        obtain ⟨h1, h2, h3⟩ := hsl
        obtain ⟨a1, a2, a3, a4, a5, a6, a7, a8, a9, a10, a11⟩ := hpost
        rw [h1, h2] at hk1 ⊢
        simp only at hbd hfr hk1 ⊢
        have key : b = moved W (a.token_start + W.length) a →
            (if is_final s = true then complete_token b s (t + W.length)
              else suspend_token b s)
            = ((if is_final s = true then complete_token a s t else suspend_token a s).1,
                moved W ((if is_final s = true then complete_token a s t
                  else suspend_token a s).2.token_start + W.length)
                  (if is_final s = true then complete_token a s t else suspend_token a s).2) := by
          intro hb1
          rw [hb1]
          by_cases hf : is_final s = true
          · simp only [hf, if_true]
            exact shift_complete W a s t a6 (by have := a9 hf; rw [f5] at this; omega)
          · simp only [hf, if_false]
            exact shift_suspend W a s (by rw [f5] at a8; omega)
        have hstart : b = moved W (a.token_start + W.length) a →
            started W (if is_final s = true then complete_token a s t else suspend_token a s).2
              (if is_final s = true then complete_token b s (t + W.length)
                else suspend_token b s).2 := by
          intro hb1
          rw [key hb1]
          exact ⟨rfl, hbd, by rw [hfr]; exact hlenp⟩
        rcases h3 with h3 | ⟨h3, h4, h5⟩
        · exact ⟨by rw [key h3], Or.inl (hstart h3), fun _ => hstart h3⟩
        · by_cases hk : W.length = 0
          · have h3' : b = moved W (a.token_start + W.length) a := by
              rw [h3, h4, f4, hk]
            exact ⟨by rw [key h3'], Or.inl (hstart h3'), fun _ => hstart h3'⟩
          · have hlev : a.level = 0 := by rw [h5, f1]
            have hkinds : (if is_final s = true then complete_token b s (t + W.length)
                else suspend_token b s).1
                = (if is_final s = true then complete_token a s t else suspend_token a s).1
              ∧ stuck (if is_final s = true then complete_token a s t else suspend_token a s).2
                  (if is_final s = true then complete_token b s (t + W.length)
                    else suspend_token b s).2 := by
              rcases hroot.2 hlev with hs2 | hs2
              · -- the fragment is used up at the root
                rw [hs2] at hk1 ⊢
                have hnf : is_final EXPECTING_JSON = false := by decide
                simp only [hnf, Bool.false_eq_true, if_false] at hk1 ⊢
                have t1 : (suspend_token a EXPECTING_JSON).1 = JSON_CONTINUE := by
                  rcases suspend_token_kind a EXPECTING_JSON with ⟨_, h⟩ | ⟨h, _⟩
                  · exact h
                  · exact absurd h (by decide)
                have t2 : (suspend_token b EXPECTING_JSON).1 = JSON_CONTINUE := by
                  rcases suspend_token_kind b EXPECTING_JSON with ⟨_, h⟩ | ⟨h, _⟩
                  · exact h
                  · exact absurd h (by decide)
                exact ⟨by rw [t1, t2], hk1 (by rw [t1]) (by rw [t1]; decide) (by rw [t1, t2]) t1⟩
              · -- a byte no value begins with
                rw [hs2]
                have hfin : is_final JSON_INVALID = true := by decide
                simp only [hfin, if_true]
                have t1 : (complete_token a JSON_INVALID t).1 = JSON_INVALID := by
                  rcases complete_token_fst a JSON_INVALID t with h | ⟨_, h⟩
                  · exact h
                  · exact absurd h (by decide)
                have t2 : (complete_token b JSON_INVALID (t + W.length)).1 = JSON_INVALID := by
                  rcases complete_token_fst b JSON_INVALID (t + W.length) with h | ⟨_, h⟩
                  · exact h
                  · exact absurd h (by decide)
                refine ⟨by rw [t1, t2], stuck_of_dead _ _ ?_ ?_⟩
                · rw [complete_token_level, if_neg (by decide), hlev]
                  decide
                · rw [complete_token_level, if_neg (by decide), h3]
                  show JSON_MAX_STACK ≤ (a.level + 255) % 256
                  rw [hlev]
                  decide
            refine ⟨hkinds.1, Or.inr hkinds.2, fun hb => ?_⟩
            have := hbeg a s t hb hl rfl
            rw [hlev, f1] at this
            exact absurd this (by decide)

/-- C24 (as amended): whitespace in front of a fragment. For every fragment
`S` and every `W` of spaces, tabs, carriage returns and line feeds, with at
most 65535 bytes together, `jspp_start` and `n` calls of `jspp_next` on
`W ++ S` return the same token as on `S`, for every `n`; and where a token
begins in `S` (its first byte that is not whitespace is one a value may begin
with) the token text is the same too and `token_start` is moved by the length
of `W`. -/
theorem leading_whitespace_invisible (parser : jspp_t) (W S : List Nat)
    (hW : all_space W = true) (hlen : W.length + S.length ≤ 65535) (n : Nat) :
    (calls n (jspp_start parser (W ++ S))).1 = (calls n (jspp_start parser S)).1
      ∧ (begins_token S = true →
          jspp_text (calls n (jspp_start parser (W ++ S))).2
              = jspp_text (calls n (jspp_start parser S)).2
            ∧ (calls n (jspp_start parser (W ++ S))).2.token_start
              = (calls n (jspp_start parser S)).2.token_start + W.length) := by
  obtain ⟨h1, h2, h3⟩ := first_call parser W S hW hlen
  constructor
  · rcases h2 with h2 | h2
    · exact (started_calls W n _ _ h1 h2).1
    · exact (stuck_calls n _ _ h1 h2).1
  · intro hb
    exact started_text W _ _ (started_calls W n _ _ h1 (h3 hb)).2

theorem leading_whitespace_invisible_witness :
    (calls 2 (jspp_start jspp_zero ([32, 10] ++ [91, 34, 97, 34, 93]))).1
        = (calls 2 (jspp_start jspp_zero [91, 34, 97, 34, 93])).1
      ∧ (begins_token [91, 34, 97, 34, 93] = true →
          jspp_text (calls 2 (jspp_start jspp_zero ([32, 10] ++ [91, 34, 97, 34, 93]))).2
              = jspp_text (calls 2 (jspp_start jspp_zero [91, 34, 97, 34, 93])).2
            ∧ (calls 2 (jspp_start jspp_zero ([32, 10] ++ [91, 34, 97, 34, 93]))).2.token_start
              = (calls 2 (jspp_start jspp_zero [91, 34, 97, 34, 93])).2.token_start
                + [32, 10].length) :=
  leading_whitespace_invisible jspp_zero [32, 10] [91, 34, 97, 34, 93] (by decide) (by decide) 2

/-- C24 (counterexample): the fragment `x` and one space in front of it. Both
runs return `JSON_INVALID` from `jspp_start`, but no token has begun:
`token_start` is 0 in both runs, not moved by one, and the token text is the
space in one run and empty in the other. -/
theorem space_before_invalid_byte :
    (jspp_start jspp_zero ([32] ++ [120])).1 = JSON_INVALID
      ∧ (jspp_start jspp_zero [120]).1 = JSON_INVALID
      ∧ jspp_text (jspp_start jspp_zero ([32] ++ [120])).2 = [32]
      ∧ jspp_text (jspp_start jspp_zero [120]).2 = []
      ∧ (jspp_start jspp_zero ([32] ++ [120])).2.token_start = 0
      ∧ (jspp_start jspp_zero [120]).2.token_start = 0 := by
  decide

/-! ### Punctuation -/

/-- C31: punctuation is accepted only where the grammar allows it. In a parser
(expectation) state `s`, `,` (44) leads to a state other than `JSON_INVALID`
exactly from `EXPECTING_ARRAY_TAIL` and `EXPECTING_OBJECT_TAIL`, `:` (58)
exactly from `EXPECTING_OBJECT_MEMBER_NAME_VALUE_SEPARATOR`; `]` (93) gives
`JSON_ARRAY_END` from `EXPECTING_ARRAY_ELEMENT_OR_END` and
`EXPECTING_ARRAY_TAIL` and `JSON_INVALID` from every other state, `}` (125)
gives `JSON_OBJECT_END` from `EXPECTING_OBJECT_MEMBER_NAME_OR_END` and
`EXPECTING_OBJECT_TAIL` and `JSON_INVALID` from every other state. -/
theorem punctuation_where_allowed (s : Nat) (hs : s ∈ expectation_states) :
    (next_scan_state s 44 ≠ JSON_INVALID
        ↔ (s = EXPECTING_ARRAY_TAIL ∨ s = EXPECTING_OBJECT_TAIL))
      ∧ (next_scan_state s 58 ≠ JSON_INVALID
        ↔ s = EXPECTING_OBJECT_MEMBER_NAME_VALUE_SEPARATOR)
      ∧ (next_scan_state s 93 = JSON_ARRAY_END
        ↔ (s = EXPECTING_ARRAY_ELEMENT_OR_END ∨ s = EXPECTING_ARRAY_TAIL))
      ∧ (next_scan_state s 93 = JSON_ARRAY_END ∨ next_scan_state s 93 = JSON_INVALID)
      ∧ (next_scan_state s 125 = JSON_OBJECT_END
        ↔ (s = EXPECTING_OBJECT_MEMBER_NAME_OR_END ∨ s = EXPECTING_OBJECT_TAIL))
      ∧ (next_scan_state s 125 = JSON_OBJECT_END ∨ next_scan_state s 125 = JSON_INVALID) := by
  revert s
  decide

theorem punctuation_where_allowed_witness :
    (next_scan_state EXPECTING_ARRAY_ELEMENT 44 ≠ JSON_INVALID
        ↔ (EXPECTING_ARRAY_ELEMENT = EXPECTING_ARRAY_TAIL
          ∨ EXPECTING_ARRAY_ELEMENT = EXPECTING_OBJECT_TAIL))
      ∧ (next_scan_state EXPECTING_ARRAY_ELEMENT 58 ≠ JSON_INVALID
        ↔ EXPECTING_ARRAY_ELEMENT = EXPECTING_OBJECT_MEMBER_NAME_VALUE_SEPARATOR)
      ∧ (next_scan_state EXPECTING_ARRAY_ELEMENT 93 = JSON_ARRAY_END
        ↔ (EXPECTING_ARRAY_ELEMENT = EXPECTING_ARRAY_ELEMENT_OR_END
          ∨ EXPECTING_ARRAY_ELEMENT = EXPECTING_ARRAY_TAIL))
      ∧ (next_scan_state EXPECTING_ARRAY_ELEMENT 93 = JSON_ARRAY_END
        ∨ next_scan_state EXPECTING_ARRAY_ELEMENT 93 = JSON_INVALID)
      ∧ (next_scan_state EXPECTING_ARRAY_ELEMENT 125 = JSON_OBJECT_END
        ↔ (EXPECTING_ARRAY_ELEMENT = EXPECTING_OBJECT_MEMBER_NAME_OR_END
          ∨ EXPECTING_ARRAY_ELEMENT = EXPECTING_OBJECT_TAIL))
      ∧ (next_scan_state EXPECTING_ARRAY_ELEMENT 125 = JSON_OBJECT_END
        ∨ next_scan_state EXPECTING_ARRAY_ELEMENT 125 = JSON_INVALID) :=
  punctuation_where_allowed EXPECTING_ARRAY_ELEMENT (by decide)

/-! ### The cell the pop after `JSON_INVALID` reads and writes -/

/-- C36 (the defect): `jspp_start` on the fragment `x`. The loop stops at the
first byte with `JSON_INVALID` at level 0; the branch for complete tokens
decrements the level to 255 and reads and writes `stack[255]`, outside the 14
cells of the stack. -/
theorem pop_after_invalid_leaves_stack :
    ∃ p1, scan_loop (start_state jspp_zero [120]) EXPECTING_JSON 0 [120]
        = .stopped p1 JSON_INVALID 0
      ∧ p1.level = 0
      ∧ (dec_level (set_token_end p1 JSON_INVALID 0)).level = 255
      ∧ ¬ (dec_level (set_token_end p1 JSON_INVALID 0)).level < JSON_MAX_STACK
      ∧ (jspp_start jspp_zero [120]).1 = JSON_INVALID := by
  refine ⟨_, rfl, ?_, ?_, ?_, ?_⟩ <;> decide

/-! ### Invariants of the states `jspp_next` is called on -/

theorem called_inv (q : jspp_t) (h : called q) : core_inv q := by
  induction h with
  | start parser text h => exact core_inv_start_state parser text h
  | next q _ ih => exact core_inv_next q ih
  | hints q a b _ ih => exact ih
  | fragment q text _ ht ih => exact core_inv_set_fragment q text ih ht

theorem reachable_called (token : Nat) (p : jspp_t) (h : Reachable token p) : called p :=
  reachable_ind called (fun q text h => called.start q text h) (fun q _ h => called.next q h)
    (fun q a b h => called.hints q a b h) (fun q text ht h => called.fragment q text h ht)
    token p h

/-- C35: fragment reads stay in bounds. On every state the body of `jspp_next`
runs on, when the call comes to compute its scan position (the level is inside
the stack and the state on top is no terminal token), the position is at most
`text_length`; the byte the loop reads before its first test of `txt < end` is
at an offset below `text_length`, and the loop stops at an offset that is at
most `text_length`, below it when it stops at a byte. -/
theorem reads_in_bounds (q : jspp_t) (h : called q) (hl : q.level < JSON_MAX_STACK)
    (hs : JSON_END < get_state q) :
    scan_pos q ≤ q.text_length
      ∧ (∀ i, first_read q = some i → i < q.text_length)
      ∧ (∀ p1 s1 t1, scan_loop q (get_state q) (scan_pos q) (q.text.drop (scan_pos q))
            = .stopped p1 s1 t1 → scan_pos q ≠ q.text_length →
          t1 ≤ q.text_length ∧ (is_final s1 = true → t1 < q.text_length)) := by
  have hc := called_inv q h
  have hpos : scan_pos q ≤ q.text.length := hc.1.2 hl
  refine ⟨hpos, ?_, ?_⟩
  · intro i hi
    unfold first_read at hi
    rw [if_neg (by omega), if_neg (by omega)] at hi
    change (if scan_pos q = q.text.length then none else some (scan_pos q)) = some i at hi
    unfold jspp_t.text_length
    by_cases he : scan_pos q = q.text.length
    · rw [if_pos he] at hi
      exact absurd hi (by simp)
    · rw [if_neg he] at hi
      simp only [Option.some.injEq] at hi
      omega
  · intro p1 s1 t1 hloop hne
    unfold jspp_t.text_length at hne ⊢
    have hpost := scan_loop_post (q.text.drop (scan_pos q)) q (get_state q) (scan_pos q)
      (token_start_le_scan_pos q) (by rw [List.length_drop]; omega) hc.1.1 hl
      (Or.inl (by
        intro he
        have := congrArg List.length he
        rw [List.length_drop] at this
        simp at this
        omega))
    rw [hloop] at hpost
    obtain ⟨a1, a2, a3, a4, a5, a6, a7, a8, a9, a10, a11⟩ := hpost
    exact ⟨a8, a9⟩

theorem reads_in_bounds_witness :
    scan_pos (jspp_start jspp_zero [91, 49, 50]).2
        ≤ (jspp_start jspp_zero [91, 49, 50]).2.text_length
      ∧ (∀ i, first_read (jspp_start jspp_zero [91, 49, 50]).2 = some i →
          i < (jspp_start jspp_zero [91, 49, 50]).2.text_length)
      ∧ (∀ p1 s1 t1, scan_loop (jspp_start jspp_zero [91, 49, 50]).2
            (get_state (jspp_start jspp_zero [91, 49, 50]).2)
            (scan_pos (jspp_start jspp_zero [91, 49, 50]).2)
            ((jspp_start jspp_zero [91, 49, 50]).2.text.drop
              (scan_pos (jspp_start jspp_zero [91, 49, 50]).2))
            = .stopped p1 s1 t1 →
          scan_pos (jspp_start jspp_zero [91, 49, 50]).2
            ≠ (jspp_start jspp_zero [91, 49, 50]).2.text_length →
          t1 ≤ (jspp_start jspp_zero [91, 49, 50]).2.text_length
            ∧ (is_final s1 = true → t1 < (jspp_start jspp_zero [91, 49, 50]).2.text_length)) :=
  reads_in_bounds (jspp_start jspp_zero [91, 49, 50]).2
    (called.next _ (called.start jspp_zero [91, 49, 50] (by decide))) (by decide) (by decide)

/-! ### Tokens in document order -/

theorem scan_loop_token_start (rest : List Nat) : ∀ (p : jspp_t) (state txt : Nat)
    (p1 : jspp_t) (s1 t1 : Nat), txt + rest.length ≤ 65535 → p.level < JSON_MAX_STACK →
    scan_loop p state txt rest = .stopped p1 s1 t1 →
    (p1.token_start = p.token_start ∧ p1.level = p.level) ∨ txt ≤ p1.token_start := by
  induction rest with
  | nil =>
    intro p state txt p1 s1 t1 _ _ h
    simp only [scan_loop, scan_result.stopped.injEq] at h
    rw [← h.1]
    exact Or.inl ⟨rfl, rfl⟩
  | cons c rest ih =>
    intro p state txt p1 s1 t1 hb hl h
    simp only [List.length_cons] at hb
    have hinc : (inc_level (set_token_start p (next_scan_state state c) txt)).level
        = p.level + 1 := by
      simp [inc_level]
      simp at hl
      omega
    have hts : txt ≤ (inc_level (set_token_start p (next_scan_state state c) txt)).token_start := by
      simp only [inc_level_token_start, set_token_start]
      split <;> omega
    simp only [scan_loop] at h
    split at h
    · split at h
      · exact absurd h (by simp)
      · rename_i hd
        split at h
        · simp only [scan_result.stopped.injEq] at h
          rw [← h.1]
          exact Or.inr hts
        · right
          rcases ih _ _ _ _ _ _ (by omega) (by rw [hinc] at hd ⊢; simp at hd hl ⊢; omega) h
            with ⟨h1, _⟩ | h1
          · rw [h1]; exact hts
          · omega
    · have hlv : (if next_scan_state state c > __REDUCING_PARSER_STATES
          then set_state p (next_scan_state state c) else p).level = p.level := by
        split <;> simp
      have htk : (if next_scan_state state c > __REDUCING_PARSER_STATES
          then set_state p (next_scan_state state c) else p).token_start = p.token_start := by
        split <;> simp
      split at h
      · simp only [scan_result.stopped.injEq] at h
        rw [← h.1]
        exact Or.inl ⟨htk, hlv⟩
      · rcases ih _ _ _ _ _ _ (by omega) (by rw [hlv]; exact hl) h with ⟨h1, h2⟩ | h1
        · exact Or.inl ⟨by rw [h1, htk], by rw [h2, hlv]⟩
        · exact Or.inr (by omega)

/-- After a call that has returned a complete token the field `token` is
`JSON_STRING` exactly when the token returned is `JSON_STRING` or
`JSON_MEMBER_NAME`, and the state on top of the stack is a parser state or a
terminal token. -/
theorem after_complete (token : Nat) (parser : jspp_t) (h : Reachable token parser)
    (h1 : JSON_NULL ≤ token) :
    (parser.token = JSON_STRING ↔ (token = JSON_STRING ∨ token = JSON_MEMBER_NAME))
      ∧ parser.level < JSON_MAX_STACK
      ∧ (get_state parser ≤ JSON_END ∨ __PARSER_STATES ≤ get_state parser) := by
  obtain ⟨q, a, b, hc, e, h3⟩ := reachable_from_next token parser h
  simp only at e h3
  have htok : token = (jspp_next q).1 := by
    rcases h3 with h3 | ⟨h3, _, _⟩
    · exact h3
    · rw [h3] at h1
      exact absurd h1 (by decide)
  rw [htok] at h1 ⊢
  have hlev := jspp_next_complete_level q hc h1
  rw [e]
  show ((jspp_next q).2.token = JSON_STRING ↔ _) ∧ (jspp_next q).2.level < JSON_MAX_STACK
    ∧ (get_state (jspp_next q).2 ≤ JSON_END ∨ __PARSER_STATES ≤ get_state (jspp_next q).2)
  refine ⟨?_, hlev, ?_⟩
  · cases jspp_next_case q hc.1 with
    | dead h e => rw [e] at h1; simp at h1
    | terminal h hs e => rw [e] at h1; simp at h1 hs; omega
    | at_end h hs hp e => rw [e] at h1; simp at h1
    | too_deep p1 h hs hp hl hpost e => rw [e] at h1; simp at h1
    | complete p1 s1 t1 h hs hp hl hpost hf e =>
      have hk := hpost.2.2.2.2.2.2.2.2.2.2 hf
      rw [e, complete_token_token]
      rcases complete_token_fst p1 s1 t1 with h5 | ⟨h5, h6⟩
      · rw [h5]
        unfold scan_token at hk
        constructor
        · intro h7; exact Or.inl h7
        · intro h7
          rcases h7 with h7 | h7
          · exact h7
          · rw [h7] at hk
            simp at hk
      · rw [h5, h6]
        simp
    | suspended p1 s1 t1 h hs hp hl hpost hf e =>
      rw [e] at h1
      have := (suspend_token_fst p1 s1).2
      simp at this h1
      omega
  · rw [get_state_eq _ hlev]
    cases jspp_next_case q hc.1 with
    | dead h e => rw [e] at h1; simp at h1
    | terminal h hs e => rw [e] at h1; simp at h1 hs; omega
    | at_end h hs hp e => rw [e] at h1; simp at h1
    | too_deep p1 h hs hp hl hpost e => rw [e] at h1; simp at h1
    | complete p1 s1 t1 h hs hp hl hpost hf e =>
      rw [e] at hlev ⊢
      exact complete_token_top p1 s1 t1 hlev hpost.2.2.2.1
    | suspended p1 s1 t1 h hs hp hl hpost hf e =>
      rw [e] at h1
      have := (suspend_token_fst p1 s1).2
      simp at this h1
      omega

/-- C34: tokens come in document order and do not overlap. When a call has
returned a complete token and the next call of `jspp_next`, on the same
fragment, returns a complete token too, the `token_start` of the later token
is at least `token_start + token_length` of the earlier one, and at least one
more when the earlier token is a `JSON_STRING` or a `JSON_MEMBER_NAME`. -/
theorem tokens_in_order (token : Nat) (parser : jspp_t) (h : Reachable token parser)
    (h1 : JSON_NULL ≤ token) (h2 : JSON_NULL ≤ (jspp_next parser).1) :
    parser.token_start + parser.token_length
        + (if token = JSON_STRING ∨ token = JSON_MEMBER_NAME then 1 else 0)
      ≤ (jspp_next parser).2.token_start := by
  obtain ⟨f1, f2, f3⟩ := after_complete token parser h h1
  have hc := (reachable_inv _ _ h).1
  have hpos : parser.token_start + parser.token_length
      + (if token = JSON_STRING ∨ token = JSON_MEMBER_NAME then 1 else 0) = scan_pos parser := by
    unfold scan_pos
    by_cases ht : parser.token = JSON_STRING
    · rw [if_pos ht, if_pos (f1.mp ht)]
    · rw [if_neg ht, if_neg (fun hx => ht (f1.mpr hx))]
  rw [hpos]
  cases jspp_next_case parser hc.1 with
  | dead h e => rw [e] at h2; simp at h2
  | terminal h hs e => rw [e] at h2; simp at h2 hs; omega
  | at_end h hs hp e => rw [e] at h2; simp at h2
  | too_deep p1 h hs hp hl hpost e => rw [e] at h2; simp at h2
  | suspended p1 s1 t1 h hs hp hl hpost hf e =>
    rw [e] at h2
    have := (suspend_token_fst p1 s1).2
    simp at this h2
    omega
  | complete p1 s1 t1 h hs hp hl hpost hf e =>
    obtain ⟨a1, a2, a3, a4, a5, a6, a7, a8, a9, a10, a11⟩ := hpost
    have hps : __PARSER_STATES ≤ get_state parser := by
      rcases f3 with f3 | f3
      · omega
      · exact f3
    have hnf : is_final (get_state parser) = false := by
      simp [is_final] at hps ⊢
      omega
    have hne : s1 ≠ JSON_INVALID := by
      intro hx
      rw [e] at h2
      rcases complete_token_fst p1 s1 t1 with h5 | ⟨_, h6⟩
      · rw [h5, hx] at h2
        exact absurd h2 (by decide)
      · rw [hx] at h6
        exact absurd h6 (by decide)
    have hlp := scan_loop_level (parser.text.drop (scan_pos parser)) parser (get_state parser)
      (scan_pos parser) h hnf
    rw [hl] at hlp
    have hlp1 := hlp hf hne
    rw [if_neg (by omega)] at hlp1
    have hlen := a9 hf
    have hb := hc.1.1
    rw [e, complete_token_token_start]
    rcases hlp1 with ⟨g1, g2⟩ | ⟨g1, g2⟩
    · have hncl : ¬ (s1 = JSON_ARRAY_END ∨ s1 = JSON_OBJECT_END) := by
        intro hx
        rcases g2 with g2 | g2
        · rcases hx with hx | hx <;> rw [hx] at g2 <;> exact absurd g2 (by decide)
        · rcases hx with hx | hx <;> rw [hx] at g2 <;> exact absurd g2 (by decide)
      rw [if_neg hncl]
      rcases scan_loop_token_start _ parser _ _ _ _ _
        (by rw [List.length_drop]; omega) h hl with ⟨_, g3⟩ | g3
      · omega
      · exact g3
    · rw [if_pos g2]
      have : t1 % 65536 = t1 := Nat.mod_eq_of_lt (by omega)
      rw [this]
      exact a7

theorem tokens_in_order_witness :
    (jspp_next (jspp_start jspp_zero [91, 34, 97, 34, 44, 49, 93]).2).2.token_start
        + (jspp_next (jspp_start jspp_zero [91, 34, 97, 34, 44, 49, 93]).2).2.token_length
        + (if (jspp_next (jspp_start jspp_zero [91, 34, 97, 34, 44, 49, 93]).2).1 = JSON_STRING
            ∨ (jspp_next (jspp_start jspp_zero [91, 34, 97, 34, 44, 49, 93]).2).1
              = JSON_MEMBER_NAME then 1 else 0)
      ≤ (jspp_next (jspp_next (jspp_start jspp_zero
          [91, 34, 97, 34, 44, 49, 93]).2).2).2.token_start :=
  tokens_in_order _ _
    (Reachable.by_next _ _ (Reachable.by_start jspp_zero [91, 34, 97, 34, 44, 49, 93]
      (by decide))) (by decide) (by decide)

/-! ### The containers a run is in -/

/-! ### Steps of the scanner against the containers -/

theorem step_parser_kind (state c : Nat) (h : __PARSER_STATES ≤ state)
    (h1 : __PARSER_STATES ≤ next_scan_state state c) (hk : top_kind state ≠ 0) :
    top_kind (next_scan_state state c) = top_kind state := by
  rcases next_scan_state_table state c with ⟨h2, _⟩ | h2 | h2
  · rw [h2]
  · rw [h2] at h1; exact absurd h1 (by decide)
  · exact (by decide : ∀ x ∈ transitions, __PARSER_STATES ≤ x.1 → __PARSER_STATES ≤ x.2 →
      top_kind x.1 ≠ 0 → top_kind x.2 = top_kind x.1) _ h2 h h1 hk

theorem step_start_kind (state c : Nat)
    (h : (is_token_start (next_scan_state state c)
      || is_nested_level_start (next_scan_state state c)) = true) :
    reducing state ∧ top_kind state ≠ 0
      ∧ (top_kind state = 3 → next_scan_state state c = STRING_BEGIN) := by
  refine ⟨step_start_reducing state c h, ?_⟩
  rcases next_scan_state_table state c with ⟨h2, h3⟩ | h2 | h2
  · rw [h2] at h
    simp only [is_token_start, is_nested_level_start, Bool.or_eq_true, decide_eq_true_eq] at h
    simp at h h3
    omega
  · rw [h2] at h; exact absurd h (by decide)
  · exact (by decide : ∀ x ∈ transitions,
      (is_token_start x.2 || is_nested_level_start x.2) = true →
      top_kind x.1 ≠ 0 ∧ (top_kind x.1 = 3 → x.2 = STRING_BEGIN)) _ h2 h

theorem step_stringy (state c : Nat) (h : STRING_BEGIN ≤ state ∧ state < __STRING_END)
    (hn : next_scan_state state c ≠ JSON_INVALID) : stringy (next_scan_state state c) := by
  rcases next_scan_state_table state c with ⟨_, h3⟩ | h2 | h2
  · simp at h3 h; omega
  · exact absurd h2 hn
  · exact (by unfold stringy; decide : ∀ x ∈ transitions,
      (STRING_BEGIN ≤ x.1 ∧ x.1 < __STRING_END) → stringy x.2) _ h2 h

theorem step_closer_kind (state c : Nat) :
    (next_scan_state state c = JSON_ARRAY_END → top_kind state = 2)
      ∧ (next_scan_state state c = JSON_OBJECT_END → top_kind state = 3) := by
  rcases next_scan_state_table state c with ⟨h2, h3⟩ | h2 | h2
  · rw [h2]
    simp at h3
    constructor <;> intro h <;> rw [h] at h3 <;> exact absurd h3 (by decide)
  · rw [h2]
    constructor <;> intro h <;> exact absurd h (by decide)
  · exact (by decide : ∀ x ∈ transitions,
      (x.2 = JSON_ARRAY_END → top_kind x.1 = 2) ∧ (x.2 = JSON_OBJECT_END → top_kind x.1 = 3))
      _ h2

/-! ### The loop of `jspp_next` against the containers -/

theorem in_loop_at_rest (F : List frame) (p : jspp_t) (state : Nat)
    (hnf : is_final state = false) (hp : __PARSER_STATES ≤ state) :
    in_loop F p state
      ↔ (p.stack p.level = state ∧ idle_ok state (frames p.stack p.level) F) := by
  unfold in_loop
  rw [if_neg (by rw [hnf]; decide), if_pos hp]

theorem in_loop_scanner (F : List frame) (p : jspp_t) (state : Nat)
    (hnf : is_final state = false) (hp : state < __PARSER_STATES) :
    in_loop F p state ↔ scalar_ok state (frames p.stack p.level) F := by
  unfold in_loop
  rw [if_neg (by rw [hnf]; decide), if_neg (Nat.not_le.mpr hp)]

theorem in_loop_final (F : List frame) (p : jspp_t) (state : Nat)
    (hf : is_final state = true) :
    in_loop F p state
      ↔ ((is_nested_level_start state = true → below_ok (frames p.stack p.level) F)
      ∧ (is_value_token state = true → scalar_ok state (frames p.stack p.level) F)
      ∧ (state = JSON_ARRAY_END → ∃ vs G, F = .arr vs :: G ∧ below_ok (frames p.stack p.level) G)
      ∧ (state = JSON_OBJECT_END →
          ∃ ms G, F = .obj ms :: G ∧ below_ok (frames p.stack p.level) G)) := by
  unfold in_loop
  rw [if_pos hf]

theorem frame_kind_ne (f : frame) : f.kind ≠ 0 ∧ f.kind ≠ 1 := by
  cases f <;> simp [frame.kind]

theorem top_kind_root (state : Nat) (h : top_kind state = 1) : state = EXPECTING_JSON := by
  unfold top_kind at h
  split_ifs at h with h1
  all_goals first
    | exact h1
    | exact absurd h (by decide)

theorem top_kind_gt (state : Nat) (h : top_kind state ≠ 0) : __PARSER_STATES < state := by
  unfold top_kind at h
  split_ifs at h with h1 h2 h3 h4
  all_goals simp at *
  all_goals omega

theorem idle_kind (state : Nat) (B : List Nat) (F : List frame) (h : idle_ok state B F) :
    top_kind state ≠ 0 := by
  cases F with
  | nil => rw [h.2]; decide
  | cons f G => rw [h.1]; exact (frame_kind_ne f).1

theorem scalar_of_idle (state s1 : Nat) (B : List Nat) (F : List frame)
    (h : idle_ok state B F) (hr : reducing state) (hk : top_kind state = 3 → stringy s1) :
    scalar_ok s1 (state :: B) F := by
  cases F with
  | nil => exact h
  | cons f G => exact ⟨hr, h.1, fun h3 => hk (by rw [h.1]; exact h3), h.2⟩

theorem below_of_idle (state : Nat) (B : List Nat) (F : List frame)
    (h : idle_ok state B F) (hr : reducing state) (hk : top_kind state ≠ 3) :
    below_ok (state :: B) F := by
  cases F with
  | nil => exact h
  | cons f G => exact ⟨hr, h.1, fun h3 => hk (by rw [h.1]; exact h3), h.2⟩

theorem idle_step (state s1 : Nat) (B : List Nat) (F : List frame)
    (h : idle_ok state B F) (hk : top_kind s1 = top_kind state) : idle_ok s1 B F := by
  cases F with
  | nil =>
    refine ⟨h.1, top_kind_root s1 ?_⟩
    rw [hk, h.2]
    rfl
  | cons f G => exact ⟨by rw [hk]; exact h.1, h.2⟩

theorem scalar_step (s s1 : Nat) (B : List Nat) (F : List frame)
    (h : scalar_ok s B F) (hk : stringy s → stringy s1) : scalar_ok s1 B F := by
  cases B with
  | nil => exact h
  | cons c B =>
    cases F with
    | nil => exact h
    | cons f G => exact ⟨h.1, h.2.1, fun h3 => hk (h.2.2.1 h3), h.2.2.2⟩

theorem stringy_range (s : Nat) (h : stringy s) (hnf : is_final s = false) :
    STRING_BEGIN ≤ s ∧ s < __STRING_END := by
  rcases h with h | h
  · exact h
  · rw [h] at hnf; exact absurd hnf (by decide)

theorem in_loop_push (F : List frame) (p : jspp_t) (state c txt : Nat)
    (hl : p.level < JSON_MAX_STACK) (hnf : is_final state = false)
    (h : in_loop F p state)
    (hs : (is_token_start (next_scan_state state c)
      || is_nested_level_start (next_scan_state state c)) = true) :
    in_loop F (inc_level (set_token_start p (next_scan_state state c) txt))
      (next_scan_state state c) := by
  obtain ⟨f1, f2, f3, f4, f5⟩ := step_kinds state c
  obtain ⟨g1, g2⟩ := f5 hs
  obtain ⟨k1, k2, k3⟩ := step_start_kind state c hs
  obtain ⟨hst, hidle⟩ := (in_loop_at_rest F p state hnf g1).1 h
  have hfr : frames (inc_level (set_token_start p (next_scan_state state c) txt)).stack
      (inc_level (set_token_start p (next_scan_state state c) txt)).level
      = state :: frames p.stack p.level := by
    have hinc : (inc_level (set_token_start p (next_scan_state state c) txt)).level
        = p.level + 1 := by
      simp [inc_level]
      simp at hl
      omega
    rw [hinc]
    simp only [inc_level_stack, set_token_start_stack, frames]
    rw [hst]
  generalize hs1 : next_scan_state state c = s1 at *
  have hsc : scalar_ok s1 (state :: frames p.stack p.level) F :=
    scalar_of_idle state s1 _ F hidle k1 (fun h3 => by rw [k3 h3]; exact Or.inl (by decide))
  by_cases hf : is_final s1 = true
  · rw [in_loop_final _ _ _ hf, hfr]
    refine ⟨fun hn => ?_, fun _ => hsc, fun he => ?_, fun he => ?_⟩
    · apply below_of_idle state _ F hidle k1
      intro h3
      rw [k3 h3] at hn
      exact absurd hn (by decide)
    · rw [he] at hs; exact absurd hs (by decide)
    · rw [he] at hs; exact absurd hs (by decide)
  · have hf1 : is_final s1 = false := by simpa using hf
    rw [in_loop_scanner _ _ _ hf1 (g2 hf1), hfr]
    exact hsc

theorem in_loop_quiet (F : List frame) (p : jspp_t) (state c : Nat)
    (hl : p.level < JSON_MAX_STACK) (hnf : is_final state = false)
    (h : in_loop F p state)
    (hs : (is_token_start (next_scan_state state c)
      || is_nested_level_start (next_scan_state state c)) = false) :
    in_loop F
      (if next_scan_state state c > __REDUCING_PARSER_STATES
        then set_state p (next_scan_state state c) else p)
      (next_scan_state state c) := by
  obtain ⟨f1, f2, f3, f4, f5⟩ := step_kinds state c
  obtain ⟨c1, c2⟩ := step_closer_kind state c
  have hsp := step_parser_state state c
  have hpk := step_parser_kind state c
  have hstr := step_stringy state c
  generalize hs1 : next_scan_state state c = s1 at *
  have hfr : frames (if s1 > __REDUCING_PARSER_STATES then set_state p s1 else p).stack
      (if s1 > __REDUCING_PARSER_STATES then set_state p s1 else p).level
      = frames p.stack p.level := by
    split
    · simp only [set_state, stack_write_level]
      exact frames_stack_write p p.level s1 p.level (le_refl _)
    · rfl
  by_cases hp : __PARSER_STATES ≤ state
  · obtain ⟨hst, hidle⟩ := (in_loop_at_rest F p state hnf hp).1 h
    by_cases hf : is_final s1 = true
    · rw [in_loop_final _ _ _ hf, hfr]
      rcases f4 hp hf hs with h4 | h4 | h4
      · rw [h4]
        exact ⟨fun hn => absurd hn (by decide), fun hn => absurd hn (by decide),
          fun hn => absurd hn (by decide), fun hn => absurd hn (by decide)⟩
      · rw [h4]
        refine ⟨fun hn => absurd hn (by decide), fun hn => absurd hn (by decide),
          fun _ => ?_, fun hn => absurd hn (by decide)⟩
        have hk := c1 h4
        cases F with
        | nil =>
          rw [hidle.2] at hk
          exact absurd hk (by decide)
        | cons f G =>
          rw [hidle.1] at hk
          cases f with
          | arr vs => exact ⟨vs, G, rfl, hidle.2⟩
          | obj ms => simp [frame.kind] at hk
          | named ms => simp [frame.kind] at hk
      · rw [h4]
        refine ⟨fun hn => absurd hn (by decide), fun hn => absurd hn (by decide),
          fun hn => absurd hn (by decide), fun _ => ?_⟩
        have hk := c2 h4
        cases F with
        | nil =>
          rw [hidle.2] at hk
          exact absurd hk (by decide)
        | cons f G =>
          rw [hidle.1] at hk
          cases f with
          | arr vs => simp [frame.kind] at hk
          | obj ms => exact ⟨ms, G, rfl, hidle.2⟩
          | named ms => simp [frame.kind] at hk
    · have hf1 : is_final s1 = false := by simpa using hf
      have hp1 : __PARSER_STATES ≤ s1 := by
        have := step_parser_stays state c hp (by rw [hs1]; exact hs) (by rw [hs1]; exact hf1)
        rw [hs1] at this
        exact this
      rw [in_loop_at_rest _ _ _ hf1 hp1, hfr]
      refine ⟨?_, idle_step state s1 _ F hidle (hpk hp hp1 (idle_kind _ _ _ hidle))⟩
      split
      · simp only [set_state, stack_write_level]
        rw [stack_write_stack _ _ _ _ hl, if_pos rfl]
      · rename_i hgt
        rcases hsp hp1 with h' | h'
        · exact absurd h' hgt
        · rw [h']; exact hst
  · have hp' : state < __PARSER_STATES := Nat.not_le.mp hp
    have hsc := (in_loop_scanner F p state hnf hp').1 h
    by_cases hf : is_final s1 = true
    · rw [in_loop_final _ _ _ hf, hfr]
      refine ⟨fun hn => ?_, fun hv => ?_, fun he => ?_, fun he => ?_⟩
      · rw [Bool.or_eq_false_iff] at hs
        rw [hs.2] at hn
        exact absurd hn (by decide)
      · apply scalar_step state s1 _ F hsc
        intro h3
        apply hstr (stringy_range state h3 hnf)
        intro h4
        rw [h4] at hv
        exact absurd hv (by decide)
      · have := top_kind_gt state (by rw [c1 he]; decide)
        omega
      · have := top_kind_gt state (by rw [c2 he]; decide)
        omega
    · have hf1 : is_final s1 = false := by simpa using hf
      rw [in_loop_scanner _ _ _ hf1 (f2 hp' hf1).1, hfr]
      apply scalar_step state s1 _ F hsc
      intro h3
      apply hstr (stringy_range state h3 hnf)
      intro h4
      rw [h4] at hf1
      exact absurd hf1 (by decide)

theorem scan_loop_ctx (F : List frame) (rest : List Nat) : ∀ (p : jspp_t) (state txt : Nat),
    p.level < JSON_MAX_STACK → is_final state = false → in_loop F p state →
    loop_ctx F (scan_loop p state txt rest) := by
  induction rest with
  | nil =>
    intro p state txt hl _ h
    exact ⟨hl, h⟩
  | cons c rest ih =>
    intro p state txt hl hnf h
    have hinc : (inc_level (set_token_start p (next_scan_state state c) txt)).level
        = p.level + 1 := by
      simp [inc_level]
      simp at hl
      omega
    simp only [scan_loop]
    by_cases hs : (is_token_start (next_scan_state state c)
        || is_nested_level_start (next_scan_state state c)) = true
    · rw [if_pos hs]
      have h1 := in_loop_push F p state c txt hl hnf h hs
      have hl1 : (inc_level (set_token_start p (next_scan_state state c) txt)).level
          ≠ JSON_MAX_STACK →
          (inc_level (set_token_start p (next_scan_state state c) txt)).level
            < JSON_MAX_STACK := by
        intro hd
        rw [hinc] at hd ⊢
        simp at hl hd ⊢
        omega
      by_cases hd : (inc_level (set_token_start p (next_scan_state state c) txt)).level
          = JSON_MAX_STACK
      · rw [if_pos hd]
        trivial
      · rw [if_neg hd]
        by_cases hf : is_final (next_scan_state state c) = true
        · rw [if_pos hf]
          exact ⟨hl1 hd, h1⟩
        · rw [if_neg hf]
          exact ih _ _ _ (hl1 hd) (by simpa using hf) h1
    · rw [if_neg hs]
      have hs0 : (is_token_start (next_scan_state state c)
          || is_nested_level_start (next_scan_state state c)) = false := by simpa using hs
      have h1 := in_loop_quiet F p state c hl hnf h hs0
      have hl1 : (if next_scan_state state c > __REDUCING_PARSER_STATES
          then set_state p (next_scan_state state c) else p).level < JSON_MAX_STACK := by
        split
        · rw [set_state_level]; exact hl
        · exact hl
      by_cases hf : is_final (next_scan_state state c) = true
      · rw [if_pos hf]
        exact ⟨hl1, h1⟩
      · rw [if_neg hf]
        exact ih _ _ _ hl1 (by simpa using hf) h1

/-! ### A complete token against the containers -/

theorem count_opens_append (a b : List Nat) :
    count_opens (a ++ b) = count_opens a + count_opens b := by
  simp [count_opens, List.filter_append]

theorem count_closes_append (a b : List Nat) :
    count_closes (a ++ b) = count_closes a + count_closes b := by
  simp [count_closes, List.filter_append]

theorem count_opens_cons (t : Nat) (a : List Nat) :
    count_opens (t :: a)
      = (if t = JSON_OBJECT_BEGIN ∨ t = JSON_ARRAY_BEGIN then 1 else 0) + count_opens a := by
  simp only [count_opens, List.filter_cons]
  by_cases h : t = JSON_OBJECT_BEGIN ∨ t = JSON_ARRAY_BEGIN
  · rw [if_pos h, if_pos (by simpa using h)]
    simp
    omega
  · rw [if_neg h, if_neg (by simpa using h)]
    simp

theorem count_closes_cons (t : Nat) (a : List Nat) :
    count_closes (t :: a)
      = (if t = JSON_OBJECT_END ∨ t = JSON_ARRAY_END then 1 else 0) + count_closes a := by
  simp only [count_closes, List.filter_cons]
  by_cases h : t = JSON_OBJECT_END ∨ t = JSON_ARRAY_END
  · rw [if_pos h, if_pos (by simpa using h)]
    simp
    omega
  · rw [if_neg h, if_neg (by simpa using h)]
    simp

theorem attach_tokens (f : frame) (v : List Nat) (h : f.kind ≠ 3) :
    (attach f v).tokens = f.tokens ++ v := by
  cases f with
  | arr vs => rfl
  | obj ms => simp [frame.kind] at h
  | named ms => simp [attach, frame.tokens]

theorem attach_well_formed (f : frame) (v : List Nat) (h : f.well_formed)
    (hv : token_value v) (hb : count_opens v = count_closes v) :
    (attach f v).well_formed := by
  cases f with
  | arr vs =>
    exact ⟨token_values.more vs v h.1 hv, by
      rw [count_opens_append, count_closes_append, h.2, hb]⟩
  | obj ms => exact h
  | named ms =>
    refine ⟨token_members.more ms v h.1 hv, ?_⟩
    rw [count_opens_append, count_closes_append, count_opens_cons, count_closes_cons, h.2, hb,
      if_neg (by decide), if_neg (by decide)]

theorem attach_kind (f : frame) (v : List Nat) (c : Nat) (hr : reducing c)
    (hk : top_kind c = f.kind) (h3 : f.kind ≠ 3) :
    top_kind (next_parsing_state c) = (attach f v).kind := by
  rcases reducing_cases c hr with h | h | h | h | h | h <;> subst h <;>
    cases f <;> simp [frame.kind] at hk h3 ⊢ <;> first
      | exact absurd hk (by decide)
      | rfl

theorem name_kind (c : Nat) (hr : reducing c) :
    (top_kind c = 3 → is_string_a_member_name c = true
        ∧ top_kind (next_parsing_state c) = 4)
      ∧ (top_kind c ≠ 3 → is_string_a_member_name c = false) := by
  rcases reducing_cases c hr with h | h | h | h | h | h <;> subst h <;> decide

theorem pop_facts (p : jspp_t) (s t c : Nat) (B : List Nat) (hl : p.level < JSON_MAX_STACK)
    (hn : is_nested_level_start s = false) (hfr : frames p.stack p.level = c :: B) :
    (complete_token p s t).2.level < JSON_MAX_STACK
      ∧ frames (complete_token p s t).2.stack (complete_token p s t).2.level = B
      ∧ (complete_token p s t).2.stack (complete_token p s t).2.level = next_parsing_state c
      ∧ (complete_token p s t).1
          = (if s = JSON_STRING ∧ is_string_a_member_name c then JSON_MEMBER_NAME else s) := by
  cases hL : p.level with
  | zero =>
    rw [hL] at hfr
    simp [frames] at hfr
  | succ n =>
    rw [hL] at hfr hl
    simp only [frames, List.cons.injEq] at hfr
    have hn14 : n < JSON_MAX_STACK := by simp at hl ⊢; omega
    have hmod : (n + 1 + 255) % 256 = n := by simp at hl; omega
    have hlev : (complete_token p s t).2.level = n := by
      rw [complete_token_level, hn, hL]
      simpa using hmod
    have hst : ∀ i, (complete_token p s t).2.stack i
        = if i = n then next_parsing_state c else p.stack i := by
      intro i
      rw [complete_token_stack, hn, hL]
      simp only [Bool.false_eq_true, if_false]
      rw [hmod]
      have : stack_read (dec_level p) n = c := by
        simp only [stack_read, dec_level_stack, hn14, if_true]
        exact hfr.1
      rw [this]
      by_cases hi : i = n
      · rw [if_pos ⟨hi, hn14⟩, if_pos hi]
      · rw [if_neg (fun h => hi h.1), if_neg hi]
    refine ⟨by rw [hlev]; exact hn14, ?_, ?_, ?_⟩
    · rw [hlev, ← hfr.2]
      apply frames_congr
      intro i hi
      rw [hst, if_neg (by omega)]
    · rw [hlev, hst, if_pos rfl]
    · rw [complete_token_fst_eq p s t hn, hL, hmod]
      simp only [stack_read, hn14, if_true]
      rw [hfr.1]

theorem value_done (q : jspp_t) (c : Nat) (B : List Nat) (G : List frame) (v : List Nat)
    (hq : q.level < JSON_MAX_STACK) (hfr : frames q.stack q.level = B)
    (htop : q.stack q.level = next_parsing_state c) (hv : token_value v)
    (hb : count_opens v = count_closes v) (hG : ∀ f ∈ G, f.well_formed)
    (hok : below_ok (c :: B) G) : parsing (context_tokens G ++ v) q := by
  refine ⟨hq, ?_⟩
  cases G with
  | nil =>
    left
    obtain ⟨h1, h2⟩ := hok
    have h0 : q.level = 0 := by
      have := frames_length q.stack q.level
      rw [hfr, h1] at this
      exact this.symm
    refine ⟨hv, hb, h0, ?_⟩
    rw [h0] at htop
    rw [htop, h2]
    rfl
  | cons f G =>
    right
    obtain ⟨h1, h2, h3, h4⟩ := hok
    have hk := attach_kind f v c h1 h2 h3
    have hp : __PARSER_STATES < next_parsing_state c :=
      top_kind_gt _ (by rw [hk]; exact (frame_kind_ne _).1)
    have hnf : is_final (q.stack q.level) = false := by
      rw [htop]
      simp [is_final] at hp ⊢
      omega
    refine ⟨attach f v :: G, ?_, ?_, hnf, ?_⟩
    · intro g hg
      rcases List.mem_cons.mp hg with hg | hg
      · rw [hg]
        exact attach_well_formed f v (hG f (List.mem_cons_self _ _)) hv hb
      · exact hG g (List.mem_cons_of_mem _ hg)
    · simp only [context_tokens]
      rw [attach_tokens f v h3, List.append_assoc]
    · rw [in_loop_at_rest _ _ _ hnf (by rw [htop]; exact Nat.le_of_lt hp)]
      refine ⟨rfl, ?_⟩
      rw [htop, hfr]
      exact ⟨hk, h4⟩

theorem complete_ctx (F : List frame) (p : jspp_t) (s t : Nat) (hl : p.level < JSON_MAX_STACK)
    (hF : ∀ f ∈ F, f.well_formed) (hf : is_final s = true) (h : in_loop F p s)
    (hs : scan_token s) (hne : s ≠ JSON_INVALID) :
    parsing (context_tokens F ++ [(complete_token p s t).1]) (complete_token p s t).2 := by
  obtain ⟨h1, h2, h3, h4⟩ := (in_loop_final F p s hf).1 h
  by_cases hn : is_nested_level_start s = true
  · have hb := h1 hn
    have hlev : (complete_token p s t).2.level = p.level := by
      rw [complete_token_level, if_pos hn]
    have htop : (complete_token p s t).2.stack (complete_token p s t).2.level
        = next_parsing_state s := by
      rw [hlev, complete_token_stack, if_pos hn, if_pos ⟨rfl, hl⟩]
    have hfr : frames (complete_token p s t).2.stack (complete_token p s t).2.level
        = frames p.stack p.level := by
      rw [hlev]
      apply frames_congr
      intro i hi
      rw [complete_token_stack, if_pos hn, if_neg (fun h => by omega)]
    have htok : (complete_token p s t).1 = s := by
      rcases complete_token_fst p s t with h5 | ⟨_, h5⟩
      · exact h5
      · rw [h5] at hn; exact absurd hn (by decide)
    have hcase : s = JSON_ARRAY_BEGIN ∨ s = JSON_OBJECT_BEGIN := by
      simpa [is_nested_level_start] using hn
    refine ⟨by rw [hlev]; exact hl, Or.inr ?_⟩
    rcases hcase with hc | hc
    · subst hc
      refine ⟨.arr [] :: F, ?_, ?_, ?_, ?_⟩
      · intro g hg
        rcases List.mem_cons.mp hg with hg | hg
        · rw [hg]; exact ⟨token_values.none, rfl⟩
        · exact hF g hg
      · rw [htok]; rfl
      · rw [htop]; decide
      · rw [htop, in_loop_at_rest _ _ _ (by decide) (by decide), hfr]
        exact ⟨htop, rfl, hb⟩
    · subst hc
      refine ⟨.obj [] :: F, ?_, ?_, ?_, ?_⟩
      · intro g hg
        rcases List.mem_cons.mp hg with hg | hg
        · rw [hg]; exact ⟨token_members.none, rfl⟩
        · exact hF g hg
      · rw [htok]; rfl
      · rw [htop]; decide
      · rw [htop, in_loop_at_rest _ _ _ (by decide) (by decide), hfr]
        exact ⟨htop, rfl, hb⟩
  · have hn0 : is_nested_level_start s = false := by simpa using hn
    by_cases hv : is_value_token s = true
    · have hsc := h2 hv
      cases hB : frames p.stack p.level with
      | nil => rw [hB] at hsc; exact hsc.elim
      | cons c B =>
        rw [hB] at hsc
        obtain ⟨q1, q2, q3, q4⟩ := pop_facts p s t c B hl hn0 hB
        cases F with
        | nil =>
          have hc : is_string_a_member_name c = false := by rw [hsc.2]; decide
          rw [hc] at q4
          simp only [Bool.false_eq_true, and_false, if_false] at q4
          rw [q4]
          exact value_done _ c B [] [s] q1 q2 q3 (token_value.scalar s hv) (by
            rw [count_opens_cons, count_closes_cons]
            simp [is_value_token] at hv
            rw [if_neg (by simp; omega), if_neg (by simp; omega)]
            rfl) hF hsc
        | cons f G =>
          obtain ⟨r1, r2, r3, r4⟩ := hsc
          obtain ⟨n1, n2⟩ := name_kind c r1
          by_cases hk : f.kind = 3
          · obtain ⟨m1, m2⟩ := n1 (by rw [r2]; exact hk)
            have hstr : s = JSON_STRING := by
              rcases r3 hk with h5 | h5
              · simp [is_final] at hf
                simp at h5
                omega
              · exact h5
            rw [m1, if_pos ⟨hstr, rfl⟩] at q4
            rw [q4]
            have hp : __PARSER_STATES < next_parsing_state c :=
              top_kind_gt _ (by rw [m2]; decide)
            have hnf : is_final ((complete_token p s t).2.stack (complete_token p s t).2.level)
                = false := by
              rw [q3]
              simp [is_final] at hp ⊢
              omega
            cases f with
            | arr vs => simp [frame.kind] at hk
            | named ms => simp [frame.kind] at hk
            | obj ms =>
              refine ⟨q1, Or.inr ⟨.named ms :: G, ?_, ?_, hnf, ?_⟩⟩
              · intro g hg
                rcases List.mem_cons.mp hg with hg | hg
                · rw [hg]; exact hF (.obj ms) (List.mem_cons_self _ _)
                · exact hF g (List.mem_cons_of_mem _ hg)
              · simp [context_tokens, frame.tokens]
              · rw [in_loop_at_rest _ _ _ hnf (by rw [q3]; exact Nat.le_of_lt hp)]
                refine ⟨rfl, ?_⟩
                rw [q3, q2]
                exact ⟨m2, r4⟩
          · have hc := n2 (by rw [r2]; exact hk)
            rw [hc] at q4
            simp only [Bool.false_eq_true, and_false, if_false] at q4
            rw [q4]
            exact value_done _ c B (f :: G) [s] q1 q2 q3 (token_value.scalar s hv) (by
              rw [count_opens_cons, count_closes_cons]
              simp [is_value_token] at hv
              rw [if_neg (by simp; omega), if_neg (by simp; omega)]
              rfl) hF ⟨r1, r2, hk, r4⟩
    · have hcase : s = JSON_ARRAY_END ∨ s = JSON_OBJECT_END := by
        unfold scan_token at hs
        simp [is_value_token] at hv
        simp [is_nested_level_start] at hn0
        simp at hs hne ⊢
        omega
      have key : ∀ (G : List frame) (v : List Nat), below_ok (frames p.stack p.level) G →
          (∀ f ∈ G, f.well_formed) → token_value v → count_opens v = count_closes v →
          context_tokens F ++ [s] = context_tokens G ++ v →
          parsing (context_tokens F ++ [(complete_token p s t).1]) (complete_token p s t).2 := by
        intro G v hb hG hval hbal htoks
        cases hB : frames p.stack p.level with
        | nil => rw [hB] at hb; exact hb.elim
        | cons c B =>
          rw [hB] at hb
          obtain ⟨q1, q2, q3, q4⟩ := pop_facts p s t c B hl hn0 hB
          have hns : ¬ (s = JSON_STRING ∧ is_string_a_member_name c = true) := by
            intro h5
            rcases hcase with h6 | h6 <;> rw [h6] at h5 <;> exact absurd h5.1 (by decide)
          rw [if_neg hns] at q4
          rw [q4, htoks]
          exact value_done _ c B G v q1 q2 q3 hval hbal hG hb
      rcases hcase with hc | hc
      · obtain ⟨vs, G, e, hb⟩ := h3 hc
        have hw := hF (.arr vs) (by rw [e]; exact List.mem_cons_self _ _)
        refine key G (JSON_ARRAY_BEGIN :: (vs ++ [JSON_ARRAY_END])) hb
          (fun f hfm => hF f (by rw [e]; exact List.mem_cons_of_mem _ hfm))
          (token_value.array vs hw.1) ?_ ?_
        · rw [count_opens_cons, count_closes_cons, count_opens_append, count_closes_append,
            count_opens_cons, count_closes_cons, hw.2]
          simp [count_opens, count_closes]
          omega
        · rw [e, hc]
          simp [context_tokens, frame.tokens]
      · obtain ⟨ms, G, e, hb⟩ := h4 hc
        have hw := hF (.obj ms) (by rw [e]; exact List.mem_cons_self _ _)
        refine key G (JSON_OBJECT_BEGIN :: (ms ++ [JSON_OBJECT_END])) hb
          (fun f hfm => hF f (by rw [e]; exact List.mem_cons_of_mem _ hfm))
          (token_value.object ms hw.1) ?_ ?_
        · rw [count_opens_cons, count_closes_cons, count_opens_append, count_closes_append,
            count_opens_cons, count_closes_cons, hw.2]
          simp [count_opens, count_closes]
          omega
        · rw [e, hc]
          simp [context_tokens, frame.tokens]

/-! ### One call against the containers -/

theorem in_loop_congr (F : List frame) (p q : jspp_t) (s : Nat) (hnf : is_final s = false)
    (hfr : frames q.stack q.level = frames p.stack p.level)
    (hst : q.stack q.level = s) (h : in_loop F p s) : in_loop F q s := by
  by_cases hp : __PARSER_STATES ≤ s
  · rw [in_loop_at_rest _ _ _ hnf hp] at h ⊢
    rw [hfr]
    exact ⟨hst, h.2⟩
  · have hp' : s < __PARSER_STATES := Nat.not_le.mp hp
    rw [in_loop_scanner _ _ _ hnf hp'] at h ⊢
    rw [hfr]
    exact h

theorem parsing_suspend (T : List Nat) (F : List frame) (p : jspp_t) (s : Nat)
    (hl : p.level < JSON_MAX_STACK) (hF : ∀ f ∈ F, f.well_formed) (hT : T = context_tokens F)
    (hnf : is_final s = false) (h : in_loop F p s) : parsing T (suspend_token p s).2 := by
  have hst : (suspend_token p s).2.stack (suspend_token p s).2.level = s := by
    have := suspend_token_get_state p s hl
    rw [get_state_eq _ (by rw [suspend_token_level]; exact hl)] at this
    exact this
  refine ⟨by rw [suspend_token_level]; exact hl, Or.inr ⟨F, hF, hT, by rw [hst]; exact hnf, ?_⟩⟩
  rw [hst]
  apply in_loop_congr F p _ s hnf ?_ hst h
  rw [suspend_token_snd]
  simp only [set_token_end_stack, set_token_end_level, set_state, stack_write_level]
  exact frames_stack_write p p.level s p.level (le_refl _)

theorem parsing_next (T : List Nat) (q : jspp_t) (hb : well_bounded q) (h : parsing T q) :
    (JSON_NULL ≤ (jspp_next q).1 → parsing (T ++ [(jspp_next q).1]) (jspp_next q).2)
      ∧ (JSON_CONTINUE ≤ (jspp_next q).1 → (jspp_next q).1 < JSON_NULL →
          parsing T (jspp_next q).2)
      ∧ ((jspp_next q).1 = JSON_END →
          token_value T ∧ count_opens T = count_closes T ∧ parsing T (jspp_next q).2) := by
  obtain ⟨hlev, hcase⟩ := h
  have hg := get_state_eq q hlev
  cases jspp_next_case q hb with
  | dead h e => exact absurd hlev (Nat.not_lt.mpr h)
  | terminal h hs e =>
    rw [e]
    rcases hcase with ⟨k1, k2, k3, k4⟩ | ⟨F, _, _, k3, _⟩
    · have he : get_state q = JSON_END := by rw [hg, k3]; exact k4
      rw [he]
      dsimp only
      exact ⟨fun h1 => absurd h1 (by decide), fun h1 => absurd h1 (by decide),
        fun _ => ⟨k1, k2, hlev, Or.inl ⟨k1, k2, k3, k4⟩⟩⟩
    · exfalso
      rw [hg] at hs
      simp [is_final] at k3
      simp at hs
      omega
  | at_end h hs hp e =>
    rw [e]
    dsimp only
    exact ⟨fun h1 => absurd h1 (by decide), fun _ _ => ⟨hlev, hcase⟩,
      fun h1 => absurd h1 (by decide)⟩
  | too_deep p1 h hs hp hl hpost e =>
    rw [e]
    dsimp only
    exact ⟨fun h1 => absurd h1 (by decide), fun h1 => absurd h1 (by decide),
      fun h1 => absurd h1 (by decide)⟩
  | complete p1 s1 t1 h hs hp hl hpost hf e =>
    rcases hcase with ⟨k1, k2, k3, k4⟩ | ⟨F, k1, k2, k3, k4⟩
    · exfalso
      rw [hg, k3, k4] at hs
      exact absurd hs (by decide)
    · have hctx := scan_loop_ctx F (q.text.drop (scan_pos q)) q (get_state q) (scan_pos q) hlev
        (by rw [hg]; exact k3) (by rw [hg]; exact k4)
      rw [hl] at hctx
      obtain ⟨c1, c2⟩ := hctx
      have hk := hpost.2.2.2.2.2.2.2.2.2.2 hf
      rw [e]
      have hfst := complete_token_fst p1 s1 t1
      refine ⟨fun h1 => ?_, fun h1 h2 => ?_, fun h1 => ?_⟩
      · rw [k2]
        apply complete_ctx F p1 s1 t1 c1 k1 hf c2 hk
        intro h3
        rcases hfst with h4 | ⟨_, h4⟩
        · rw [h4, h3] at h1
          exact absurd h1 (by decide)
        · rw [h4] at h3
          exact absurd h3 (by decide)
      · exfalso
        unfold scan_token at hk
        rcases hfst with h4 | ⟨h4, _⟩
        · rw [h4] at h1 h2
          simp at h1 h2 hk
          omega
        · rw [h4] at h2
          exact absurd h2 (by decide)
      · exfalso
        unfold scan_token at hk
        rcases hfst with h4 | ⟨h4, _⟩
        · rw [h4] at h1
          simp at h1 hk
          omega
        · rw [h4] at h1
          exact absurd h1 (by decide)
  | suspended p1 s1 t1 h hs hp hl hpost hf e =>
    rcases hcase with ⟨k1, k2, k3, k4⟩ | ⟨F, k1, k2, k3, k4⟩
    · exfalso
      rw [hg, k3, k4] at hs
      exact absurd hs (by decide)
    · have hctx := scan_loop_ctx F (q.text.drop (scan_pos q)) q (get_state q) (scan_pos q) hlev
        (by rw [hg]; exact k3) (by rw [hg]; exact k4)
      rw [hl] at hctx
      obtain ⟨c1, c2⟩ := hctx
      rw [e]
      have hfst := suspend_token_fst p1 s1
      refine ⟨fun h1 => ?_, fun _ _ => parsing_suspend T F p1 s1 c1 k1 k2 hf c2, fun h1 => ?_⟩
      · exfalso
        simp at h1 hfst
        omega
      · exfalso
        rw [h1] at hfst
        exact absurd hfst.1 (by decide)

theorem parsing_start (parser : jspp_t) (text : List Nat) :
    parsing [] (start_state parser text) := by
  obtain ⟨h1, h2, _, _, _, h6⟩ := start_state_facts parser text
  refine ⟨by rw [h1]; decide, Or.inr ⟨[], fun f hf => absurd hf (List.not_mem_nil _), rfl, ?_, ?_⟩⟩
  · rw [h1, h6]; decide
  · rw [h1, h6, in_loop_at_rest _ _ _ (by decide) (by decide), h1, h6]
    exact ⟨rfl, rfl, rfl⟩

/-! ### Runs against the containers -/

theorem parsing_step (T : List Nat) (q : jspp_t) (hb : well_bounded q) (h : parsing T q)
    (ht : (jspp_next q).1 ≠ JSON_INVALID ∧ (jspp_next q).1 ≠ JSON_TOO_DEEP) :
    parsing (T ++ complete_tokens [(jspp_next q).1]) (jspp_next q).2
      ∧ ((jspp_next q).1 = JSON_END → token_value T ∧ count_opens T = count_closes T) := by
  obtain ⟨a, b, c⟩ := parsing_next T q hb h
  by_cases h1 : JSON_NULL ≤ (jspp_next q).1
  · have e : complete_tokens [(jspp_next q).1] = [(jspp_next q).1] := by
      simp [complete_tokens, h1]
    rw [e]
    refine ⟨a h1, fun h2 => ?_⟩
    rw [h2] at h1
    exact absurd h1 (by decide)
  · have e : complete_tokens [(jspp_next q).1] = [] := by
      simp [complete_tokens, h1]
    rw [e, List.append_nil]
    by_cases h2 : (jspp_next q).1 = JSON_END
    · exact ⟨(c h2).2.2, fun _ => ⟨(c h2).1, (c h2).2.1⟩⟩
    · refine ⟨b ?_ (Nat.not_le.mp h1), fun h3 => absurd h3 h2⟩
      have h3 := ht.1
      have h4 := ht.2
      simp at h2 h3 h4 ⊢
      omega

theorem complete_tokens_append (a b : List Nat) :
    complete_tokens (a ++ b) = complete_tokens a ++ complete_tokens b := by
  simp [complete_tokens, List.filter_append]

theorem parsing_set_fragment (T : List Nat) (q : jspp_t) (text : List Nat) (h : parsing T q) :
    parsing T (set_fragment q text) := h

theorem run_last (before : List Nat) (token : Nat) (parser : jspp_t)
    (h : Run before token parser) :
    ∃ q : jspp_t, well_bounded q ∧ q.skip_token = 0 ∧ jspp_next q = (token, parser)
      ∧ ((∀ x ∈ before, x ≠ JSON_INVALID ∧ x ≠ JSON_TOO_DEEP) →
          parsing (complete_tokens before) q) := by
  induction h with
  | by_start parser text h =>
    exact ⟨start_state parser text, (core_inv_start_state parser text h).1,
      start_state_skip_token parser text, rfl, fun _ => parsing_start parser text⟩
  | by_next before token parser _ ih =>
    obtain ⟨q, h1, h2, h3, h4⟩ := ih
    have e1 : token = (jspp_next q).1 := by rw [h3]
    have e2 : parser = (jspp_next q).2 := by rw [h3]
    refine ⟨parser, by rw [e2]; exact jspp_next_bounded q h1,
      by rw [e2, (jspp_next_skip_fields q).1]; exact h2, rfl, fun hok => ?_⟩
    rw [complete_tokens_append, e1, e2]
    refine (parsing_step _ q h1 (h4 fun x hx => hok x (List.mem_append_left _ hx)) ?_).1
    rw [← e1]
    exact hok token (List.mem_append_right _ (List.mem_singleton_self _))
  | by_continue before token parser fuel text r _ ht e ih =>
    obtain ⟨q, h1, h2, h3, h4⟩ := ih
    have e1 : token = (jspp_next q).1 := by rw [h3]
    have e2 : parser = (jspp_next q).2 := by rw [h3]
    have hsk : parser.skip_token = 0 := by rw [e2, (jspp_next_skip_fields q).1]; exact h2
    rw [jspp_continue_plain fuel parser text hsk] at e
    have e3 : r = jspp_next (set_fragment parser text) := (Option.some.inj e).symm
    have hwb : well_bounded parser := by rw [e2]; exact jspp_next_bounded q h1
    refine ⟨set_fragment parser text, ⟨ht, fun _ => by simp [scan_pos, set_fragment]⟩, hsk,
      by rw [e3], fun hok => ?_⟩
    apply parsing_set_fragment
    rw [complete_tokens_append, e1, e2]
    refine (parsing_step _ q h1 (h4 fun x hx => hok x (List.mem_append_left _ hx)) ?_).1
    rw [← e1]
    exact hok token (List.mem_append_right _ (List.mem_singleton_self _))

/-- C33: if a run of `jspp_start`, `jspp_next` and `jspp_continue` returns
`JSON_END` and has returned no `JSON_INVALID` and no `JSON_TOO_DEEP` before it,
then the complete tokens returned before that `JSON_END` form exactly one value
of the grammar `value ::= NULL | TRUE | FALSE | INTEGER | DECIMAL |
FLOATING_POINT | STRING | ARRAY_BEGIN value* ARRAY_END | OBJECT_BEGIN
(MEMBER_NAME value)* OBJECT_END`; in particular there are as many openers as
closers among them. -/
theorem accepted_stream_is_value (before : List Nat) (token : Nat) (parser : jspp_t)
    (h : Run before token parser) (ht : token = JSON_END)
    (hb : ∀ x ∈ before, x ≠ JSON_INVALID ∧ x ≠ JSON_TOO_DEEP) :
    token_value (complete_tokens before)
      ∧ count_opens (complete_tokens before) = count_closes (complete_tokens before) := by
  obtain ⟨q, h1, _, h3, h4⟩ := run_last before token parser h
  have e1 : (jspp_next q).1 = JSON_END := by rw [h3]; exact ht
  exact (parsing_step _ q h1 (h4 hb) (by rw [e1]; exact ⟨by decide, by decide⟩)).2 e1

theorem accepted_stream_is_value_witness :
    token_value (complete_tokens (([] ++ [(jspp_start jspp_zero [91, 49, 93]).1])
        ++ [(jspp_next (jspp_start jspp_zero [91, 49, 93]).2).1]
        ++ [(jspp_next (jspp_next (jspp_start jspp_zero [91, 49, 93]).2).2).1]))
      ∧ count_opens (complete_tokens (([] ++ [(jspp_start jspp_zero [91, 49, 93]).1])
        ++ [(jspp_next (jspp_start jspp_zero [91, 49, 93]).2).1]
        ++ [(jspp_next (jspp_next (jspp_start jspp_zero [91, 49, 93]).2).2).1]))
        = count_closes (complete_tokens (([] ++ [(jspp_start jspp_zero [91, 49, 93]).1])
        ++ [(jspp_next (jspp_start jspp_zero [91, 49, 93]).2).1]
        ++ [(jspp_next (jspp_next (jspp_start jspp_zero [91, 49, 93]).2).2).1])) :=
  accepted_stream_is_value _ _ _
    (Run.by_next _ _ _ (Run.by_next _ _ _ (Run.by_next _ _ _
      (Run.by_start jspp_zero [91, 49, 93] (by decide)))))
    (by decide) (by decide)

/-! ### The level against the openers and closers returned -/

theorem below_ok_length (B : List Nat) : ∀ G : List frame, below_ok B G →
    B.length = G.length + 1 := by
  induction B with
  | nil => intro G h; exact h.elim
  | cons c B ih =>
    intro G h
    cases G with
    | nil => rw [h.1]; rfl
    | cons f G =>
      have := ih G h.2.2.2
      simp only [List.length_cons]
      omega

theorem idle_ok_length (s : Nat) (B : List Nat) (F : List frame) (h : idle_ok s B F) :
    B.length = F.length := by
  cases F with
  | nil => rw [h.1]; rfl
  | cons f G =>
    have := below_ok_length B G h.2
    simp only [List.length_cons]
    omega

theorem scalar_ok_length (s : Nat) (B : List Nat) (F : List frame) (h : scalar_ok s B F) :
    B.length = F.length + 1 := by
  cases B with
  | nil => exact h.elim
  | cons c B =>
    cases F with
    | nil => rw [h.1]; rfl
    | cons f G =>
      have := below_ok_length B G h.2.2.2
      simp only [List.length_cons]
      omega

theorem frame_count (f : frame) (h : f.well_formed) :
    count_opens f.tokens = count_closes f.tokens + 1 := by
  cases f with
  | arr vs =>
    simp only [frame.tokens]
    rw [count_opens_cons, count_closes_cons, h.2]
    simp
    omega
  | obj ms =>
    simp only [frame.tokens]
    rw [count_opens_cons, count_closes_cons, h.2]
    simp
    omega
  | named ms =>
    simp only [frame.tokens]
    rw [count_opens_cons, count_closes_cons, count_opens_append, count_closes_append,
      count_opens_cons, count_closes_cons, h.2]
    simp [count_opens, count_closes]
    omega

theorem context_count (F : List frame) (h : ∀ f ∈ F, f.well_formed) :
    count_opens (context_tokens F) = count_closes (context_tokens F) + F.length := by
  induction F with
  | nil => rfl
  | cons f G ih =>
    have h1 := ih fun g hg => h g (List.mem_cons_of_mem _ hg)
    have h2 := frame_count f (h f (List.mem_cons_self _ _))
    simp only [context_tokens, List.length_cons]
    rw [count_opens_append, count_closes_append]
    omega

theorem parsing_level (T : List Nat) (q : jspp_t) (h : parsing T q) :
    (q.stack q.level ≤ JSON_END ∨ __PARSER_STATES ≤ q.stack q.level →
        q.level + count_closes T = count_opens T)
      ∧ (JSON_END < q.stack q.level → q.stack q.level < __PARSER_STATES →
        q.level + count_closes T = count_opens T + 1 ∧ 0 < q.level) := by
  obtain ⟨hlev, ⟨k1, k2, k3, k4⟩ | ⟨F, k1, k2, k3, k4⟩⟩ := h
  · refine ⟨fun _ => by rw [k3, k2]; omega, fun h1 => ?_⟩
    rw [k3, k4] at h1
    exact absurd h1 (by decide)
  · have hc := context_count F k1
    have hlen := frames_length q.stack q.level
    rw [← k2] at hc
    refine ⟨fun h1 => ?_, fun _ h2 => ?_⟩
    · have hp : __PARSER_STATES ≤ q.stack q.level := by
        rcases h1 with h1 | h1
        · exfalso
          simp [is_final] at k3
          simp at h1
          omega
        · exact h1
      rw [in_loop_at_rest _ _ _ k3 hp] at k4
      have := idle_ok_length _ _ _ k4.2
      omega
    · rw [in_loop_scanner _ _ _ k3 h2] at k4
      have := scalar_ok_length _ _ _ k4
      omega

theorem next_top (q : jspp_t) (hb : well_bounded q)
    (hlev : (jspp_next q).2.level < JSON_MAX_STACK) :
    (JSON_NULL ≤ (jspp_next q).1 →
        (jspp_next q).2.stack (jspp_next q).2.level ≤ JSON_END
          ∨ __PARSER_STATES ≤ (jspp_next q).2.stack (jspp_next q).2.level)
      ∧ (JSON_CONTINUE < (jspp_next q).1 → (jspp_next q).1 < JSON_NULL →
        JSON_END < (jspp_next q).2.stack (jspp_next q).2.level
          ∧ (jspp_next q).2.stack (jspp_next q).2.level < __PARSER_STATES) := by
  cases jspp_next_case q hb with
  | dead h e =>
    rw [e]
    dsimp only
    exact ⟨fun h1 => absurd h1 (by decide), fun h1 => absurd h1 (by decide)⟩
  | terminal h hs e =>
    rw [e]
    dsimp only
    exact ⟨fun h1 => by simp at h1 hs; omega, fun h1 => by simp at h1 hs; omega⟩
  | at_end h hs hp e =>
    rw [e]
    dsimp only
    exact ⟨fun h1 => absurd h1 (by decide), fun h1 => absurd h1 (by decide)⟩
  | too_deep p1 h hs hp hl hpost e =>
    rw [e]
    dsimp only
    exact ⟨fun h1 => absurd h1 (by decide), fun h1 => absurd h1 (by decide)⟩
  | complete p1 s1 t1 h hs hp hl hpost hf e =>
    rw [e] at hlev ⊢
    have hk := hpost.2.2.2.2.2.2.2.2.2.2 hf
    refine ⟨fun _ => complete_token_top p1 s1 t1 hlev hpost.2.2.2.1, fun h1 h2 => ?_⟩
    exfalso
    unfold scan_token at hk
    rcases complete_token_fst p1 s1 t1 with h4 | ⟨h4, _⟩
    · rw [h4] at h1 h2
      simp at h1 h2 hk
      omega
    · rw [h4] at h2
      exact absurd h2 (by decide)
  | suspended p1 s1 t1 h hs hp hl hpost hf e =>
    rw [e] at hlev ⊢
    have hfst := suspend_token_fst p1 s1
    have hl1 : p1.level < JSON_MAX_STACK := by rw [suspend_token_level] at hlev; exact hlev
    have hst : (suspend_token p1 s1).2.stack (suspend_token p1 s1).2.level = s1 := by
      have := suspend_token_get_state p1 s1 hl1
      rw [get_state_eq _ hlev] at this
      exact this
    refine ⟨fun h1 => ?_, fun h1 _ => ?_⟩
    · exfalso
      simp at h1 hfst
      omega
    · rw [hst]
      rcases suspend_token_kind p1 s1 with ⟨_, h3⟩ | ⟨h3, _, _⟩
      · rw [h3] at h1
        exact absurd h1 (by decide)
      · refine ⟨?_, in_token_scanner_state s1 h3⟩
        simp [is_final] at hf ⊢
        omega

theorem count_opens_complete (T : List Nat) : count_opens (complete_tokens T) = count_opens T := by
  induction T with
  | nil => rfl
  | cons t T ih =>
    by_cases h : JSON_NULL ≤ t
    · have e : complete_tokens (t :: T) = t :: complete_tokens T := by
        simp [complete_tokens, h]
      rw [e, count_opens_cons, count_opens_cons, ih]
    · have e : complete_tokens (t :: T) = complete_tokens T := by
        simp [complete_tokens, h]
      rw [e, count_opens_cons, ih, if_neg (by simp at h ⊢; omega)]
      omega

theorem count_closes_complete (T : List Nat) :
    count_closes (complete_tokens T) = count_closes T := by
  induction T with
  | nil => rfl
  | cons t T ih =>
    by_cases h : JSON_NULL ≤ t
    · have e : complete_tokens (t :: T) = t :: complete_tokens T := by
        simp [complete_tokens, h]
      rw [e, count_closes_cons, count_closes_cons, ih]
    · have e : complete_tokens (t :: T) = complete_tokens T := by
        simp [complete_tokens, h]
      rw [e, count_closes_cons, ih, if_neg (by simp at h ⊢; omega)]
      omega

/-- C32: in every run of `jspp_start`, `jspp_next` and `jspp_continue`, before
the first terminal token (`JSON_INVALID`, `JSON_TOO_DEEP`, `JSON_END`), after
each call that returns a complete token the level equals the number of
`JSON_OBJECT_BEGIN` and `JSON_ARRAY_BEGIN` tokens returned so far minus the
number of `JSON_OBJECT_END` and `JSON_ARRAY_END` tokens returned so far, and
after a call that returns a `*_PART` token the level is that number plus
one. -/
theorem level_tracks_containers (before : List Nat) (token : Nat) (parser : jspp_t)
    (h : Run before token parser) (hb : ∀ x ∈ before ++ [token], JSON_END < x) :
    count_closes (before ++ [token]) ≤ count_opens (before ++ [token])
      ∧ (JSON_NULL ≤ token →
          parser.level = count_opens (before ++ [token]) - count_closes (before ++ [token]))
      ∧ (JSON_CONTINUE < token → token < JSON_NULL →
          parser.level
            = count_opens (before ++ [token]) - count_closes (before ++ [token]) + 1) := by
  obtain ⟨q, h1, _, h3, h4⟩ := run_last before token parser h
  have e1 : token = (jspp_next q).1 := by rw [h3]
  have e2 : parser = (jspp_next q).2 := by rw [h3]
  have hok : ∀ x ∈ before ++ [token], x ≠ JSON_INVALID ∧ x ≠ JSON_TOO_DEEP := by
    intro x hx
    have := hb x hx
    simp at this ⊢
    omega
  have hp := (parsing_step _ q h1 (h4 fun x hx => hok x (List.mem_append_left _ hx))
    (by rw [← e1]; exact hok token (List.mem_append_right _ (List.mem_singleton_self _)))).1
  rw [← e1, ← e2, ← complete_tokens_append] at hp
  obtain ⟨l1, l2⟩ := parsing_level _ _ hp
  rw [count_opens_complete, count_closes_complete] at l1 l2
  obtain ⟨t1, t2⟩ := next_top q h1 (by rw [← e2]; exact hp.1)
  rw [← e1, ← e2] at t1 t2
  have htok := hb token (List.mem_append_right _ (List.mem_singleton_self _))
  by_cases hc : JSON_NULL ≤ token
  · have := l1 (t1 hc)
    exact ⟨by omega, fun _ => by omega, fun _ h5 => by omega⟩
  · by_cases hpart : JSON_CONTINUE < token
    · have := l2 (t2 hpart (Nat.not_le.mp hc)).1 (t2 hpart (Nat.not_le.mp hc)).2
      exact ⟨by omega, fun h5 => absurd h5 hc, fun _ _ => by omega⟩
    · refine ⟨?_, fun h5 => absurd h5 hc, fun h5 => absurd h5 hpart⟩
      by_cases hq : JSON_END < parser.stack parser.level
          ∧ parser.stack parser.level < __PARSER_STATES
      · have := l2 hq.1 hq.2
        omega
      · have := l1 (by simp at hq ⊢; omega)
        omega

theorem level_tracks_containers_witness :
    count_closes (([] ++ [(jspp_start jspp_zero [91, 91, 93, 44, 34, 97]).1]
        ++ [(jspp_next (jspp_start jspp_zero [91, 91, 93, 44, 34, 97]).2).1]
        ++ [(jspp_next (jspp_next (jspp_start jspp_zero [91, 91, 93, 44, 34, 97]).2).2).1])
        ++ [(jspp_next (jspp_next (jspp_next
          (jspp_start jspp_zero [91, 91, 93, 44, 34, 97]).2).2).2).1])
      ≤ count_opens (([] ++ [(jspp_start jspp_zero [91, 91, 93, 44, 34, 97]).1]
        ++ [(jspp_next (jspp_start jspp_zero [91, 91, 93, 44, 34, 97]).2).1]
        ++ [(jspp_next (jspp_next (jspp_start jspp_zero [91, 91, 93, 44, 34, 97]).2).2).1])
        ++ [(jspp_next (jspp_next (jspp_next
          (jspp_start jspp_zero [91, 91, 93, 44, 34, 97]).2).2).2).1])
      ∧ (JSON_NULL ≤ (jspp_next (jspp_next (jspp_next
          (jspp_start jspp_zero [91, 91, 93, 44, 34, 97]).2).2).2).1 →
        (jspp_next (jspp_next (jspp_next
          (jspp_start jspp_zero [91, 91, 93, 44, 34, 97]).2).2).2).2.level
        = count_opens (([] ++ [(jspp_start jspp_zero [91, 91, 93, 44, 34, 97]).1]
        ++ [(jspp_next (jspp_start jspp_zero [91, 91, 93, 44, 34, 97]).2).1]
        ++ [(jspp_next (jspp_next (jspp_start jspp_zero [91, 91, 93, 44, 34, 97]).2).2).1])
        ++ [(jspp_next (jspp_next (jspp_next
          (jspp_start jspp_zero [91, 91, 93, 44, 34, 97]).2).2).2).1])
        - count_closes (([] ++ [(jspp_start jspp_zero [91, 91, 93, 44, 34, 97]).1]
        ++ [(jspp_next (jspp_start jspp_zero [91, 91, 93, 44, 34, 97]).2).1]
        ++ [(jspp_next (jspp_next (jspp_start jspp_zero [91, 91, 93, 44, 34, 97]).2).2).1])
        ++ [(jspp_next (jspp_next (jspp_next
          (jspp_start jspp_zero [91, 91, 93, 44, 34, 97]).2).2).2).1]))
      ∧ (JSON_CONTINUE < (jspp_next (jspp_next (jspp_next
          (jspp_start jspp_zero [91, 91, 93, 44, 34, 97]).2).2).2).1 →
        (jspp_next (jspp_next (jspp_next
          (jspp_start jspp_zero [91, 91, 93, 44, 34, 97]).2).2).2).1 < JSON_NULL →
        (jspp_next (jspp_next (jspp_next
          (jspp_start jspp_zero [91, 91, 93, 44, 34, 97]).2).2).2).2.level
        = count_opens (([] ++ [(jspp_start jspp_zero [91, 91, 93, 44, 34, 97]).1]
        ++ [(jspp_next (jspp_start jspp_zero [91, 91, 93, 44, 34, 97]).2).1]
        ++ [(jspp_next (jspp_next (jspp_start jspp_zero [91, 91, 93, 44, 34, 97]).2).2).1])
        ++ [(jspp_next (jspp_next (jspp_next
          (jspp_start jspp_zero [91, 91, 93, 44, 34, 97]).2).2).2).1])
        - count_closes (([] ++ [(jspp_start jspp_zero [91, 91, 93, 44, 34, 97]).1]
        ++ [(jspp_next (jspp_start jspp_zero [91, 91, 93, 44, 34, 97]).2).1]
        ++ [(jspp_next (jspp_next (jspp_start jspp_zero [91, 91, 93, 44, 34, 97]).2).2).1])
        ++ [(jspp_next (jspp_next (jspp_next
          (jspp_start jspp_zero [91, 91, 93, 44, 34, 97]).2).2).2).1]) + 1) :=
  level_tracks_containers _ _ _
    (Run.by_next _ _ _ (Run.by_next _ _ _ (Run.by_next _ _ _
      (Run.by_start jspp_zero [91, 91, 93, 44, 34, 97] (by decide)))))
    (by decide)

/-- C32 (the defect): the fragment `[[[,7],8]`. `jspp_start` and `jspp_next`
return two `JSON_ARRAY_BEGIN`; `jspp_skip_next` then reads the third `[` and
skips: inside `skip_composite` the next call of `jspp_next` returns
`JSON_INVALID` at the comma and pops the level, the loop goes on, takes the `]`
of the innermost array for the end of the one above it, and `jspp_skip_next`
returns `JSON_INTEGER` for the `8` at level 1, with two openers and no closer
returned so far. -/
theorem skip_past_invalid_loses_level :
    (jspp_start jspp_zero [91, 91, 91, 44, 55, 93, 44, 56, 93]).1 = JSON_ARRAY_BEGIN
      ∧ (jspp_next (jspp_start jspp_zero [91, 91, 91, 44, 55, 93, 44, 56, 93]).2).1
          = JSON_ARRAY_BEGIN
      ∧ (calls 3 (jspp_start jspp_zero [91, 91, 91, 44, 55, 93, 44, 56, 93])).1 = JSON_INVALID
      ∧ (jspp_skip_next 10 (jspp_next
          (jspp_start jspp_zero [91, 91, 91, 44, 55, 93, 44, 56, 93]).2).2).map
            (fun r => (r.1, r.2.level)) = some (JSON_INTEGER, 1)
      ∧ count_opens [JSON_ARRAY_BEGIN, JSON_ARRAY_BEGIN, JSON_INTEGER]
          - count_closes [JSON_ARRAY_BEGIN, JSON_ARRAY_BEGIN, JSON_INTEGER] = 2 := by
  decide

/-! ### The cells below the level -/

theorem scan_loop_cells (rest : List Nat) : ∀ (p : jspp_t) (state txt : Nat),
    p.level < JSON_MAX_STACK → cells_reducing p.stack p.level →
    (__PARSER_STATES ≤ state → p.stack p.level = state) →
    cells_post (scan_loop p state txt rest) := by
  induction rest with
  | nil =>
    intro p state txt _ h _
    exact h
  | cons c rest ih =>
    intro p state txt hl h hst
    obtain ⟨f1, f2, f3, f4, f5⟩ := step_kinds state c
    have hinc : (inc_level (set_token_start p (next_scan_state state c) txt)).level
        = p.level + 1 := by
      simp [inc_level]
      simp at hl
      omega
    simp only [scan_loop]
    by_cases hs : (is_token_start (next_scan_state state c)
        || is_nested_level_start (next_scan_state state c)) = true
    · rw [if_pos hs]
      obtain ⟨g1, g2⟩ := f5 hs
      have hr := step_start_reducing state c hs
      have hcells : cells_reducing
          (inc_level (set_token_start p (next_scan_state state c) txt)).stack
          (inc_level (set_token_start p (next_scan_state state c) txt)).level := by
        intro i hi
        rw [hinc] at hi
        simp only [inc_level_stack, set_token_start_stack]
        by_cases hi2 : i = p.level
        · rw [hi2, hst g1]
          exact hr
        · exact h i (by omega)
      by_cases hd : (inc_level (set_token_start p (next_scan_state state c) txt)).level
          = JSON_MAX_STACK
      · rw [if_pos hd]
        trivial
      · rw [if_neg hd]
        by_cases hf : is_final (next_scan_state state c) = true
        · rw [if_pos hf]
          exact hcells
        · rw [if_neg hf]
          refine ih _ _ _ ?_ hcells ?_
          · rw [hinc] at hd ⊢
            simp at hl hd ⊢
            omega
          · intro hp
            have := g2 (by simpa using hf)
            omega
    · rw [if_neg hs]
      have hcells : cells_reducing
          (if next_scan_state state c > __REDUCING_PARSER_STATES
            then set_state p (next_scan_state state c) else p).stack
          (if next_scan_state state c > __REDUCING_PARSER_STATES
            then set_state p (next_scan_state state c) else p).level := by
        split
        · intro i hi
          rw [set_state_level] at hi
          simp only [set_state]
          rw [stack_write_stack _ _ _ _ hl, if_neg (by omega)]
          exact h i hi
        · exact h
      by_cases hf : is_final (next_scan_state state c) = true
      · rw [if_pos hf]
        exact hcells
      · rw [if_neg hf]
        refine ih _ _ _ ?_ hcells ?_
        · split
          · rw [set_state_level]; exact hl
          · exact hl
        · intro hp
          split
          · simp only [set_state, stack_write_level]
            rw [stack_write_stack _ _ _ _ hl, if_pos rfl]
          · rename_i hgt
            rcases step_parser_state state c hp with h' | h'
            · exact absurd h' hgt
            · rw [h']
              exact hst (f1 hp (by simpa using hf))

theorem called_cells (q : jspp_t) (h : called q) :
    q.level < JSON_MAX_STACK → cells_reducing q.stack q.level := by
  induction h with
  | start parser text h =>
    intro _ i hi
    rw [(start_state_facts parser text).1] at hi
    exact absurd hi (Nat.not_lt_zero _)
  | hints q a b _ ih => exact ih
  | fragment q text _ ht ih => exact ih
  | next q hq ih =>
    have hc := called_inv q hq
    cases jspp_next_case q hc.1 with
    | dead h e => rw [e]; exact ih
    | terminal h hs e => rw [e]; exact ih
    | at_end h hs hp e => rw [e]; exact ih
    | too_deep p1 h hs hp hl hpost e =>
      rw [e]
      intro h1
      exfalso
      have := hpost.2.2.2
      simp only at h1
      omega
    | complete p1 s1 t1 h hs hp hl hpost hf e =>
      have hcells := scan_loop_cells (q.text.drop (scan_pos q)) q (get_state q) (scan_pos q) h
        (ih h) (fun _ => (get_state_eq q h).symm)
      rw [hl] at hcells
      have hl1 : p1.level < JSON_MAX_STACK := hpost.2.2.2.1
      rw [e]
      intro hlev i hi
      rw [complete_token_level] at hlev hi
      rw [complete_token_stack]
      by_cases hn : is_nested_level_start s1 = true
      · rw [if_pos hn] at hi
        rw [if_pos hn, if_neg (fun h5 => by omega)]
        exact hcells i hi
      · rw [if_neg hn] at hi hlev
        rw [if_neg hn, if_neg (fun h5 => by omega)]
        apply hcells i
        simp at hl1 hlev
        omega
    | suspended p1 s1 t1 h hs hp hl hpost hf e =>
      have hcells := scan_loop_cells (q.text.drop (scan_pos q)) q (get_state q) (scan_pos q) h
        (ih h) (fun _ => (get_state_eq q h).symm)
      rw [hl] at hcells
      have hl1 : p1.level < JSON_MAX_STACK := hpost.2.2.2.1
      rw [e]
      intro hlev i hi
      rw [suspend_token_level] at hi
      rw [suspend_token_snd]
      simp only [set_token_end_stack, set_state]
      rw [stack_write_stack _ _ _ _ hl1, if_neg (by omega)]
      exact hcells i hi

/-! ### The argument of `next_parsing_state` -/

theorem next_parsing_state_other (s : Nat) (h : s ∉ reduction_inputs) :
    next_parsing_state s = JSON_INVALID := by
  simp only [reduction_inputs, List.mem_cons, List.mem_singleton, List.not_mem_nil, or_false,
    not_or] at h
  obtain ⟨h1, h2, h3, h4, h5, h6, h7, h8⟩ := h
  unfold next_parsing_state
  rw [if_neg h1, if_neg (by rintro (h | h); exact h2 h; exact h3 h), if_neg h4, if_neg h5,
    if_neg (by rintro (h | h); exact h6 h; exact h7 h), if_neg h8]

theorem reducing_listed (s : Nat) (h : reducing s) : s ∈ reduction_inputs := by
  rcases reducing_cases s h with h | h | h | h | h | h <;> rw [h] <;> decide

theorem reduction_input_listed (q : jspp_t) (h : called q)
    (hc : JSON_NULL ≤ (jspp_next q).1) :
    ∃ p1 s1 t1,
      scan_loop q (get_state q) (scan_pos q) (q.text.drop (scan_pos q)) = .stopped p1 s1 t1
        ∧ is_final s1 = true ∧ jspp_next q = complete_token p1 s1 t1
        ∧ reduction_input p1 s1 ∈ reduction_inputs
        ∧ next_parsing_state (reduction_input p1 s1) ≠ JSON_INVALID
        ∧ (jspp_next q).2.stack (jspp_next q).2.level
            = next_parsing_state (reduction_input p1 s1) := by
  have hci := called_inv q h
  have hlev := jspp_next_complete_level q hci hc
  cases jspp_next_case q hci.1 with
  | dead h1 e => rw [e] at hc; simp at hc
  | terminal h1 hs e => rw [e] at hc; simp at hc hs; omega
  | at_end h1 hs hp e => rw [e] at hc; simp at hc
  | too_deep p1 h1 hs hp hl hpost e => rw [e] at hc; simp at hc
  | suspended p1 s1 t1 h1 hs hp hl hpost hf e =>
    exfalso
    rw [e] at hc
    have := (suspend_token_fst p1 s1).2
    simp at hc this
    omega
  | complete p1 s1 t1 h1 hs hp hl hpost hf e =>
    have hl1 : p1.level < JSON_MAX_STACK := hpost.2.2.2.1
    have hcells := scan_loop_cells (q.text.drop (scan_pos q)) q (get_state q) (scan_pos q) h1
      (called_cells q h h1) (fun _ => (get_state_eq q h1).symm)
    rw [hl] at hcells
    rw [e] at hlev hc ⊢
    refine ⟨p1, s1, t1, hl, hf, rfl, ?_⟩
    by_cases hn : is_nested_level_start s1 = true
    · have hin : reduction_input p1 s1 = s1 := by
        unfold reduction_input
        rw [if_pos hn]
      rw [hin]
      have hcase : s1 = JSON_ARRAY_BEGIN ∨ s1 = JSON_OBJECT_BEGIN := by
        simpa [is_nested_level_start] using hn
      refine ⟨?_, ?_, ?_⟩
      · rcases hcase with h5 | h5 <;> rw [h5] <;> decide
      · rcases hcase with h5 | h5 <;> rw [h5] <;> decide
      · rw [complete_token_level, if_pos hn, complete_token_stack, if_pos hn,
          if_pos ⟨rfl, hl1⟩]
    · rw [complete_token_level, if_neg hn] at hlev
      have hpos : 0 < p1.level := by
        simp at hl1 hlev
        omega
      have hmod : (p1.level + 255) % 256 = p1.level - 1 := by
        simp at hl1
        omega
      have hin : reduction_input p1 s1 = p1.stack (p1.level - 1) := by
        unfold reduction_input
        rw [if_neg hn]
        simp only [get_state, stack_read, dec_level, hmod]
        rw [if_pos (by simp at hl1 ⊢; omega)]
      have hr : reducing (p1.stack (p1.level - 1)) := hcells _ (by omega)
      rw [hin]
      refine ⟨reducing_listed _ hr, reducing_next _ hr, ?_⟩
      rw [complete_token_level, if_neg hn, complete_token_stack, if_neg hn, hmod,
        if_pos ⟨rfl, by simp at hl1 ⊢; omega⟩]
      simp only [stack_read, dec_level_stack]
      rw [if_pos (by simp at hl1 ⊢; omega)]

/-- C37: the reduction table. `next_parsing_state` maps `JSON_OBJECT_BEGIN` to
`EXPECTING_OBJECT_MEMBER_NAME_OR_END`, `EXPECTING_OBJECT_MEMBER_NAME_OR_END`
and `EXPECTING_OBJECT_MEMBER_NAME` to
`EXPECTING_OBJECT_MEMBER_NAME_VALUE_SEPARATOR`, `EXPECTING_OBJECT_MEMBER_VALUE`
to `EXPECTING_OBJECT_TAIL`, `JSON_ARRAY_BEGIN` to
`EXPECTING_ARRAY_ELEMENT_OR_END`, `EXPECTING_ARRAY_ELEMENT_OR_END` and
`EXPECTING_ARRAY_ELEMENT` to `EXPECTING_ARRAY_TAIL`, `EXPECTING_JSON` to
`JSON_END`, and every other input to `JSON_INVALID`. Moreover, on every state
the body of `jspp_next` runs on (in a call by the caller or from inside
`jspp_start`, `jspp_continue` and `jspp_skip_next`), when the call returns a
complete token, the state passed to `next_parsing_state` is one of the listed
inputs, the result is not `JSON_INVALID`, and it is the state the call leaves
on top of the stack. -/
theorem reduction_table (q : jspp_t) (h : called q) (hc : JSON_NULL ≤ (jspp_next q).1) :
    next_parsing_state JSON_OBJECT_BEGIN = EXPECTING_OBJECT_MEMBER_NAME_OR_END
      ∧ next_parsing_state EXPECTING_OBJECT_MEMBER_NAME_OR_END
          = EXPECTING_OBJECT_MEMBER_NAME_VALUE_SEPARATOR
      ∧ next_parsing_state EXPECTING_OBJECT_MEMBER_NAME
          = EXPECTING_OBJECT_MEMBER_NAME_VALUE_SEPARATOR
      ∧ next_parsing_state EXPECTING_OBJECT_MEMBER_VALUE = EXPECTING_OBJECT_TAIL
      ∧ next_parsing_state JSON_ARRAY_BEGIN = EXPECTING_ARRAY_ELEMENT_OR_END
      ∧ next_parsing_state EXPECTING_ARRAY_ELEMENT_OR_END = EXPECTING_ARRAY_TAIL
      ∧ next_parsing_state EXPECTING_ARRAY_ELEMENT = EXPECTING_ARRAY_TAIL
      ∧ next_parsing_state EXPECTING_JSON = JSON_END
      ∧ (∀ s, s ∉ reduction_inputs → next_parsing_state s = JSON_INVALID)
      ∧ ∃ p1 s1 t1,
          scan_loop q (get_state q) (scan_pos q) (q.text.drop (scan_pos q)) = .stopped p1 s1 t1
            ∧ is_final s1 = true ∧ jspp_next q = complete_token p1 s1 t1
            ∧ reduction_input p1 s1 ∈ reduction_inputs
            ∧ next_parsing_state (reduction_input p1 s1) ≠ JSON_INVALID
            ∧ (jspp_next q).2.stack (jspp_next q).2.level
                = next_parsing_state (reduction_input p1 s1) :=
  ⟨by decide, by decide, by decide, by decide, by decide, by decide, by decide, by decide,
    next_parsing_state_other, reduction_input_listed q h hc⟩

theorem reduction_table_witness :
    next_parsing_state JSON_OBJECT_BEGIN = EXPECTING_OBJECT_MEMBER_NAME_OR_END
      ∧ next_parsing_state EXPECTING_OBJECT_MEMBER_NAME_OR_END
          = EXPECTING_OBJECT_MEMBER_NAME_VALUE_SEPARATOR
      ∧ next_parsing_state EXPECTING_OBJECT_MEMBER_NAME
          = EXPECTING_OBJECT_MEMBER_NAME_VALUE_SEPARATOR
      ∧ next_parsing_state EXPECTING_OBJECT_MEMBER_VALUE = EXPECTING_OBJECT_TAIL
      ∧ next_parsing_state JSON_ARRAY_BEGIN = EXPECTING_ARRAY_ELEMENT_OR_END
      ∧ next_parsing_state EXPECTING_ARRAY_ELEMENT_OR_END = EXPECTING_ARRAY_TAIL
      ∧ next_parsing_state EXPECTING_ARRAY_ELEMENT = EXPECTING_ARRAY_TAIL
      ∧ next_parsing_state EXPECTING_JSON = JSON_END
      ∧ (∀ s, s ∉ reduction_inputs → next_parsing_state s = JSON_INVALID)
      ∧ ∃ p1 s1 t1,
          scan_loop (jspp_start jspp_zero [91, 49, 93]).2
              (get_state (jspp_start jspp_zero [91, 49, 93]).2)
              (scan_pos (jspp_start jspp_zero [91, 49, 93]).2)
              ((jspp_start jspp_zero [91, 49, 93]).2.text.drop
                (scan_pos (jspp_start jspp_zero [91, 49, 93]).2)) = .stopped p1 s1 t1
            ∧ is_final s1 = true
            ∧ jspp_next (jspp_start jspp_zero [91, 49, 93]).2 = complete_token p1 s1 t1
            ∧ reduction_input p1 s1 ∈ reduction_inputs
            ∧ next_parsing_state (reduction_input p1 s1) ≠ JSON_INVALID
            ∧ (jspp_next (jspp_start jspp_zero [91, 49, 93]).2).2.stack
                (jspp_next (jspp_start jspp_zero [91, 49, 93]).2).2.level
                = next_parsing_state (reduction_input p1 s1) :=
  reduction_table (jspp_start jspp_zero [91, 49, 93]).2
    (called.next _ (called.start jspp_zero [91, 49, 93] (by decide))) (by decide)

/-! ### Numbers and strings behind the bytes between two tokens -/

/-- C10 (as amended): a string at a value position at most 12 containers deep
whose body is made of bytes other than `"` and `\` and of pairs of `\` and any
byte, both quotes in the fragment: `jspp_next` returns `JSON_STRING`,
`jspp_text` is the body as it stands, of the length of the body, and the next
call begins behind the closing quote. Here `sep` are the bytes the call scans
before the opening quote (whitespace, `,`, `:`), which leave the scanner in a
state that expects a value. -/
theorem string_text_is_raw_body (p : jspp_t) (pre sep : List Nat) (body : List string_item)
    (rest : List Nat) (hb : body_well_formed body = true)
    (htext : p.text = pre ++ (sep ++ 34 :: (body_bytes body ++ 34 :: rest)))
    (hlen : p.text.length ≤ 65535)
    (hl : p.level ≤ 12) (hpos : scan_pos p = pre.length)
    (hsep : between (get_state p) sep = true)
    (hst : value_state (scan_states (get_state p) sep)) :
    (jspp_next p).1 = JSON_STRING ∧ jspp_text (jspp_next p).2 = body_bytes body
      ∧ (jspp_next p).2.token_length = (body_bytes body).length
      ∧ (jspp_next p).2.text.drop (scan_pos (jspp_next p).2) = rest := by
  obtain ⟨p1, e1, e2, e3, e4⟩ := jspp_next_between p pre sep
    (34 :: (body_bytes body ++ 34 :: rest)) htext hpos
    (by simp; omega) hsep (string_state_reducing _ (Or.inl hst)) (by simp)
  have hl1 : p1.level ≤ 12 := by rw [e1]; exact hl
  have hlen' : pre.length + sep.length + (body_bytes body).length + rest.length + 2 ≤ 65535 := by
    rw [htext] at hlen
    simp only [List.length_append, List.length_cons] at hlen
    omega
  have hnext : jspp_next p
      = complete_token (inc_level (set_token_start p1 STRING_BEGIN (pre.length + sep.length)))
          JSON_STRING (pre.length + sep.length + 1 + (body_bytes body).length) := by
    rw [e4, scan_string p1 body _ _ rest hb (Or.inl hst) hl1]
    simp only []
    rw [if_pos (by decide)]
  have hts : (inc_level (set_token_start p1 STRING_BEGIN (pre.length + sep.length))).token_start
      = pre.length + sep.length + 1 := by
    simp only [inc_level_token_start, set_token_start, if_true]
    omega
  have h1 : (jspp_next p).2.token_start = pre.length + sep.length + 1 := by
    rw [hnext, complete_token_token_start, if_neg (by decide), hts]
  have h2 : (jspp_next p).2.token_length = (body_bytes body).length := by
    rw [hnext, complete_token_token_length _ _ _ (by rw [hts]; omega) (by omega),
      if_neg (by decide), hts]
    simp [ends_after]
  have h3 : (jspp_next p).2.text = p.text := by
    rw [hnext, complete_token_text]
    simp only [inc_level_text, set_token_start_text]
    exact e2
  have h4 : (jspp_next p).2.token = JSON_STRING := by
    rw [hnext, complete_token_token]
  have h5 : p.text = (pre ++ sep ++ [34]) ++ (body_bytes body ++ 34 :: rest) := by
    rw [htext]; simp
  have h6 : p.text = (pre ++ sep ++ [34] ++ body_bytes body ++ [34]) ++ rest := by
    rw [htext]; simp
  refine ⟨?_, ?_, h2, ?_⟩
  · rw [hnext, complete_token_fst_eq _ _ _ (by decide)]
    have h7 : stack_read (inc_level (set_token_start p1 STRING_BEGIN (pre.length + sep.length)))
        (((inc_level (set_token_start p1 STRING_BEGIN (pre.length + sep.length))).level + 255)
          % 256)
        = get_state p1 := by
      simp only [stack_read, inc_level, set_token_start, get_state]
      have : ((p1.level + 1) % 256 + 255) % 256 = p1.level := by omega
      rw [this]
    rw [h7, e3, if_neg (fun h => value_state_after _ hst h.2)]
  · unfold jspp_text
    rw [h1, h2, h3, h5]
    have : pre.length + sep.length + 1 = (pre ++ sep ++ [34]).length := by simp; omega
    rw [this, List.drop_left, List.take_left]
  · unfold scan_pos
    rw [h1, h2, h3, h4, if_pos rfl, h6]
    have : pre.length + sep.length + 1 + (body_bytes body).length + 1
        = (pre ++ sep ++ [34] ++ body_bytes body ++ [34]).length := by simp; omega
    rw [this, List.drop_left]

theorem string_text_is_raw_body_witness :
    (jspp_next (jspp_next (jspp_start jspp_zero
        [123, 34, 107, 34, 58, 32, 34, 97, 92, 34, 98, 34, 125]).2).2).1 = JSON_STRING
      ∧ jspp_text (jspp_next (jspp_next (jspp_start jspp_zero
        [123, 34, 107, 34, 58, 32, 34, 97, 92, 34, 98, 34, 125]).2).2).2
        = [97, 92, 34, 98]
      ∧ (jspp_next (jspp_next (jspp_start jspp_zero
        [123, 34, 107, 34, 58, 32, 34, 97, 92, 34, 98, 34, 125]).2).2).2.token_length = 4
      ∧ (jspp_next (jspp_next (jspp_start jspp_zero
        [123, 34, 107, 34, 58, 32, 34, 97, 92, 34, 98, 34, 125]).2).2).2.text.drop
          (scan_pos (jspp_next (jspp_next (jspp_start jspp_zero
        [123, 34, 107, 34, 58, 32, 34, 97, 92, 34, 98, 34, 125]).2).2).2)
        = [125] :=
  string_text_is_raw_body (jspp_next (jspp_start jspp_zero
      [123, 34, 107, 34, 58, 32, 34, 97, 92, 34, 98, 34, 125]).2).2
    [123, 34, 107, 34] [58, 32] [.plain 97, .escaped 34, .plain 98] [125] (by decide) (by decide)
    (by decide) (by decide) (by decide) (by decide)
    (Or.inr (Or.inr (Or.inr (by decide))))

/-! ### Member name or string, in one fragment and across fragments -/

theorem string_entry_state (p : jspp_t) (lead : List Nat) (below s0 : Nat)
    (h : string_entry p lead below s0) : in_string s0 := by
  rcases h with ⟨sep, _, _, _, _, h5⟩ | ⟨_, h2, _, h4⟩
  · rw [h5]; exact ⟨by decide, by decide⟩
  · rw [h4]; exact h2

theorem in_string_not_name (s : Nat) (h : in_string s) :
    ¬ (s = EXPECTING_OBJECT_MEMBER_NAME ∨ s = EXPECTING_OBJECT_MEMBER_NAME_OR_END) := by
  unfold in_string at h
  simp at h ⊢
  omega

/-- A call that comes to the bytes of a string: the loop stands in front of
them, one level above the cell `below`. -/
theorem string_entry_loop (p : jspp_t) (pre lead tail : List Nat) (below s0 : Nat)
    (htext : p.text = pre ++ (lead ++ tail)) (hpos : scan_pos p = pre.length)
    (hlev : p.level < JSON_MAX_STACK) (hent : string_entry p lead below s0)
    (hne : lead ++ tail ≠ []) (hacc : (jspp_next p).1 ≠ JSON_TOO_DEEP) :
    ∃ p2, p2.level < JSON_MAX_STACK ∧ get_state (dec_level p2) = below
      ∧ (p2.level = 0 → ¬ (below = EXPECTING_OBJECT_MEMBER_NAME
          ∨ below = EXPECTING_OBJECT_MEMBER_NAME_OR_END))
      ∧ jspp_next p
        = match scan_loop p2 s0 (pre.length + lead.length) tail with
          | .too_deep p3 => (JSON_TOO_DEEP, p3)
          | .stopped p3 state1 txt1 =>
            if is_final state1 then complete_token p3 state1 txt1
            else suspend_token p3 state1 := by
  rcases hent with ⟨sep, h1, h2, h3, h4, h5⟩ | ⟨h1, h2, h3, h4⟩
  · have htext' : p.text = pre ++ (sep ++ 34 :: tail) := by
      rw [htext, h1]; simp
    obtain ⟨p1, e1, e2, e3, e4⟩ := jspp_next_between p pre sep (34 :: tail) htext' hpos hlev h2
      (string_state_reducing _ h3) (by simp)
    have h0 := string_state_start _ h3
    have hl1 : p1.level ≤ 12 := by
      by_contra hc
      apply hacc
      have h13 : p1.level = 13 := by simp at hlev; omega
      rw [e4]
      simp only [scan_loop, h0]
      rw [if_pos (by decide), if_pos (by simp [inc_level, h13])]
    have hinc : (inc_level (set_token_start p1 STRING_BEGIN (pre.length + sep.length))).level
        = p1.level + 1 := by
      simp [inc_level]
      omega
    refine ⟨inc_level (set_token_start p1 STRING_BEGIN (pre.length + sep.length)), ?_, ?_, ?_, ?_⟩
    · rw [hinc]; simp; omega
    · rw [h4, ← e3]
      simp only [get_state, stack_read, dec_level, hinc]
      have : (p1.level + 1 + 255) % 256 = p1.level := by omega
      rw [this]
      rfl
    · intro hz
      rw [hinc] at hz
      omega
    · rw [e4, scan_start_step p1 _ _ 34 tail (by rw [h0]; decide) hl1, h0, h5, h1]
      simp only [List.length_append, List.length_singleton]
      rw [Nat.add_assoc]
      all_goals rfl
  · rw [h1] at htext hne ⊢
    simp only [List.nil_append, List.length_nil, Nat.add_zero] at htext hne ⊢
    have hgt : JSON_END < get_state p := by simp at h2 ⊢; omega
    refine ⟨p, hlev, h3.symm, ?_, ?_⟩
    · intro hz
      rw [h3]
      simp only [get_state, stack_read, dec_level, hz]
      simp
    · rw [jspp_next_scan p hlev hgt (by
        rw [hpos, htext]
        cases tail with
        | nil => exact absurd rfl hne
        | cons c tail => simp), hpos, htext, List.drop_left, h4]
      all_goals rfl

/-- C27: a completed string is returned as `JSON_MEMBER_NAME` exactly when the
state one level below it is `EXPECTING_OBJECT_MEMBER_NAME_OR_END` or
`EXPECTING_OBJECT_MEMBER_NAME`, and as `JSON_STRING` otherwise (in the states
of a value: the root, an array element, a member value); when the fragment ends
inside the string the same rule gives `JSON_MEMBER_NAME_PART` or
`JSON_STRING_PART`. The call is any call that comes to the bytes of a string
and does not return `JSON_TOO_DEEP` at the opening quote: the string begins in
it, behind the bytes between two tokens, and `below` is the state the scanner
is in at the opening quote; or the call resumes a string that the fragments
before have left open, and `below` is the cell under the state on top of the
stack. When the fragment ends inside the string, every call on the state left
behind, whatever the next fragment is, resumes the string with the same
`below`: the state at the opening quote decides for the whole string. -/
theorem member_name_or_string (p : jspp_t) (pre lead tail : List Nat) (below s0 : Nat)
    (htext : p.text = pre ++ (lead ++ tail)) (hpos : scan_pos p = pre.length)
    (hlev : p.level < JSON_MAX_STACK) (hent : string_entry p lead below s0)
    (hacc : (jspp_next p).1 ≠ JSON_TOO_DEEP) :
    (∀ body rest, tail = body ++ 34 :: rest → quiet_run s0 body = true →
        next_scan_state (scan_states s0 body) 34 = JSON_STRING →
        (jspp_next p).1
          = if below = EXPECTING_OBJECT_MEMBER_NAME
              ∨ below = EXPECTING_OBJECT_MEMBER_NAME_OR_END
            then JSON_MEMBER_NAME else JSON_STRING)
      ∧ (quiet_run s0 tail = true →
        (lead ++ tail ≠ [] →
          (jspp_next p).1
            = if below = EXPECTING_OBJECT_MEMBER_NAME
                ∨ below = EXPECTING_OBJECT_MEMBER_NAME_OR_END
              then JSON_MEMBER_NAME_PART else JSON_STRING_PART)
        ∧ (jspp_next p).2.level < JSON_MAX_STACK
        ∧ ∀ text, string_entry (set_fragment (jspp_next p).2 text) [] below
            (scan_states s0 tail)) := by
  have hs0 := string_entry_state p lead below s0 hent
  constructor
  · intro body rest htail hq hend
    obtain ⟨p2, k1, k2, k3, k4⟩ := string_entry_loop p pre lead tail below s0 htext hpos hlev hent
      (by rw [htail]; simp) hacc
    rw [k4, htail, scan_quiet_run body p2 s0 _ _ hq,
      scan_final_step _ _ _ 34 rest (by rw [hend]; decide) (by rw [hend]; decide), hend]
    simp only []
    rw [if_pos (by decide), complete_token_fst_eq _ _ _ (by decide)]
    have : stack_read p2 ((p2.level + 255) % 256) = below := by
      rw [← k2]
      rfl
    rw [this]
    simp only [is_string_a_member_name, Bool.or_eq_true, decide_eq_true_eq, true_and]
  · intro hq
    have hin := in_string_run tail s0 hs0 hq
    have hnf : is_final (scan_states s0 tail) = false := by
      unfold in_string at hin
      simp [is_final] at hin ⊢
      omega
    have key : lead ++ tail ≠ [] →
        (jspp_next p).1
            = (if below = EXPECTING_OBJECT_MEMBER_NAME
                ∨ below = EXPECTING_OBJECT_MEMBER_NAME_OR_END
              then JSON_MEMBER_NAME_PART else JSON_STRING_PART)
          ∧ (jspp_next p).2.level < JSON_MAX_STACK
          ∧ get_state (jspp_next p).2 = scan_states s0 tail
          ∧ get_state (dec_level (jspp_next p).2) = below := by
      intro hne
      obtain ⟨p2, k1, k2, k3, k4⟩ := string_entry_loop p pre lead tail below s0 htext hpos hlev
        hent hne hacc
      have hloop : scan_loop p2 s0 (pre.length + lead.length) tail
          = .stopped p2 (scan_states s0 tail) (pre.length + lead.length + tail.length) := by
        have := scan_quiet_run tail p2 s0 (pre.length + lead.length) [] hq
        rw [List.append_nil] at this
        rw [this]
        rfl
      rw [k4, hloop]
      simp only []
      rw [if_neg (by rw [hnf]; decide)]
      have hbelow : get_state (dec_level (suspend_token p2 (scan_states s0 tail)).2) = below := by
        rw [← k2, suspend_token_snd]
        have hlv : (set_token_end (set_state p2 (scan_states s0 tail)) (scan_states s0 tail)
            p2.text_length).level = p2.level := by simp
        show stack_read (set_state p2 (scan_states s0 tail))
            (((set_token_end (set_state p2 (scan_states s0 tail)) (scan_states s0 tail)
              p2.text_length).level + 255) % 256)
          = stack_read p2 ((p2.level + 255) % 256)
        rw [hlv]
        simp only [set_state]
        rw [stack_read_write _ _ _ _ k1, if_neg]
        simp at k1
        omega
      refine ⟨?_, by rw [suspend_token_level]; exact k1, suspend_token_get_state p2 _ k1, hbelow⟩
      rw [suspend_token_part_kind, suspend_token_level]
      unfold part_kind
      unfold in_string at hin
      rw [if_neg (by simp at hin ⊢; omega), if_pos hin]
      by_cases hz : p2.level = 0
      · have hn := k3 hz
        rw [if_neg hn, if_neg]
        rw [hz]
        have : stack_read (suspend_token p2 (scan_states s0 tail)).2 (0 - 1)
            = scan_states s0 tail := by
          have := suspend_token_get_state p2 (scan_states s0 tail) k1
          simp only [get_state, suspend_token_level, hz] at this
          exact this
        rw [this]
        exact in_string_not_name _ hin
      · have : stack_read (suspend_token p2 (scan_states s0 tail)).2 (p2.level - 1) = below := by
          rw [← hbelow]
          simp only [get_state, stack_read, dec_level, suspend_token_level]
          have : (p2.level + 255) % 256 = p2.level - 1 := by simp at k1; omega
          rw [this]
        rw [this]
    have hstay : (jspp_next p).2.level < JSON_MAX_STACK
        ∧ get_state (jspp_next p).2 = scan_states s0 tail
        ∧ get_state (dec_level (jspp_next p).2) = below := by
      by_cases hne : lead ++ tail ≠ []
      · exact (key hne).2
      · have hnil : lead ++ tail = [] := by simpa using hne
        have hl0 : lead = [] := (List.append_eq_nil.mp hnil).1
        have ht0 : tail = [] := (List.append_eq_nil.mp hnil).2
        rcases hent with ⟨sep, h1, _⟩ | ⟨h1, h2, h3, h4⟩
        · rw [hl0] at h1
          simp at h1
        · have hend : scan_pos p = p.text.length := by
            rw [hpos, htext, hl0, ht0]
            simp
          have hgt : JSON_END < get_state p := by simp at h2 ⊢; omega
          have e : jspp_next p = (JSON_CONTINUE, p) := jspp_next_at_end p ⟨hlev, hgt, hend⟩
          rw [e, ht0]
          exact ⟨hlev, h4.symm, h3.symm⟩
    refine ⟨fun hne => (key hne).1, hstay.1, fun text => Or.inr ⟨rfl, ?_, ?_, ?_⟩⟩
    · have : get_state (set_fragment (jspp_next p).2 text) = scan_states s0 tail := hstay.2.1
      rw [this]
      exact hin
    · exact hstay.2.2.symm
    · exact hstay.2.1.symm

theorem member_name_or_string_witness :
    (jspp_next (set_fragment (jspp_next (jspp_start jspp_zero [123, 34, 97, 110, 115]).2).2
        [119, 101, 114, 34, 58, 49, 125])).1
      = if EXPECTING_OBJECT_MEMBER_NAME_OR_END = EXPECTING_OBJECT_MEMBER_NAME
          ∨ EXPECTING_OBJECT_MEMBER_NAME_OR_END = EXPECTING_OBJECT_MEMBER_NAME_OR_END
        then JSON_MEMBER_NAME else JSON_STRING :=
  (member_name_or_string
    (set_fragment (jspp_next (jspp_start jspp_zero [123, 34, 97, 110, 115]).2).2
      [119, 101, 114, 34, 58, 49, 125])
    [] [] [119, 101, 114, 34, 58, 49, 125] EXPECTING_OBJECT_MEMBER_NAME_OR_END STRING_CHARS
    (by decide) (by decide) (by decide)
    (Or.inr ⟨rfl, by decide, by decide, by decide⟩) (by decide)).1
    [119, 101, 114] [58, 49, 125] (by decide) (by decide) (by decide)

/-! ### The scanner on a number of the dialect -/

theorem exponent_run_lax (m : Nat) (sg ds : List Nat) (s : Nat)
    (hs : s = NUMBER_BEGIN ∨ s = INT_DIGITS ∨ s = DEC_DIGITS)
    (hm : m = 69 ∨ m = 101) (hsg : (sg = [] ∨ sg = [43]) ∨ sg = [45])
    (hd : only_digits ds = true) (hne : sg ++ ds ≠ []) :
    quiet_run s (m :: (sg ++ ds)) = true ∧ scan_states s (m :: (sg ++ ds)) = EXP_DIGITS := by
  have h1 : next_scan_state s m = EXP := by
    rcases hs with rfl | rfl | rfl <;> rcases hm with rfl | rfl <;> decide
  have h2 : quiet_run EXP (sg ++ ds) = true ∧ scan_states EXP (sg ++ ds) = EXP_DIGITS := by
    rcases hsg with (rfl | rfl) | rfl
    · have h := digits_run ds hd EXP (by simp)
      simp only [List.nil_append] at hne ⊢
      rw [if_neg hne] at h
      exact h
    · have h := digits_run ds hd EXP_DIGITS (by simp)
      have h3 : next_scan_state EXP 43 = EXP_DIGITS := by decide
      refine ⟨?_, ?_⟩
      · show (quiet (next_scan_state EXP 43) && quiet_run (next_scan_state EXP 43) ds) = true
        rw [h3, h.1]; decide
      · show scan_states (next_scan_state EXP 43) ds = EXP_DIGITS
        rw [h3, h.2]; split_ifs <;> rfl
    · have h := digits_run ds hd EXP_DIGITS (by simp)
      have h3 : next_scan_state EXP 45 = EXP_DIGITS := by decide
      refine ⟨?_, ?_⟩
      · show (quiet (next_scan_state EXP 45) && quiet_run (next_scan_state EXP 45) ds) = true
        rw [h3, h.1]; decide
      · show scan_states (next_scan_state EXP 45) ds = EXP_DIGITS
        rw [h3, h.2]; split_ifs <;> rfl
  refine ⟨?_, ?_⟩
  · show (quiet (next_scan_state s m) && quiet_run (next_scan_state s m) (sg ++ ds)) = true
    rw [h1, h2.1]; decide
  · show scan_states (next_scan_state s m) (sg ++ ds) = EXP_DIGITS
    rw [h1, h2.2]

theorem fraction_run_lax (f : List Nat) (s : Nat) (hs : s = NUMBER_BEGIN ∨ s = INT_DIGITS)
    (hf : only_digits f = true) :
    quiet_run s (46 :: f) = true ∧ scan_states s (46 :: f) = DEC_DIGITS := by
  have h1 : next_scan_state s 46 = DEC_DIGITS := by
    rcases hs with rfl | rfl <;> decide
  have h := digits_run f hf DEC_DIGITS (by simp)
  refine ⟨?_, ?_⟩
  · show (quiet (next_scan_state s 46) && quiet_run (next_scan_state s 46) f) = true
    rw [h1, h.1]; decide
  · show scan_states (next_scan_state s 46) f = DEC_DIGITS
    rw [h1, h.2]; split_ifs <;> rfl

theorem suffix_run_lax (n : number_lexeme) (hn : n.lax = true) (s : Nat)
    (hs : s = NUMBER_BEGIN ∨ s = INT_DIGITS) :
    quiet_run s n.suffix = true ∧ number_state n.kind (scan_states s n.suffix) := by
  obtain ⟨mi, ints, fr, ex⟩ := n
  simp only [number_lexeme.lax, Bool.and_eq_true] at hn
  obtain ⟨⟨_, hfr⟩, hex⟩ := hn
  cases fr with
  | none =>
    cases ex with
    | none =>
      refine ⟨rfl, Or.inl ⟨rfl, ?_⟩⟩
      exact hs
    | some e =>
      obtain ⟨m, sg, ds⟩ := e
      simp only [Bool.and_eq_true, Bool.or_eq_true, beq_iff_eq, Bool.not_eq_true',
        List.isEmpty_eq_false] at hex
      have h := exponent_run_lax m sg ds s (by rcases hs with h | h <;> simp [h]) hex.1.1.1
        hex.1.1.2 hex.1.2 (by simpa using hex.2)
      simp only [number_lexeme.suffix, List.nil_append]
      exact ⟨h.1, Or.inr (Or.inr ⟨rfl, h.2⟩)⟩
  | some f =>
    have h := fraction_run_lax f s hs hfr
    cases ex with
    | none =>
      simp only [number_lexeme.suffix, List.append_nil]
      exact ⟨h.1, Or.inr (Or.inl ⟨rfl, h.2⟩)⟩
    | some e =>
      obtain ⟨m, sg, ds⟩ := e
      simp only [Bool.and_eq_true, Bool.or_eq_true, beq_iff_eq, Bool.not_eq_true',
        List.isEmpty_eq_false] at hex
      have h2 := exponent_run_lax m sg ds DEC_DIGITS (by simp) hex.1.1.1 hex.1.1.2 hex.1.2
        (by simpa using hex.2)
      simp only [number_lexeme.suffix]
      rw [quiet_run_append, scan_states_append, h.1, h.2, h2.1, h2.2]
      exact ⟨rfl, Or.inr (Or.inr ⟨rfl, rfl⟩)⟩

theorem number_split_lax (n : number_lexeme) (hn : n.lax = true) :
    ∃ c ds, (c = 45 ∨ is_digit c = true) ∧ ds.all is_digit = true
      ∧ n.bytes = c :: (ds ++ n.suffix) := by
  have hn' := hn
  simp only [number_lexeme.lax, Bool.and_eq_true, Bool.or_eq_true, Bool.not_eq_true',
    List.isEmpty_eq_false] at hn'
  obtain ⟨⟨⟨hd, hm⟩, _⟩, _⟩ := hn'
  by_cases hmin : n.minus = true
  · refine ⟨45, n.int_digits, Or.inl rfl, hd, ?_⟩
    simp [number_lexeme.bytes, hmin]
  · have hne : n.int_digits ≠ [] := by
      rcases hm with h | h
      · exact absurd h hmin
      · simpa using h
    cases hds : n.int_digits with
    | nil => exact absurd hds hne
    | cons c rest =>
      rw [hds] at hd
      simp only [only_digits, List.all_cons, Bool.and_eq_true] at hd
      refine ⟨c, rest, Or.inr hd.1, hd.2, ?_⟩
      simp [number_lexeme.bytes, hmin, hds]

theorem number_run_lax (n : number_lexeme) (hn : n.lax = true) (ds : List Nat)
    (hds : ds.all is_digit = true) :
    quiet_run NUMBER_BEGIN (ds ++ n.suffix) = true
      ∧ number_state n.kind (scan_states NUMBER_BEGIN (ds ++ n.suffix)) := by
  have h := digits_run ds hds NUMBER_BEGIN (by simp)
  have hs : scan_states NUMBER_BEGIN ds = NUMBER_BEGIN
      ∨ scan_states NUMBER_BEGIN ds = INT_DIGITS := by
    rw [h.2]; split_ifs
    · exact Or.inl rfl
    · exact Or.inr rfl
  have h2 := suffix_run_lax n hn _ hs
  rw [quiet_run_append, scan_states_append, h.1, h2.1]
  exact ⟨rfl, h2.2⟩

/-! ### `byte_run` on a document of the dialect -/

theorem byte_number_lax (n : number_lexeme) (below : List Nat) (st : Nat) (d : Nat)
    (rest : List Nat) (hst : value_state st) (hd : below.length ≤ 12) (hn : n.lax = true)
    (hi : continues_number n.kind d = false) :
    byte_run below st [] (n.bytes ++ d :: rest)
      = (n.kind, n.bytes) :: after_token below st (d :: rest) := by
  obtain ⟨c, ds, hc, hds, hb⟩ := number_split_lax n hn
  obtain ⟨hq, hs⟩ := number_run_lax n hn ds hds
  have h0 := number_start st c hst hc
  have hd' : ¬ below.length + 1 = JSON_MAX_STACK := by simp; omega
  have he := number_state_end _ _ d hs hi
  have hk := number_kind_cases n
  rw [hb, List.cons_append,
    byte_run_token_start below st [] c _ (by rw [h0]; decide) hd' (by rw [h0]; decide), h0,
    if_pos rfl, byte_quiet_run _ _ _ _ _ hq,
    byte_run_number st below _ _ d rest (by rw [he]; exact hk), he]
  congr 1
  rcases hk with h | h | h <;> rw [h] <;> simp [reduce_event, is_text_token]

/-- A number with nothing behind it gives no token. -/
theorem byte_number_open (n : number_lexeme) (below : List Nat) (st : Nat)
    (hst : value_state st) (hd : below.length ≤ 12) (hn : n.lax = true) :
    byte_run below st [] n.bytes = [] := by
  obtain ⟨c, ds, hc, hds, hb⟩ := number_split_lax n hn
  obtain ⟨hq, hs⟩ := number_run_lax n hn ds hds
  have h0 := number_start st c hst hc
  have hd' : ¬ below.length + 1 = JSON_MAX_STACK := by simp; omega
  have h := byte_quiet_run (ds ++ n.suffix) (st :: below) NUMBER_BEGIN [c] [] hq
  rw [List.append_nil] at h
  rw [hb, byte_run_token_start below st [] c _ (by rw [h0]; decide) hd' (by rw [h0]; decide), h0,
    if_pos rfl, h]
  rfl

theorem number_ends_space (v : json_value) (ws : List Nat) (hws : all_space ws = true) (c : Nat)
    (input : List Nat) (hc : is_delimiter c = true) : number_ends v (ws ++ c :: input) := by
  intro n _
  cases ws with
  | nil => exact ⟨c, input, rfl, delimiter_facts _ c hc⟩
  | cons w ws =>
    simp only [all_space, List.all_cons, Bool.and_eq_true] at hws
    exact ⟨w, ws ++ c :: input, rfl, delimiter_facts _ w (by simp [is_delimiter, hws.1])⟩

mutual

/-- Read byte by byte from a state that expects a value, the text of a value of
the dialect that fits gives the tokens of the value, and the run goes on behind
it. -/
theorem value_run_lax : ∀ (v : json_value) (below : List Nat) (st : Nat) (input : List Nat),
    value_state st → v.lax = true → v.fits below.length = true → number_ends v input →
    byte_run below st [] (v.render ++ input) = v.tokens ++ after_token below st input
  | .lit_null, below, st, input, hst, _, hf, _ => by
    simp only [json_value.render, json_value.tokens, List.cons_append, List.nil_append]
    exact byte_null below st input hst (fits_le _ _ hf)
  | .lit_true, below, st, input, hst, _, hf, _ => by
    simp only [json_value.render, json_value.tokens, List.cons_append, List.nil_append]
    exact byte_true below st input hst (fits_le _ _ hf)
  | .lit_false, below, st, input, hst, _, hf, _ => by
    simp only [json_value.render, json_value.tokens, List.cons_append, List.nil_append]
    exact byte_false below st input hst (fits_le _ _ hf)
  | .number n, below, st, input, hst, hw, hf, hn => by
    obtain ⟨d, rest, e, hd⟩ := hn n rfl
    subst e
    simp only [json_value.render, json_value.tokens, List.cons_append, List.nil_append]
    exact byte_number_lax n below st d rest hst (fits_le _ _ hf) hw hd
  | .string body, below, st, input, hst, hw, hf, _ => by
    simp only [json_value.render, json_value.tokens, List.cons_append, List.nil_append,
      List.append_assoc]
    rw [byte_string body below st input (Or.inl hst) (fits_le _ _ hf) hw,
      if_neg (value_state_after st hst)]
  | .empty_array ws, below, st, input, hst, hw, hf, _ => by
    simp only [json_value.lax] at hw
    simp only [json_value.render, json_value.tokens, List.cons_append, List.nil_append,
      List.append_assoc]
    rw [byte_open_array below st _ hst (fits_le _ _ hf), byte_space_run ws hw _ _ (by simp),
      byte_close_array st below _ input (Or.inr rfl)]
  | .array ws es, below, st, input, hst, hw, hf, _ => by
    have hd := fits_le _ _ hf
    simp only [json_value.lax, Bool.and_eq_true] at hw
    simp only [json_value.fits, Bool.and_eq_true] at hf
    simp only [json_value.render, json_value.tokens, List.cons_append, List.nil_append,
      List.append_assoc]
    rw [byte_open_array below st _ hst hd, byte_space_run ws hw.1 _ _ (by simp),
      elements_run_lax es (st :: below) _ input (Or.inl rfl) hw.2 hf.2,
      byte_close_array st below _ input (Or.inl rfl)]
  | .empty_object ws, below, st, input, hst, hw, hf, _ => by
    simp only [json_value.lax] at hw
    simp only [json_value.render, json_value.tokens, List.cons_append, List.nil_append,
      List.append_assoc]
    rw [byte_open_object below st _ hst (fits_le _ _ hf), byte_space_run ws hw _ _ (by simp),
      byte_close_object st below _ input (Or.inr rfl)]
  | .object ws ms, below, st, input, hst, hw, hf, _ => by
    have hd := fits_le _ _ hf
    simp only [json_value.lax, Bool.and_eq_true] at hw
    simp only [json_value.fits, Bool.and_eq_true] at hf
    simp only [json_value.render, json_value.tokens, List.cons_append, List.nil_append,
      List.append_assoc]
    rw [byte_open_object below st _ hst hd, byte_space_run ws hw.1 _ _ (by simp),
      members_run_lax ms (st :: below) _ input (Or.inl rfl) hw.2 hf.2,
      byte_close_object st below _ input (Or.inl rfl)]

/-- The elements of an array, up to the closing bracket. -/
theorem elements_run_lax : ∀ (es : json_elements) (below : List Nat) (st : Nat)
    (input : List Nat),
    (st = EXPECTING_ARRAY_ELEMENT_OR_END ∨ st = EXPECTING_ARRAY_ELEMENT) →
    es.lax = true → es.fits below.length = true →
    byte_run below st [] (es.render ++ 93 :: input)
      = es.tokens ++ byte_run below EXPECTING_ARRAY_TAIL [] (93 :: input)
  | .last v ws, below, st, input, hst, hw, hf => by
    simp only [json_elements.lax, Bool.and_eq_true] at hw
    simp only [json_elements.fits] at hf
    simp only [json_elements.render, json_elements.tokens, List.append_assoc]
    rw [value_run_lax v below st _ (by rcases hst with h | h <;> simp [value_state, h]) hw.1 hf
      (number_ends_space v ws hw.2 93 input (by decide)),
      after_element below st _ hst, byte_space_run ws hw.2 _ _ (by simp)]
  | .more v ws1 ws2 rest, below, st, input, hst, hw, hf => by
    simp only [json_elements.lax, Bool.and_eq_true] at hw
    simp only [json_elements.fits, Bool.and_eq_true] at hf
    simp only [json_elements.render, json_elements.tokens, List.append_assoc, List.cons_append]
    rw [value_run_lax v below st _ (by rcases hst with h | h <;> simp [value_state, h])
      hw.1.1.1 hf.1 (number_ends_space v ws1 hw.1.1.2 44 _ (by decide)),
      after_element below st _ hst, byte_space_run ws1 hw.1.1.2 _ _ (by simp),
      byte_comma_array, byte_space_run ws2 hw.1.2 _ _ (by simp),
      elements_run_lax rest below _ input (Or.inr rfl) hw.2 hf.2]

/-- The members of an object, up to the closing brace. -/
theorem members_run_lax : ∀ (ms : json_members) (below : List Nat) (st : Nat)
    (input : List Nat),
    (st = EXPECTING_OBJECT_MEMBER_NAME_OR_END ∨ st = EXPECTING_OBJECT_MEMBER_NAME) →
    ms.lax = true → ms.fits below.length = true →
    byte_run below st [] (ms.render ++ 125 :: input)
      = ms.tokens ++ byte_run below EXPECTING_OBJECT_TAIL [] (125 :: input)
  | .last name ws1 ws2 v ws3, below, st, input, hst, hw, hf => by
    simp only [json_members.lax, Bool.and_eq_true] at hw
    simp only [json_members.fits] at hf
    obtain ⟨⟨⟨⟨hname, hws1⟩, hws2⟩, hv⟩, hws3⟩ := hw
    simp only [json_members.render, json_members.tokens, List.append_assoc, List.cons_append]
    rw [byte_string name below st _ (Or.inr hst) (fits_le _ _ hf) hname,
      if_pos (by rcases hst with h | h <;> rw [h] <;> decide),
      after_member_name below st _ hst, byte_space_run ws1 hws1 _ _ (by simp), byte_colon,
      byte_space_run ws2 hws2 _ _ (by simp),
      value_run_lax v below _ _ (Or.inr (Or.inr (Or.inr rfl))) hv hf
        (number_ends_space v ws3 hws3 125 input (by decide)),
      after_member_value, byte_space_run ws3 hws3 _ _ (by simp)]
  | .more name ws1 ws2 v ws3 ws4 rest, below, st, input, hst, hw, hf => by
    simp only [json_members.lax, Bool.and_eq_true] at hw
    simp only [json_members.fits, Bool.and_eq_true] at hf
    obtain ⟨⟨⟨⟨⟨⟨hname, hws1⟩, hws2⟩, hv⟩, hws3⟩, hws4⟩, hrest⟩ := hw
    simp only [json_members.render, json_members.tokens, List.append_assoc, List.cons_append]
    rw [byte_string name below st _ (Or.inr hst) (fits_le _ _ hf.1) hname,
      if_pos (by rcases hst with h | h <;> rw [h] <;> decide),
      after_member_name below st _ hst, byte_space_run ws1 hws1 _ _ (by simp), byte_colon,
      byte_space_run ws2 hws2 _ _ (by simp),
      value_run_lax v below _ _ (Or.inr (Or.inr (Or.inr rfl))) hv hf.1
        (number_ends_space v ws3 hws3 44 _ (by decide)),
      after_member_value, byte_space_run ws3 hws3 _ _ (by simp), byte_comma_object,
      byte_space_run ws4 hws4 _ _ (by simp),
      members_run_lax rest below _ input (Or.inr rfl) hrest hf.2]

end

/-- The run on a document of the dialect that fits: its tokens and `JSON_END`,
or nothing yet for a number with no text behind it. -/
theorem document_run_lax (D : List Nat) (h : dialect_document true D) :
    ∀ e ∈ byte_run [] EXPECTING_JSON [] D, JSON_TOO_DEEP < e.1 := by
  obtain ⟨ws, v, T, hws, hv, hf, hr, rfl⟩ := h
  have hfit := hf rfl
  rw [byte_space_run ws hws _ _ (by simp)]
  by_cases hopen : (∃ n, v = .number n) ∧ T = []
  · obtain ⟨⟨n, rfl⟩, rfl⟩ := hopen
    simp only [json_value.lax] at hv
    rw [List.append_nil]
    simp only [json_value.render]
    rw [byte_number_open n [] EXPECTING_JSON (Or.inl rfl) (by simp) hv]
    intro e he
    simp at he
  · have hn : number_ends v T := by
      intro n e
      cases T with
      | nil => exact absurd ⟨⟨n, e⟩, rfl⟩ hopen
      | cons d rest => exact ⟨d, rest, rfl, hr n d rest e rfl⟩
    rw [value_run_lax v [] EXPECTING_JSON T (Or.inl rfl) hv hfit hn, after_root]
    intro e he
    rw [List.mem_append] at he
    rcases he with he | he
    · have := value_tokens_kinds v e he
      simp at this ⊢
      omega
    · simp at he
      rw [he]
      decide

/-- No prefix of a document of the dialect that fits is rejected. -/
theorem prefix_run_lax (X : List Nat) (h : begins_dialect true X) :
    ∀ e ∈ byte_run [] EXPECTING_JSON [] X, JSON_TOO_DEEP < e.1 := by
  obtain ⟨Z, hZ⟩ := h
  have h1 := document_run_lax _ hZ
  rw [byte_run_append] at h1
  rw [byte_run_scan]
  intro e he
  exact h1 e (List.mem_append_left _ he)

/-! ### What may follow the text read so far

For every configuration of `byte_run` the texts that complete what has been
read to a document of the dialect. -/

theorem tail_ok_cons (p : Nat) (b : List Nat) (s : Nat) (Z : List Nat) :
    tail_ok (p :: b) s Z ↔
      (∃ R Z1, ((s, R) ∈ spellings ∨ string_tail s R) ∧ Z = R ++ Z1 ∧ rest_ok p b Z1)
      ∨ (∃ kind R Z1, number_tail s kind R ∧ Z = R ++ Z1
        ∧ ((p = EXPECTING_JSON ∧ b = []
            ∧ ∀ c rest, Z1 = c :: rest → continues_number kind c = false)
          ∨ tail_ok b (next_parsing_state p) Z1))
      ∨ (∃ ws Y, all_space ws = true ∧ Z = ws ++ Y ∧ level_core (rest_ok p b) s Y) :=
  Iff.rfl

/-! ### One byte, as the scanner sees it -/

theorem literal_transitions (s c : Nat) (R0 : List Nat) (h : (s, R0) ∈ spellings) :
    next_scan_state s c = JSON_INVALID
      ∨ ((s, [c]) ∈ spellings ∧ (next_scan_state s c = JSON_NULL
          ∨ next_scan_state s c = JSON_TRUE ∨ next_scan_state s c = JSON_FALSE))
      ∨ ((∃ R, (next_scan_state s c, R) ∈ spellings)
        ∧ ∀ R, (next_scan_state s c, R) ∈ spellings → (s, c :: R) ∈ spellings) := by
  simp only [spellings, List.mem_cons, Prod.mk.injEq, List.mem_singleton, List.mem_nil_iff,
    or_false] at h
  rcases h with ⟨rfl, _⟩ | ⟨rfl, _⟩ | ⟨rfl, _⟩ | ⟨rfl, _⟩ | ⟨rfl, _⟩ | ⟨rfl, _⟩ | ⟨rfl, _⟩
    | ⟨rfl, _⟩ | ⟨rfl, _⟩ | ⟨rfl, _⟩
  · by_cases hc : c = 117
    · subst hc; right; right; simp [next_scan_state, spellings]
    · left; simp [next_scan_state, hc]
  · by_cases hc : c = 108
    · subst hc; right; right; simp [next_scan_state, spellings]
    · left; simp [next_scan_state, hc]
  · by_cases hc : c = 108
    · subst hc; right; left; simp [next_scan_state, spellings]
    · left; simp [next_scan_state, hc]
  · by_cases hc : c = 114
    · subst hc; right; right; simp [next_scan_state, spellings]
    · left; simp [next_scan_state, hc]
  · by_cases hc : c = 117
    · subst hc; right; right; simp [next_scan_state, spellings]
    · left; simp [next_scan_state, hc]
  · by_cases hc : c = 101
    · subst hc; right; left; simp [next_scan_state, spellings]
    · left; simp [next_scan_state, hc]
  · by_cases hc : c = 97
    · subst hc; right; right; simp [next_scan_state, spellings]
    · left; simp [next_scan_state, hc]
  · by_cases hc : c = 108
    · subst hc; right; right; simp [next_scan_state, spellings]
    · left; simp [next_scan_state, hc]
  · by_cases hc : c = 115
    · subst hc; right; right; simp [next_scan_state, spellings]
    · left; simp [next_scan_state, hc]
  · by_cases hc : c = 101
    · subst hc; right; left; simp [next_scan_state, spellings]
    · left; simp [next_scan_state, hc]

theorem string_transitions (s c : Nat)
    (hs : s = STRING_BEGIN ∨ s = STRING_CHARS ∨ s = STRING_ESC) :
    (next_scan_state s c = JSON_STRING ∧ string_tail s [c])
      ∨ ((next_scan_state s c = STRING_CHARS ∨ next_scan_state s c = STRING_ESC)
        ∧ ∀ R, string_tail (next_scan_state s c) R → string_tail s (c :: R)) := by
  have hcases : (s = STRING_BEGIN ∨ s = STRING_CHARS) ∨ s = STRING_ESC := by
    rcases hs with h | h | h
    · exact Or.inl (Or.inl h)
    · exact Or.inl (Or.inr h)
    · exact Or.inr h
  rcases hcases with hs | rfl
  · have hn : next_scan_state s c
        = if c = 92 then STRING_ESC else if c = 34 then JSON_STRING else STRING_CHARS := by
      rcases hs with rfl | rfl <;> simp [next_scan_state]
    by_cases h92 : c = 92
    · right
      rw [hn, if_pos h92]
      refine ⟨Or.inr rfl, ?_⟩
      intro R hR
      rcases hR with ⟨h, _⟩ | ⟨_, x, body, hb, rfl⟩
      · rcases h with h | h <;> exact absurd h (by decide)
      · refine Or.inl ⟨hs, .escaped x :: body, ?_, ?_⟩
        · simpa [body_well_formed, string_item.well_formed] using hb
        · simp [body_bytes, string_item.bytes, h92]
    · by_cases h34 : c = 34
      · left
        rw [hn, if_neg h92, if_pos h34]
        refine ⟨rfl, Or.inl ⟨hs, [], rfl, ?_⟩⟩
        simp [body_bytes, h34]
      · right
        rw [hn, if_neg h92, if_neg h34]
        refine ⟨Or.inl rfl, ?_⟩
        intro R hR
        rcases hR with ⟨_, body, hb, rfl⟩ | ⟨h, _⟩
        · refine Or.inl ⟨hs, .plain c :: body, ?_, ?_⟩
          · simp only [body_well_formed, List.all_cons, Bool.and_eq_true]
            exact ⟨by simp [string_item.well_formed, h34, h92], hb⟩
          · simp [body_bytes, string_item.bytes]
        · exact absurd h (by decide)
  · right
    have hn : next_scan_state STRING_ESC c = STRING_CHARS := by simp [next_scan_state]
    rw [hn]
    refine ⟨Or.inl rfl, ?_⟩
    intro R hR
    rcases hR with ⟨_, body, hb, rfl⟩ | ⟨h, _⟩
    · exact Or.inr ⟨rfl, c, body, hb, rfl⟩
    · exact absurd h (by decide)

theorem number_transitions (s c : Nat)
    (hs : s = NUMBER_BEGIN ∨ s = INT_DIGITS ∨ s = DEC_DIGITS ∨ s = EXP ∨ s = EXP_DIGITS) :
    next_scan_state s c = JSON_INVALID
      ∨ ((next_scan_state s c = JSON_INTEGER ∨ next_scan_state s c = JSON_DECIMAL
          ∨ next_scan_state s c = JSON_FLOATING_POINT)
        ∧ number_tail s (next_scan_state s c) []
        ∧ continues_number (next_scan_state s c) c = false)
      ∨ ((next_scan_state s c = INT_DIGITS ∨ next_scan_state s c = DEC_DIGITS
          ∨ next_scan_state s c = EXP ∨ next_scan_state s c = EXP_DIGITS)
        ∧ ∀ kind R, number_tail (next_scan_state s c) kind R → number_tail s kind (c :: R)) := by
  have hcases : (s = NUMBER_BEGIN ∨ s = INT_DIGITS) ∨ s = DEC_DIGITS ∨ s = EXP
      ∨ s = EXP_DIGITS := by
    rcases hs with h | h | h | h | h
    · exact Or.inl (Or.inl h)
    · exact Or.inl (Or.inr h)
    · exact Or.inr (Or.inl h)
    · exact Or.inr (Or.inr (Or.inl h))
    · exact Or.inr (Or.inr (Or.inr h))
  rcases hcases with hs | rfl | rfl | rfl
  · have hn : next_scan_state s c
        = if is_digit c then INT_DIGITS else if c = 46 then DEC_DIGITS
          else if c = 69 ∨ c = 101 then EXP else JSON_INTEGER := by
      rcases hs with rfl | rfl <;> simp [next_scan_state]
    by_cases hd : is_digit c = true
    · right; right
      rw [hn, if_pos hd]
      refine ⟨Or.inl rfl, ?_⟩
      intro kind R hR
      rcases hR with ⟨_, ds, fr, ex, hl, rfl, rfl⟩ | ⟨h, _⟩ | ⟨h, _⟩ | ⟨h, _⟩
      · refine Or.inl ⟨hs, c :: ds, fr, ex, ?_, ?_, ?_⟩
        · simp only [number_lexeme.lax, only_digits, List.all_cons, hd] at hl ⊢
          simpa using hl
        · simp [number_lexeme.suffix]
        · simp [number_lexeme.kind]
      · exact absurd h (by decide)
      · exact absurd h (by decide)
      · exact absurd h (by decide)
    · by_cases h46 : c = 46
      · right; right
        rw [hn, if_neg hd, if_pos h46]
        refine ⟨Or.inr (Or.inl rfl), ?_⟩
        intro kind R hR
        rcases hR with ⟨h, _⟩ | ⟨_, f, ex, hl, rfl, rfl⟩ | ⟨h, _⟩ | ⟨h, _⟩
        · rcases h with h | h <;> exact absurd h (by decide)
        · refine Or.inl ⟨hs, [], some f, ex, hl, ?_, rfl⟩
          simp [number_lexeme.suffix, h46]
        · exact absurd h (by decide)
        · exact absurd h (by decide)
      · by_cases he : c = 69 ∨ c = 101
        · right; right
          rw [hn, if_neg hd, if_neg h46, if_pos he]
          refine ⟨Or.inr (Or.inr (Or.inl rfl)), ?_⟩
          intro kind R hR
          rcases hR with ⟨h, _⟩ | ⟨h, _⟩ | ⟨_, sg, d, hl, rfl, rfl⟩ | ⟨h, _⟩
          · rcases h with h | h <;> exact absurd h (by decide)
          · exact absurd h (by decide)
          · refine Or.inl ⟨hs, [], none, some (c, sg, d), ?_, ?_, rfl⟩
            · simp only [number_lexeme.lax] at hl ⊢
              rcases he with rfl | rfl
              · simpa using hl
              · exact hl
            · simp [number_lexeme.suffix]
          · exact absurd h (by decide)
        · right; left
          rw [hn, if_neg hd, if_neg h46, if_neg he]
          refine ⟨Or.inl rfl, Or.inl ⟨hs, [], none, none, rfl, rfl, rfl⟩, ?_⟩
          simp only [not_or] at he
          simp [continues_number, hd, h46, he.1, he.2]
  · have hn : next_scan_state DEC_DIGITS c
        = if is_digit c then DEC_DIGITS else if c = 69 ∨ c = 101 then EXP
          else JSON_DECIMAL := by
      simp [next_scan_state]
    by_cases hd : is_digit c = true
    · right; right
      rw [hn, if_pos hd]
      refine ⟨Or.inr (Or.inl rfl), ?_⟩
      intro kind R hR
      rcases hR with ⟨h, _⟩ | ⟨_, f, ex, hl, rfl, rfl⟩ | ⟨h, _⟩ | ⟨h, _⟩
      · rcases h with h | h <;> exact absurd h (by decide)
      · refine Or.inr (Or.inl ⟨rfl, c :: f, ex, ?_, ?_, ?_⟩)
        · simp only [number_lexeme.lax, only_digits, List.all_cons, hd] at hl ⊢
          simpa using hl
        · simp [number_lexeme.suffix]
        · cases ex <;> rfl
      · exact absurd h (by decide)
      · exact absurd h (by decide)
    · by_cases he : c = 69 ∨ c = 101
      · right; right
        rw [hn, if_neg hd, if_pos he]
        refine ⟨Or.inr (Or.inr (Or.inl rfl)), ?_⟩
        intro kind R hR
        rcases hR with ⟨h, _⟩ | ⟨h, _⟩ | ⟨_, sg, d, hl, rfl, rfl⟩ | ⟨h, _⟩
        · rcases h with h | h <;> exact absurd h (by decide)
        · exact absurd h (by decide)
        · refine Or.inr (Or.inl ⟨rfl, [], some (c, sg, d), ?_, ?_, rfl⟩)
          · simp only [number_lexeme.lax] at hl ⊢
            rcases he with rfl | rfl
            · simpa [only_digits] using hl
            · simpa [only_digits] using hl
          · simp [number_lexeme.suffix]
        · exact absurd h (by decide)
      · right; left
        rw [hn, if_neg hd, if_neg he]
        refine ⟨Or.inr (Or.inl rfl), Or.inr (Or.inl ⟨rfl, [], none, rfl, rfl, rfl⟩), ?_⟩
        simp only [not_or] at he
        simp [continues_number, hd, he.1, he.2]
  · have hn : next_scan_state EXP c
        = if is_digit c then EXP_DIGITS else if c = 43 ∨ c = 45 then EXP_DIGITS
          else JSON_INVALID := by
      simp [next_scan_state]
    by_cases hd : is_digit c = true
    · right; right
      rw [hn, if_pos hd]
      refine ⟨Or.inr (Or.inr (Or.inr rfl)), ?_⟩
      intro kind R hR
      rcases hR with ⟨h, _⟩ | ⟨h, _⟩ | ⟨h, _⟩ | ⟨_, hR, rfl⟩
      · rcases h with h | h <;> exact absurd h (by decide)
      · exact absurd h (by decide)
      · exact absurd h (by decide)
      · refine Or.inr (Or.inr (Or.inl ⟨rfl, [], c :: R, ?_, rfl, rfl⟩))
        simp only [only_digits] at hR
        simp [number_lexeme.lax, only_digits, hd, hR]
    · by_cases he : c = 43 ∨ c = 45
      · right; right
        rw [hn, if_neg hd, if_pos he]
        refine ⟨Or.inr (Or.inr (Or.inr rfl)), ?_⟩
        intro kind R hR
        rcases hR with ⟨h, _⟩ | ⟨h, _⟩ | ⟨h, _⟩ | ⟨_, hR, rfl⟩
        · rcases h with h | h <;> exact absurd h (by decide)
        · exact absurd h (by decide)
        · exact absurd h (by decide)
        · refine Or.inr (Or.inr (Or.inl ⟨rfl, [c], R, ?_, rfl, rfl⟩))
          simp only [only_digits] at hR
          rcases he with rfl | rfl <;> simp [number_lexeme.lax, only_digits, hR]
      · left
        rw [hn, if_neg hd, if_neg he]
  · have hn : next_scan_state EXP_DIGITS c
        = if is_digit c then EXP_DIGITS else JSON_FLOATING_POINT := by
      simp [next_scan_state]
    by_cases hd : is_digit c = true
    · right; right
      rw [hn, if_pos hd]
      refine ⟨Or.inr (Or.inr (Or.inr rfl)), ?_⟩
      intro kind R hR
      rcases hR with ⟨h, _⟩ | ⟨h, _⟩ | ⟨h, _⟩ | ⟨_, hR, rfl⟩
      · rcases h with h | h <;> exact absurd h (by decide)
      · exact absurd h (by decide)
      · exact absurd h (by decide)
      · refine Or.inr (Or.inr (Or.inr ⟨rfl, ?_, rfl⟩))
        simp only [only_digits, List.all_cons, hd] at hR ⊢
        simpa using hR
    · right; left
      rw [hn, if_neg hd]
      refine ⟨Or.inr (Or.inr rfl), Or.inr (Or.inr (Or.inr ⟨rfl, rfl, rfl⟩)), ?_⟩
      simp [continues_number, hd]

/-! ### The texts that may follow a configuration -/

theorem spellings_range (s : Nat) (R : List Nat) (h : (s, R) ∈ spellings) :
    __SCANNER_STATES < s ∧ s < STRING_BEGIN := by
  simp only [spellings, List.mem_cons, Prod.mk.injEq, List.mem_singleton, List.mem_nil_iff,
    or_false] at h
  rcases h with ⟨rfl, _⟩ | ⟨rfl, _⟩ | ⟨rfl, _⟩ | ⟨rfl, _⟩ | ⟨rfl, _⟩ | ⟨rfl, _⟩ | ⟨rfl, _⟩
    | ⟨rfl, _⟩ | ⟨rfl, _⟩ | ⟨rfl, _⟩ <;> decide

theorem string_tail_range (s : Nat) (R : List Nat) (h : string_tail s R) :
    STRING_BEGIN ≤ s ∧ s < __STRING_END := by
  rcases h with ⟨h | h, _⟩ | ⟨h, _⟩ <;> rw [h] <;> decide

theorem number_tail_range (s kind : Nat) (R : List Nat) (h : number_tail s kind R) :
    NUMBER_BEGIN ≤ s ∧ s < __NUMBER_END := by
  rcases h with ⟨h | h, _⟩ | ⟨h, _⟩ | ⟨h, _⟩ | ⟨h, _⟩ <;> rw [h] <;> decide

theorem level_core_state (after : List Nat → Prop) (s : Nat) (Y : List Nat)
    (h : level_core after s Y) : container_state s := by
  unfold container_state
  rcases h with ⟨h | h, _⟩ | ⟨h | h, _⟩ | ⟨h, _⟩ | ⟨h | h, _⟩ | ⟨h | h, _⟩ | ⟨h, _⟩ | ⟨h, _⟩
    | ⟨h, _⟩ <;> simp [h]

theorem container_state_range (s : Nat) (h : container_state s) : __PARSER_STATES < s := by
  rcases h with h | h | h | h | h | h | h | h <;> rw [h] <;> decide

theorem tail_lit_elim (p : Nat) (b : List Nat) (s : Nat) (Z : List Nat)
    (hs : __SCANNER_STATES < s ∧ s < STRING_BEGIN) (h : tail_ok (p :: b) s Z) :
    ∃ R Z1, (s, R) ∈ spellings ∧ Z = R ++ Z1 ∧ rest_ok p b Z1 := by
  rw [tail_ok_cons] at h
  rcases h with ⟨R, Z1, h1 | h1, h2, h3⟩ | ⟨kind, R, Z1, h1, _⟩ | ⟨ws, Y, _, _, h1⟩
  · exact ⟨R, Z1, h1, h2, h3⟩
  · have := string_tail_range s R h1
    simp at this hs; omega
  · have := number_tail_range s kind R h1
    simp at this hs; omega
  · have := container_state_range s (level_core_state _ s Y h1)
    simp at this hs; omega

theorem tail_str_elim (p : Nat) (b : List Nat) (s : Nat) (Z : List Nat)
    (hs : STRING_BEGIN ≤ s ∧ s < __STRING_END) (h : tail_ok (p :: b) s Z) :
    ∃ R Z1, string_tail s R ∧ Z = R ++ Z1 ∧ rest_ok p b Z1 := by
  rw [tail_ok_cons] at h
  rcases h with ⟨R, Z1, h1 | h1, h2, h3⟩ | ⟨kind, R, Z1, h1, _⟩ | ⟨ws, Y, _, _, h1⟩
  · have := spellings_range s R h1
    simp at this hs; omega
  · exact ⟨R, Z1, h1, h2, h3⟩
  · have := number_tail_range s kind R h1
    simp at this hs; omega
  · have := container_state_range s (level_core_state _ s Y h1)
    simp at this hs; omega

theorem tail_num_elim (p : Nat) (b : List Nat) (s : Nat) (Z : List Nat)
    (hs : NUMBER_BEGIN ≤ s ∧ s < __NUMBER_END) (h : tail_ok (p :: b) s Z) :
    ∃ kind R Z1, number_tail s kind R ∧ Z = R ++ Z1
      ∧ ((p = EXPECTING_JSON ∧ b = []
          ∧ ∀ c rest, Z1 = c :: rest → continues_number kind c = false)
        ∨ tail_ok b (next_parsing_state p) Z1) := by
  rw [tail_ok_cons] at h
  rcases h with ⟨R, Z1, h1 | h1, _, _⟩ | ⟨kind, R, Z1, h1, h2, h3⟩ | ⟨ws, Y, _, _, h1⟩
  · have := spellings_range s R h1
    simp at this hs; omega
  · have := string_tail_range s R h1
    simp at this hs; omega
  · exact ⟨kind, R, Z1, h1, h2, h3⟩
  · have := container_state_range s (level_core_state _ s Y h1)
    simp at this hs; omega

theorem tail_core_elim (b : List Nat) (s : Nat) (Z : List Nat) (hs : container_state s)
    (h : tail_ok b s Z) :
    ∃ p b1 ws Y, b = p :: b1 ∧ all_space ws = true ∧ Z = ws ++ Y
      ∧ level_core (rest_ok p b1) s Y := by
  have hr := container_state_range s hs
  cases b with
  | nil =>
    obtain ⟨h1, _⟩ := h
    rcases hs with h | h | h | h | h | h | h | h <;> rw [h] at h1 <;> exact absurd h1 (by decide)
  | cons p b1 =>
    rw [tail_ok_cons] at h
    rcases h with ⟨R, Z1, h1 | h1, _, _⟩ | ⟨kind, R, Z1, h1, _⟩ | ⟨ws, Y, h1, h2, h3⟩
    · have := spellings_range s R h1
      simp at this hr; omega
    · have := string_tail_range s R h1
      simp at this hr; omega
    · have := number_tail_range s kind R h1
      simp at this hr; omega
    · exact ⟨p, b1, ws, Y, rfl, h1, h2, h3⟩

theorem tail_lit (p : Nat) (b : List Nat) (s : Nat) (R Z1 : List Nat) (h1 : (s, R) ∈ spellings)
    (h2 : rest_ok p b Z1) : tail_ok (p :: b) s (R ++ Z1) := by
  rw [tail_ok_cons]
  exact Or.inl ⟨R, Z1, Or.inl h1, rfl, h2⟩

theorem tail_str (p : Nat) (b : List Nat) (s : Nat) (R Z1 : List Nat) (h1 : string_tail s R)
    (h2 : rest_ok p b Z1) : tail_ok (p :: b) s (R ++ Z1) := by
  rw [tail_ok_cons]
  exact Or.inl ⟨R, Z1, Or.inr h1, rfl, h2⟩

theorem tail_num (p : Nat) (b : List Nat) (s kind : Nat) (R Z1 : List Nat)
    (h1 : number_tail s kind R)
    (h2 : (p = EXPECTING_JSON ∧ b = []
          ∧ ∀ c rest, Z1 = c :: rest → continues_number kind c = false)
        ∨ tail_ok b (next_parsing_state p) Z1) : tail_ok (p :: b) s (R ++ Z1) := by
  rw [tail_ok_cons]
  exact Or.inr (Or.inl ⟨kind, R, Z1, h1, rfl, h2⟩)

theorem tail_core (p : Nat) (b : List Nat) (s : Nat) (ws Y : List Nat)
    (h1 : all_space ws = true) (h2 : level_core (rest_ok p b) s Y) :
    tail_ok (p :: b) s (ws ++ Y) := by
  rw [tail_ok_cons]
  exact Or.inr (Or.inr ⟨ws, Y, h1, rfl, h2⟩)

theorem tail_ok_end (b : List Nat) (Z : List Nat) : ¬ tail_ok b JSON_END Z := by
  intro h
  cases b with
  | nil => exact absurd h.1 (by decide)
  | cons p b1 =>
    rw [tail_ok_cons] at h
    rcases h with ⟨R, Z1, h1 | h1, _, _⟩ | ⟨kind, R, Z1, h1, _⟩ | ⟨ws, Y, _, _, h1⟩
    · have := spellings_range _ R h1
      simp at this
    · have := string_tail_range _ R h1
      simp at this
    · have := number_tail_range _ kind R h1
      simp at this
    · have := container_state_range _ (level_core_state _ _ Y h1)
      simp at this

/-- A value read in a state that expects one: what may follow the value is what
may follow in the state after it. -/
theorem value_tail (p : Nat) (b : List Nat) (v : json_value) (Z1 : List Nat)
    (hp : value_state p) (hv : v.lax = true)
    (h : (p = EXPECTING_JSON ∧ b = [] ∧ root_ends v Z1) ∨ tail_ok b (next_parsing_state p) Z1) :
    tail_ok b p (v.render ++ Z1) := by
  rcases h with ⟨rfl, rfl, hr⟩ | h
  · exact ⟨rfl, [], v, Z1, rfl, hv, fun h => absurd h (by decide), hr, rfl⟩
  · rcases hp with rfl | hp
    · exact absurd h (tail_ok_end b Z1)
    · have hc : (p = EXPECTING_ARRAY_ELEMENT_OR_END ∨ p = EXPECTING_ARRAY_ELEMENT)
          ∨ p = EXPECTING_OBJECT_MEMBER_VALUE := by
        rcases hp with h | h | h
        · exact Or.inl (Or.inl h)
        · exact Or.inl (Or.inr h)
        · exact Or.inr h
      rcases hc with hp | rfl
      · have hn : next_parsing_state p = EXPECTING_ARRAY_TAIL := by
          rcases hp with rfl | rfl <;> rfl
        rw [hn] at h
        obtain ⟨q, b1, ws, Y, rfl, hws, rfl, hY⟩ :=
          tail_core_elim b _ Z1 (by simp [container_state]) h
        have := tail_core q b1 p [] (v.render ++ (ws ++ Y)) rfl
        rw [List.nil_append] at this
        apply this
        rcases hY with ⟨_, Z, rfl, hZ⟩ | ⟨h | h, _⟩ | ⟨_, ws2, es, Z, hws2, hes, rfl, hZ⟩
          | ⟨h | h, _⟩ | ⟨h | h, _⟩ | ⟨h, _⟩ | ⟨h, _⟩ | ⟨h, _⟩
        · refine Or.inr (Or.inl ⟨hp, .last v ws, Z, ?_, ?_, hZ⟩)
          · simp [json_elements.lax, hv, hws]
          · simp [json_elements.render]
        · exact absurd h (by decide)
        · exact absurd h (by decide)
        · refine Or.inr (Or.inl ⟨hp, .more v ws ws2 es, Z, ?_, ?_, hZ⟩)
          · simp [json_elements.lax, hv, hws, hws2, hes]
          · simp [json_elements.render]
        all_goals exact absurd h (by decide)
      · have hn : next_parsing_state EXPECTING_OBJECT_MEMBER_VALUE = EXPECTING_OBJECT_TAIL := rfl
        rw [hn] at h
        obtain ⟨q, b1, ws, Y, rfl, hws, rfl, hY⟩ :=
          tail_core_elim b _ Z1 (by simp [container_state]) h
        have := tail_core q b1 EXPECTING_OBJECT_MEMBER_VALUE [] (v.render ++ (ws ++ Y)) rfl
        rw [List.nil_append] at this
        apply this
        refine Or.inr (Or.inr (Or.inr (Or.inr (Or.inr (Or.inr (Or.inl
          ⟨rfl, v, ws, Y, hv, hws, rfl, ?_⟩))))))
        rcases hY with ⟨h | h, _⟩ | ⟨h | h, _⟩ | ⟨h, _⟩ | ⟨_, Z, rfl, hZ⟩ | ⟨h | h, _⟩
          | ⟨_, ws4, ms, Z, hws4, hms, rfl, hZ⟩ | ⟨h, _⟩ | ⟨h, _⟩
        · exact absurd h (by decide)
        · exact absurd h (by decide)
        · exact absurd h (by decide)
        · exact absurd h (by decide)
        · exact absurd h (by decide)
        · exact Or.inl ⟨Z, rfl, hZ⟩
        · exact absurd h (by decide)
        · exact absurd h (by decide)
        · exact Or.inr ⟨ws4, ms, Z, hws4, hms, rfl, hZ⟩
        · exact absurd h (by decide)
        · exact absurd h (by decide)

/-! ### Every configuration can be completed -/

theorem chain_ok_nil (s : Nat) (h : chain_ok [] s) : s = EXPECTING_JSON := h

theorem chain_ok_root (b : List Nat) (h : chain_ok b EXPECTING_JSON) : b = [] := by
  cases b with
  | nil => rfl
  | cons p b1 =>
    obtain ⟨h1, _⟩ := h
    rcases h1 with h | h | h | h | h | h | h | h <;> exact absurd h (by decide)

theorem chain_ok_cons (b : List Nat) (s : Nat) (h : chain_ok b s) (hs : container_state s) :
    ∃ p b1, b = p :: b1 ∧ value_state p ∧ chain_ok b1 p := by
  cases b with
  | nil =>
    have h1 : s = EXPECTING_JSON := h
    rcases hs with h | h | h | h | h | h | h | h <;> rw [h] at h1 <;> exact absurd h1 (by decide)
  | cons p b1 => exact ⟨p, b1, rfl, h.2.1, h.2.2⟩

theorem chain_ok_state (b : List Nat) (s : Nat) (h : chain_ok b s) :
    s = EXPECTING_JSON ∨ container_state s := by
  cases b with
  | nil => exact Or.inl h
  | cons p b1 => exact Or.inr h.1

/-- The state after a token or a container begun in `p` is a state of the same
level. -/
theorem chain_next (b : List Nat) (p : Nat) (h : chain_ok b p) (hp : string_state p)
    (hne : p ≠ EXPECTING_JSON) : chain_ok b (next_parsing_state p) := by
  cases b with
  | nil => exact absurd (chain_ok_nil p h) hne
  | cons q b1 =>
    refine ⟨?_, h.2.1, h.2.2⟩
    rcases hp with (h | h | h | h) | h | h
    · exact absurd h hne
    all_goals rw [h]; simp [container_state, next_parsing_state]

theorem lax_null_elements : json_elements.lax (.last .lit_null []) = true := by
  simp [json_elements.lax, json_value.lax, all_space]

theorem chain_live : ∀ (b : List Nat) (s : Nat), chain_ok b s → ∃ Z, tail_ok b s Z := by
  intro b
  induction b with
  | nil =>
    intro s h
    refine ⟨json_value.render .lit_null ++ [], h, [], .lit_null, [], rfl, rfl,
      fun h => absurd h (by decide), ?_, rfl⟩
    intro n c rest e
    exact absurd e (by simp)
  | cons p b ih =>
    intro s h
    obtain ⟨hs, hp, hb⟩ := h
    have hrest : ∃ Z1, rest_ok p b Z1 := by
      by_cases he : p = EXPECTING_JSON
      · subst he
        exact ⟨[], Or.inl ⟨rfl, chain_ok_root b hb⟩⟩
      · obtain ⟨Z1, h1⟩ := ih _ (chain_next b p hb (Or.inl hp) he)
        exact ⟨Z1, Or.inr h1⟩
    obtain ⟨Z1, h1⟩ := hrest
    have hv : json_value.lax .lit_null = true := rfl
    have hm : json_members.lax (.last [] [] [] .lit_null []) = true := by
      simp [json_members.lax, json_value.lax, all_space, body_well_formed]
    rcases hs with rfl | rfl | rfl | rfl | rfl | rfl | rfl | rfl
    · exact ⟨_, tail_core p b _ [] (93 :: Z1) rfl (Or.inl ⟨Or.inl rfl, Z1, rfl, h1⟩)⟩
    · exact ⟨_, tail_core p b _ [] _ rfl
        (Or.inr (Or.inl ⟨Or.inr rfl, .last .lit_null [], Z1, lax_null_elements, rfl, h1⟩))⟩
    · exact ⟨_, tail_core p b _ [] (93 :: Z1) rfl (Or.inl ⟨Or.inr rfl, Z1, rfl, h1⟩)⟩
    · exact ⟨_, tail_core p b _ [] (125 :: Z1) rfl
        (Or.inr (Or.inr (Or.inr (Or.inl ⟨Or.inl rfl, Z1, rfl, h1⟩))))⟩
    · exact ⟨_, tail_core p b _ [] _ rfl
        (Or.inr (Or.inr (Or.inr (Or.inr (Or.inl
          ⟨Or.inr rfl, .last [] [] [] .lit_null [], Z1, hm, rfl, h1⟩)))))⟩
    · exact ⟨_, tail_core p b _ [] _ rfl
        (Or.inr (Or.inr (Or.inr (Or.inr (Or.inr (Or.inr (Or.inr
          ⟨rfl, [], .lit_null, [], _, rfl, hv, rfl, rfl, Or.inl ⟨Z1, rfl, h1⟩⟩)))))))⟩
    · exact ⟨_, tail_core p b _ [] _ rfl
        (Or.inr (Or.inr (Or.inr (Or.inr (Or.inr (Or.inr (Or.inl
          ⟨rfl, .lit_null, [], _, hv, rfl, rfl, Or.inl ⟨Z1, rfl, h1⟩⟩)))))))⟩
    · exact ⟨_, tail_core p b _ [] (125 :: Z1) rfl
        (Or.inr (Or.inr (Or.inr (Or.inl ⟨Or.inr rfl, Z1, rfl, h1⟩))))⟩

theorem rest_live (p : Nat) (b : List Nat) (hb : chain_ok b p) (hp : string_state p) :
    ∃ Z1, rest_ok p b Z1 := by
  by_cases he : p = EXPECTING_JSON
  · subst he
    exact ⟨[], Or.inl ⟨rfl, chain_ok_root b hb⟩⟩
  · obtain ⟨Z1, h1⟩ := chain_live b _ (chain_next b p hb hp he)
    exact ⟨Z1, Or.inr h1⟩

theorem config_live (b : List Nat) (s : Nat) (h : config_ok b s) : ∃ Z, tail_ok b s Z := by
  rcases h with h | ⟨p, b1, rfl, hb, ht⟩
  · exact chain_live b s h
  · rcases ht with ⟨hp, hs⟩ | ⟨hp, hs⟩
    · rcases hs with ⟨R, hR⟩ | hs
      · obtain ⟨Z1, h1⟩ := rest_live p b1 hb (Or.inl hp)
        exact ⟨_, tail_lit p b1 s R Z1 hR h1⟩
      · have hnum : ∃ kind R, number_tail s kind R := by
          rcases hs with rfl | rfl | rfl | rfl | rfl
          · exact ⟨_, [], Or.inl ⟨Or.inl rfl, [], none, none, rfl, rfl, rfl⟩⟩
          · exact ⟨_, [], Or.inl ⟨Or.inr rfl, [], none, none, rfl, rfl, rfl⟩⟩
          · exact ⟨_, [], Or.inr (Or.inl ⟨rfl, [], none, rfl, rfl, rfl⟩)⟩
          · exact ⟨_, [] ++ [48], Or.inr (Or.inr (Or.inl ⟨rfl, [], [48], by decide, rfl, rfl⟩))⟩
          · exact ⟨_, [], Or.inr (Or.inr (Or.inr ⟨rfl, rfl, rfl⟩))⟩
        obtain ⟨kind, R, hR⟩ := hnum
        obtain ⟨Z1, h1⟩ := rest_live p b1 hb (Or.inl hp)
        rcases h1 with ⟨h2, h3⟩ | h1
        · refine ⟨_, tail_num p b1 s kind R [] hR (Or.inl ⟨h2, h3, ?_⟩)⟩
          intro c rest e
          exact absurd e (by simp)
        · exact ⟨_, tail_num p b1 s kind R Z1 hR (Or.inr h1)⟩
    · obtain ⟨Z1, h1⟩ := rest_live p b1 hb hp
      have hstr : ∃ R, string_tail s R := by
        rcases hs with rfl | rfl | rfl
        · exact ⟨_, Or.inl ⟨Or.inl rfl, [], rfl, rfl⟩⟩
        · exact ⟨_, Or.inl ⟨Or.inr rfl, [], rfl, rfl⟩⟩
        · exact ⟨_, Or.inr ⟨rfl, 0, [], rfl, rfl⟩⟩
      obtain ⟨R, hR⟩ := hstr
      exact ⟨_, tail_str p b1 s R Z1 hR h1⟩

/-! ### One byte in front of a completion -/

theorem scan_value_cases (c : Nat) :
    (c = 110 ∧ scan_value c = NULL_N) ∨ (c = 116 ∧ scan_value c = TRUE_T)
      ∨ (c = 102 ∧ scan_value c = FALSE_F) ∨ (c = 34 ∧ scan_value c = STRING_BEGIN)
      ∨ (c = 123 ∧ scan_value c = JSON_OBJECT_BEGIN) ∨ (c = 91 ∧ scan_value c = JSON_ARRAY_BEGIN)
      ∨ ((c = 45 ∨ is_digit c = true) ∧ scan_value c = NUMBER_BEGIN)
      ∨ scan_value c = JSON_INVALID := by
  unfold scan_value
  split_ifs <;> simp_all

theorem value_transitions (s c : Nat) (hs : value_state s) :
    (is_space c = true ∧ next_scan_state s c = s)
      ∨ (s = EXPECTING_ARRAY_ELEMENT_OR_END ∧ c = 93 ∧ next_scan_state s c = JSON_ARRAY_END)
      ∨ next_scan_state s c = scan_value c := by
  by_cases hsp : is_space c = true
  · left
    refine ⟨hsp, ?_⟩
    rcases hs with rfl | rfl | rfl | rfl <;> simp [next_scan_state, hsp]
  · right
    rcases hs with rfl | rfl | rfl | rfl
    · right; simp [next_scan_state, hsp]
    · by_cases h93 : c = 93
      · left; subst h93; simp [next_scan_state, is_space]
      · right; simp [next_scan_state, hsp, h93]
    · right; simp [next_scan_state, hsp]
    · right; simp [next_scan_state, hsp]

theorem other_transitions (s c : Nat)
    (hs : s = EXPECTING_ARRAY_TAIL ∨ s = EXPECTING_OBJECT_MEMBER_NAME_OR_END
      ∨ s = EXPECTING_OBJECT_MEMBER_NAME ∨ s = EXPECTING_OBJECT_MEMBER_NAME_VALUE_SEPARATOR
      ∨ s = EXPECTING_OBJECT_TAIL) :
    (is_space c = true ∧ next_scan_state s c = s)
      ∨ (s = EXPECTING_ARRAY_TAIL ∧ c = 93 ∧ next_scan_state s c = JSON_ARRAY_END)
      ∨ (s = EXPECTING_ARRAY_TAIL ∧ c = 44 ∧ next_scan_state s c = EXPECTING_ARRAY_ELEMENT)
      ∨ ((s = EXPECTING_OBJECT_MEMBER_NAME_OR_END ∨ s = EXPECTING_OBJECT_TAIL) ∧ c = 125
        ∧ next_scan_state s c = JSON_OBJECT_END)
      ∨ ((s = EXPECTING_OBJECT_MEMBER_NAME_OR_END ∨ s = EXPECTING_OBJECT_MEMBER_NAME) ∧ c = 34
        ∧ next_scan_state s c = STRING_BEGIN)
      ∨ (s = EXPECTING_OBJECT_MEMBER_NAME_VALUE_SEPARATOR ∧ c = 58
        ∧ next_scan_state s c = EXPECTING_OBJECT_MEMBER_VALUE)
      ∨ (s = EXPECTING_OBJECT_TAIL ∧ c = 44
        ∧ next_scan_state s c = EXPECTING_OBJECT_MEMBER_NAME)
      ∨ next_scan_state s c = JSON_INVALID := by
  by_cases hsp : is_space c = true
  · left
    refine ⟨hsp, ?_⟩
    rcases hs with rfl | rfl | rfl | rfl | rfl <;> simp [next_scan_state, hsp]
  · right
    rcases hs with rfl | rfl | rfl | rfl | rfl
    · by_cases h1 : c = 44
      · right; left; subst h1; simp [next_scan_state, is_space]
      · by_cases h2 : c = 93
        · left; subst h2; simp [next_scan_state, is_space]
        · simp [next_scan_state, hsp, h1, h2]
    · by_cases h1 : c = 125
      · right; right; left; subst h1; simp [next_scan_state, is_space]
      · by_cases h2 : c = 34
        · right; right; right; left; subst h2; simp [next_scan_state, is_space]
        · simp [next_scan_state, hsp, h1, h2]
    · by_cases h2 : c = 34
      · right; right; right; left; subst h2; simp [next_scan_state, is_space]
      · simp [next_scan_state, hsp, h2]
    · by_cases h2 : c = 58
      · right; right; right; right; left; subst h2; simp [next_scan_state, is_space]
      · simp [next_scan_state, hsp, h2]
    · by_cases h1 : c = 44
      · right; right; right; right; right; left; subst h1; simp [next_scan_state, is_space]
      · by_cases h2 : c = 125
        · right; right; left; subst h2; simp [next_scan_state, is_space]
        · simp [next_scan_state, hsp, h1, h2]

theorem core_array_tail (after : List Nat → Prop) (Y : List Nat)
    (h : level_core after EXPECTING_ARRAY_TAIL Y) :
    (∃ Z, Y = 93 :: Z ∧ after Z)
      ∨ ∃ ws es Z, all_space ws = true ∧ json_elements.lax es = true
        ∧ Y = 44 :: (ws ++ (es.render ++ 93 :: Z)) ∧ after Z := by
  simpa [level_core] using h

theorem core_element (after : List Nat → Prop) (Y : List Nat)
    (h : level_core after EXPECTING_ARRAY_ELEMENT Y) :
    ∃ es Z, json_elements.lax es = true ∧ Y = es.render ++ 93 :: Z ∧ after Z := by
  simpa [level_core] using h

theorem core_element_or_end (after : List Nat → Prop) (Y : List Nat)
    (h : level_core after EXPECTING_ARRAY_ELEMENT_OR_END Y) :
    (∃ Z, Y = 93 :: Z ∧ after Z)
      ∨ ∃ es Z, json_elements.lax es = true ∧ Y = es.render ++ 93 :: Z ∧ after Z := by
  simpa [level_core] using h

theorem core_object_tail (after : List Nat → Prop) (Y : List Nat)
    (h : level_core after EXPECTING_OBJECT_TAIL Y) :
    (∃ Z, Y = 125 :: Z ∧ after Z)
      ∨ ∃ ws ms Z, all_space ws = true ∧ json_members.lax ms = true
        ∧ Y = 44 :: (ws ++ (ms.render ++ 125 :: Z)) ∧ after Z := by
  simpa [level_core] using h

theorem core_name (after : List Nat → Prop) (Y : List Nat)
    (h : level_core after EXPECTING_OBJECT_MEMBER_NAME Y) :
    ∃ ms Z, json_members.lax ms = true ∧ Y = ms.render ++ 125 :: Z ∧ after Z := by
  simpa [level_core] using h

theorem core_name_or_end (after : List Nat → Prop) (Y : List Nat)
    (h : level_core after EXPECTING_OBJECT_MEMBER_NAME_OR_END Y) :
    (∃ Z, Y = 125 :: Z ∧ after Z)
      ∨ ∃ ms Z, json_members.lax ms = true ∧ Y = ms.render ++ 125 :: Z ∧ after Z := by
  simpa [level_core] using h

theorem core_member_value (after : List Nat → Prop) (Y : List Nat)
    (h : level_core after EXPECTING_OBJECT_MEMBER_VALUE Y) :
    ∃ v ws3 Y1, json_value.lax v = true ∧ all_space ws3 = true
      ∧ Y = v.render ++ (ws3 ++ Y1)
      ∧ ((∃ Z, Y1 = 125 :: Z ∧ after Z)
        ∨ ∃ ws4 ms Z, all_space ws4 = true ∧ json_members.lax ms = true
          ∧ Y1 = 44 :: (ws4 ++ (ms.render ++ 125 :: Z)) ∧ after Z) := by
  simpa [level_core] using h

theorem core_separator (after : List Nat → Prop) (Y : List Nat)
    (h : level_core after EXPECTING_OBJECT_MEMBER_NAME_VALUE_SEPARATOR Y) :
    ∃ ws2 v ws3 Y1, all_space ws2 = true ∧ json_value.lax v = true ∧ all_space ws3 = true
      ∧ Y = 58 :: (ws2 ++ (v.render ++ (ws3 ++ Y1)))
      ∧ ((∃ Z, Y1 = 125 :: Z ∧ after Z)
        ∨ ∃ ws4 ms Z, all_space ws4 = true ∧ json_members.lax ms = true
          ∧ Y1 = 44 :: (ws4 ++ (ms.render ++ 125 :: Z)) ∧ after Z) := by
  simpa [level_core] using h

theorem tail_ok_root (b : List Nat) (Z : List Nat) (h : tail_ok b EXPECTING_JSON Z) :
    b = [] ∧ dialect_document false Z := by
  cases b with
  | nil => exact ⟨rfl, h.2⟩
  | cons p b1 =>
    exfalso
    rw [tail_ok_cons] at h
    rcases h with ⟨R, Z1, h1 | h1, _, _⟩ | ⟨kind, R, Z1, h1, _⟩ | ⟨ws, Y, _, _, h1⟩
    · have := spellings_range _ R h1
      simp at this
    · have := string_tail_range _ R h1
      simp at this
    · have := number_tail_range _ kind R h1
      simp at this
    · rcases level_core_state _ _ Y h1 with h | h | h | h | h | h | h | h <;>
        exact absurd h (by decide)

theorem space_tail (b : List Nat) (s c : Nat) (Z : List Nat)
    (hs : s = EXPECTING_JSON ∨ container_state s) (hc : is_space c = true)
    (h : tail_ok b s Z) : tail_ok b s (c :: Z) := by
  rcases hs with rfl | hs
  · obtain ⟨rfl, ws, v, T, hws, hv, hf, hr, rfl⟩ := tail_ok_root b Z h
    refine ⟨rfl, c :: ws, v, T, ?_, hv, hf, hr, rfl⟩
    simp only [all_space, List.all_cons, Bool.and_eq_true]
    exact ⟨hc, hws⟩
  · obtain ⟨p, b1, ws, Y, rfl, hws, rfl, hY⟩ := tail_core_elim b s Z hs h
    have := tail_core p b1 s (c :: ws) Y (by
      simp only [all_space, List.all_cons, Bool.and_eq_true]
      exact ⟨hc, hws⟩) hY
    exact this

/-- What may follow a value that is no number. -/
theorem rest_value (p : Nat) (b : List Nat) (v : json_value) (Z1 : List Nat)
    (hn : ∀ n, v ≠ .number n) (h : rest_ok p b Z1) :
    (p = EXPECTING_JSON ∧ b = [] ∧ root_ends v Z1) ∨ tail_ok b (next_parsing_state p) Z1 := by
  rcases h with ⟨h1, h2⟩ | h
  · exact Or.inl ⟨h1, h2, fun n c rest e => absurd e (hn n)⟩
  · exact Or.inr h

theorem literal_start (p : Nat) (b : List Nat) (c s0 : Nat) (Z : List Nat) (hp : value_state p)
    (hc : (c = 110 ∧ s0 = NULL_N) ∨ (c = 116 ∧ s0 = TRUE_T) ∨ (c = 102 ∧ s0 = FALSE_F))
    (h : tail_ok (p :: b) s0 Z) : tail_ok b p (c :: Z) := by
  rcases hc with ⟨rfl, rfl⟩ | ⟨rfl, rfl⟩ | ⟨rfl, rfl⟩
  · obtain ⟨R, Z1, hR, rfl, h1⟩ := tail_lit_elim p b _ Z (by decide) h
    simp [spellings] at hR
    subst hR
    exact value_tail p b .lit_null Z1 hp rfl (rest_value p b _ Z1 (by simp) h1)
  · obtain ⟨R, Z1, hR, rfl, h1⟩ := tail_lit_elim p b _ Z (by decide) h
    simp [spellings] at hR
    subst hR
    exact value_tail p b .lit_true Z1 hp rfl (rest_value p b _ Z1 (by simp) h1)
  · obtain ⟨R, Z1, hR, rfl, h1⟩ := tail_lit_elim p b _ Z (by decide) h
    simp [spellings] at hR
    subst hR
    exact value_tail p b .lit_false Z1 hp rfl (rest_value p b _ Z1 (by simp) h1)

theorem string_start (p : Nat) (b : List Nat) (Z : List Nat) (hp : value_state p)
    (h : tail_ok (p :: b) STRING_BEGIN Z) : tail_ok b p (34 :: Z) := by
  obtain ⟨R, Z1, hR, rfl, h1⟩ := tail_str_elim p b _ Z (by decide) h
  rcases hR with ⟨_, body, hb, rfl⟩ | ⟨h, _⟩
  · have := value_tail p b (.string body) Z1 hp hb (rest_value p b _ Z1 (by simp) h1)
    simpa [json_value.render] using this
  · exact absurd h (by decide)

theorem number_begin (p : Nat) (b : List Nat) (c : Nat) (Z : List Nat) (hp : value_state p)
    (hc : c = 45 ∨ is_digit c = true)
    (h : tail_ok (p :: b) NUMBER_BEGIN Z) : tail_ok b p (c :: Z) := by
  obtain ⟨kind, R, Z1, hR, rfl, h1⟩ := tail_num_elim p b _ Z (by decide) h
  rcases hR with ⟨_, ds, fr, ex, hl, rfl, rfl⟩ | ⟨h, _⟩ | ⟨h, _⟩ | ⟨h, _⟩
  · have key : ∃ n : number_lexeme, n.lax = true ∧ n.kind = (number_lexeme.mk true ds fr ex).kind
        ∧ n.bytes = c :: (ds ++ (number_lexeme.mk true ds fr ex).suffix) := by
      rcases hc with rfl | hc
      · exact ⟨⟨true, ds, fr, ex⟩, hl, rfl, by simp [number_lexeme.bytes]⟩
      · refine ⟨⟨false, c :: ds, fr, ex⟩, ?_, ?_, ?_⟩
        · simp only [number_lexeme.lax, only_digits, List.all_cons, hc] at hl ⊢
          simpa using hl
        · simp [number_lexeme.kind]
        · simp [number_lexeme.bytes, number_lexeme.suffix]
    obtain ⟨n, hn, hk, hbytes⟩ := key
    have := value_tail p b (.number n) Z1 hp hn (by
      rcases h1 with ⟨h2, h3, h4⟩ | h1
      · refine Or.inl ⟨h2, h3, ?_⟩
        intro n1 c1 rest e1 e2
        cases e1
        rw [hk]
        exact h4 c1 rest e2
      · exact Or.inr h1)
    simp only [json_value.render, hbytes] at this
    simpa using this
  · exact absurd h (by decide)
  · exact absurd h (by decide)
  · exact absurd h (by decide)

theorem array_start (p : Nat) (b : List Nat) (Z : List Nat) (hp : value_state p)
    (h : tail_ok (p :: b) EXPECTING_ARRAY_ELEMENT_OR_END Z) : tail_ok b p (91 :: Z) := by
  obtain ⟨p1, b1, ws, Y, e, hws, rfl, hY⟩ :=
    tail_core_elim _ _ Z (by simp [container_state]) h
  cases e
  rcases core_element_or_end _ Y hY with ⟨Z1, rfl, h1⟩ | ⟨es, Z1, hes, rfl, h1⟩
  · have := value_tail p b (.empty_array ws) Z1 hp hws (rest_value p b _ Z1 (by simp) h1)
    simpa [json_value.render] using this
  · have := value_tail p b (.array ws es) Z1 hp (by simp [json_value.lax, hws, hes])
      (rest_value p b _ Z1 (by simp) h1)
    simpa [json_value.render] using this

theorem object_start (p : Nat) (b : List Nat) (Z : List Nat) (hp : value_state p)
    (h : tail_ok (p :: b) EXPECTING_OBJECT_MEMBER_NAME_OR_END Z) : tail_ok b p (123 :: Z) := by
  obtain ⟨p1, b1, ws, Y, e, hws, rfl, hY⟩ :=
    tail_core_elim _ _ Z (by simp [container_state]) h
  cases e
  rcases core_name_or_end _ Y hY with ⟨Z1, rfl, h1⟩ | ⟨ms, Z1, hms, rfl, h1⟩
  · have := value_tail p b (.empty_object ws) Z1 hp hws (rest_value p b _ Z1 (by simp) h1)
    simpa [json_value.render] using this
  · have := value_tail p b (.object ws ms) Z1 hp (by simp [json_value.lax, hws, hms])
      (rest_value p b _ Z1 (by simp) h1)
    simpa [json_value.render] using this

theorem name_start (p : Nat) (b : List Nat) (Z : List Nat)
    (hp : p = EXPECTING_OBJECT_MEMBER_NAME_OR_END ∨ p = EXPECTING_OBJECT_MEMBER_NAME)
    (h : tail_ok (p :: b) STRING_BEGIN Z) : tail_ok b p (34 :: Z) := by
  obtain ⟨R, Z1, hR, rfl, h1⟩ := tail_str_elim p b _ Z (by decide) h
  have hn : next_parsing_state p = EXPECTING_OBJECT_MEMBER_NAME_VALUE_SEPARATOR := by
    rcases hp with rfl | rfl <;> rfl
  have h2 : tail_ok b EXPECTING_OBJECT_MEMBER_NAME_VALUE_SEPARATOR Z1 := by
    rcases h1 with ⟨h, _⟩ | h
    · rcases hp with rfl | rfl <;> exact absurd h (by decide)
    · rw [hn] at h
      exact h
  obtain ⟨q, b1, ws1, Y, rfl, hws1, rfl, hY⟩ :=
    tail_core_elim _ _ Z1 (by simp [container_state]) h2
  obtain ⟨ws2, v, ws3, Y1, hws2, hv, hws3, rfl, hY1⟩ := core_separator _ Y hY
  rcases hR with ⟨_, body, hb, rfl⟩ | ⟨h, _⟩
  · have hcore : ∃ ms Z2, json_members.lax ms = true
        ∧ 34 :: ((body_bytes body ++ [34]) ++ (ws1 ++ 58 :: (ws2 ++ (v.render ++ (ws3 ++ Y1)))))
          = ms.render ++ 125 :: Z2 ∧ rest_ok q b1 Z2 := by
      rcases hY1 with ⟨Z2, rfl, h3⟩ | ⟨ws4, ms, Z2, hws4, hms, rfl, h3⟩
      · refine ⟨.last body ws1 ws2 v ws3, Z2, ?_, ?_, h3⟩
        · simp [json_members.lax, hb, hws1, hws2, hv, hws3]
        · simp [json_members.render]
      · refine ⟨.more body ws1 ws2 v ws3 ws4 ms, Z2, ?_, ?_, h3⟩
        · simp [json_members.lax, hb, hws1, hws2, hv, hws3, hws4, hms]
        · simp [json_members.render]
    obtain ⟨ms, Z2, hms, e, h3⟩ := hcore
    have := tail_core q b1 p [] _ rfl
      (Or.inr (Or.inr (Or.inr (Or.inr (Or.inl ⟨hp, ms, Z2, hms, rfl, h3⟩)))))
    rw [List.nil_append, ← e] at this
    exact this
  · exact absurd h (by decide)

theorem array_close (p : Nat) (b : List Nat) (s : Nat) (Z : List Nat)
    (hs : s = EXPECTING_ARRAY_ELEMENT_OR_END ∨ s = EXPECTING_ARRAY_TAIL) (h : rest_ok p b Z) :
    tail_ok (p :: b) s (93 :: Z) :=
  tail_core p b s [] (93 :: Z) rfl (Or.inl ⟨hs, Z, rfl, h⟩)

theorem object_close (p : Nat) (b : List Nat) (s : Nat) (Z : List Nat)
    (hs : s = EXPECTING_OBJECT_MEMBER_NAME_OR_END ∨ s = EXPECTING_OBJECT_TAIL)
    (h : rest_ok p b Z) : tail_ok (p :: b) s (125 :: Z) :=
  tail_core p b s [] (125 :: Z) rfl (Or.inr (Or.inr (Or.inr (Or.inl ⟨hs, Z, rfl, h⟩))))

theorem array_comma (b : List Nat) (Z : List Nat) (h : tail_ok b EXPECTING_ARRAY_ELEMENT Z) :
    tail_ok b EXPECTING_ARRAY_TAIL (44 :: Z) := by
  obtain ⟨p, b1, ws, Y, rfl, hws, rfl, hY⟩ :=
    tail_core_elim _ _ Z (by simp [container_state]) h
  obtain ⟨es, Z1, hes, rfl, h1⟩ := core_element _ Y hY
  exact tail_core p b1 _ [] _ rfl (Or.inr (Or.inr (Or.inl ⟨rfl, ws, es, Z1, hws, hes, rfl, h1⟩)))

theorem object_comma (b : List Nat) (Z : List Nat)
    (h : tail_ok b EXPECTING_OBJECT_MEMBER_NAME Z) : tail_ok b EXPECTING_OBJECT_TAIL (44 :: Z) := by
  obtain ⟨p, b1, ws, Y, rfl, hws, rfl, hY⟩ :=
    tail_core_elim _ _ Z (by simp [container_state]) h
  obtain ⟨ms, Z1, hms, rfl, h1⟩ := core_name _ Y hY
  exact tail_core p b1 _ [] _ rfl
    (Or.inr (Or.inr (Or.inr (Or.inr (Or.inr (Or.inl ⟨rfl, ws, ms, Z1, hws, hms, rfl, h1⟩))))))

theorem member_colon (b : List Nat) (Z : List Nat)
    (h : tail_ok b EXPECTING_OBJECT_MEMBER_VALUE Z) :
    tail_ok b EXPECTING_OBJECT_MEMBER_NAME_VALUE_SEPARATOR (58 :: Z) := by
  obtain ⟨p, b1, ws, Y, rfl, hws, rfl, hY⟩ :=
    tail_core_elim _ _ Z (by simp [container_state]) h
  obtain ⟨v, ws3, Y1, hv, hws3, rfl, hY1⟩ := core_member_value _ Y hY
  exact tail_core p b1 _ [] _ rfl
    (Or.inr (Or.inr (Or.inr (Or.inr (Or.inr (Or.inr (Or.inr
      ⟨rfl, ws, v, ws3, Y1, hws, hv, hws3, rfl, hY1⟩)))))))

/-! ### One byte of `byte_run` and the completions -/

theorem consume_push (b : List Nat) (s : Nat) (a : List Nat) (c s2 : Nat)
    (hs : (is_token_start (next_scan_state s c)
      || is_nested_level_start (next_scan_state s c)) = true)
    (hs2 : s2 = if is_final (next_scan_state s c) = true
      then next_parsing_state (next_scan_state s c) else next_scan_state s c)
    (hc : config_ok (s :: b) s2) (hp : ∀ Z, tail_ok (s :: b) s2 Z → tail_ok b s (c :: Z)) :
    step_ok b s c (byte_consume b s a c) := by
  by_cases hd : b.length + 1 = JSON_MAX_STACK
  · have e : byte_consume b s a c = .halt [(JSON_TOO_DEEP, [])] := by
      simp only [byte_consume, hs, hd, if_true]
    rw [e]
    obtain ⟨Z, hZ⟩ := config_live _ _ hc
    exact Or.inr ⟨⟨Z, hp Z hZ⟩, fun h => absurd (by simp) h⟩
  · by_cases hf : is_final (next_scan_state s c) = true
    · have e : byte_consume b s a c
          = .go [(next_scan_state s c, [])] (s :: b)
              (next_parsing_state (next_scan_state s c)) [] := by
        simp only [byte_consume, hs, hd, hf, if_true, if_false]
      rw [e]
      rw [if_pos hf] at hs2
      subst hs2
      exact ⟨hc, hp⟩
    · have hf1 : is_final (next_scan_state s c) = false := by simpa using hf
      have e : byte_consume b s a c
          = .go [] (s :: b) (next_scan_state s c)
              (if next_scan_state s c = NUMBER_BEGIN then [c] else []) := by
        simp only [byte_consume, hs, hd, hf1, if_true, if_false, Bool.false_eq_true]
      rw [e]
      rw [if_neg hf] at hs2
      subst hs2
      exact ⟨hc, hp⟩

theorem string_state_next (p : Nat) (hp : string_state p) (hne : p ≠ EXPECTING_JSON) :
    ¬ next_parsing_state p ≤ JSON_END := by
  rcases hp with (h | h | h | h) | h | h
  · exact absurd h hne
  all_goals rw [h]; decide

theorem consume_pop (p : Nat) (b : List Nat) (s : Nat) (a : List Nat) (c : Nat)
    (hs : (is_token_start (next_scan_state s c)
      || is_nested_level_start (next_scan_state s c)) = false)
    (hf : is_final (next_scan_state s c) = true) (hi : ¬ next_scan_state s c = JSON_INVALID)
    (hp : string_state p) (hb : chain_ok b p)
    (h : ∀ Z, rest_ok p b Z → tail_ok (p :: b) s (c :: Z)) :
    step_ok (p :: b) s c (byte_consume (p :: b) s a c) := by
  by_cases he : p = EXPECTING_JSON
  · subst he
    have hb0 := chain_ok_root b hb
    have hle : next_parsing_state EXPECTING_JSON ≤ JSON_END := by decide
    have e : byte_consume (EXPECTING_JSON :: b) s a c
        = .halt [reduce_event EXPECTING_JSON (next_scan_state s c) a,
            (next_parsing_state EXPECTING_JSON, [])] := by
      simp only [byte_consume, hs, hf, hi, Bool.false_eq_true, if_false, if_true, byte_reduce,
        reduce_event, hle]
    rw [e]
    exact Or.inr ⟨⟨[], h [] (Or.inl ⟨rfl, hb0⟩)⟩, fun _ Z => h Z (Or.inl ⟨rfl, hb0⟩)⟩
  · have hle := string_state_next p hp he
    have e : byte_consume (p :: b) s a c
        = .go [reduce_event p (next_scan_state s c) a] b (next_parsing_state p) [] := by
      simp only [byte_consume, hs, hf, hi, Bool.false_eq_true, if_false, if_true, byte_reduce,
        reduce_event, hle]
    rw [e]
    exact ⟨Or.inl (chain_next b p hb hp he), fun Z hZ => h Z (Or.inr hZ)⟩

theorem consume_quiet (b : List Nat) (s : Nat) (a : List Nat) (c : Nat)
    (hs : (is_token_start (next_scan_state s c)
      || is_nested_level_start (next_scan_state s c)) = false)
    (hf : is_final (next_scan_state s c) = false)
    (hc : config_ok b (next_scan_state s c))
    (hp : ∀ Z, tail_ok b (next_scan_state s c) Z → tail_ok b s (c :: Z)) :
    step_ok b s c (byte_consume b s a c) := by
  have e : byte_consume b s a c = .go [] b (next_scan_state s c)
      (if in_token (next_scan_state s c) = true then a ++ [c] else []) := by
    simp only [byte_consume, hs, hf, Bool.false_eq_true, if_false]
  rw [e]
  exact ⟨hc, hp⟩

theorem consume_invalid (b : List Nat) (s : Nat) (a : List Nat) (c : Nat)
    (hi : next_scan_state s c = JSON_INVALID) : step_ok b s c (byte_consume b s a c) := by
  have e : byte_consume b s a c = .halt [(JSON_INVALID, [])] := by
    simp only [byte_consume, hi]
    rfl
  rw [e]
  exact Or.inl (by simp)

theorem value_state_quiet (s : Nat) (h : s = EXPECTING_JSON ∨ container_state s) :
    (is_token_start s || is_nested_level_start s) = false ∧ is_final s = false := by
  rcases h with rfl | h | h | h | h | h | h | h | h
  · decide
  all_goals rw [h]; decide

theorem consume_space (b : List Nat) (s : Nat) (a : List Nat) (c : Nat) (hch : chain_ok b s)
    (hsp : is_space c = true) (e : next_scan_state s c = s) :
    step_ok b s c (byte_consume b s a c) := by
  have hq := value_state_quiet s (chain_ok_state b s hch)
  refine consume_quiet b s a c (by rw [e]; exact hq.1) (by rw [e]; exact hq.2)
    (by rw [e]; exact Or.inl hch) ?_
  rw [e]
  intro Z hZ
  exact space_tail b s c Z (chain_ok_state b s hch) hsp hZ

theorem consume_value (b : List Nat) (s : Nat) (a : List Nat) (c : Nat) (hch : chain_ok b s)
    (hv : value_state s) : step_ok b s c (byte_consume b s a c) := by
  rcases value_transitions s c hv with ⟨hsp, e⟩ | ⟨rfl, rfl, e⟩ | e
  · exact consume_space b s a c hch hsp e
  · obtain ⟨p, b1, rfl, hp, hb⟩ := chain_ok_cons b _ hch (by simp [container_state])
    exact consume_pop p b1 _ a 93 (by rw [e]; decide) (by rw [e]; decide) (by rw [e]; decide)
      (Or.inl hp) hb (fun Z h => array_close p b1 _ Z (Or.inl rfl) h)
  · rcases scan_value_cases c with ⟨rfl, e2⟩ | ⟨rfl, e2⟩ | ⟨rfl, e2⟩ | ⟨rfl, e2⟩ | ⟨rfl, e2⟩
      | ⟨rfl, e2⟩ | ⟨hc, e2⟩ | e2
    · rw [e2] at e
      exact consume_push b s a _ NULL_N (by rw [e]; decide) (by rw [e]; rfl)
        (Or.inr ⟨s, b, rfl, hch, Or.inl ⟨hv, Or.inl ⟨[117, 108, 108], by simp [spellings]⟩⟩⟩)
        (fun Z h => literal_start s b _ _ Z hv (Or.inl ⟨rfl, rfl⟩) h)
    · rw [e2] at e
      exact consume_push b s a _ TRUE_T (by rw [e]; decide) (by rw [e]; rfl)
        (Or.inr ⟨s, b, rfl, hch, Or.inl ⟨hv, Or.inl ⟨[114, 117, 101], by simp [spellings]⟩⟩⟩)
        (fun Z h => literal_start s b _ _ Z hv (Or.inr (Or.inl ⟨rfl, rfl⟩)) h)
    · rw [e2] at e
      exact consume_push b s a _ FALSE_F (by rw [e]; decide) (by rw [e]; rfl)
        (Or.inr ⟨s, b, rfl, hch,
          Or.inl ⟨hv, Or.inl ⟨[97, 108, 115, 101], by simp [spellings]⟩⟩⟩)
        (fun Z h => literal_start s b _ _ Z hv (Or.inr (Or.inr ⟨rfl, rfl⟩)) h)
    · rw [e2] at e
      exact consume_push b s a _ STRING_BEGIN (by rw [e]; decide) (by rw [e]; rfl)
        (Or.inr ⟨s, b, rfl, hch, Or.inr ⟨Or.inl hv, Or.inl rfl⟩⟩)
        (fun Z h => string_start s b Z hv h)
    · rw [e2] at e
      exact consume_push b s a _ EXPECTING_OBJECT_MEMBER_NAME_OR_END (by rw [e]; decide)
        (by rw [e]; rfl) (Or.inl ⟨by simp [container_state], hv, hch⟩)
        (fun Z h => object_start s b Z hv h)
    · rw [e2] at e
      exact consume_push b s a _ EXPECTING_ARRAY_ELEMENT_OR_END (by rw [e]; decide)
        (by rw [e]; rfl) (Or.inl ⟨by simp [container_state], hv, hch⟩)
        (fun Z h => array_start s b Z hv h)
    · rw [e2] at e
      exact consume_push b s a c NUMBER_BEGIN (by rw [e]; decide) (by rw [e]; rfl)
        (Or.inr ⟨s, b, rfl, hch, Or.inl ⟨hv, Or.inr (Or.inl rfl)⟩⟩)
        (fun Z h => number_begin s b c Z hv hc h)
    · rw [e2] at e
      exact consume_invalid b s a c e

theorem consume_other (b : List Nat) (s : Nat) (a : List Nat) (c : Nat) (hch : chain_ok b s)
    (hs : s = EXPECTING_ARRAY_TAIL ∨ s = EXPECTING_OBJECT_MEMBER_NAME_OR_END
      ∨ s = EXPECTING_OBJECT_MEMBER_NAME ∨ s = EXPECTING_OBJECT_MEMBER_NAME_VALUE_SEPARATOR
      ∨ s = EXPECTING_OBJECT_TAIL) : step_ok b s c (byte_consume b s a c) := by
  have hcs : container_state s := by
    rcases hs with h | h | h | h | h <;> simp [container_state, h]
  obtain ⟨p, b1, rfl, hp, hb⟩ := chain_ok_cons b s hch hcs
  rcases other_transitions s c hs with ⟨hsp, e⟩ | ⟨rfl, rfl, e⟩ | ⟨rfl, rfl, e⟩ | ⟨h1, rfl, e⟩
    | ⟨h1, rfl, e⟩ | ⟨rfl, rfl, e⟩ | ⟨rfl, rfl, e⟩ | e
  · exact consume_space _ s a c hch hsp e
  · exact consume_pop p b1 _ a 93 (by rw [e]; decide) (by rw [e]; decide) (by rw [e]; decide)
      (Or.inl hp) hb (fun Z h => array_close p b1 _ Z (Or.inr rfl) h)
  · exact consume_quiet _ _ a 44 (by rw [e]; decide) (by rw [e]; decide)
      (by rw [e]; exact Or.inl ⟨by simp [container_state], hp, hb⟩)
      (by rw [e]; exact fun Z h => array_comma _ Z h)
  · exact consume_pop p b1 _ a 125 (by rw [e]; decide) (by rw [e]; decide) (by rw [e]; decide)
      (Or.inl hp) hb (fun Z h => object_close p b1 _ Z h1 h)
  · exact consume_push _ s a 34 STRING_BEGIN (by rw [e]; decide) (by rw [e]; rfl)
      (Or.inr ⟨s, _, rfl, hch, Or.inr ⟨Or.inr h1, Or.inl rfl⟩⟩)
      (fun Z h => name_start s _ Z h1 h)
  · exact consume_quiet _ _ a 58 (by rw [e]; decide) (by rw [e]; decide)
      (by rw [e]; exact Or.inl ⟨by simp [container_state], hp, hb⟩)
      (by rw [e]; exact fun Z h => member_colon _ Z h)
  · exact consume_quiet _ _ a 44 (by rw [e]; decide) (by rw [e]; decide)
      (by rw [e]; exact Or.inl ⟨by simp [container_state], hp, hb⟩)
      (by rw [e]; exact fun Z h => object_comma _ Z h)
  · exact consume_invalid _ s a c e

theorem consume_token (p : Nat) (b : List Nat) (s : Nat) (a : List Nat) (c : Nat)
    (hb : chain_ok b p) (ht : token_state p s)
    (hn : ¬ (next_scan_state s c = JSON_INTEGER ∨ next_scan_state s c = JSON_DECIMAL
      ∨ next_scan_state s c = JSON_FLOATING_POINT)) :
    step_ok (p :: b) s c (byte_consume (p :: b) s a c) := by
  rcases ht with ⟨hp, hs⟩ | ⟨hp, hs⟩
  · rcases hs with ⟨R0, hR0⟩ | hs
    · have hr0 := spellings_range s R0 hR0
      rcases literal_transitions s c R0 hR0 with hi | ⟨h1, h2⟩ | ⟨⟨R, hR⟩, h2⟩
      · exact consume_invalid _ s a c hi
      · exact consume_pop p b s a c (by rcases h2 with e | e | e <;> rw [e] <;> decide)
          (by rcases h2 with e | e | e <;> rw [e] <;> decide)
          (by rcases h2 with e | e | e <;> rw [e] <;> decide) (Or.inl hp) hb
          (fun Z h => tail_lit p b s [c] Z h1 h)
      · have hr := spellings_range _ R hR
        have hstart : (is_token_start (next_scan_state s c)
            || is_nested_level_start (next_scan_state s c)) = false := by
          cases hx : (is_token_start (next_scan_state s c)
            || is_nested_level_start (next_scan_state s c)) with
          | false => rfl
          | true =>
            have := step_start_from s c hx
            simp at this hr0
            omega
        refine consume_quiet _ s a c hstart (by simp [is_final] at hr ⊢; omega)
          (Or.inr ⟨p, b, rfl, hb, Or.inl ⟨hp, Or.inl ⟨R, hR⟩⟩⟩) ?_
        intro Z hZ
        obtain ⟨R1, Z1, hR1, rfl, h3⟩ := tail_lit_elim p b _ Z hr hZ
        exact tail_lit p b s (c :: R1) Z1 (h2 R1 hR1) h3
    · rcases number_transitions s c hs with hi | ⟨h1, _⟩ | ⟨h1, h2⟩
      · exact consume_invalid _ s a c hi
      · exact absurd h1 hn
      · refine consume_quiet _ s a c (by rcases h1 with e | e | e | e <;> rw [e] <;> decide)
          (by rcases h1 with e | e | e | e <;> rw [e] <;> decide)
          (Or.inr ⟨p, b, rfl, hb, Or.inl ⟨hp, Or.inr (Or.inr h1)⟩⟩) ?_
        intro Z hZ
        obtain ⟨kind, R1, Z1, hR1, rfl, h3⟩ := tail_num_elim p b _ Z
          (by rcases h1 with e | e | e | e <;> rw [e] <;> decide) hZ
        exact tail_num p b s kind (c :: R1) Z1 (h2 kind R1 hR1) h3
  · rcases string_transitions s c hs with ⟨h1, h2⟩ | ⟨h1, h2⟩
    · exact consume_pop p b s a c (by rw [h1]; decide) (by rw [h1]; decide)
        (by rw [h1]; decide) hp hb (fun Z h => tail_str p b s [c] Z h2 h)
    · refine consume_quiet _ s a c (by rcases h1 with e | e <;> rw [e] <;> decide)
        (by rcases h1 with e | e <;> rw [e] <;> decide)
        (Or.inr ⟨p, b, rfl, hb, Or.inr ⟨hp, Or.inr h1⟩⟩) ?_
      intro Z hZ
      obtain ⟨R1, Z1, hR1, rfl, h3⟩ := tail_str_elim p b _ Z
        (by rcases h1 with e | e <;> rw [e] <;> decide) hZ
      exact tail_str p b s (c :: R1) Z1 (h2 R1 hR1) h3

theorem consume_sound (b : List Nat) (s : Nat) (a : List Nat) (c : Nat) (hok : config_ok b s)
    (hn : ¬ (next_scan_state s c = JSON_INTEGER ∨ next_scan_state s c = JSON_DECIMAL
      ∨ next_scan_state s c = JSON_FLOATING_POINT)) :
    step_ok b s c (byte_consume b s a c) := by
  rcases hok with hch | ⟨p, b1, rfl, hb, ht⟩
  · rcases chain_ok_state b s hch with h | h | h | h | h | h | h | h | h
    · exact consume_value b s a c hch (Or.inl h)
    · exact consume_value b s a c hch (Or.inr (Or.inl h))
    · exact consume_value b s a c hch (Or.inr (Or.inr (Or.inl h)))
    · exact consume_other b s a c hch (Or.inl h)
    · exact consume_other b s a c hch (Or.inr (Or.inl h))
    · exact consume_other b s a c hch (Or.inr (Or.inr (Or.inl h)))
    · exact consume_other b s a c hch (Or.inr (Or.inr (Or.inr (Or.inl h))))
    · exact consume_value b s a c hch (Or.inr (Or.inr (Or.inr h)))
    · exact consume_other b s a c hch (Or.inr (Or.inr (Or.inr (Or.inr h))))
  · exact consume_token p b1 s a c hb ht hn

/-- A number is completed inside a number. -/
theorem number_source (b : List Nat) (s c : Nat) (hok : config_ok b s)
    (hn : next_scan_state s c = JSON_INTEGER ∨ next_scan_state s c = JSON_DECIMAL
      ∨ next_scan_state s c = JSON_FLOATING_POINT) :
    ∃ p b1, b = p :: b1 ∧ chain_ok b1 p ∧ value_state p
      ∧ (s = NUMBER_BEGIN ∨ s = INT_DIGITS ∨ s = DEC_DIGITS ∨ s = EXP ∨ s = EXP_DIGITS) := by
  have hin := step_text_final s c (Or.inr hn)
  rcases hok with hch | ⟨p, b1, rfl, hb, ht⟩
  · exfalso
    rcases chain_ok_state b s hch with h | h | h | h | h | h | h | h | h <;>
      rw [h] at hin <;> exact absurd hin (by decide)
  · rcases ht with ⟨hp, hs⟩ | ⟨hp, hs⟩
    · rcases hs with ⟨R0, hR0⟩ | hs
      · exfalso
        have := spellings_range s R0 hR0
        simp [in_token] at hin this
        omega
      · exact ⟨p, b1, rfl, hb, hp, hs⟩
    · exfalso
      rcases string_transitions s c hs with ⟨h1, _⟩ | ⟨h1, _⟩
      · rw [h1] at hn
        simp at hn
      · rcases h1 with h1 | h1 <;> rw [h1] at hn <;> simp at hn

theorem step_sound (b : List Nat) (s : Nat) (a : List Nat) (c : Nat) (hok : config_ok b s) :
    step_ok b s c (byte_step b s a c) := by
  by_cases hn : next_scan_state s c = JSON_INTEGER ∨ next_scan_state s c = JSON_DECIMAL
      ∨ next_scan_state s c = JSON_FLOATING_POINT
  · obtain ⟨p, b1, rfl, hb, hp, hs⟩ := number_source b s c hok hn
    rcases number_transitions s c hs with hi | ⟨_, htail, hcont⟩ | ⟨h1, _⟩
    · rw [hi] at hn
      simp at hn
    · by_cases he : p = EXPECTING_JSON
      · subst he
        have hb0 := chain_ok_root b1 hb
        have hle : next_parsing_state EXPECTING_JSON ≤ JSON_END := by decide
        have e : byte_step (EXPECTING_JSON :: b1) s a c
            = .halt [reduce_event EXPECTING_JSON (next_scan_state s c) a,
                (next_parsing_state EXPECTING_JSON, [])] := by
          simp only [byte_step, if_pos hn, byte_reduce, reduce_event, hle, if_true]
        rw [e]
        have key : ∀ Z, tail_ok (EXPECTING_JSON :: b1) s (c :: Z) := by
          intro Z
          have := tail_num EXPECTING_JSON b1 s _ [] (c :: Z) htail (Or.inl ⟨rfl, hb0, by
            intro c1 rest e1
            cases e1
            exact hcont⟩)
          exact this
        exact Or.inr ⟨⟨[], key []⟩, fun _ Z => key Z⟩
      · have hle := string_state_next p (Or.inl hp) he
        have hcs := consume_sound b1 (next_parsing_state p) [] c
          (Or.inl (chain_next b1 p hb (Or.inl hp) he)) (step_after_reduce p c)
        have key : ∀ Z, tail_ok b1 (next_parsing_state p) (c :: Z)
            → tail_ok (p :: b1) s (c :: Z) := by
          intro Z hZ
          exact tail_num p b1 s _ [] (c :: Z) htail (Or.inr hZ)
        cases hr : byte_consume b1 (next_parsing_state p) [] c with
        | halt ev1 =>
          have e : byte_step (p :: b1) s a c
              = .halt ([reduce_event p (next_scan_state s c) a] ++ ev1) := by
            simp only [byte_step, if_pos hn, byte_reduce, reduce_event, hle, if_false, hr]
          rw [e]
          rw [hr] at hcs
          rcases hcs with h1 | ⟨⟨Z, hZ⟩, h2⟩
          · left
            simp only [List.singleton_append, List.map_cons, List.mem_cons]
            exact Or.inr h1
          · right
            refine ⟨⟨Z, key Z hZ⟩, ?_⟩
            intro h3 Z1
            refine key Z1 (h2 ?_ Z1)
            intro h4
            apply h3
            simp only [List.singleton_append, List.map_cons, List.mem_cons]
            exact Or.inr h4
        | go ev1 b2 s2 a2 =>
          have e : byte_step (p :: b1) s a c
              = .go ([reduce_event p (next_scan_state s c) a] ++ ev1) b2 s2 a2 := by
            simp only [byte_step, if_pos hn, byte_reduce, reduce_event, hle, if_false, hr]
          rw [e]
          rw [hr] at hcs
          exact ⟨hcs.1, fun Z hZ => key Z (hcs.2 Z hZ)⟩
    · rcases h1 with h1 | h1 | h1 | h1 <;> rw [h1] at hn <;> simp at hn
  · have e : byte_step b s a c = byte_consume b s a c := by
      simp only [byte_step, if_neg hn]
    rw [e]
    exact consume_sound b s a c hok hn

/-! ### The run and the dialect -/

/-- The configuration after a text whose run goes on: the completions of the
configuration complete the text to documents of the dialect. After a run that
has ended without `JSON_INVALID` and `JSON_TOO_DEEP` every text goes on to a
document. -/
theorem scan_sound (X : List Nat) : ∀ (b : List Nat) (s : Nat) (a X0 : List Nat),
    config_ok b s → (∀ Z, tail_ok b s Z → dialect_document false (X0 ++ Z)) →
    (∀ b1 s1 a1, (byte_scan b s a X).2 = some (b1, s1, a1) →
        config_ok b1 s1 ∧ ∀ Z, tail_ok b1 s1 Z → dialect_document false (X0 ++ (X ++ Z)))
      ∧ ((byte_scan b s a X).2 = none → (∀ e ∈ (byte_scan b s a X).1, JSON_TOO_DEEP < e.1) →
        ∀ Z, dialect_document false (X0 ++ (X ++ Z))) := by
  induction X with
  | nil =>
    intro b s a X0 hok h
    refine ⟨?_, ?_⟩
    · intro b1 s1 a1 e
      simp only [byte_scan, Option.some.injEq, Prod.mk.injEq] at e
      obtain ⟨rfl, rfl, rfl⟩ := e
      exact ⟨hok, fun Z hZ => h Z hZ⟩
    · intro e
      simp [byte_scan] at e
  | cons c X ih =>
    intro b s a X0 hok h
    have hst := step_sound b s a c hok
    cases hr : byte_step b s a c with
    | halt ev =>
      rw [hr] at hst
      have e1 : byte_scan b s a (c :: X) = (ev, none) := by simp only [byte_scan, hr]
      rw [e1]
      refine ⟨?_, ?_⟩
      · intro b1 s1 a1 e
        simp at e
      · intro _ hev Z
        rcases hst with h1 | ⟨_, h2⟩
        · exfalso
          simp only [List.mem_map] at h1
          obtain ⟨e, he, he2⟩ := h1
          have := hev e he
          rw [he2] at this
          simp at this
        · refine h _ (h2 ?_ (X ++ Z))
          intro h3
          simp only [List.mem_map] at h3
          obtain ⟨e, he, he2⟩ := h3
          have := hev e he
          rw [he2] at this
          simp at this
    | go ev b1 s1 a1 =>
      rw [hr] at hst
      have e1 : byte_scan b s a (c :: X)
          = (ev ++ (byte_scan b1 s1 a1 X).1, (byte_scan b1 s1 a1 X).2) := by
        simp only [byte_scan, hr]
      rw [e1]
      have hih := ih b1 s1 a1 (X0 ++ [c]) hst.1 (by
        intro Z hZ
        have := h _ (hst.2 Z hZ)
        simpa using this)
      refine ⟨?_, ?_⟩
      · intro b2 s2 a2 e
        obtain ⟨h1, h2⟩ := hih.1 b2 s2 a2 e
        refine ⟨h1, ?_⟩
        intro Z hZ
        have := h2 Z hZ
        simpa using this
      · intro e hev Z
        have := hih.2 e (fun x hx => hev x (List.mem_append_right _ hx)) Z
        simpa using this

theorem config_ok_start : config_ok [] EXPECTING_JSON := Or.inl rfl

theorem tail_ok_start (Z : List Nat) (h : tail_ok [] EXPECTING_JSON Z) :
    dialect_document false ([] ++ Z) := h.2

/-- The byte that begins no document of the dialect is rejected: if the text
before `c` begins a document of the dialect that fits and the text with `c`
begins none, the run on the text with `c` gives `JSON_INVALID`. -/
theorem offending_byte_rejected (X : List Nat) (c : Nat)
    (hgood : ∀ e ∈ byte_run [] EXPECTING_JSON [] X, JSON_TOO_DEEP < e.1)
    (hbad : ¬ begins_dialect false (X ++ [c])) :
    JSON_INVALID ∈ (byte_run [] EXPECTING_JSON [] (X ++ [c])).map Prod.fst := by
  have hs := scan_sound X [] EXPECTING_JSON [] [] config_ok_start tail_ok_start
  rw [byte_run_scan] at hgood
  rw [byte_run_append]
  cases hc : (byte_scan [] EXPECTING_JSON [] X).2 with
  | none =>
    exfalso
    apply hbad
    have := hs.2 hc hgood [c]
    exact ⟨[], by simpa using this⟩
  | some cfg =>
    obtain ⟨b, s, a⟩ := cfg
    obtain ⟨hok, htail⟩ := hs.1 b s a hc
    have hst := step_sound b s a c hok
    simp only [List.map_append, List.mem_append]
    right
    cases hr : byte_step b s a c with
    | halt ev =>
      rw [hr] at hst
      simp only [byte_run, hr]
      rcases hst with h1 | ⟨⟨Z, hZ⟩, _⟩
      · exact h1
      · exfalso
        apply hbad
        have := htail _ hZ
        exact ⟨Z, by simpa using this⟩
    | go ev b1 s1 a1 =>
      exfalso
      rw [hr] at hst
      obtain ⟨Z, hZ⟩ := config_live b1 s1 hst.1
      apply hbad
      have := htail _ (hst.2 Z hZ)
      exact ⟨Z, by simpa using this⟩

/-! ### No document of the dialect is rejected -/

theorem value_first (v : json_value) (hv : v.lax = true) (st : Nat) (hst : value_state st) :
    ∃ c rest, v.render = c :: rest
      ∧ (is_token_start (next_scan_state st c)
        || is_nested_level_start (next_scan_state st c)) = true := by
  cases v with
  | lit_null =>
    exact ⟨110, _, rfl, by rcases hst with rfl | rfl | rfl | rfl <;> decide⟩
  | lit_true =>
    exact ⟨116, _, rfl, by rcases hst with rfl | rfl | rfl | rfl <;> decide⟩
  | lit_false =>
    exact ⟨102, _, rfl, by rcases hst with rfl | rfl | rfl | rfl <;> decide⟩
  | number n =>
    obtain ⟨c, ds, hc, _, hb⟩ := number_split_lax n hv
    refine ⟨c, _, hb, ?_⟩
    rw [number_start st c hst hc]
    decide
  | string body =>
    exact ⟨34, _, rfl, by rcases hst with rfl | rfl | rfl | rfl <;> decide⟩
  | empty_array ws =>
    exact ⟨91, _, rfl, by rcases hst with rfl | rfl | rfl | rfl <;> decide⟩
  | array ws es =>
    exact ⟨91, _, rfl, by rcases hst with rfl | rfl | rfl | rfl <;> decide⟩
  | empty_object ws =>
    exact ⟨123, _, rfl, by rcases hst with rfl | rfl | rfl | rfl <;> decide⟩
  | object ws ms =>
    exact ⟨123, _, rfl, by rcases hst with rfl | rfl | rfl | rfl <;> decide⟩

theorem clean_cons (e : Event) (events : List Event) (he : e.1 ≠ JSON_INVALID)
    (h : clean events) : clean (e :: events) := by
  unfold clean at h ⊢
  simp only [List.map_cons, List.mem_cons, not_or]
  exact ⟨fun x => he x.symm, h⟩

theorem clean_deep : clean [(JSON_TOO_DEEP, [])] := by
  simp [clean]

theorem deep_value_clean (v : json_value) (hv : v.lax = true) (below : List Nat) (st : Nat)
    (hst : value_state st) (hd : below.length + 1 = JSON_MAX_STACK) (input : List Nat) :
    clean (byte_run below st [] (v.render ++ input)) := by
  obtain ⟨c, rest, e, hs⟩ := value_first v hv st hst
  rw [e, List.cons_append, byte_run_too_deep below st [] c _ hs hd]
  exact clean_deep

theorem scalar_clean (v : json_value) (below : List Nat) (st : Nat) (input : List Nat)
    (hst : value_state st) (hv : v.lax = true) (hf : v.fits below.length = true)
    (hn : number_ends v input) (h : clean (after_token below st input)) :
    clean (byte_run below st [] (v.render ++ input)) := by
  rw [value_run_lax v below st input hst hv hf hn]
  unfold clean at h ⊢
  simp only [List.map_append, List.mem_append, not_or]
  refine ⟨?_, h⟩
  intro hx
  simp only [List.mem_map] at hx
  obtain ⟨e, he, he2⟩ := hx
  have := value_tokens_kinds v e he
  rw [he2] at this
  simp at this

mutual

/-- The run on a value of the dialect, however deep, gives no `JSON_INVALID`
if the run behind it gives none. -/
theorem value_clean : ∀ (v : json_value) (below : List Nat) (st : Nat) (input : List Nat),
    value_state st → v.lax = true → below.length ≤ 13 → number_ends v input →
    clean (after_token below st input) →
    clean (byte_run below st [] (v.render ++ input))
  | .lit_null, below, st, input, hst, hv, hl, hn, h => by
    by_cases hd : below.length ≤ 12
    · exact scalar_clean _ below st input hst hv (by simpa [json_value.fits] using hd) hn h
    · exact deep_value_clean _ hv below st hst (by simp; omega) input
  | .lit_true, below, st, input, hst, hv, hl, hn, h => by
    by_cases hd : below.length ≤ 12
    · exact scalar_clean _ below st input hst hv (by simpa [json_value.fits] using hd) hn h
    · exact deep_value_clean _ hv below st hst (by simp; omega) input
  | .lit_false, below, st, input, hst, hv, hl, hn, h => by
    by_cases hd : below.length ≤ 12
    · exact scalar_clean _ below st input hst hv (by simpa [json_value.fits] using hd) hn h
    · exact deep_value_clean _ hv below st hst (by simp; omega) input
  | .number n, below, st, input, hst, hv, hl, hn, h => by
    by_cases hd : below.length ≤ 12
    · exact scalar_clean _ below st input hst hv (by simpa [json_value.fits] using hd) hn h
    · exact deep_value_clean _ hv below st hst (by simp; omega) input
  | .string body, below, st, input, hst, hv, hl, hn, h => by
    by_cases hd : below.length ≤ 12
    · exact scalar_clean _ below st input hst hv (by simpa [json_value.fits] using hd) hn h
    · exact deep_value_clean _ hv below st hst (by simp; omega) input
  | .empty_array ws, below, st, input, hst, hv, hl, hn, h => by
    by_cases hd : below.length ≤ 12
    · exact scalar_clean _ below st input hst hv (by simpa [json_value.fits] using hd) hn h
    · exact deep_value_clean _ hv below st hst (by simp; omega) input
  | .empty_object ws, below, st, input, hst, hv, hl, hn, h => by
    by_cases hd : below.length ≤ 12
    · exact scalar_clean _ below st input hst hv (by simpa [json_value.fits] using hd) hn h
    · exact deep_value_clean _ hv below st hst (by simp; omega) input
  | .array ws es, below, st, input, hst, hv, hl, hn, h => by
    by_cases hd : below.length ≤ 12
    · have hw := hv
      simp only [json_value.lax, Bool.and_eq_true] at hw
      simp only [json_value.render, List.cons_append, List.append_assoc]
      rw [byte_open_array below st _ hst hd, byte_space_run ws hw.1 _ _ (by simp)]
      refine clean_cons _ _ (by decide) ?_
      refine elements_clean es (st :: below) _ input (Or.inl rfl) hw.2 (by simp; omega) ?_
      rw [byte_close_array st below _ input (Or.inl rfl)]
      exact clean_cons _ _ (by decide) h
    · exact deep_value_clean _ hv below st hst (by simp; omega) input
  | .object ws ms, below, st, input, hst, hv, hl, hn, h => by
    by_cases hd : below.length ≤ 12
    · have hw := hv
      simp only [json_value.lax, Bool.and_eq_true] at hw
      simp only [json_value.render, List.cons_append, List.append_assoc]
      rw [byte_open_object below st _ hst hd, byte_space_run ws hw.1 _ _ (by simp)]
      refine clean_cons _ _ (by decide) ?_
      refine members_clean ms (st :: below) _ input (Or.inl rfl) hw.2 (by simp; omega) ?_
      rw [byte_close_object st below _ input (Or.inl rfl)]
      exact clean_cons _ _ (by decide) h
    · exact deep_value_clean _ hv below st hst (by simp; omega) input

/-- The elements of an array, up to the closing bracket. -/
theorem elements_clean : ∀ (es : json_elements) (below : List Nat) (st : Nat)
    (input : List Nat),
    (st = EXPECTING_ARRAY_ELEMENT_OR_END ∨ st = EXPECTING_ARRAY_ELEMENT) →
    es.lax = true → below.length ≤ 13 →
    clean (byte_run below EXPECTING_ARRAY_TAIL [] (93 :: input)) →
    clean (byte_run below st [] (es.render ++ 93 :: input))
  | .last v ws, below, st, input, hst, hw, hl, h => by
    simp only [json_elements.lax, Bool.and_eq_true] at hw
    simp only [json_elements.render, List.append_assoc]
    refine value_clean v below st _ (by rcases hst with h | h <;> simp [value_state, h]) hw.1 hl
      (number_ends_space v ws hw.2 93 input (by decide)) ?_
    rw [after_element below st _ hst, byte_space_run ws hw.2 _ _ (by simp)]
    exact h
  | .more v ws1 ws2 rest, below, st, input, hst, hw, hl, h => by
    simp only [json_elements.lax, Bool.and_eq_true] at hw
    simp only [json_elements.render, List.append_assoc, List.cons_append]
    refine value_clean v below st _ (by rcases hst with h | h <;> simp [value_state, h])
      hw.1.1.1 hl (number_ends_space v ws1 hw.1.1.2 44 _ (by decide)) ?_
    rw [after_element below st _ hst, byte_space_run ws1 hw.1.1.2 _ _ (by simp),
      byte_comma_array, byte_space_run ws2 hw.1.2 _ _ (by simp)]
    exact elements_clean rest below _ input (Or.inr rfl) hw.2 hl h

/-- The members of an object, up to the closing brace. -/
theorem members_clean : ∀ (ms : json_members) (below : List Nat) (st : Nat)
    (input : List Nat),
    (st = EXPECTING_OBJECT_MEMBER_NAME_OR_END ∨ st = EXPECTING_OBJECT_MEMBER_NAME) →
    ms.lax = true → below.length ≤ 13 →
    clean (byte_run below EXPECTING_OBJECT_TAIL [] (125 :: input)) →
    clean (byte_run below st [] (ms.render ++ 125 :: input))
  | .last name ws1 ws2 v ws3, below, st, input, hst, hw, hl, h => by
    simp only [json_members.lax, Bool.and_eq_true] at hw
    obtain ⟨⟨⟨⟨hname, hws1⟩, hws2⟩, hv⟩, hws3⟩ := hw
    simp only [json_members.render, List.append_assoc, List.cons_append]
    by_cases hd : below.length ≤ 12
    · rw [byte_string name below st _ (Or.inr hst) hd hname,
        if_pos (by rcases hst with h | h <;> rw [h] <;> decide),
        after_member_name below st _ hst, byte_space_run ws1 hws1 _ _ (by simp), byte_colon,
        byte_space_run ws2 hws2 _ _ (by simp)]
      refine clean_cons _ _ (by simp) ?_
      refine value_clean v below _ _ (Or.inr (Or.inr (Or.inr rfl))) hv hl
        (number_ends_space v ws3 hws3 125 input (by decide)) ?_
      rw [after_member_value, byte_space_run ws3 hws3 _ _ (by simp)]
      exact h
    · rw [byte_run_too_deep below st [] 34 _ (by rcases hst with h | h <;> rw [h] <;> decide)
        (by simp; omega)]
      exact clean_deep
  | .more name ws1 ws2 v ws3 ws4 rest, below, st, input, hst, hw, hl, h => by
    simp only [json_members.lax, Bool.and_eq_true] at hw
    obtain ⟨⟨⟨⟨⟨⟨hname, hws1⟩, hws2⟩, hv⟩, hws3⟩, hws4⟩, hrest⟩ := hw
    simp only [json_members.render, List.append_assoc, List.cons_append]
    by_cases hd : below.length ≤ 12
    · rw [byte_string name below st _ (Or.inr hst) hd hname,
        if_pos (by rcases hst with h | h <;> rw [h] <;> decide),
        after_member_name below st _ hst, byte_space_run ws1 hws1 _ _ (by simp), byte_colon,
        byte_space_run ws2 hws2 _ _ (by simp)]
      refine clean_cons _ _ (by simp) ?_
      refine value_clean v below _ _ (Or.inr (Or.inr (Or.inr rfl))) hv hl
        (number_ends_space v ws3 hws3 44 _ (by decide)) ?_
      rw [after_member_value, byte_space_run ws3 hws3 _ _ (by simp), byte_comma_object,
        byte_space_run ws4 hws4 _ _ (by simp)]
      exact members_clean rest below _ input (Or.inr rfl) hrest hl h
    · rw [byte_run_too_deep below st [] 34 _ (by rcases hst with h | h <;> rw [h] <;> decide)
        (by simp; omega)]
      exact clean_deep

end

/-- The run on a document of the dialect, however deep, gives no
`JSON_INVALID`. -/
theorem document_clean (D : List Nat) (h : dialect_document false D) :
    clean (byte_run [] EXPECTING_JSON [] D) := by
  obtain ⟨ws, v, T, hws, hv, _, hr, rfl⟩ := h
  rw [byte_space_run ws hws _ _ (by simp)]
  by_cases hopen : (∃ n, v = .number n) ∧ T = []
  · obtain ⟨⟨n, rfl⟩, rfl⟩ := hopen
    simp only [json_value.lax] at hv
    rw [List.append_nil]
    simp only [json_value.render]
    rw [byte_number_open n [] EXPECTING_JSON (Or.inl rfl) (by simp) hv]
    simp [clean]
  · have hn : number_ends v T := by
      intro n e
      cases T with
      | nil => exact absurd ⟨⟨n, e⟩, rfl⟩ hopen
      | cons d rest => exact ⟨d, rest, rfl, hr n d rest e rfl⟩
    refine value_clean v [] EXPECTING_JSON T (Or.inl rfl) hv (by simp) hn ?_
    rw [after_root]
    simp [clean]

/-- A text whose run gives `JSON_INVALID` begins no document of the dialect. -/
theorem rejected_begins_none (X : List Nat)
    (h : JSON_INVALID ∈ (byte_run [] EXPECTING_JSON [] X).map Prod.fst) :
    ¬ begins_dialect false X := by
  intro hp
  obtain ⟨Z, hZ⟩ := hp
  have h1 := document_clean _ hZ
  rw [byte_run_append] at h1
  rw [byte_run_scan] at h
  apply h1
  simp only [List.map_append, List.mem_append]
  exact Or.inl h

/-! ### The first offending byte -/

/-- C7 (as amended): the parser reads the dialect of `dialect_document`:
whitespace, one value, then any text, the values those of JSON with numbers and
strings as the scanner takes them (`json_value.lax`). `c` is the first offending
byte of the text: the text before `c` begins a document of the dialect that
nests within the stack, the text up to and including `c` begins no document of
the dialect, however deep. Then for every text that goes on after `c`, cut into
fragments in any way, the parser returns `JSON_INVALID`; for the text before `c`
alone it does not; and the complete tokens before `JSON_INVALID` are those of
the text before `c` and, if `c` ends a number, that number: no token is
returned for `c` or the text behind it. -/
theorem invalid_at_offending_byte (parser parser1 : jspp_t) (pre : List Nat) (c : Nat)
    (post : List Nat) (cut cut1 : List (List Nat))
    (hcut : cut.flatten = pre ++ c :: post) (hlen : ∀ f ∈ cut, f.length ≤ 65535)
    (hcut1 : cut1.flatten = pre) (hlen1 : ∀ f ∈ cut1, f.length ≤ 65535)
    (hgood : begins_dialect true pre) (hbad : ¬ begins_dialect false (pre ++ [c])) :
    JSON_INVALID ∈ (parse parser cut).map Prod.fst
      ∧ JSON_INVALID ∉ (parse parser1 cut1).map Prod.fst
      ∧ ∃ extra, number_or_nothing extra
        ∧ stitch [] (parse parser cut)
          = stitch [] (parse parser1 cut1) ++ extra ++ [(JSON_INVALID, [])] := by
  have e := parse_eq_byte_run parser cut hlen
  have e1 := parse_eq_byte_run parser1 cut1 hlen1
  rw [hcut] at e
  rw [hcut1] at e1
  have hg := prefix_run_lax pre hgood
  have hb := offending_byte_rejected pre c hg hbad
  have hg1 : JSON_INVALID ∉ (byte_run [] EXPECTING_JSON [] pre).map Prod.fst := by
    intro h
    simp only [List.mem_map] at h
    obtain ⟨x, hx, hx2⟩ := h
    have := hg x hx
    rw [hx2] at this
    simp at this
  obtain ⟨extra, h1, h2⟩ := byte_run_rejects pre c post hb hg1
  refine ⟨?_, ?_, extra, h1, ?_⟩
  · rw [← invalid_mem_stitch, e, h2]
    simp
  · rw [← invalid_mem_stitch, e1]
    exact hg1
  · rw [e, e1, h2]

theorem invalid_at_offending_byte_witness :
    JSON_INVALID ∈ (parse jspp_zero [[91], [49, 120, 93]]).map Prod.fst
      ∧ JSON_INVALID ∉ (parse jspp_zero [[91, 49]]).map Prod.fst
      ∧ ∃ extra, number_or_nothing extra
        ∧ stitch [] (parse jspp_zero [[91], [49, 120, 93]])
          = stitch [] (parse jspp_zero [[91, 49]]) ++ extra ++ [(JSON_INVALID, [])] :=
  invalid_at_offending_byte jspp_zero jspp_zero [91, 49] 120 [93]
    [[91], [49, 120, 93]] [[91, 49]] (by decide) (by decide) (by decide) (by decide)
    ⟨[93], [], .array [] (.last (.number ⟨false, [49], none, none⟩) []), [], rfl, rfl,
      fun _ => rfl, fun _ _ _ e => absurd e (by simp), rfl⟩
    (rejected_begins_none _ (by decide))

/-- C7 (counterexample): texts that are not JSON and that the parser does not
reject. `[]x` is no JSON text, whatever the whitespace and the value, and the
run on it ends with `JSON_END`: the text behind the root value is never looked
at. The numbers `01`, `1.`, `-`, `-.` and `1e+` are returned as `JSON_INTEGER`,
`JSON_DECIMAL` and `JSON_FLOATING_POINT`, the strings with the escape `\q` and
with a raw line feed as `JSON_STRING`. After fourteen `[` the byte `x` gives
`JSON_TOO_DEEP`, not `JSON_INVALID`. -/
theorem ill_formed_not_rejected :
    (∀ ws1 v ws2, all_space ws1 = true → all_space ws2 = true → v.well_formed = true →
        document ws1 v ws2 ≠ [91, 93, 120])
      ∧ stitch [] (parse jspp_zero [[91, 93, 120]])
        = [(JSON_ARRAY_BEGIN, []), (JSON_ARRAY_END, []), (JSON_END, [])]
      ∧ stitch [] (parse jspp_zero [[91, 48, 49, 93]])
        = [(JSON_ARRAY_BEGIN, []), (JSON_INTEGER, [48, 49]), (JSON_ARRAY_END, []),
            (JSON_END, [])]
      ∧ stitch [] (parse jspp_zero [[91, 49, 46, 93]])
        = [(JSON_ARRAY_BEGIN, []), (JSON_DECIMAL, [49, 46]), (JSON_ARRAY_END, []),
            (JSON_END, [])]
      ∧ stitch [] (parse jspp_zero [[91, 45, 93]])
        = [(JSON_ARRAY_BEGIN, []), (JSON_INTEGER, [45]), (JSON_ARRAY_END, []), (JSON_END, [])]
      ∧ stitch [] (parse jspp_zero [[91, 45, 46, 93]])
        = [(JSON_ARRAY_BEGIN, []), (JSON_DECIMAL, [45, 46]), (JSON_ARRAY_END, []),
            (JSON_END, [])]
      ∧ stitch [] (parse jspp_zero [[91, 49, 101, 43, 93]])
        = [(JSON_ARRAY_BEGIN, []), (JSON_FLOATING_POINT, [49, 101, 43]), (JSON_ARRAY_END, []),
            (JSON_END, [])]
      ∧ stitch [] (parse jspp_zero [[91, 34, 92, 113, 34, 93]])
        = [(JSON_ARRAY_BEGIN, []), (JSON_STRING, [92, 113]), (JSON_ARRAY_END, []),
            (JSON_END, [])]
      ∧ stitch [] (parse jspp_zero [[91, 34, 10, 34, 93]])
        = [(JSON_ARRAY_BEGIN, []), (JSON_STRING, [10]), (JSON_ARRAY_END, []), (JSON_END, [])]
      ∧ (parse jspp_zero [[91, 91, 91, 91, 91, 91, 91, 91, 91, 91, 91, 91, 91, 91, 120]]).map
          Prod.fst
        = [JSON_ARRAY_BEGIN, JSON_ARRAY_BEGIN, JSON_ARRAY_BEGIN, JSON_ARRAY_BEGIN,
            JSON_ARRAY_BEGIN, JSON_ARRAY_BEGIN, JSON_ARRAY_BEGIN, JSON_ARRAY_BEGIN,
            JSON_ARRAY_BEGIN, JSON_ARRAY_BEGIN, JSON_ARRAY_BEGIN, JSON_ARRAY_BEGIN,
            JSON_ARRAY_BEGIN, JSON_TOO_DEEP] := by
  refine ⟨?_, by decide, by decide, by decide, by decide, by decide, by decide, by decide,
    by decide, by decide⟩
  intro ws1 v ws2 _ hws2 hw heq
  obtain ⟨init, c, h1, h2⟩ := document_last ws1 v ws2 hws2 hw
  rw [heq] at h1
  have h3 : c = 120 := by
    have h4 := congrArg List.getLast? h1
    simp at h4
    exact h4.symm
  subst h3
  rcases h2 with h2 | h2 <;> exact absurd h2 (by decide)

/-! ### Numbers as the scanner takes them -/

/-- The loop of `jspp_next` over a number of the dialect and the byte behind
it. -/
theorem scan_number_lax (p : jspp_t) (n : number_lexeme) (st txt d : Nat) (rest : List Nat)
    (hn : n.lax = true) (hd : continues_number n.kind d = false)
    (hst : value_state st) (hl : p.level ≤ 12) :
    scan_loop p st txt (n.bytes ++ d :: rest)
      = .stopped (inc_level (set_token_start p NUMBER_BEGIN txt)) n.kind
          (txt + n.bytes.length) := by
  obtain ⟨c, ds, hc, hds, hb⟩ := number_split_lax n hn
  obtain ⟨hq, hs⟩ := number_run_lax n hn ds hds
  have h0 := number_start st c hst hc
  have he := number_state_end _ _ d hs hd
  have hk := number_kind_cases n
  rw [hb, List.cons_append, scan_start_step p st txt c _ (by rw [h0]; decide) hl, h0,
    scan_quiet_run _ _ _ _ _ hq,
    scan_final_step _ _ _ d rest (by rw [he]; rcases hk with h | h | h <;> rw [h] <;> decide)
      (by rw [he]; rcases hk with h | h | h <;> rw [h] <;> decide), he]
  simp only [List.length_cons]
  congr 1
  omega

/-- C9 (as amended): a number lexeme as the scanner takes it
(`number_lexeme.lax`) at a value position at most 12 containers deep, followed
in the fragment by a byte that does not go on with it: `jspp_next` returns the
kind of the lexeme (`JSON_INTEGER` for an optional `-` and digits,
`JSON_DECIMAL` with a fraction and no exponent, `JSON_FLOATING_POINT` with an
exponent), `jspp_text` is the lexeme, and the next call begins at the byte
behind it. Here `sep` are the bytes the call scans before the number
(whitespace, `,`, `:`), which leave the scanner in a state that expects a
value. -/
theorem number_classified (p : jspp_t) (pre sep : List Nat) (n : number_lexeme) (d : Nat)
    (rest : List Nat) (hn : n.lax = true) (hd : continues_number n.kind d = false)
    (htext : p.text = pre ++ (sep ++ (n.bytes ++ d :: rest))) (hlen : p.text.length ≤ 65535)
    (hl : p.level ≤ 12) (hpos : scan_pos p = pre.length)
    (hsep : between (get_state p) sep = true)
    (hst : value_state (scan_states (get_state p) sep)) :
    (jspp_next p).1 = n.kind ∧ jspp_text (jspp_next p).2 = n.bytes
      ∧ (jspp_next p).2.text.drop (scan_pos (jspp_next p).2) = d :: rest := by
  obtain ⟨p1, e1, e2, e3, e4⟩ := jspp_next_between p pre sep (n.bytes ++ d :: rest) htext hpos
    (by simp; omega) hsep (string_state_reducing _ (Or.inl hst)) (by simp)
  have hl1 : p1.level ≤ 12 := by rw [e1]; exact hl
  have hlen' : pre.length + sep.length + n.bytes.length + rest.length + 1 ≤ 65535 := by
    rw [htext] at hlen
    simp only [List.length_append, List.length_cons] at hlen
    omega
  have hk := number_kind_cases n
  have hfin : is_final n.kind = true := by rcases hk with h | h | h <;> rw [h] <;> decide
  have hnext : jspp_next p
      = complete_token (inc_level (set_token_start p1 NUMBER_BEGIN (pre.length + sep.length)))
          n.kind (pre.length + sep.length + n.bytes.length) := by
    rw [e4, scan_number_lax p1 n _ _ d rest hn hd hst hl1]
    simp only []
    rw [if_pos hfin]
  have hts : (inc_level (set_token_start p1 NUMBER_BEGIN (pre.length + sep.length))).token_start
      = pre.length + sep.length := by
    simp only [inc_level_token_start, set_token_start]
    rw [if_neg (by decide)]
    omega
  have hne : ¬ (n.kind = JSON_ARRAY_END ∨ n.kind = JSON_OBJECT_END) := by
    rcases hk with h | h | h <;> rw [h] <;> decide
  have hea : ends_after n.kind = false := by
    rcases hk with h | h | h <;> rw [h] <;> decide
  have hns : ¬ n.kind = JSON_STRING := by
    rcases hk with h | h | h <;> rw [h] <;> decide
  have h1 : (jspp_next p).2.token_start = pre.length + sep.length := by
    rw [hnext, complete_token_token_start, if_neg hne, hts]
  have h2 : (jspp_next p).2.token_length = n.bytes.length := by
    rw [hnext, complete_token_token_length _ _ _ (by rw [hts]; omega) (by omega), if_neg hne,
      hea, hts]
    simp
  have h3 : (jspp_next p).2.text = p.text := by
    rw [hnext, complete_token_text]
    simp only [inc_level_text, set_token_start_text]
    exact e2
  have h4 : (jspp_next p).2.token = n.kind := by
    rw [hnext, complete_token_token]
  have h5 : p.text = (pre ++ sep) ++ (n.bytes ++ d :: rest) := by
    rw [htext]; simp
  have h6 : p.text = (pre ++ sep ++ n.bytes) ++ d :: rest := by
    rw [htext]; simp
  refine ⟨?_, ?_, ?_⟩
  · rw [hnext]
    rcases complete_token_fst (inc_level (set_token_start p1 NUMBER_BEGIN
      (pre.length + sep.length))) n.kind (pre.length + sep.length + n.bytes.length)
      with h | ⟨_, h⟩
    · exact h
    · exact absurd h hns
  · unfold jspp_text
    rw [h1, h2, h3, h5]
    have : pre.length + sep.length = (pre ++ sep).length := by simp
    rw [this, List.drop_left, List.take_left]
  · unfold scan_pos
    rw [h1, h2, h3, h4, if_neg hns, h6, Nat.add_zero]
    have : pre.length + sep.length + n.bytes.length = (pre ++ sep ++ n.bytes).length := by
      simp; omega
    rw [this, List.drop_left]

theorem number_classified_witness :
    (jspp_next (jspp_next (jspp_start jspp_zero [91, 49, 44, 32, 45, 49, 46, 53, 93]).2).2).1
        = JSON_DECIMAL
      ∧ jspp_text (jspp_next (jspp_next
          (jspp_start jspp_zero [91, 49, 44, 32, 45, 49, 46, 53, 93]).2).2).2
        = [45, 49, 46, 53]
      ∧ (jspp_next (jspp_next
          (jspp_start jspp_zero [91, 49, 44, 32, 45, 49, 46, 53, 93]).2).2).2.text.drop
          (scan_pos (jspp_next (jspp_next
            (jspp_start jspp_zero [91, 49, 44, 32, 45, 49, 46, 53, 93]).2).2).2) = [93] :=
  number_classified (jspp_next (jspp_start jspp_zero [91, 49, 44, 32, 45, 49, 46, 53, 93]).2).2
    [91, 49] [44, 32] ⟨true, [49], some [53], none⟩ 93 [] (by decide) (by decide) (by decide)
    (by decide) (by decide) (by decide) (by decide) (Or.inr (Or.inr (Or.inl (by decide))))

end Jspp
